import Mathlib

/-!
# xv6 memory management with copy-on-write: allocator and page tables

A shallow embedding of `kalloc.c` and `vm.c`.

* Kernel memory is a map from kernel virtual addresses to 32-bit words.  Every
  access made by the embedded code is either a word access through an aligned
  pointer or a whole-page `memset`/`memmove`, so a word-granular memory keyed by
  the byte address of the word is enough.  A page filled with the byte `b` holds
  the word `b * 0x01010101` in each of its 1024 cells.
* `uint` arithmetic is arithmetic on `Nat` reduced modulo `2^32`; `int` values
  (reference counts, the free-page counter, return codes) are `Int`.  `incref`,
  the function that raises a count, ends in an error outcome where
  `refcount[idx]++` would leave the range of `int`.
* Locks are not modelled: every function is embedded as the sequential code
  that runs between `acquire` and `release`.
* `panic` is the `Except.error` outcome, carrying the panic message.
* The headers `mmu.h` and `memlayout.h` and the linker symbols `end` and `data`
  are not part of the sources.  The x86 paging constants are fixed below; the
  remaining values (`PHYSTOP`, `end`, the software bit `PTE_S`, the `kmap`
  table) are fields of `Layout`.
-/

namespace Xv6

/-! ## Constants and address arithmetic -/

/-- Modelled from the spec: `mmu.h` is absent; a frame is 4096 bytes. -/
def PGSIZE : Nat := 4096

/-- Modelled from the spec: `memlayout.h` is absent; first kernel virtual address. -/
def KERNBASE : Nat := 0x80000000

/-- Modelled from the spec: `mmu.h` is absent; a directory or table has 1024 entries. -/
def NPDENTRIES : Nat := 1024

/-- Modelled from the spec: `mmu.h` is absent; x86 present bit. -/
def PTE_P : Nat := 1

/-- Modelled from the spec: `mmu.h` is absent; x86 writable bit. -/
def PTE_W : Nat := 2

/-- Modelled from the spec: `mmu.h` is absent; x86 user bit. -/
def PTE_U : Nat := 4

/-- Reduction of a value to the range of `uint`. -/
def u32 (x : Nat) : Nat := x % 4294967296

/-- Bitwise complement on `uint`. -/
def unot (x : Nat) : Nat := 4294967295 - u32 x

/-- Modelled from the spec: `memlayout.h` is absent; `V2P(a) = (uint)a - KERNBASE`. -/
def V2P (a : Nat) : Nat := u32 (u32 a + 4294967296 - KERNBASE)

/-- Modelled from the spec: `memlayout.h` is absent; `P2V(a) = a + KERNBASE`. -/
def P2V (a : Nat) : Nat := u32 (u32 a + KERNBASE)

/-- Modelled from the spec: `mmu.h` is absent; `(sz + PGSIZE - 1) & ~(PGSIZE - 1)` on `uint`. -/
def PGROUNDUP (sz : Nat) : Nat := u32 (u32 sz + PGSIZE - 1) / PGSIZE * PGSIZE

/-- Modelled from the spec: `mmu.h` is absent; `a & ~(PGSIZE - 1)` on `uint`. -/
def PGROUNDDOWN (a : Nat) : Nat := u32 a / PGSIZE * PGSIZE

/-- Modelled from the spec: `mmu.h` is absent; page directory index, `(va >> 22) & 0x3FF`. -/
def PDX (va : Nat) : Nat := u32 va / 4194304 % 1024

/-- Modelled from the spec: `mmu.h` is absent; page table index, `(va >> 12) & 0x3FF`. -/
def PTX (va : Nat) : Nat := u32 va / 4096 % 1024

/-- Modelled from the spec: `mmu.h` is absent; `(d << 22) | (t << 12) | o` on `uint`. -/
def PGADDR (d t o : Nat) : Nat := u32 (u32 (d * 4194304) ||| u32 (t * 4096) ||| o)

/-- Modelled from the spec: `mmu.h` is absent; frame address of an entry, `pte & ~0xFFF`. -/
def PTE_ADDR (pte : Nat) : Nat := u32 pte / 4096 * 4096

/-- Modelled from the spec: `mmu.h` is absent; flag bits of an entry, `pte & 0xFFF`. -/
def PTE_FLAGS (pte : Nat) : Nat := u32 pte % 4096

/-- One row of the `kmap` table of `vm.c`. -/
structure Kmap where
  virt : Nat
  phys_start : Nat
  phys_end : Nat
  perm : Nat

/-- Values that come from files outside the sources: `PHYSTOP` (memlayout.h),
the linker symbol `end`, the shared bit `PTE_S` (mmu.h), `DEVSPACE` (memlayout.h)
and the rows of `kmap` (which mention `data`, `EXTMEM`, `KERNLINK` and `DEVSPACE`). -/
structure Layout where
  PHYSTOP : Nat
  kend : Nat
  PTE_S : Nat
  DEVSPACE : Nat
  kmap : List Kmap

/-- `MAX_PAGES` of `kalloc.c`. -/
def MAX_PAGES (L : Layout) : Nat := L.PHYSTOP / PGSIZE

/-! ## Kernel state -/

/-- The mutable state of `kalloc.c` together with kernel memory. -/
structure Kernel where
  mem : Nat → Nat
  use_lock : Bool
  freelist : Nat
  refcount : Nat → Int
  num_free_pages : Int

/-- Read the `uint` stored at kernel virtual address `p`. -/
def deref (k : Kernel) (p : Nat) : Nat := u32 (k.mem p)

/-- Write the word `x` at kernel virtual address `p`. -/
def store (k : Kernel) (p x : Nat) : Kernel :=
  { k with mem := fun a => if a = p then x else k.mem a }

/-- Effect of `memset(p, b, PGSIZE)`: every word of the page holds `b` in each byte. -/
def memset (k : Kernel) (p b : Nat) : Kernel :=
  { k with mem := fun a => if p ≤ a ∧ a < p + PGSIZE then b * 16843009 else k.mem a }

/-- Effect of `memmove(dst, src, PGSIZE)`. -/
def memmove (k : Kernel) (dst src : Nat) : Kernel :=
  { k with mem := fun a => if dst ≤ a ∧ a < dst + PGSIZE then k.mem (a - dst + src) else k.mem a }

/-- Set one entry of the `refcount` array. -/
def setref (k : Kernel) (idx : Nat) (c : Int) : Kernel :=
  { k with refcount := fun i => if i = idx then c else k.refcount i }

/-! ## kalloc.c -/

/-- Junk-fill the page at `v` and push it on the free list: the statements
`memset(v, 1, PGSIZE); r->next = kmem.freelist; kmem.freelist = r; num_free_pages++`
shared by `freerange` and `kfree`. -/
def kfreePush (k : Kernel) (v : Nat) : Kernel :=
  let k1 := memset k v 1
  let k2 := store k1 v k1.freelist
  { k2 with freelist := v, num_free_pages := k2.num_free_pages + 1 }

/-- The loop of `freerange`: `n` iterations starting at page `p`. -/
def freerangeLoop : Nat → Kernel → Nat → Kernel
  | 0, k, _ => k
  | n + 1, k, p => freerangeLoop n (kfreePush k p) (p + PGSIZE)

/-- `freerange(vstart, vend)`: the loop runs while `p + PGSIZE <= vend`, that is
`(vend - p) / PGSIZE` times. -/
def freerange (k : Kernel) (vstart vend : Nat) : Kernel :=
  freerangeLoop ((vend - PGROUNDUP vstart) / PGSIZE) k (PGROUNDUP vstart)

/-- `kinit1(vstart, vend)`. -/
def kinit1 (k : Kernel) (vstart vend : Nat) : Kernel :=
  freerange { k with use_lock := false, num_free_pages := 0 } vstart vend

/-- `kinit2(vstart, vend)`. -/
def kinit2 (k : Kernel) (vstart vend : Nat) : Kernel :=
  { freerange k vstart vend with use_lock := true }

/-- `getrefcount(pa)`. -/
def getrefcount (L : Layout) (k : Kernel) (pa : Nat) : Except String Int :=
  let idx := pa / PGSIZE
  if idx ≥ MAX_PAGES L then .error "getrefcount: index out of range"
  else if !k.use_lock then .ok 0
  else .ok (k.refcount idx)

/-- `incref(pa)`.  The counts are `int`: when `refcount[idx]` holds
`2147483647` the statement `refcount[idx]++` overflows, which C leaves
undefined (the compiled kernel wraps to `-2147483648`).  The embedding does not
continue with a count there: the call ends in the outcome
`Except.error "incref: refcount overflow"`. -/
def incref (L : Layout) (k : Kernel) (pa : Nat) : Except String Kernel :=
  let idx := pa / PGSIZE
  if idx ≥ MAX_PAGES L then .error "incref: index out of range"
  else if !k.use_lock then .ok k
  else
    let k1 := if k.refcount idx = 0 then setref k idx 1 else k
    if k1.refcount idx ≥ 2147483647 then .error "incref: refcount overflow"
    else .ok (setref k1 idx (k1.refcount idx + 1))

/-- `decref(pa)`: the new state and the returned count. -/
def decref (L : Layout) (k : Kernel) (pa : Nat) : Except String (Kernel × Int) :=
  let idx := pa / PGSIZE
  if idx ≥ MAX_PAGES L then .error "decref: index out of range"
  else if !k.use_lock then .ok (k, 0)
  else if k.refcount idx ≤ 0 then .ok (k, 0)
  else
    let k1 := setref k idx (k.refcount idx - 1)
    .ok (k1, k1.refcount idx)

/-- `kfree(v)`. -/
def kfree (L : Layout) (k : Kernel) (v : Nat) : Except String Kernel :=
  let pa := V2P v
  if v % PGSIZE ≠ 0 ∨ v < L.kend ∨ pa ≥ L.PHYSTOP then .error "kfree"
  else
    let idx := pa / PGSIZE
    if idx < MAX_PAGES L ∧ k.use_lock = true then
      match decref L k pa with
      | .error e => .error e
      | .ok (k1, ref) => if ref > 0 then .ok k1 else .ok (kfreePush k1 v)
    else .ok (kfreePush k v)

/-- `kalloc()`: the new state and the returned pointer (`0` when out of memory). -/
def kalloc (L : Layout) (k : Kernel) : Kernel × Nat :=
  let r := k.freelist
  if r = 0 then (k, 0)
  else
    let k1 := { k with freelist := deref k r, num_free_pages := k.num_free_pages - 1 }
    let idx := V2P r / PGSIZE
    if idx < MAX_PAGES L ∧ k1.use_lock = true ∧ k1.refcount idx = 0 then (setref k1 idx 1, r)
    else (k1, r)

/-- `getNumFreePages()`. -/
def getNumFreePages (k : Kernel) : Int := k.num_free_pages

/-! ## vm.c

The translation cache is not part of the state, so `lcr3` has no counterpart.
Loops whose trip count is not fixed in advance take a fuel argument; the
callers pass `LOOP_FUEL`, more than the number of pages of a 32-bit address
space, and the outcome `Except.error "out of fuel"` stands for a loop that
does not terminate. -/

/-- Fuel handed to the address-stepping loops. -/
def LOOP_FUEL : Nat := 1048577

/-- `walkpgdir(pgdir, va, alloc)`: the new state and the address of the entry
(`0` when there is none). -/
def walkpgdir (L : Layout) (k : Kernel) (pgdir va alloc : Nat) : Kernel × Nat :=
  let pde := pgdir + 4 * PDX va
  if deref k pde &&& PTE_P ≠ 0 then
    (k, P2V (PTE_ADDR (deref k pde)) + 4 * PTX va)
  else if alloc = 0 then (k, 0)
  else
    let (k1, pgtab) := kalloc L k
    if pgtab = 0 then (k1, 0)
    else
      let k2 := memset k1 pgtab 0
      let k3 := store k2 pde (V2P pgtab ||| PTE_P ||| PTE_W ||| PTE_U)
      (k3, pgtab + 4 * PTX va)

/-- The loop of `mappages`. -/
def mappagesLoop (L : Layout) :
    Nat → Kernel → Nat → Nat → Nat → Nat → Nat → Except String (Kernel × Int)
  | 0, _, _, _, _, _, _ => .error "out of fuel"
  | fuel + 1, k, pgdir, a, last, pa, perm =>
    let (k1, pte) := walkpgdir L k pgdir a 1
    if pte = 0 then .ok (k1, -1)
    else if deref k1 pte &&& PTE_P ≠ 0 then .error "remap"
    else
      let k2 := store k1 pte (pa ||| perm ||| PTE_P)
      if a = last then .ok (k2, 0)
      else mappagesLoop L fuel k2 pgdir (u32 (a + PGSIZE)) last (u32 (pa + PGSIZE)) perm

/-- `mappages(pgdir, va, size, pa, perm)`. -/
def mappages (L : Layout) (k : Kernel) (pgdir va size pa perm : Nat) :
    Except String (Kernel × Int) :=
  mappagesLoop L LOOP_FUEL k pgdir (PGROUNDDOWN va)
    (PGROUNDDOWN (u32 (u32 (va + size) + 4294967296 - 1))) pa perm

/-- The body of the loop of `deallocuvm` for the scan address `a`: the new
state and the value of `a` when the body is left. -/
def deallocuvmStep (L : Layout) (k : Kernel) (pgdir a : Nat) : Except String (Kernel × Nat) :=
  let (k1, pte) := walkpgdir L k pgdir a 0
  if pte = 0 then .ok (k1, u32 (PGADDR (PDX a + 1) 0 0 + 4294967296 - PGSIZE))
  else if deref k1 pte &&& PTE_P ≠ 0 then
    let pa := PTE_ADDR (deref k1 pte)
    if pa = 0 then .error "kfree"
    else if deref k1 pte &&& L.PTE_S = 0 then
      match kfree L k1 (P2V pa) with
      | .error e => .error e
      | .ok k2 => .ok (store k2 pte 0, a)
    else .ok (store k1 pte 0, a)
  else .ok (k1, a)

/-- The loop of `deallocuvm`, entered with the scan address `a`:
`for(; a < oldsz; a += PGSIZE)`. -/
def deallocuvmLoop (L : Layout) : Nat → Kernel → Nat → Nat → Nat → Except String Kernel
  | 0, _, _, _, _ => .error "out of fuel"
  | fuel + 1, k, pgdir, a, oldsz =>
    if a < oldsz then
      match deallocuvmStep L k pgdir a with
      | .error e => .error e
      | .ok (k1, a1) => deallocuvmLoop L fuel k1 pgdir (u32 (a1 + PGSIZE)) oldsz
    else .ok k

/-- `deallocuvm(pgdir, oldsz, newsz)`: the new state and the returned size. -/
def deallocuvm (L : Layout) (k : Kernel) (pgdir oldsz newsz : Nat) :
    Except String (Kernel × Nat) :=
  if newsz ≥ oldsz then .ok (k, oldsz)
  else
    match deallocuvmLoop L LOOP_FUEL k pgdir (PGROUNDUP newsz) oldsz with
    | .error e => .error e
    | .ok k1 => .ok (k1, newsz)

/-- The body of the directory loop of `freevm` for index `i`. -/
def freevmStep (L : Layout) (k : Kernel) (pgdir i : Nat) : Except String Kernel :=
  if deref k (pgdir + 4 * i) &&& PTE_P ≠ 0 then
    kfree L k (P2V (PTE_ADDR (deref k (pgdir + 4 * i))))
  else .ok k

/-- The directory loop of `freevm`: `n` iterations starting at index `i`. -/
def freevmLoop (L : Layout) : Nat → Kernel → Nat → Nat → Except String Kernel
  | 0, k, _, _ => .ok k
  | n + 1, k, pgdir, i =>
    match freevmStep L k pgdir i with
    | .error e => .error e
    | .ok k1 => freevmLoop L n k1 pgdir (i + 1)

/-- `freevm(pgdir)`. -/
def freevm (L : Layout) (k : Kernel) (pgdir : Nat) : Except String Kernel :=
  if pgdir = 0 then .error "freevm: no pgdir"
  else
    match deallocuvm L k pgdir KERNBASE 0 with
    | .error e => .error e
    | .ok (k1, _) =>
      match freevmLoop L NPDENTRIES k1 pgdir 0 with
      | .error e => .error e
      | .ok k2 => kfree L k2 pgdir

/-- The loop of `setupkvm` over the rows of `kmap`: the new state and whether
every row was mapped. -/
def setupkvmLoop (L : Layout) : List Kmap → Kernel → Nat → Except String (Kernel × Bool)
  | [], k, _ => .ok (k, true)
  | m :: ms, k, pgdir =>
    match mappages L k pgdir m.virt (u32 (m.phys_end + 4294967296 - m.phys_start))
        m.phys_start m.perm with
    | .error e => .error e
    | .ok (k1, r) => if r < 0 then .ok (k1, false) else setupkvmLoop L ms k1 pgdir

/-- `setupkvm()`: the new state and the new page directory (`0` on failure). -/
def setupkvm (L : Layout) (k : Kernel) : Except String (Kernel × Nat) :=
  let (k1, pgdir) := kalloc L k
  if pgdir = 0 then .ok (k1, 0)
  else
    let k2 := memset k1 pgdir 0
    if P2V L.PHYSTOP > L.DEVSPACE then .error "PHYSTOP too high"
    else
      match setupkvmLoop L L.kmap k2 pgdir with
      | .error e => .error e
      | .ok (k3, true) => .ok (k3, pgdir)
      | .ok (k3, false) =>
        match freevm L k3 pgdir with
        | .error e => .error e
        | .ok k4 => .ok (k4, 0)

/-- The loop of `copyuvm`, entered with the page address `i`: the new state and
whether every page was mapped into the child `d`. -/
def copyuvmLoop (L : Layout) : Nat → Kernel → Nat → Nat → Nat → Nat →
    Except String (Kernel × Bool)
  | 0, _, _, _, _, _ => .error "out of fuel"
  | fuel + 1, k, pgdir, d, i, sz =>
    if i < sz then
      let (k1, pte) := walkpgdir L k pgdir i 0
      if pte = 0 then .error "copyuvm: pte should exist"
      else if deref k1 pte &&& PTE_P = 0 then .error "copyuvm: page not present"
      else
        let pa := PTE_ADDR (deref k1 pte)
        let flags := PTE_FLAGS (deref k1 pte)
        if flags &&& L.PTE_S ≠ 0 then
          match mappages L k1 d i PGSIZE pa flags with
          | .error e => .error e
          | .ok (k2, r) =>
            if r < 0 then .ok (k2, false)
            else copyuvmLoop L fuel k2 pgdir d (u32 (i + PGSIZE)) sz
        else
          let flags1 := flags &&& unot PTE_W
          match incref L k1 pa with
          | .error e => .error e
          | .ok k2 =>
            match mappages L k2 d i PGSIZE pa flags1 with
            | .error e => .error e
            | .ok (k3, r) =>
              if r < 0 then .ok (k3, false)
              else
                let (k4, parent_pte) := walkpgdir L k3 pgdir i 0
                if parent_pte = 0 then .error "copyuvm: parent pte should exist"
                else
                  copyuvmLoop L fuel (store k4 parent_pte (pa ||| flags1 ||| PTE_P))
                    pgdir d (u32 (i + PGSIZE)) sz
    else .ok (k, true)

/-- `copyuvm(pgdir, sz)`: the new state and the child directory (`0` on failure). -/
def copyuvm (L : Layout) (k : Kernel) (pgdir sz : Nat) : Except String (Kernel × Nat) :=
  match setupkvm L k with
  | .error e => .error e
  | .ok (k1, d) =>
    if d = 0 then .ok (k1, 0)
    else
      match copyuvmLoop L LOOP_FUEL k1 pgdir d 0 sz with
      | .error e => .error e
      | .ok (k2, true) => .ok (k2, d)
      | .ok (k2, false) =>
        match freevm L k2 d with
        | .error e => .error e
        | .ok k3 => .ok (k3, 0)

/-- `cowfault(pgdir, va)`: the new state and the returned code. -/
def cowfault (L : Layout) (k : Kernel) (pgdir va : Nat) : Except String (Kernel × Int) :=
  let va := PGROUNDDOWN va
  let (k0, pte) := walkpgdir L k pgdir va 0
  if pte = 0 then .ok (k0, -1)
  else if deref k0 pte &&& PTE_P = 0 then .ok (k0, -1)
  else if deref k0 pte &&& PTE_W ≠ 0 then .ok (k0, -1)
  else
    let pa := PTE_ADDR (deref k0 pte)
    match getrefcount L k0 pa with
    | .error e => .error e
    | .ok ref =>
      if ref < 2 then
        .ok (store k0 pte (pa ||| PTE_FLAGS (deref k0 pte) ||| PTE_W ||| PTE_P), 0)
      else
        let (k1, mem) := kalloc L k0
        if mem = 0 then .ok (k1, -1)
        else
          let k2 := memmove k1 mem (P2V pa)
          match decref L k2 pa with
          | .error e => .error e
          | .ok (k3, _) =>
            .ok (store k3 pte (V2P mem ||| (PTE_FLAGS (deref k3 pte) ||| PTE_W) ||| PTE_P), 0)

/-! ## Predicates used in the statements -/

/-- The frames `l` are linked from `h` through their first words, ending in the
null pointer: the contents of the intrusive list of `struct run`. -/
def FreeChain (k : Kernel) : Nat → List Nat → Prop
  | h, [] => h = 0
  | h, g :: gs => h = g ∧ g ≠ 0 ∧ g < 4294967296 ∧ FreeChain k (deref k g) gs

instance FreeChain.dec (k : Kernel) : ∀ (h : Nat) (l : List Nat), Decidable (FreeChain k h l)
  | h, [] => inferInstanceAs (Decidable (h = 0))
  | h, g :: gs =>
    have := FreeChain.dec k (deref k g) gs
    inferInstanceAs (Decidable (h = g ∧ g ≠ 0 ∧ g < 4294967296 ∧ FreeChain k (deref k g) gs))

/-- The free list of `k` holds exactly the frames `l`, head first. -/
def FreeList (k : Kernel) (l : List Nat) : Prop := FreeChain k k.freelist l

instance FreeList.dec (k : Kernel) (l : List Nat) : Decidable (FreeList k l) :=
  FreeChain.dec k _ l

/-- The address `a` lies outside the page that starts at `v`. -/
def Outside (v a : Nat) : Prop := a < v ∨ v + PGSIZE ≤ a

instance Outside.dec (v a : Nat) : Decidable (Outside v a) :=
  inferInstanceAs (Decidable (a < v ∨ v + PGSIZE ≤ a))

/-- The pointer `v` passes the checks at the top of `kfree`. -/
def ValidFrame (L : Layout) (v : Nat) : Prop :=
  v % PGSIZE = 0 ∧ L.kend ≤ v ∧ V2P v < L.PHYSTOP

instance ValidFrame.dec (L : Layout) (v : Nat) : Decidable (ValidFrame L v) :=
  inferInstanceAs (Decidable (v % PGSIZE = 0 ∧ L.kend ≤ v ∧ V2P v < L.PHYSTOP))

/-! ## Example states -/

/-- The layout of the example states: `PHYSTOP`, `PTE_S` and `DEVSPACE` as in
stock xv6, a kernel image ending at `0x80110000` and, in place of the four
rows of `kmap[]` (see `kmapRows`), a table of one row that maps two pages at
`KERNBASE`, so that an address space of the examples takes two frames.  The
statements about `setupkvm` and `copyuvm` are proved for every layout and only
instanced on this one. -/
def exLayout : Layout :=
  { PHYSTOP := 0xE000000, kend := 0x80110000, PTE_S := 0x200, DEVSPACE := 0xFE000000,
    kmap := [{ virt := 0x80000000, phys_start := 0, phys_end := 0x2000, perm := 2 }] }

/-- The four rows of `kmap[]` in `vm.c`, as a function of the values that come
from the absent `memlayout.h` and from the linker script: `EXTMEM`,
`KERNLINK`, `data`, `PHYSTOP` and `DEVSPACE`. -/
def kmapRows (EXTMEM KERNLINK data PHYSTOP DEVSPACE : Nat) : List Kmap :=
  [{ virt := KERNBASE, phys_start := 0, phys_end := EXTMEM, perm := PTE_W },
    { virt := KERNLINK, phys_start := V2P KERNLINK, phys_end := V2P data, perm := 0 },
    { virt := data, phys_start := V2P data, phys_end := PHYSTOP, perm := PTE_W },
    { virt := DEVSPACE, phys_start := DEVSPACE, phys_end := 0, perm := PTE_W }]

/-- The layout of stock xv6 (`EXTMEM = 0x100000`, `KERNLINK = 0x80100000`,
`PHYSTOP = 0xE000000`, `DEVSPACE = 0xFE000000`) with the four rows of `kmap`,
for a kernel image with the linker symbols `data` and `end`. -/
def stockLayout (data kend : Nat) : Layout :=
  { PHYSTOP := 0xE000000, kend := kend, PTE_S := 0x200, DEVSPACE := 0xFE000000,
    kmap := kmapRows 0x100000 0x80100000 data 0xE000000 0xFE000000 }

/-- The sixteen frames of the examples, in free-list order. -/
def exFrames : List Nat :=
  [0x8011f000, 0x8011e000, 0x8011d000, 0x8011c000, 0x8011b000, 0x8011a000, 0x80119000,
    0x80118000, 0x80117000, 0x80116000, 0x80115000, 0x80114000, 0x80113000, 0x80112000,
    0x80111000, 0x80110000]

/-- The state at boot: zeroed static data. -/
def exBoot : Kernel :=
  { mem := fun _ => 0, use_lock := false, freelist := 0, refcount := fun _ => 0,
    num_free_pages := 0 }

/-- Sixteen frames handed to the allocator, two by `kinit1` and fourteen by `kinit2`. -/
def exInit : Kernel :=
  kinit2 (kinit1 exBoot 0x80110000 0x80112000) 0x80112000 0x80120000

/-- After one `kalloc`: the frame at `0x8011f000` is allocated with count 1. -/
def exAlloc : Kernel := (kalloc exLayout exInit).1

/-- After `kalloc` and `kfree` of the same frame: `0x8011f000` is free again. -/
def exFreed : Kernel := kfreePush (setref exAlloc 0x11f 0) 0x8011f000

/-- The address of the leaf entry for `va`, or `0` when its page table is
missing: what `walkpgdir(pgdir, va, 0)` returns. -/
def leafSlot (k : Kernel) (pgdir va : Nat) : Nat :=
  if deref k (pgdir + 4 * PDX va) &&& PTE_P ≠ 0 then
    P2V (PTE_ADDR (deref k (pgdir + 4 * PDX va))) + 4 * PTX va
  else 0

/-- One data frame for a process: `0x8011f000`, allocated and zeroed. -/
def exData : Kernel := memset (kalloc exLayout exInit).1 0x8011f000 0

/-- After `setupkvm` on `exData`: the page directory `0x8011e000` and the
kernel page table `0x8011d000`. -/
def exKvm : Kernel :=
  match setupkvm exLayout exData with
  | .ok (k, _) => k
  | .error _ => exData

/-- A process image: the data frame of `exData` mapped writable for the user
at virtual address 0 of the directory of `exKvm` (as `inituvm` does), through
the page table `0x8011c000`. -/
def exProc : Kernel :=
  match mappages exLayout exKvm 0x8011e000 0 PGSIZE (V2P 0x8011f000) (PTE_W ||| PTE_U) with
  | .ok (k, _) => k
  | .error _ => exKvm

/-- After `copyuvm` of `exProc`: the child directory is `0x8011b000`, its
kernel page table `0x8011a000`, its user page table `0x80119000`, and the data
frame has count 2. -/
def exFork : Kernel :=
  match copyuvm exLayout exProc 0x8011e000 PGSIZE with
  | .ok (k, _) => k
  | .error _ => exProc

/-- After the child of `exFork` took its copy-on-write fault on page 0 (the
copy is the frame `0x80118000`). -/
def exCow : Kernel :=
  match cowfault exLayout exFork 0x8011b000 0 with
  | .ok (k, _) => k
  | .error _ => exFork

/-- Sanity of the layout constants: `PHYSTOP` is page-aligned and the kernel
image does not end at address 0. -/
def LayoutOK (L : Layout) : Prop := L.PHYSTOP % PGSIZE = 0 ∧ 0 < L.kend

instance LayoutOK.dec (L : Layout) : Decidable (LayoutOK L) :=
  inferInstanceAs (Decidable (L.PHYSTOP % PGSIZE = 0 ∧ 0 < L.kend))

/-- The free list holds the distinct valid frames `l`, each with count 0. -/
def FreeOK (L : Layout) (k : Kernel) (l : List Nat) : Prop :=
  FreeList k l ∧ l.Nodup ∧ ∀ g ∈ l, ValidFrame L g ∧ k.refcount (V2P g / PGSIZE) = 0

/-- The page `v` is one of those `freerange(vstart, vend)` puts on the free list. -/
def InRange (vstart vend v : Nat) : Prop :=
  v % PGSIZE = 0 ∧ PGROUNDUP vstart ≤ v ∧ v + PGSIZE ≤ vend

instance InRange.dec (vstart vend v : Nat) : Decidable (InRange vstart vend v) :=
  inferInstanceAs (Decidable (v % PGSIZE = 0 ∧ PGROUNDUP vstart ≤ v ∧ v + PGSIZE ≤ vend))

/-- One call of the allocator interface after initialisation.  `kfree` and
`incref` are applied to frames that hold a reference, `decref` to frames that
keep one afterwards. -/
inductive AllocStep (L : Layout) : Kernel → Kernel → Prop
  | kalloc (k : Kernel) : AllocStep L k (kalloc L k).1
  | kfree (k : Kernel) (v : Nat) (k' : Kernel) :
      v < 4294967296 → 1 ≤ k.refcount (V2P v / PGSIZE) → kfree L k v = .ok k' →
      AllocStep L k k'
  | incref (k : Kernel) (pa : Nat) (k' : Kernel) :
      1 ≤ k.refcount (pa / PGSIZE) → incref L k pa = .ok k' → AllocStep L k k'
  | decref (k : Kernel) (pa : Nat) (k' : Kernel) (r : Int) :
      2 ≤ k.refcount (pa / PGSIZE) → decref L k pa = .ok (k', r) → AllocStep L k k'

/-- Any finite sequence of such calls. -/
inductive AllocReach (L : Layout) : Kernel → Kernel → Prop
  | refl (k : Kernel) : AllocReach L k k
  | step (k k1 k2 : Kernel) : AllocReach L k k1 → AllocStep L k1 k2 → AllocReach L k k2

/-- After `decref` on the frame allocated in `exAlloc`. -/
def exDec : Kernel := setref exAlloc 0x11f 0

/-- Entry `i` of the page directory at `d`. -/
def pdeAt (k : Kernel) (d i : Nat) : Nat := deref k (d + 4 * i)

/-- The page table that entry `i` of the directory at `d` points to. -/
def tableOf (k : Kernel) (d i : Nat) : Nat := P2V (PTE_ADDR (pdeAt k d i))

/-- Number of present entries of the directory at `d`. -/
def pdeCount (k : Kernel) (d : Nat) : Nat :=
  (List.range NPDENTRIES).countP (fun i => decide (pdeAt k d i &&& PTE_P ≠ 0))

/-- Distinct valid frames given as 32-bit pointers. -/
def Frames (L : Layout) (l : List Nat) : Prop :=
  l.Nodup ∧ ∀ g ∈ l, ValidFrame L g ∧ g < 4294967296

/-- The directory `d` under construction from the frames `used`, taken from the
front of the initial free list `l0`, with `l` still free.  `W` and `R` bound
the words and counts changed outside the frames taken. -/
structure BuildInv (L : Layout) (k0 : Kernel) (l0 : List Nat) (d : Nat)
    (W R : Nat → Prop) (k : Kernel) (used l : List Nat) : Prop where
  split : l0 = used ++ l
  free : FreeOK L k l
  lock : k.use_lock = true
  dmem : d ∈ used
  urc : ∀ u ∈ used, k.refcount (V2P u / PGSIZE) = 1
  tabs : ∀ j, j < NPDENTRIES → pdeAt k d j &&& PTE_P ≠ 0 →
    tableOf k d j ∈ used ∧ tableOf k d j ≠ d ∧
      ∀ j', j' < NPDENTRIES → j' ≠ j → pdeAt k d j' &&& PTE_P ≠ 0 →
        tableOf k d j' ≠ tableOf k d j
  count : k.num_free_pages = k0.num_free_pages - used.length
  pdes : used.length = 1 + pdeCount k d
  memf : ∀ x, (∀ u ∈ used, Outside u x) → ¬ W x → k.mem x = k0.mem x
  rcf : ∀ j, (∀ u ∈ used, j ≠ V2P u / PGSIZE) → ¬ R j → k.refcount j = k0.refcount j

/-- The state after `walkpgdir` took the free page `g` as the page table for
`a`: the allocation, the zero fill and the new directory entry. -/
def allocTable (L : Layout) (k : Kernel) (d a g : Nat) : Kernel :=
  store (memset (kalloc L k).1 g 0) (d + 4 * PDX a) (V2P g ||| PTE_P ||| PTE_W ||| PTE_U)

/-- A row of `kmap` maps kernel addresses only: its first page is at or above
`KERNBASE` and not after its last page. -/
def KmapOK (m : Kmap) : Prop :=
  KERNBASE ≤ PGROUNDDOWN m.virt ∧
    PGROUNDDOWN m.virt ≤
      PGROUNDDOWN (u32 (u32 (m.virt + u32 (m.phys_end + 4294967296 - m.phys_start))
        + 4294967296 - 1))

/-- The leaf entry for `a` in the address space `pgdir`. -/
def entry (k : Kernel) (pgdir a : Nat) : Nat := deref k (leafSlot k pgdir a)

/-- The entry `copyuvm` writes for a private page: same frame, the flags
without `PTE_W`, present. -/
def cowEntry (e : Nat) : Nat := PTE_ADDR e ||| (PTE_FLAGS e &&& unot PTE_W) ||| PTE_P

/-- The entry `copyuvm` writes into the child for the source entry `e`. -/
def childEntry (L : Layout) (e : Nat) : Nat :=
  if PTE_FLAGS e &&& L.PTE_S ≠ 0 then PTE_ADDR e ||| PTE_FLAGS e ||| PTE_P else cowEntry e

/-- The count after `incref`. -/
def inc1 (c : Int) : Int := (if c = 0 then 1 else c) + 1

/-- The page `a` of `pgdir` is mapped, present and not marked shared. -/
def PrivateAt (L : Layout) (k : Kernel) (pgdir a : Nat) : Prop :=
  leafSlot k pgdir a ≠ 0 ∧ entry k pgdir a &&& PTE_P ≠ 0 ∧
    PTE_FLAGS (entry k pgdir a) &&& L.PTE_S = 0

instance PrivateAt.dec (L : Layout) (k : Kernel) (pgdir a : Nat) :
    Decidable (PrivateAt L k pgdir a) :=
  inferInstanceAs (Decidable (leafSlot k pgdir a ≠ 0 ∧ entry k pgdir a &&& PTE_P ≠ 0 ∧
    PTE_FLAGS (entry k pgdir a) &&& L.PTE_S = 0))

/-- Well-formedness of the user part of the address space `pgdir` of size `sz`
with respect to the free list `l0`: the directory and the page tables are pages
of their own, none of them free, and the private pages below `sz` are mapped
to distinct frames that are not free. -/
structure SrcOK (L : Layout) (k0 : Kernel) (l0 : List Nat) (pgdir sz : Nat) : Prop where
  szle : sz ≤ KERNBASE
  pal : pgdir % PGSIZE = 0
  pfree : pgdir ∉ l0
  tabs : ∀ j, j < 512 → pdeAt k0 pgdir j &&& PTE_P ≠ 0 →
    tableOf k0 pgdir j ∉ l0 ∧ tableOf k0 pgdir j ≠ pgdir ∧
      ∀ j', j' < 512 → j' ≠ j → pdeAt k0 pgdir j' &&& PTE_P ≠ 0 →
        tableOf k0 pgdir j' ≠ tableOf k0 pgdir j
  data : ∀ a, a % PGSIZE = 0 → a < sz → PrivateAt L k0 pgdir a →
    P2V (PTE_ADDR (entry k0 pgdir a)) ∉ l0
  inj : ∀ a b, a % PGSIZE = 0 → b % PGSIZE = 0 → a < sz → b < sz → a ≠ b →
    PrivateAt L k0 pgdir a → PrivateAt L k0 pgdir b →
    PTE_ADDR (entry k0 pgdir a) ≠ PTE_ADDR (entry k0 pgdir b)

/-- The loop invariant of `copyuvm` before the iteration for page `i`. -/
structure CopyInv (L : Layout) (k0 : Kernel) (l0 : List Nat) (pgdir sz d : Nat)
    (i : Nat) (k : Kernel) (used l : List Nat) : Prop where
  build : BuildInv L k0 l0 d
    (fun x => ∃ a, a % PGSIZE = 0 ∧ a < i ∧ PrivateAt L k0 pgdir a ∧ x = leafSlot k0 pgdir a)
    (fun j => ∃ a, a % PGSIZE = 0 ∧ a < i ∧ PrivateAt L k0 pgdir a ∧
      j = PTE_ADDR (entry k0 pgdir a) / PGSIZE) k used l
  ial : i % PGSIZE = 0
  bound : ∀ a, a % PGSIZE = 0 → a < i → a < sz
  pres : ∀ a, a % PGSIZE = 0 → a < i →
    leafSlot k0 pgdir a ≠ 0 ∧ entry k0 pgdir a &&& PTE_P ≠ 0
  srcdone : ∀ a, a % PGSIZE = 0 → a < i → PrivateAt L k0 pgdir a →
    deref k (leafSlot k0 pgdir a) = cowEntry (entry k0 pgdir a)
  srcrc : ∀ a, a % PGSIZE = 0 → a < i → PrivateAt L k0 pgdir a →
    k.refcount (PTE_ADDR (entry k0 pgdir a) / PGSIZE) =
      inc1 (k0.refcount (PTE_ADDR (entry k0 pgdir a) / PGSIZE))
  childdone : ∀ a, a % PGSIZE = 0 → a < i →
    leafSlot k d a ≠ 0 ∧ deref k (leafSlot k d a) = childEntry L (entry k0 pgdir a)
  childrest : ∀ a, a % PGSIZE = 0 → i ≤ a → a < KERNBASE → leafSlot k d a ≠ 0 →
    deref k (leafSlot k d a) &&& PTE_P = 0

instance FreeOK.dec (L : Layout) (k : Kernel) (l : List Nat) : Decidable (FreeOK L k l) :=
  inferInstanceAs (Decidable (FreeList k l ∧ l.Nodup ∧
    ∀ g ∈ l, ValidFrame L g ∧ k.refcount (V2P g / PGSIZE) = 0))

instance KmapOK.dec (m : Kmap) : Decidable (KmapOK m) :=
  inferInstanceAs (Decidable (KERNBASE ≤ PGROUNDDOWN m.virt ∧
    PGROUNDDOWN m.virt ≤
      PGROUNDDOWN (u32 (u32 (m.virt + u32 (m.phys_end + 4294967296 - m.phys_start))
        + 4294967296 - 1))))

/-- The copy-on-write invariant for the address space `pgdir`: no present user
page with the shared bit clear is writable while `getrefcount` of its frame is
2 or more. -/
def CowInv (L : Layout) (k : Kernel) (pgdir : Nat) : Prop :=
  ∀ a, a % PGSIZE = 0 → a < KERNBASE → PrivateAt L k pgdir a →
    entry k pgdir a &&& PTE_W ≠ 0 →
    ∀ c, getrefcount L k (PTE_ADDR (entry k pgdir a)) = .ok c → c < 2

/-- The frame at the head of the free list, if any, is a page with count 0. -/
def HeadFree (k : Kernel) : Prop :=
  k.freelist ≠ 0 → k.freelist % PGSIZE = 0 ∧ k.refcount (V2P k.freelist / PGSIZE) = 0

/-- The directory `pgdir` and its user page tables do not lie in the frame at
the head of the free list. -/
def HeadClear (k : Kernel) (pgdir : Nat) : Prop :=
  k.freelist ≠ 0 → (∀ j, j < NPDENTRIES → Outside k.freelist (pgdir + 4 * j)) ∧
    ∀ a, a < KERNBASE → leafSlot k pgdir a ≠ 0 → Outside k.freelist (leafSlot k pgdir a)

/-- The loop invariant of `deallocuvm` on the child `d` of a `copyuvm` that
ended in the state `kS`, before the iteration for page `a`: the directory is
intact, the entries from `a` on and the counts of their frames are as in `kS`. -/
structure DropInv (L : Layout) (k0 : Kernel) (l0 : List Nat) (pgdir sz d : Nat)
    (kS : Kernel) (a : Nat) (k : Kernel) (used l : List Nat) : Prop where
  build : BuildInv L k0 l0 d (fun _ => True) (fun _ => True) k used l
  pde : ∀ j, j < NPDENTRIES → pdeAt k d j = pdeAt kS d j
  ent : ∀ b, b % PGSIZE = 0 → a ≤ b → b < KERNBASE → leafSlot kS d b ≠ 0 →
    deref k (leafSlot kS d b) = deref kS (leafSlot kS d b)
  rc : ∀ b, b % PGSIZE = 0 → a ≤ b → b < sz → PrivateAt L k0 pgdir b →
    k.refcount (PTE_ADDR (entry k0 pgdir b) / PGSIZE) =
      kS.refcount (PTE_ADDR (entry k0 pgdir b) / PGSIZE)

/-- The invariant of the directory loop of `freevm` on the directory `d` of the
state `kA`, before index `i`: the tables `T` of the present entries below `i`
have been pushed on the free list. -/
structure TabInv (L : Layout) (kA : Kernel) (d : Nat) (used l : List Nat)
    (i : Nat) (k : Kernel) (T : List Nat) : Prop where
  free : FreeOK L k (T ++ l)
  lock : k.use_lock = true
  pde : ∀ j, j < NPDENTRIES → pdeAt k d j = pdeAt kA d j
  sub : ∀ t ∈ T, t ∈ used ∧ t ≠ d ∧ ∃ j, j < i ∧ pdeAt kA d j &&& PTE_P ≠ 0 ∧
    t = tableOf kA d j
  len : T.length = (List.range i).countP (fun j => decide (pdeAt kA d j &&& PTE_P ≠ 0))
  rc : ∀ u ∈ used, u ∉ T → k.refcount (V2P u / PGSIZE) = 1
  cnt : k.num_free_pages = kA.num_free_pages + T.length
  memf : ∀ x, (∀ u ∈ used, Outside u x) → k.mem x = kA.mem x
  rcf : ∀ j, (∀ u ∈ used, j ≠ V2P u / PGSIZE) → k.refcount j = kA.refcount j

/-! ## A parent and its children -/

/-- A child address space in the fork scenario: its directory, the frames of
its directory and page tables, and the pages of which it holds a private copy,
each with the frame of the copy. -/
structure Child where
  d : Nat
  used : List Nat
  own : List (Nat × Nat)

/-- The frames a child holds. -/
def Child.frames (c : Child) : List Nat := c.used ++ c.own.map Prod.snd

/-- The free frames and all frames held by the children. -/
def allFrames (l : List Nat) (cs : List Child) : List Nat :=
  l ++ (cs.map Child.frames).flatten

/-- The child `c` maps page `a` to the frame the parent `P` maps there, as a
private page. -/
def Shares (L : Layout) (k : Kernel) (P : Nat) (c : Child) (a : Nat) : Prop :=
  leafSlot k c.d a ≠ 0 ∧ entry k c.d a &&& PTE_P ≠ 0 ∧ entry k c.d a &&& L.PTE_S = 0 ∧
    PTE_ADDR (entry k c.d a) = PTE_ADDR (entry k P a)

instance Shares.dec (L : Layout) (k : Kernel) (P : Nat) (c : Child) (a : Nat) :
    Decidable (Shares L k P c a) :=
  inferInstanceAs (Decidable (leafSlot k c.d a ≠ 0 ∧ entry k c.d a &&& PTE_P ≠ 0 ∧
    entry k c.d a &&& L.PTE_S = 0 ∧ PTE_ADDR (entry k c.d a) = PTE_ADDR (entry k P a)))

/-- Number of children that share the parent's frame for page `a`. -/
def sharers (L : Layout) (k : Kernel) (P : Nat) (cs : List Child) (a : Nat) : Nat :=
  cs.countP (fun c => decide (Shares L k P c a))

/-- Well-formedness of one child of the parent `P`. -/
structure ChildOK (L : Layout) (k : Kernel) (P sz : Nat) (c : Child) : Prop where
  dmem : c.d ∈ c.used
  urc : ∀ u ∈ c.used, k.refcount (V2P u / PGSIZE) = 1
  tabs : ∀ j, j < NPDENTRIES → pdeAt k c.d j &&& PTE_P ≠ 0 →
    tableOf k c.d j ∈ c.used ∧ tableOf k c.d j ≠ c.d ∧
      ∀ j', j' < NPDENTRIES → j' ≠ j → pdeAt k c.d j' &&& PTE_P ≠ 0 →
        tableOf k c.d j' ≠ tableOf k c.d j
  pdes : c.used.length = 1 + pdeCount k c.d
  ownnd : (c.own.map Prod.fst).Nodup
  ownok : ∀ p ∈ c.own, p.1 % PGSIZE = 0 ∧ p.1 < KERNBASE ∧ leafSlot k c.d p.1 ≠ 0 ∧
    entry k c.d p.1 &&& PTE_P ≠ 0 ∧ entry k c.d p.1 &&& L.PTE_S = 0 ∧
    PTE_ADDR (entry k c.d p.1) = V2P p.2 ∧ k.refcount (V2P p.2 / PGSIZE) = 1
  pages : ∀ a, a % PGSIZE = 0 → a < KERNBASE → leafSlot k c.d a ≠ 0 →
    entry k c.d a &&& PTE_P ≠ 0 →
    PTE_ADDR (entry k c.d a) ≠ 0 ∧ (entry k c.d a &&& L.PTE_S = 0 →
      (∃ g, (a, g) ∈ c.own) ∨
      (a < sz ∧ PrivateAt L k P a ∧ PTE_ADDR (entry k c.d a) = PTE_ADDR (entry k P a) ∧
        entry k c.d a &&& PTE_W = 0))

/-- The parent `P` of size `sz`, its children `cs` and the free list `l`: all
frames on the free list or held by a child are distinct valid frames, the
parent's translation structure and private frames are none of them, and the
count of a private frame of the parent covers the children that share it. -/
structure World (L : Layout) (k : Kernel) (P sz : Nat) (cs : List Child) (l : List Nat) :
    Prop where
  free : FreeOK L k l
  lock : k.use_lock = true
  frames : Frames L (allFrames l cs)
  src : SrcOK L k (allFrames l cs) P sz
  pnz : ∀ a, a % PGSIZE = 0 → a < sz → PTE_ADDR (entry k P a) ≠ 0
  pval : ∀ a, a % PGSIZE = 0 → a < sz → PrivateAt L k P a →
    ValidFrame L (P2V (PTE_ADDR (entry k P a)))
  prc : ∀ a, a % PGSIZE = 0 → a < sz → PrivateAt L k P a →
    (sharers L k P cs a : Int) ≤ k.refcount (PTE_ADDR (entry k P a) / PGSIZE) ∧
      (1 ≤ sharers L k P cs a →
        (sharers L k P cs a : Int) + 1 ≤ k.refcount (PTE_ADDR (entry k P a) / PGSIZE))
  kids : ∀ c ∈ cs, ChildOK L k P sz c

/-- Assumptions on the constants of the absent headers: the kernel image ends
above `KERNBASE`, and `PTE_S` is a flag bit other than `PTE_W`. -/
def LayoutCow (L : Layout) : Prop :=
  LayoutOK L ∧ KERNBASE < L.kend ∧ L.PTE_S < 4096 ∧ L.PTE_S &&& PTE_W = 0

instance LayoutCow.dec (L : Layout) : Decidable (LayoutCow L) :=
  inferInstanceAs (Decidable (LayoutOK L ∧ KERNBASE < L.kend ∧ L.PTE_S < 4096 ∧
    L.PTE_S &&& PTE_W = 0))

/-- Every child maps every private page of the parent below `sz` as a private
page. -/
def Full (L : Layout) (k : Kernel) (P sz : Nat) (ds : List Nat) : Prop :=
  ∀ d ∈ ds, ∀ a, a % PGSIZE = 0 → a < sz → PrivateAt L k P a →
    leafSlot k d a ≠ 0 ∧ entry k d a &&& PTE_P ≠ 0 ∧ entry k d a &&& L.PTE_S = 0

/-- Frames accounted to the children. -/
def held (cs : List Child) : Int :=
  (cs.map (fun c => ((c.used.length + c.own.length : Nat) : Int))).sum

/-- The view of the parent that the children's invariants depend on. -/
def SameParent (L : Layout) (k k' : Kernel) (P sz : Nat) : Prop :=
  ∀ a, a % PGSIZE = 0 → a < sz →
    (PrivateAt L k' P a ↔ PrivateAt L k P a) ∧
      PTE_ADDR (entry k' P a) = PTE_ADDR (entry k P a)

/-- The parent forks `n` times: `n` calls of `copyuvm` on the same address
space; the new directories in the order of the calls. -/
def forkN (L : Layout) : Nat → Kernel → Nat → Nat → Except String (Kernel × List Nat)
  | 0, k, _, _ => .ok (k, [])
  | n + 1, k, pgdir, sz =>
    match copyuvm L k pgdir sz with
    | .error e => .error e
    | .ok (k1, d) =>
      match forkN L n k1 pgdir sz with
      | .error e => .error e
      | .ok (k2, ds) => .ok (k2, d :: ds)

/-- A sequence of write faults, each given by the directory of the faulting
address space and the faulting address: the calls of `cowfault` in order, with
their return values. -/
def faultAll (L : Layout) : Kernel → List (Nat × Nat) → Except String (Kernel × List Int)
  | k, [] => .ok (k, [])
  | k, p :: fs =>
    match cowfault L k p.1 p.2 with
    | .error e => .error e
    | .ok (k1, r) =>
      match faultAll L k1 fs with
      | .error e => .error e
      | .ok (k2, rs) => .ok (k2, r :: rs)

/-- The address spaces `ds` are destroyed in order: the calls of `freevm`. -/
def freeAll (L : Layout) : Kernel → List Nat → Except String Kernel
  | k, [] => .ok k
  | k, d :: ds =>
    match freevm L k d with
    | .error e => .error e
    | .ok k1 => freeAll L k1 ds

/-- After two `copyuvm` of `exProc`: the children `0x8011b000` and
`0x80118000`. -/
def exFork2 : Kernel :=
  match forkN exLayout 2 exProc 0x8011e000 PGSIZE with
  | .ok (k, _) => k
  | .error _ => exProc

/-! ## vm.c and sysproc.c: growth, shrinking and the shared page -/

/-- Conversion of a `uint` to `int`: the cast `(int)a`. -/
def toInt (x : Nat) : Int :=
  if u32 x < 2147483648 then (u32 x : Int) else (u32 x : Int) - 4294967296

/-- The loop of `find_shared`, entered with the scan address `a`:
`while(a < sz && a < KERNBASE)`. -/
def find_sharedLoop (L : Layout) : Nat → Kernel → Nat → Nat → Nat → Except String (Kernel × Int)
  | 0, _, _, _, _ => .error "out of fuel"
  | fuel + 1, k, pgdir, sz, a =>
    if a < sz ∧ a < KERNBASE then
      let (k1, pte) := walkpgdir L k pgdir a 0
      if pte ≠ 0 ∧ deref k1 pte &&& L.PTE_S ≠ 0 then .ok (k1, toInt a)
      else find_sharedLoop L fuel k1 pgdir sz (u32 (a + PGSIZE))
    else .ok (k, -1)

/-- `find_shared(pgdir, sz)`: the new state and the returned address (`-1`
when there is none). -/
def find_shared (L : Layout) (k : Kernel) (pgdir sz : Nat) : Except String (Kernel × Int) :=
  find_sharedLoop L LOOP_FUEL k pgdir sz 0

/-- The statements of `unmap_shared` for the entry at `pte` that its scan found
at the address `a`: the frame is released if the entry is present, and the
entry is cleared. -/
def unmap_sharedHit (L : Layout) (k : Kernel) (pte a : Nat) : Except String (Kernel × Int) :=
  if deref k pte &&& PTE_P ≠ 0 then
    let pa := PTE_ADDR (deref k pte)
    if pa = 0 then .error "kfree"
    else
      match kfree L k (P2V pa) with
      | .error e => .error e
      | .ok k1 => .ok (store k1 pte 0, toInt a)
  else .ok (store k pte 0, toInt a)

/-- The loop of `unmap_shared`, entered with the scan address `a`. -/
def unmap_sharedLoop (L : Layout) : Nat → Kernel → Nat → Nat → Nat → Except String (Kernel × Int)
  | 0, _, _, _, _ => .error "out of fuel"
  | fuel + 1, k, pgdir, sz, a =>
    if a < sz ∧ a < KERNBASE then
      let (k1, pte) := walkpgdir L k pgdir a 0
      if pte ≠ 0 ∧ deref k1 pte &&& L.PTE_S ≠ 0 then unmap_sharedHit L k1 pte a
      else unmap_sharedLoop L fuel k1 pgdir sz (u32 (a + PGSIZE))
    else .ok (k, -1)

/-- `unmap_shared(pgdir, sz)`: the new state and the returned address (`-1`
when no entry has the shared bit). -/
def unmap_shared (L : Layout) (k : Kernel) (pgdir sz : Nat) : Except String (Kernel × Int) :=
  unmap_sharedLoop L LOOP_FUEL k pgdir sz 0

/-- The body of the loop of `allocuvm` for the page `a`: the new state and
whether the loop goes on; otherwise what was mapped has been taken back and
`allocuvm` returns 0. -/
def allocuvmStep (L : Layout) (k : Kernel) (pgdir oldsz newsz a : Nat) :
    Except String (Kernel × Bool) :=
  let (k1, mem) := kalloc L k
  if mem = 0 then
    match deallocuvm L k1 pgdir newsz oldsz with
    | .error e => .error e
    | .ok (k2, _) => .ok (k2, false)
  else
    let k2 := memset k1 mem 0
    match mappages L k2 pgdir a PGSIZE (V2P mem) (PTE_W ||| PTE_U) with
    | .error e => .error e
    | .ok (k3, r) =>
      if r < 0 then
        match deallocuvm L k3 pgdir newsz oldsz with
        | .error e => .error e
        | .ok (k4, _) =>
          match kfree L k4 mem with
          | .error e => .error e
          | .ok k5 => .ok (k5, false)
      else .ok (k3, true)

/-- The loop of `allocuvm`, entered with the page address `a`:
`for(; a < newsz; a += PGSIZE)`. -/
def allocuvmLoop (L : Layout) : Nat → Kernel → Nat → Nat → Nat → Nat →
    Except String (Kernel × Int)
  | 0, _, _, _, _, _ => .error "out of fuel"
  | fuel + 1, k, pgdir, oldsz, newsz, a =>
    if a < newsz then
      match allocuvmStep L k pgdir oldsz newsz a with
      | .error e => .error e
      | .ok (k1, true) => allocuvmLoop L fuel k1 pgdir oldsz newsz (u32 (a + PGSIZE))
      | .ok (k1, false) => .ok (k1, 0)
    else .ok (k, toInt newsz)

/-- `allocuvm(pgdir, oldsz, newsz)`: the new state and the returned size (`0`
on failure). -/
def allocuvm (L : Layout) (k : Kernel) (pgdir oldsz newsz : Nat) :
    Except String (Kernel × Int) :=
  if newsz ≥ KERNBASE then .ok (k, 0)
  else if newsz < oldsz then .ok (k, toInt oldsz)
  else allocuvmLoop L LOOP_FUEL k pgdir oldsz newsz (PGROUNDUP oldsz)

/-- The fields of `struct proc` that `sysproc.c` uses in the shared-page system
calls: `p->pgdir` and `p->sz`. -/
structure Proc where
  pgdir : Nat
  sz : Nat

/-- `sys_mapshared()` for the calling process `p`: the new state, the process
and the returned address (`0` on failure). -/
def sys_mapshared (L : Layout) (k : Kernel) (p : Proc) : Except String (Kernel × Proc × Int) :=
  let addr := p.sz
  if u32 (addr + PGSIZE) ≥ KERNBASE then .ok (k, p, 0)
  else
    let (k1, mem) := kalloc L k
    if mem = 0 then .ok (k1, p, 0)
    else
      let k2 := memset k1 mem 0
      match mappages L k2 p.pgdir addr PGSIZE (V2P mem) (PTE_W ||| PTE_U ||| L.PTE_S) with
      | .error e => .error e
      | .ok (k3, r) =>
        if r < 0 then
          match kfree L k3 mem with
          | .error e => .error e
          | .ok k4 => .ok (k4, p, 0)
        else .ok (k3, { p with sz := u32 (p.sz + PGSIZE) }, toInt addr)

/-- `sys_getshared()` for the calling process `p`. -/
def sys_getshared (L : Layout) (k : Kernel) (p : Proc) : Except String (Kernel × Int) :=
  match find_shared L k p.pgdir p.sz with
  | .error e => .error e
  | .ok (k1, vaddr) => if vaddr < 0 then .ok (k1, 0) else .ok (k1, vaddr)

/-- `sys_unmapshared()` for the calling process `p`. -/
def sys_unmapshared (L : Layout) (k : Kernel) (p : Proc) :
    Except String (Kernel × Proc × Int) :=
  match unmap_shared L k p.pgdir p.sz with
  | .error e => .error e
  | .ok (k1, vaddr) =>
    if vaddr < 0 then .ok (k1, p, -1)
    else if u32 (vaddr.toNat + PGSIZE) = p.sz then
      .ok (k1, { p with sz := u32 (p.sz + 4294967296 - PGSIZE) }, 0)
    else .ok (k1, p, 0)

/-- The `n` page addresses from `a` on. -/
def pagesFrom (a : Nat) : Nat → List Nat
  | 0 => []
  | n + 1 => a :: pagesFrom (a + PGSIZE) n

/-- Number of page addresses in `[a, b)`, for a page address `a`. -/
def pageCount (a b : Nat) : Nat := (b + (PGSIZE - 1) - a) / PGSIZE

/-- The frame that shrinking has to release for the page `a`: the frame of its
leaf entry, if that entry is present with the shared bit clear. -/
def releasedAt (L : Layout) (k : Kernel) (pgdir a : Nat) : Option Nat :=
  if leafSlot k pgdir a ≠ 0 ∧ entry k pgdir a &&& PTE_P ≠ 0 ∧
      entry k pgdir a &&& L.PTE_S = 0 then
    some (P2V (PTE_ADDR (entry k pgdir a)))
  else none

/-- The calls `kfree(v)` for the frames `vs`, one call for each element of
the list, in the order of the list. -/
def kfreeEach (L : Layout) : Kernel → List Nat → Except String Kernel
  | k, [] => .ok k
  | k, v :: vs =>
    match kfree L k v with
    | .error e => .error e
    | .ok k1 => kfreeEach L k1 vs

/-- The states `k` and `kf` have the same allocator state (counts, head of the
free list, free count, lock flag) and the same memory outside the set `S`. -/
def AgreeOff (S : Nat → Prop) (k kf : Kernel) : Prop :=
  k.refcount = kf.refcount ∧ k.freelist = kf.freelist ∧
    k.num_free_pages = kf.num_free_pages ∧ k.use_lock = kf.use_lock ∧
    ∀ x, ¬ S x → k.mem x = kf.mem x

/-- The page `a` of `pgdir` has a leaf entry with the shared bit set. -/
def SharedAt (L : Layout) (k : Kernel) (pgdir a : Nat) : Prop :=
  leafSlot k pgdir a ≠ 0 ∧ entry k pgdir a &&& L.PTE_S ≠ 0

instance SharedAt.dec (L : Layout) (k : Kernel) (pgdir a : Nat) :
    Decidable (SharedAt L k pgdir a) :=
  inferInstanceAs (Decidable (leafSlot k pgdir a ≠ 0 ∧ entry k pgdir a &&& L.PTE_S ≠ 0))

/-- The directory `pgdir` and its user page tables are pages of their own,
none of them among the frames `l`. -/
def DirOK (L : Layout) (k : Kernel) (l : List Nat) (pgdir : Nat) : Prop :=
  SrcOK L k l pgdir 0

/-- The frame at `v` holds neither the directory `pgdir` nor one of its user
page tables. -/
def OffTables (k : Kernel) (pgdir v : Nat) : Prop :=
  v ≠ pgdir ∧ ∀ j, j < 512 → pdeAt k pgdir j &&& PTE_P ≠ 0 → tableOf k pgdir j ≠ v

instance OffTables.dec (k : Kernel) (pgdir v : Nat) : Decidable (OffTables k pgdir v) :=
  inferInstanceAs (Decidable (v ≠ pgdir ∧
    ∀ j, j < 512 → pdeAt k pgdir j &&& PTE_P ≠ 0 → tableOf k pgdir j ≠ v))

/-- Assumptions on the constants of the absent headers under which a page
mapped by `allocuvm` is one that `deallocuvm` releases: the kernel image ends
above `KERNBASE`, and `PTE_S` is a flag bit other than `PTE_P`, `PTE_W` and
`PTE_U`. -/
def LayoutGrow (L : Layout) : Prop :=
  LayoutOK L ∧ KERNBASE < L.kend ∧ L.PTE_S < 4096 ∧
    L.PTE_S &&& (PTE_W ||| PTE_U ||| PTE_P) = 0

instance LayoutGrow.dec (L : Layout) : Decidable (LayoutGrow L) :=
  inferInstanceAs (Decidable (LayoutOK L ∧ KERNBASE < L.kend ∧ L.PTE_S < 4096 ∧
    L.PTE_S &&& (PTE_W ||| PTE_U ||| PTE_P) = 0))

/-- The address space `pgdir` while pages from `a0` on are being added to it or
taken back, relative to the state `k0` with the free list `l0` in which this
began: `D` lists the added pages with their frames, `T` the page tables taken
from the free list, `X` frames taken but not mapped, `l` is the free list.
Pages that are not in `D` have the entry they had in `k0`, or a cleared one. -/
structure RangeInv (L : Layout) (k0 : Kernel) (l0 : List Nat) (pgdir a0 top : Nat)
    (k : Kernel) (D : List (Nat × Nat)) (T X l : List Nat) : Prop where
  perm : (D.map Prod.snd ++ (T ++ (X ++ l))).Perm l0
  free : FreeOK L k l
  lock : k.use_lock = true
  count : k.num_free_pages =
    k0.num_free_pages - ((D.length + T.length + X.length : Nat) : Int)
  dir : DirOK L k (D.map Prod.snd ++ (X ++ l)) pgdir
  tnz : ∀ j, j < 512 → pdeAt k pgdir j &&& PTE_P ≠ 0 → tableOf k pgdir j ≠ 0
  olddir : ∀ j, j < 1024 → pdeAt k0 pgdir j &&& PTE_P ≠ 0 → pdeAt k pgdir j = pdeAt k0 pgdir j
  tcnt : T.length + pdeCount k0 pgdir = pdeCount k pgdir
  data : ∀ p ∈ D, p.1 % PGSIZE = 0 ∧ a0 ≤ p.1 ∧ p.1 < KERNBASE ∧
    leafSlot k pgdir p.1 ≠ 0 ∧
    entry k pgdir p.1 = V2P p.2 ||| (PTE_W ||| PTE_U) ||| PTE_P ∧
    k.refcount (V2P p.2 / PGSIZE) = 1 ∧ ∀ x, p.2 ≤ x → x < p.2 + PGSIZE → k.mem x = 0
  dnd : (D.map Prod.fst).Nodup
  xrc : ∀ x ∈ X, k.refcount (V2P x / PGSIZE) = 1
  rest : ∀ b, b % PGSIZE = 0 → b < KERNBASE → (∀ g, (b, g) ∉ D) →
    leafSlot k pgdir b ≠ 0 →
    (leafSlot k0 pgdir b ≠ 0 ∧
      (entry k pgdir b = entry k0 pgdir b ∨ (a0 ≤ b ∧ b < top ∧ entry k pgdir b = 0))) ∨
    (leafSlot k0 pgdir b = 0 ∧ entry k pgdir b = 0)
  rcold : ∀ j, (∀ u ∈ l0, j ≠ V2P u / PGSIZE) → k.refcount j = k0.refcount j
  dtop : ∀ p ∈ D, p.1 < top

/-- Frames that `allocuvm` takes for the page `b` of a range that starts at
`a0`: one for the page, and one more for a page table if the directory entry
of `b` is not present and `b` is the first page of the range that needs it. -/
def growCost (k : Kernel) (pgdir a0 b : Nat) : Nat :=
  if ¬ (pdeAt k pgdir (PDX b) &&& PTE_P ≠ 0) ∧ (b = a0 ∨ PTX b = 0) then 2 else 1

/-- Frames that `allocuvm(pgdir, oldsz, newsz)` takes when it succeeds. -/
def framesNeeded (k : Kernel) (pgdir oldsz newsz : Nat) : Nat :=
  ((pagesFrom (PGROUNDUP oldsz) (pageCount (PGROUNDUP oldsz) newsz)).map
    (growCost k pgdir (PGROUNDUP oldsz))).sum

/-- The example process after `sys_mapshared`: the frame `0x8011b000` is
mapped at the address `0x1000` with the shared bit, and the size is `0x2000`. -/
def exShared : Kernel :=
  match sys_mapshared exLayout exProc ⟨0x8011e000, PGSIZE⟩ with
  | .ok (k, _, _) => k
  | .error _ => exProc

/-- After `copyuvm` of `exShared`: the child directory is `0x8011a000`. -/
def exSharedFork : Kernel :=
  match copyuvm exLayout exShared 0x8011e000 0x2000 with
  | .ok (k, _) => k
  | .error _ => exShared

/-- After `allocuvm` of `exShared` from `0x2000` to `0x4000`: two more pages. -/
def exGrow : Kernel :=
  match allocuvm exLayout exShared 0x8011e000 0x2000 0x4000 with
  | .ok (k, _) => k
  | .error _ => exShared

/-- The state after `n` calls of `kalloc` whose frames are kept by the caller. -/
def kallocN (L : Layout) : Nat → Kernel → Kernel
  | 0, k => k
  | n + 1, k => kallocN L n (kalloc L k).1

/-- The fresh address space of `exKvm` when memory is short: eleven frames
are in use elsewhere and two are free. -/
def exKvmLow : Kernel := kallocN exLayout 11 exKvm

/-- After `allocuvm` of `exKvmLow` from `0` to `0x2000`, which runs out of
frames at the second page. -/
def exGrowFail : Kernel :=
  match allocuvm exLayout exKvmLow 0x8011e000 0 0x2000 with
  | .ok (k, _) => k
  | .error _ => exKvmLow

/-- The example process when memory is short: ten frames are in use elsewhere
and two are free. -/
def exProcLow : Kernel := kallocN exLayout 10 exProc

/-- The state after `setupkvm` in `exProcLow`: both free frames are taken, for
the directory `0x80111000` and its kernel page table. -/
def exForkKvm : Kernel :=
  match setupkvm exLayout exProcLow with
  | .ok (k, _) => k
  | .error _ => exProcLow

/-! ## vm.c and sysproc.c: counting pages and sys_mmap -/

/-- The loop of `countppages`, entered with the scan address `a` and the count
so far: `while(a < sz && a < KERNBASE)`. -/
def countppagesLoop (L : Layout) : Nat → Kernel → Nat → Nat → Nat → Nat →
    Except String (Kernel × Nat)
  | 0, _, _, _, _, _ => .error "out of fuel"
  | fuel + 1, k, pgdir, sz, a, count =>
    if a < sz ∧ a < KERNBASE then
      let (k1, pte) := walkpgdir L k pgdir a 0
      if pte ≠ 0 ∧ deref k1 pte &&& PTE_P ≠ 0 then
        countppagesLoop L fuel k1 pgdir sz (u32 (a + PGSIZE)) (u32 (count + 1))
      else countppagesLoop L fuel k1 pgdir sz (u32 (a + PGSIZE)) count
    else .ok (k, count)

/-- `countppages(pgdir, sz)`: the new state and the returned count. -/
def countppages (L : Layout) (k : Kernel) (pgdir sz : Nat) : Except String (Kernel × Nat) :=
  countppagesLoop L LOOP_FUEL k pgdir sz 0 0

/-- The fields of `struct proc` that `sys_mmap` reads and writes: `p->sz`,
`p->mmap_start` and `p->mmap_end`. -/
structure MmapProc where
  sz : Nat
  mmap_start : Nat
  mmap_end : Nat

/-- `sys_mmap()` for the calling process `p`; `arg` is what `argint(0, &n)`
fetched, `none` when it failed.  The result is the state of the allocator, the
process and the returned address (`0` on error). -/
def sys_mmap (k : Kernel) (p : MmapProc) (arg : Option Int) : Kernel × MmapProc × Int :=
  match arg with
  | none => (k, p, 0)
  | some n =>
    if n ≤ 0 ∨ n % 4096 ≠ 0 then (k, p, 0)
    else if u32 (p.sz + n.toNat) ≥ KERNBASE then (k, p, 0)
    else
      let new_addr := p.sz
      let p1 := { p with sz := u32 (p.sz + n.toNat) }
      let p2 := if p1.mmap_start = 0 then { p1 with mmap_start := new_addr } else p1
      (k, { p2 with mmap_end := p2.sz }, toInt new_addr)

/-- After a second `kfree` of the frame that is already free in `exFreed`. -/
def exFreedTwice : Kernel :=
  match kfree exLayout exFreed 0x8011f000 with
  | .ok k => k
  | .error _ => exFreed

/-- The example process with one more page, the frame `0x8011b000` mapped at
`0x1000` for the user with the shared bit but without the writable bit. -/
def exSharedRo : Kernel :=
  match mappages exLayout (memset (kalloc exLayout exProc).1 0x8011b000 0) 0x8011e000 0x1000
      PGSIZE (V2P 0x8011b000) (PTE_U ||| exLayout.PTE_S) with
  | .ok (k, _) => k
  | .error _ => exProc

/-- After the write fault on the page at `0x1000` of `exSharedRo`. -/
def exSharedRoFault : Kernel :=
  match cowfault exLayout exSharedRo 0x8011e000 0x1000 with
  | .ok (k, _) => k
  | .error _ => exSharedRo

/-- The page `a` is mapped in `pgdir`: its leaf entry exists and is present. -/
def MappedAt (k : Kernel) (pgdir a : Nat) : Prop :=
  leafSlot k pgdir a ≠ 0 ∧ entry k pgdir a &&& PTE_P ≠ 0

instance MappedAt.dec (k : Kernel) (pgdir a : Nat) : Decidable (MappedAt k pgdir a) :=
  inferInstanceAs (Decidable (leafSlot k pgdir a ≠ 0 ∧ entry k pgdir a &&& PTE_P ≠ 0))

/-- Number of mapped pages among the page addresses below `sz`. -/
def mappedCount (k : Kernel) (pgdir sz : Nat) : Nat :=
  (pagesFrom 0 (pageCount 0 sz)).countP (fun b => decide (MappedAt k pgdir b))

/-- The last page of the range of `mappages(pgdir, va, size, ..)`:
`PGROUNDDOWN(va + size - 1)`. -/
def mapLast (va size : Nat) : Nat := PGROUNDDOWN (u32 (u32 (va + size) + 4294967296 - 1))

/-- Number of pages of the range of `mappages(pgdir, va, size, ..)`. -/
def mapCount (va size : Nat) : Nat := (mapLast va size - PGROUNDDOWN va) / PGSIZE + 1

/-- Page-table frames that `mappages` takes for the page `b` of a range that
starts at `a0`: one if the directory entry of `b` is not present and `b` is the
first page of the range that needs it. -/
def tableCost (k : Kernel) (d a0 b : Nat) : Nat :=
  if ¬ (pdeAt k d (PDX b) &&& PTE_P ≠ 0) ∧ (b = a0 ∨ PTX b = 0) then 1 else 0

/-- Page-table frames that `mappages` takes for the first `n` pages from `a0`. -/
def tableSum (k : Kernel) (d a0 n : Nat) : Nat :=
  ((pagesFrom a0 n).map (tableCost k d a0)).sum

/-- Page-table frames that `mappages(pgdir, va, size, ..)` takes when it
succeeds. -/
def tablesNeeded (k : Kernel) (d va size : Nat) : Nat :=
  tableSum k d (PGROUNDDOWN va) (mapCount va size)

/-- The loop of `mappages` before it handles page number `i` of the range that
starts at `a0`, relative to the state `ks` in which the call began: the pages
before have their new entries, all other leaf entries are those of `ks`, and
the page tables added are those the pages before needed. -/
structure MapInv (L : Layout) (k0 : Kernel) (l0 : List Nat) (d : Nat) (W R : Nat → Prop)
    (ks : Kernel) (a0 pa perm i : Nat) (k : Kernel) : Prop where
  build : ∃ used l, BuildInv L k0 l0 d W R k used l
  tabs : pdeCount k d = pdeCount ks d + tableSum ks d a0 i
  keep : ∀ j, j < NPDENTRIES → pdeAt ks d j &&& PTE_P ≠ 0 → pdeAt k d j &&& PTE_P ≠ 0
  fresh : ∀ j, j < NPDENTRIES → pdeAt k d j &&& PTE_P ≠ 0 → ¬ (pdeAt ks d j &&& PTE_P ≠ 0) →
    ∃ i', i' < i ∧ PDX (a0 + i' * PGSIZE) = j
  done : ∀ i', i' < i → leafSlot k d (a0 + i' * PGSIZE) ≠ 0 ∧
    entry k d (a0 + i' * PGSIZE) = u32 (u32 (pa + i' * PGSIZE) ||| perm ||| PTE_P) ∧
    ¬ MappedAt ks d (a0 + i' * PGSIZE)
  rest : ∀ b, b < 4294967296 → (∀ i', i' < i → b / PGSIZE ≠ (a0 + i' * PGSIZE) / PGSIZE) →
    (leafSlot ks d b ≠ 0 → leafSlot k d b = leafSlot ks d b ∧ entry k d b = entry ks d b) ∧
    (leafSlot ks d b = 0 → leafSlot k d b ≠ 0 → entry k d b = 0)

/-! ## Allocator: basic facts -/

theorem FreeChain_congr (k k' : Kernel) (l : List Nat) :
    ∀ h, (∀ g ∈ l, k'.mem g = k.mem g) → FreeChain k h l → FreeChain k' h l := by
  induction l with
  | nil => intro h _ hc; exact hc
  | cons g gs ih =>
    intro h hm hc
    obtain ⟨h1, h2, h3, h4⟩ := hc
    refine ⟨h1, h2, h3, ?_⟩
    have : deref k' g = deref k g := by simp [deref, hm g (List.mem_cons_self _ _)]
    rw [this]
    exact ih _ (fun x hx => hm x (List.mem_cons_of_mem _ hx)) h4

theorem FreeChain_unique (k : Kernel) (l1 : List Nat) :
    ∀ h l2, FreeChain k h l1 → FreeChain k h l2 → l1 = l2 := by
  induction l1 with
  | nil =>
    intro h l2 h1 h2
    cases l2 with
    | nil => rfl
    | cons g gs => exact absurd (h1 ▸ h2.1).symm h2.2.1
  | cons g gs ih =>
    intro h l2 h1 h2
    cases l2 with
    | nil =>
      have : h = 0 := h2
      exact absurd (this ▸ h1.1).symm h1.2.1
    | cons g2 gs2 =>
      have e : g = g2 := h1.1.symm.trans h2.1
      subst e
      rw [ih _ _ h1.2.2.2 h2.2.2.2]

theorem FreeChain_head_lt (k : Kernel) (h : Nat) (l : List Nat) (hl : FreeChain k h l) :
    h < 4294967296 := by
  cases l with
  | nil => have : h = 0 := hl; omega
  | cons g gs => have := hl.1; have := hl.2.2.1; omega

theorem idx_lt_MAX_PAGES (L : Layout) (v : Nat) (hP : L.PHYSTOP % PGSIZE = 0)
    (hphys : V2P v < L.PHYSTOP) : V2P v / PGSIZE < MAX_PAGES L := by
  unfold MAX_PAGES
  unfold V2P u32 KERNBASE PGSIZE at *
  omega

/-- Pushing a page outside every listed frame extends the chain. -/
theorem FreeList_kfreePush (k : Kernel) (v : Nat) (l : List Nat) (hl : FreeList k l)
    (hv0 : v ≠ 0) (hv32 : v < 4294967296) (hout : ∀ g ∈ l, Outside v g) :
    FreeList (kfreePush k v) (v :: l) := by
  refine ⟨rfl, hv0, hv32, ?_⟩
  have hd : deref (kfreePush k v) v = k.freelist := by
    have hf : k.freelist < 4294967296 := FreeChain_head_lt k _ l hl
    simp [deref, kfreePush, store, memset, u32]
    omega
  rw [hd]
  apply FreeChain_congr k _ l _ _ hl
  intro g hg
  have ho := hout g hg
  have : g ≠ v := by unfold Outside PGSIZE at ho; omega
  simp [kfreePush, store, memset, this]
  intro h1 h2
  unfold Outside at ho; omega

/-- On a tracked frame with a positive count `kfree` only decrements when the
count stays positive, and otherwise junk-fills and pushes the frame. -/
theorem kfree_eq_of_pos (L : Layout) (k : Kernel) (v : Nat) (c : Int)
    (hP : L.PHYSTOP % PGSIZE = 0) (hlock : k.use_lock = true) (hv : ValidFrame L v)
    (hc : k.refcount (V2P v / PGSIZE) = c) (hpos : 1 ≤ c) :
    kfree L k v = .ok (if 2 ≤ c then setref k (V2P v / PGSIZE) (c - 1)
      else kfreePush (setref k (V2P v / PGSIZE) (c - 1)) v) := by
  obtain ⟨hal, hend, hphys⟩ := hv
  have hidx := idx_lt_MAX_PAGES L v hP hphys
  have hnl : ¬ (MAX_PAGES L ≤ V2P v / PGSIZE) := by omega
  have hA : ¬ (v < L.kend) := by omega
  have hB : ¬ (L.PHYSTOP ≤ V2P v) := by omega
  have hC : ¬ (c ≤ 0) := by omega
  by_cases h2 : 2 ≤ c
  · have hD : 0 < c - 1 := by omega
    simp [kfree, decref, hal, hA, hB, hC, hD, hidx, hlock, hnl, hc, setref, h2]
  · have hD : ¬ (0 < c - 1) := by omega
    simp [kfree, decref, hal, hA, hB, hC, hD, hidx, hlock, hnl, hc, setref, h2]

/-- On a tracked frame whose count is not positive `kfree` junk-fills and
pushes the frame. -/
theorem kfree_eq_of_nonpos (L : Layout) (k : Kernel) (v : Nat)
    (hP : L.PHYSTOP % PGSIZE = 0) (hlock : k.use_lock = true) (hv : ValidFrame L v)
    (hc : k.refcount (V2P v / PGSIZE) ≤ 0) :
    kfree L k v = .ok (kfreePush k v) := by
  obtain ⟨hal, hend, hphys⟩ := hv
  have hidx := idx_lt_MAX_PAGES L v hP hphys
  have hnl : ¬ (MAX_PAGES L ≤ V2P v / PGSIZE) := by omega
  have hA : ¬ (v < L.kend) := by omega
  have hB : ¬ (L.PHYSTOP ≤ V2P v) := by omega
  simp [kfree, decref, hal, hA, hB, hc, hidx, hlock, hnl]

/-- Result of `kalloc` on a non-empty list. -/
theorem kalloc_eq_of_ne (L : Layout) (k : Kernel) (h : k.freelist ≠ 0) :
    kalloc L k =
      (if V2P k.freelist / PGSIZE < MAX_PAGES L ∧ k.use_lock = true ∧
            k.refcount (V2P k.freelist / PGSIZE) = 0 then
          setref { k with freelist := deref k k.freelist,
                          num_free_pages := k.num_free_pages - 1 }
            (V2P k.freelist / PGSIZE) 1
        else { k with freelist := deref k k.freelist,
                      num_free_pages := k.num_free_pages - 1 },
       k.freelist) := by
  unfold kalloc
  simp only [h, if_false]
  split <;> rfl

/-! ## Allocator: the claims -/

/-- C6 (code at the failing input): the frame at `0x8011f000` is on the free
list of `exFreed` with count 0, and is the head of that list.  A second `kfree`
of it succeeds, raises the free-frame count by 1 and links the frame to itself,
so the frame is pushed a second time and the list becomes cyclic. -/
theorem kfree_double_free_pushes_again :
    kfree exLayout exAlloc 0x8011f000 = .ok exFreed ∧
      exFreed.use_lock = true ∧ ValidFrame exLayout 0x8011f000 ∧
      exFreed.refcount (V2P 0x8011f000 / PGSIZE) = 0 ∧
      FreeList exFreed exFrames ∧
      ∃ k', kfree exLayout exFreed 0x8011f000 = .ok k' ∧
        k'.num_free_pages = exFreed.num_free_pages + 1 ∧
        k'.freelist = 0x8011f000 ∧ deref k' 0x8011f000 = 0x8011f000 :=
  ⟨rfl, by decide, by decide, by decide, by decide, _, rfl, by decide, by decide, by decide⟩

theorem u32_lt (x : Nat) : u32 x < 4294967296 := by unfold u32; omega
theorem u32_u32 (x : Nat) : u32 (u32 x) = u32 x := by unfold u32; omega
theorem u32_of_lt (x : Nat) (h : x < 4294967296) : u32 x = x := by unfold u32; omega
theorem deref_lt (k : Kernel) (p : Nat) : deref k p < 4294967296 := u32_lt _

theorem or_eq_add (a f : Nat) (ha : a % 4096 = 0) (hf : f < 4096) : a ||| f = a + f := by
  have h := @Nat.mul_add_lt_is_or 12 f (by simpa using hf) (a / 4096)
  have e : 2 ^ 12 * (a / 4096) = a := by
    have : (2:Nat) ^ 12 = 4096 := by norm_num
    rw [this]; omega
  rw [e] at h
  exact h.symm

theorem addr_or_flags (e : Nat) : e / 4096 * 4096 ||| e % 4096 = e := by
  rw [or_eq_add _ _ (by omega) (by omega)]
  omega

theorem or_one_of_present (e : Nat) (h : e &&& 1 ≠ 0) : e ||| 1 = e := by
  rw [Nat.and_one_is_mod] at h
  have h2 := @Nat.mul_add_lt_is_or 1 1 (by norm_num) (e / 2)
  have e2 : 2 ^ 1 * (e / 2) + 1 = e := by omega
  rw [e2] at h2
  rw [h2, Nat.or_assoc, Nat.or_self]

theorem flags_or_lt (f b : Nat) (hf : f < 4096) (hb : b < 4096) : f ||| b < 4096 := by
  have := @Nat.or_lt_two_pow f b 12 (by simpa using hf) (by simpa using hb)
  simpa using this

theorem or_lt_u32 (a b : Nat) (ha : a < 4294967296) (hb : b < 4294967296) :
    a ||| b < 4294967296 := by
  have := @Nat.or_lt_two_pow a b 32 (by simpa using ha) (by simpa using hb)
  simpa using this

/-- Or-ing flag bits into an entry keeps its frame address. -/
theorem PTE_ADDR_or_flags (e b : Nat) (he : e < 4294967296) (hb : b < 4096) :
    PTE_ADDR (e ||| b) = PTE_ADDR e := by
  have h1 : e ||| b = e / 4096 * 4096 + (e % 4096 ||| b) := by
    conv_lhs => rw [← addr_or_flags e, Nat.or_assoc]
    exact or_eq_add _ _ (by omega) (flags_or_lt _ _ (by omega) hb)
  have h2 := flags_or_lt (e % 4096) b (by omega) hb
  have h3 := or_lt_u32 e b he (by omega)
  unfold PTE_ADDR u32
  omega

theorem walkpgdir_zero (L : Layout) (k : Kernel) (pgdir va : Nat) :
    walkpgdir L k pgdir va 0 = (k, leafSlot k pgdir va) := by
  unfold walkpgdir leafSlot
  by_cases h : deref k (pgdir + 4 * PDX va) &&& PTE_P ≠ 0
  · simp [h]
  · simp [h]

theorem deref_store_same (k : Kernel) (p x : Nat) : deref (store k p x) p = u32 x := by
  simp [deref, store]

theorem deref_store_ne (k : Kernel) (p x q : Nat) (h : q ≠ p) :
    deref (store k p x) q = deref k q := by
  simp [deref, store, h]

theorem deref_setref (k : Kernel) (i : Nat) (c : Int) (p : Nat) :
    deref (setref k i c) p = deref k p := rfl

theorem P2V_PTE_ADDR_aligned (e : Nat) : P2V (PTE_ADDR e) % PGSIZE = 0 := by
  unfold P2V PTE_ADDR u32 KERNBASE PGSIZE; omega

theorem getrefcount_ok (L : Layout) (k : Kernel) (pa : Nat) (c : Int)
    (h : getrefcount L k pa = .ok c) (hc : c ≠ 0) :
    pa / PGSIZE < MAX_PAGES L ∧ k.use_lock = true ∧ k.refcount (pa / PGSIZE) = c := by
  unfold getrefcount at h
  by_cases h1 : pa / PGSIZE ≥ MAX_PAGES L
  · simp [h1] at h
  · by_cases h2 : k.use_lock = true
    · simp [h1, h2] at h
      exact ⟨by omega, h2, h⟩
    · simp [h1, h2] at h
      exact absurd h.symm hc

/-- The state `kalloc` leaves behind. -/
theorem kalloc_fields (L : Layout) (k : Kernel) (h : k.freelist ≠ 0) :
    (kalloc L k).2 = k.freelist ∧ (kalloc L k).1.mem = k.mem ∧
      (kalloc L k).1.use_lock = k.use_lock ∧
      (kalloc L k).1.freelist = deref k k.freelist ∧
      (kalloc L k).1.num_free_pages = k.num_free_pages - 1 ∧
      (∀ i, i ≠ V2P k.freelist / PGSIZE → (kalloc L k).1.refcount i = k.refcount i) ∧
      (k.refcount (V2P k.freelist / PGSIZE) ≠ 0 →
        (kalloc L k).1.refcount (V2P k.freelist / PGSIZE) =
          k.refcount (V2P k.freelist / PGSIZE)) := by
  rw [kalloc_eq_of_ne L k h]
  split
  · refine ⟨rfl, rfl, rfl, rfl, rfl, fun i hi => by simp [setref, hi], fun hz => ?_⟩
    rename_i hc
    exact absurd hc.2.2 hz
  · exact ⟨rfl, rfl, rfl, rfl, rfl, fun _ _ => rfl, fun _ => rfl⟩

/-! ## The copy-on-write fault handler -/

/-- C1: when the leaf entry for the faulting address is present and not
writable, its frame `F` has reference count `c ≥ 2` and the free list has the
page `g` at its head, `cowfault` returns 0.  It takes exactly `g` from the free
list (the head becomes the link stored in `g`, the free-frame count drops by 1,
and a list `g :: l` becomes `l`), makes the 4096 bytes of `g` equal to those of
`F`, lowers the count of `F` to `c - 1`, leaves the contents of `F` and every
word outside `g` other than the faulting entry unchanged (so the entries of
every other address space are unchanged), and rewrites the faulting entry to
the address of `g` with the old flags plus the writable and present bits.
The entry is assumed to be stored neither in `g` nor in `F`. -/
theorem cowfault_shared (L : Layout) (k : Kernel) (pgdir va pte g : Nat) (c : Int)
    (hslot : leafSlot k pgdir (PGROUNDDOWN va) = pte) (hne : pte ≠ 0)
    (hP : deref k pte &&& PTE_P ≠ 0) (hW : deref k pte &&& PTE_W = 0)
    (hrc : getrefcount L k (PTE_ADDR (deref k pte)) = .ok c) (hc : 2 ≤ c)
    (hg : k.freelist = g) (hg0 : g ≠ 0) (hgal : g % PGSIZE = 0) (hg32 : g < 4294967296)
    (hsepG : Outside g pte) (hsepF : Outside (P2V (PTE_ADDR (deref k pte))) pte) :
    ∃ k', cowfault L k pgdir va = .ok (k', 0) ∧
      k'.freelist = deref k g ∧ k'.num_free_pages = k.num_free_pages - 1 ∧
      (∀ l, FreeList k (g :: l) → (∀ x ∈ l, Outside g x ∧ x ≠ pte) → FreeList k' l) ∧
      (∀ i, i < PGSIZE → k'.mem (g + i) = k.mem (P2V (PTE_ADDR (deref k pte)) + i)) ∧
      k'.refcount (PTE_ADDR (deref k pte) / PGSIZE) = c - 1 ∧
      (∀ j, j ≠ PTE_ADDR (deref k pte) / PGSIZE → j ≠ V2P g / PGSIZE →
        k'.refcount j = k.refcount j) ∧
      (∀ i, i < PGSIZE → k'.mem (P2V (PTE_ADDR (deref k pte)) + i) =
        k.mem (P2V (PTE_ADDR (deref k pte)) + i)) ∧
      (∀ a, Outside g a → a ≠ pte → k'.mem a = k.mem a) ∧
      deref k' pte = V2P g ||| (PTE_FLAGS (deref k pte) ||| PTE_W) ||| PTE_P ∧
      PTE_ADDR (deref k' pte) = V2P g ∧
      PTE_FLAGS (deref k' pte) = PTE_FLAGS (deref k pte) ||| PTE_W := by
  have hw : walkpgdir L k pgdir (PGROUNDDOWN va) 0 = (k, pte) := by
    rw [walkpgdir_zero, hslot]
  obtain ⟨hidx, hlock, hcnt⟩ := getrefcount_ok L k _ c hrc (by omega)
  have hfl : k.freelist ≠ 0 := by omega
  obtain ⟨ka1, ka2, ka3, ka4, ka5, ka6, ka7⟩ := kalloc_fields L k hfl
  generalize hF : PTE_ADDR (deref k pte) = F at *
  have hvF : P2V F % PGSIZE = 0 := hF ▸ P2V_PTE_ADDR_aligned _
  generalize hK : kalloc L k = K at *
  obtain ⟨k1, r⟩ := K
  simp only at ka1 ka2 ka3 ka4 ka5 ka6 ka7
  rw [hg] at ka1 ka4 ka6 ka7
  subst ka1
  have hrc1 : k1.refcount (F / PGSIZE) = c := by
    by_cases hi : F / PGSIZE = V2P r / PGSIZE
    · rw [hi] at hcnt ⊢
      rw [ka7 (by omega), hcnt]
    · rw [ka6 _ hi, hcnt]
  have hderef : deref (memmove k1 r (P2V F)) pte = deref k pte := by
    have : ¬ (r ≤ pte ∧ pte < r + PGSIZE) := by unfold Outside at hsepG; omega
    simp [deref, memmove, this, ka2]
  have hnl : ¬ (MAX_PAGES L ≤ F / PGSIZE) := by omega
  have hC : ¬ (c ≤ 0) := by omega
  have hc2 : ¬ (c < 2) := by omega
  have hflags : PTE_FLAGS (deref k pte) ||| PTE_W < 4096 :=
    flags_or_lt _ _ (by unfold PTE_FLAGS; omega) (by unfold PTE_W; omega)
  have hval : V2P r ||| (PTE_FLAGS (deref k pte) ||| PTE_W) ||| PTE_P =
      V2P r + (PTE_FLAGS (deref k pte) ||| PTE_W) := by
    have hp : (PTE_FLAGS (deref k pte) ||| PTE_W) ||| PTE_P =
        PTE_FLAGS (deref k pte) ||| PTE_W := by
      rw [Nat.or_assoc, Nat.or_comm PTE_W PTE_P, ← Nat.or_assoc]
      have : PTE_FLAGS (deref k pte) ||| PTE_P = PTE_FLAGS (deref k pte) := by
        apply or_one_of_present
        unfold PTE_FLAGS
        rw [u32_of_lt _ (deref_lt k pte)]
        rw [Nat.and_one_is_mod]
        unfold PTE_P at hP
        rw [Nat.and_one_is_mod] at hP
        omega
      rw [this]
    rw [Nat.or_assoc, hp]
    exact or_eq_add _ _ (by unfold V2P u32 KERNBASE PGSIZE at *; omega) hflags
  have hV2P : V2P r < 4294967296 := u32_lt _
  have hV2Pal : V2P r % 4096 = 0 := by unfold V2P u32 KERNBASE PGSIZE at *; omega
  refine ⟨store (setref (memmove k1 r (P2V F)) (F / PGSIZE) (c - 1)) pte
    (V2P r ||| (PTE_FLAGS (deref k pte) ||| PTE_W) ||| PTE_P), ?_, ka4, ka5, ?_, ?_, ?_, ?_,
    ?_, ?_, ?_⟩
  · unfold cowfault
    simp only [hw, hne, hP, hW, hF, hrc, hc2, hK, hg0, decref, hnl, ge_iff_le, if_false,
      if_true, ne_eq, not_true_eq_false, not_false_eq_true]
    have hl2 : (memmove k1 r (P2V F)).use_lock = true := by
      show k1.use_lock = true
      rw [ka3]; exact hlock
    have hr2 : (memmove k1 r (P2V F)).refcount (F / PGSIZE) = c := hrc1
    simp only [hl2, hr2, hC, Bool.not_true, Bool.false_eq_true, if_false]
    have hd3 : deref (setref (memmove k1 r (P2V F)) (F / PGSIZE) (c - 1)) pte = deref k pte :=
      hderef
    rw [hd3]
  · intro l hl hout
    have h4 := hl.2.2.2
    show FreeChain _ k1.freelist l
    rw [ka4]
    apply FreeChain_congr k _ l _ _ h4
    intro x hx
    obtain ⟨ho, hp⟩ := hout x hx
    have : ¬ (r ≤ x ∧ x < r + PGSIZE) := by unfold Outside at ho; omega
    simp [store, setref, memmove, hp, this, ka2]
  · intro i hi
    have h1 : r + i ≠ pte := by unfold Outside at hsepG; omega
    simp [store, setref, memmove, h1, hi, ka2]
    rw [Nat.add_comm]
  · simp [store, setref]
  · intro j h1 h2
    simp only [store, setref, memmove, h1, if_false]
    exact ka6 j h2
  · intro i hi
    have h1 : P2V F + i ≠ pte := by unfold Outside at hsepF; omega
    simp only [store, setref, memmove, h1, if_false, ka2]
    by_cases hin : r ≤ P2V F + i ∧ P2V F + i < r + PGSIZE
    · have : r = P2V F := by unfold PGSIZE at *; omega
      rw [if_pos hin, this]
      have e : P2V F + i - P2V F + P2V F = P2V F + i := by omega
      rw [e]
    · rw [if_neg hin]
  · intro a ha hp
    have : ¬ (r ≤ a ∧ a < r + PGSIZE) := by unfold Outside at ha; omega
    simp [store, setref, memmove, hp, this, ka2]
  · have hlt : V2P r + (PTE_FLAGS (deref k pte) ||| PTE_W) < 4294967296 := by omega
    refine ⟨?_, ?_, ?_⟩
    · rw [deref_store_same, hval]; exact u32_of_lt _ hlt
    · rw [deref_store_same, hval, u32_of_lt _ hlt]
      unfold PTE_ADDR
      rw [u32_of_lt _ hlt]
      omega
    · rw [deref_store_same, hval, u32_of_lt _ hlt]
      show u32 _ % 4096 = _
      rw [u32_of_lt _ hlt]
      omega

/-- Witness for `cowfault_shared`: the child of `exFork` writes to page 0. -/
theorem cowfault_shared_witness :
    ∃ k', cowfault exLayout exFork 0x8011b000 0 = .ok (k', 0) ∧
      k'.num_free_pages = exFork.num_free_pages - 1 ∧
      k'.refcount (PTE_ADDR (deref exFork 0x80119000) / PGSIZE) = 2 - 1 := by
  obtain ⟨k', h1, _, h3, _, _, h6, _⟩ := cowfault_shared exLayout exFork 0x8011b000 0
    0x80119000 0x80118000 2 (by decide) (by decide) (by decide) (by decide) rfl (by decide)
    (by decide) (by decide) (by decide) (by decide) (by decide) (by decide)
  exact ⟨k', h1, h3, h6⟩

/-- C2: when the leaf entry for the faulting address is present and not
writable and its frame has reference count below 2, `cowfault` returns 0 and
sets the writable bit of the entry, keeping its frame address and every other
flag bit; no other word of memory changes, the free list and the free-frame
count are unchanged, and no reference count changes. -/
theorem cowfault_sole_owner (L : Layout) (k : Kernel) (pgdir va pte : Nat) (c : Int)
    (hslot : leafSlot k pgdir (PGROUNDDOWN va) = pte) (hne : pte ≠ 0)
    (hP : deref k pte &&& PTE_P ≠ 0) (hW : deref k pte &&& PTE_W = 0)
    (hrc : getrefcount L k (PTE_ADDR (deref k pte)) = .ok c) (hc : c < 2) :
    ∃ k', cowfault L k pgdir va = .ok (k', 0) ∧
      deref k' pte = deref k pte ||| PTE_W ∧
      PTE_ADDR (deref k' pte) = PTE_ADDR (deref k pte) ∧
      (∀ a, a ≠ pte → k'.mem a = k.mem a) ∧
      k'.freelist = k.freelist ∧ k'.num_free_pages = k.num_free_pages ∧
      k'.refcount = k.refcount ∧
      (∀ l, FreeList k l → pte ∉ l → FreeList k' l) := by
  have hw : walkpgdir L k pgdir (PGROUNDDOWN va) 0 = (k, pte) := by
    rw [walkpgdir_zero, hslot]
  have hval : PTE_ADDR (deref k pte) ||| PTE_FLAGS (deref k pte) ||| PTE_W ||| PTE_P
      = deref k pte ||| PTE_W := by
    have h1 : PTE_ADDR (deref k pte) ||| PTE_FLAGS (deref k pte) = deref k pte := by
      unfold PTE_ADDR PTE_FLAGS
      rw [u32_of_lt _ (deref_lt k pte)]
      exact addr_or_flags _
    rw [h1, Nat.or_assoc, Nat.or_comm PTE_W PTE_P, ← Nat.or_assoc]
    unfold PTE_P at hP ⊢
    rw [or_one_of_present _ hP]
  refine ⟨store k pte (deref k pte ||| PTE_W), ?_, ?_, ?_, ?_, rfl, rfl, rfl, ?_⟩
  · unfold cowfault
    simp only [hw, hne, hP, hW, hrc, hc, hval, if_true, if_false, ne_eq, not_true_eq_false,
      not_false_eq_true]
  · have : deref k pte ||| PTE_W < 4294967296 :=
      or_lt_u32 _ _ (deref_lt k pte) (by unfold PTE_W; omega)
    simp [deref, store, u32] at this ⊢
    omega
  · have hd : deref (store k pte (deref k pte ||| PTE_W)) pte = deref k pte ||| PTE_W := by
      have : deref k pte ||| PTE_W < 4294967296 :=
        or_lt_u32 _ _ (deref_lt k pte) (by unfold PTE_W; omega)
      simp [deref, store, u32] at this ⊢
      omega
    rw [hd]
    exact PTE_ADDR_or_flags _ _ (deref_lt k pte) (by unfold PTE_W; omega)
  · intro a ha
    simp [store, ha]
  · intro l hl hnm
    apply FreeChain_congr k _ l _ _ hl
    intro g hg
    have : g ≠ pte := fun h => hnm (h ▸ hg)
    simp [store, this]

/-- Witness for `cowfault_sole_owner`: after the child of `exFork` took its
copy, the parent writes to page 0 while its frame has count 1. -/
theorem cowfault_sole_owner_witness :
    ∃ k', cowfault exLayout exCow 0x8011e000 0 = .ok (k', 0) ∧
      deref k' 0x8011c000 = deref exCow 0x8011c000 ||| PTE_W := by
  obtain ⟨k', h1, h2, _⟩ := cowfault_sole_owner exLayout exCow 0x8011e000 0 0x8011c000 1
    (by decide) (by decide) (by decide) (by decide) rfl (by decide)
  exact ⟨k', h1, h2⟩

/-! ## The free-list invariant -/

theorem FreeChain_mem_lt (k : Kernel) (l : List Nat) :
    ∀ h, FreeChain k h l → ∀ g ∈ l, g ≠ 0 ∧ g < 4294967296 := by
  induction l with
  | nil => intro h _ g hg; cases hg
  | cons x xs ih =>
    intro h hc g hg
    rcases List.mem_cons.mp hg with e | e
    · subst e; exact ⟨hc.2.1, hc.2.2.1⟩
    · exact ih _ hc.2.2.2 g e

theorem idx_inj (u v : Nat) (hu : u % PGSIZE = 0) (hv : v % PGSIZE = 0)
    (hu32 : u < 4294967296) (hv32 : v < 4294967296)
    (h : V2P u / PGSIZE = V2P v / PGSIZE) : u = v := by
  unfold V2P u32 KERNBASE PGSIZE at *
  omega

theorem FreeOK_congr (L : Layout) (k k' : Kernel) (l : List Nat) (h : FreeOK L k l)
    (hf : k'.freelist = k.freelist) (hm : ∀ g ∈ l, k'.mem g = k.mem g)
    (hr : ∀ g ∈ l, k'.refcount (V2P g / PGSIZE) = k.refcount (V2P g / PGSIZE)) :
    FreeOK L k' l := by
  refine ⟨?_, h.2.1, fun g hg => ⟨(h.2.2 g hg).1, ?_⟩⟩
  · show FreeChain k' k'.freelist l
    rw [hf]
    exact FreeChain_congr k k' l _ hm h.1
  · rw [hr g hg]; exact (h.2.2 g hg).2

/-- `kalloc` on a well-formed non-empty free list. -/
theorem kalloc_FreeOK (L : Layout) (k : Kernel) (g : Nat) (rest : List Nat)
    (hL : LayoutOK L) (hlock : k.use_lock = true) (h : FreeOK L k (g :: rest)) :
    (kalloc L k).2 = g ∧ FreeOK L (kalloc L k).1 rest ∧
      (kalloc L k).1.refcount (V2P g / PGSIZE) = 1 ∧
      (∀ j, j ≠ V2P g / PGSIZE → (kalloc L k).1.refcount j = k.refcount j) ∧
      (kalloc L k).1.mem = k.mem ∧ (kalloc L k).1.use_lock = true ∧
      (kalloc L k).1.num_free_pages = k.num_free_pages - 1 := by
  obtain ⟨hc, hnd, hv⟩ := h
  have hg := hv g (List.mem_cons_self _ _)
  have hidx := idx_lt_MAX_PAGES L g hL.1 hg.1.2.2
  have hlt := FreeChain_mem_lt k _ _ hc
  have hfl : k.freelist = g := hc.1
  have hne : k.freelist ≠ 0 := by have := hc.2.1; omega
  rw [kalloc_eq_of_ne L k hne, hfl, if_pos ⟨hidx, hlock, hg.2⟩]
  refine ⟨rfl, ⟨?_, (List.nodup_cons.mp hnd).2, fun x hx => ?_⟩, by simp [setref],
    fun j hj => by simp [setref, hj], rfl, hlock, rfl⟩
  · exact FreeChain_congr k _ rest _ (fun _ _ => rfl) hc.2.2.2
  · have hx' := hv x (List.mem_cons_of_mem _ hx)
    refine ⟨hx'.1, ?_⟩
    have hne : x ≠ g := fun e => (List.nodup_cons.mp hnd).1 (e ▸ hx)
    have : V2P x / PGSIZE ≠ V2P g / PGSIZE := fun e =>
      hne (idx_inj x g hx'.1.1 hg.1.1 (hlt x (List.mem_cons_of_mem _ hx)).2
        (hlt g (List.mem_cons_self _ _)).2 e)
    simp only [setref, this, if_false]
    exact hx'.2

/-- `kalloc` on an empty free list. -/
theorem kalloc_nil (L : Layout) (k : Kernel) (h : k.freelist = 0) : kalloc L k = (k, 0) := by
  unfold kalloc; simp [h]

/-- Two distinct page-aligned addresses start disjoint pages. -/
theorem Outside_of_ne (u v : Nat) (hu : u % PGSIZE = 0) (hv : v % PGSIZE = 0) (h : u ≠ v) :
    Outside u v := by
  unfold Outside PGSIZE at *; omega

/-- `kfree` of the last reference: the frame joins the free list. -/
theorem kfree_last_FreeOK (L : Layout) (k : Kernel) (v : Nat) (l : List Nat)
    (hL : LayoutOK L) (hlock : k.use_lock = true) (h : FreeOK L k l)
    (hv : ValidFrame L v) (hv32 : v < 4294967296) (hc : k.refcount (V2P v / PGSIZE) = 1) :
    kfree L k v = .ok (kfreePush (setref k (V2P v / PGSIZE) 0) v) ∧
      FreeOK L (kfreePush (setref k (V2P v / PGSIZE) 0) v) (v :: l) := by
  have he := kfree_eq_of_pos L k v 1 hL.1 hlock hv hc (by omega)
  rw [if_neg (by omega)] at he
  refine ⟨he, ?_⟩
  obtain ⟨hch, hnd, hvl⟩ := h
  have hlt := FreeChain_mem_lt k _ _ hch
  have hnotin : v ∉ l := fun hm => by
    have := (hvl v hm).2; omega
  have hout : ∀ g ∈ l, Outside v g := fun g hg =>
    Outside_of_ne v g hv.1 (hvl g hg).1.1 (fun e => hnotin (e ▸ hg))
  have hv0 : v ≠ 0 := by have := hv.2.1; have := hL.2; omega
  refine ⟨?_, List.nodup_cons.mpr ⟨hnotin, hnd⟩, fun g hg => ?_⟩
  · exact FreeList_kfreePush (setref k (V2P v / PGSIZE) (1 - 1)) v l
      (FreeChain_congr k _ l _ (fun _ _ => rfl) hch) hv0 hv32 hout
  · rcases List.mem_cons.mp hg with e | e
    · subst e
      exact ⟨hv, by simp [kfreePush, store, memset, setref]⟩
    · refine ⟨(hvl g e).1, ?_⟩
      have hne : g ≠ v := fun e2 => hnotin (e2 ▸ e)
      have : V2P g / PGSIZE ≠ V2P v / PGSIZE := fun e2 =>
        hne (idx_inj g v (hvl g e).1.1 hv.1 (hlt g e).2 hv32 e2)
      simp only [kfreePush, store, memset, setref, this, if_false]
      exact (hvl g e).2

/-- `kfree` while other references remain: only the count changes. -/
theorem kfree_shared_FreeOK (L : Layout) (k : Kernel) (v : Nat) (l : List Nat) (c : Int)
    (hL : LayoutOK L) (hlock : k.use_lock = true) (h : FreeOK L k l)
    (hv : ValidFrame L v) (hv32 : v < 4294967296)
    (hc : k.refcount (V2P v / PGSIZE) = c) (h2 : 2 ≤ c) :
    kfree L k v = .ok (setref k (V2P v / PGSIZE) (c - 1)) ∧
      FreeOK L (setref k (V2P v / PGSIZE) (c - 1)) l := by
  have he := kfree_eq_of_pos L k v c hL.1 hlock hv hc (by omega)
  rw [if_pos h2] at he
  refine ⟨he, ?_⟩
  have hlt := FreeChain_mem_lt k _ _ h.1
  refine FreeOK_congr L k _ l h rfl (fun _ _ => rfl) ?_
  intro g hg
  have hne : g ≠ v := fun e => by
    have := (h.2.2 g hg).2; rw [e] at this; omega
  have : V2P g / PGSIZE ≠ V2P v / PGSIZE := fun e2 =>
    hne (idx_inj g v (h.2.2 g hg).1.1 hv.1 (hlt g hg).2 hv32 e2)
  simp [setref, this]


/-- Pushing a valid frame that is not on the list keeps the list well formed. -/
theorem FreeOK_kfreePush (L : Layout) (k : Kernel) (v : Nat) (l : List Nat)
    (hL : LayoutOK L) (h : FreeOK L k l) (hv : ValidFrame L v) (hv32 : v < 4294967296)
    (hc : k.refcount (V2P v / PGSIZE) = 0) (hnotin : v ∉ l) :
    FreeOK L (kfreePush k v) (v :: l) := by
  obtain ⟨hch, hnd, hvl⟩ := h
  have hout : ∀ g ∈ l, Outside v g := fun g hg =>
    Outside_of_ne v g hv.1 (hvl g hg).1.1 (fun e => hnotin (e ▸ hg))
  have hv0 : v ≠ 0 := by have := hv.2.1; have := hL.2; omega
  refine ⟨FreeList_kfreePush k v l hch hv0 hv32 hout, List.nodup_cons.mpr ⟨hnotin, hnd⟩,
    fun g hg => ?_⟩
  rcases List.mem_cons.mp hg with e | e
  · subst e; exact ⟨hv, hc⟩
  · exact ⟨(hvl g e).1, (hvl g e).2⟩

theorem freerangeLoop_spec (L : Layout) (hL : LayoutOK L) :
    ∀ (n : Nat) (k : Kernel) (p : Nat) (l : List Nat), FreeOK L k l →
      p % PGSIZE = 0 → p + n * PGSIZE ≤ 4294967296 → (∀ g ∈ l, g + PGSIZE ≤ p) →
      (∀ v, v % PGSIZE = 0 → p ≤ v → v < p + n * PGSIZE →
        ValidFrame L v ∧ k.refcount (V2P v / PGSIZE) = 0) →
      ∃ l', FreeOK L (freerangeLoop n k p) l' ∧
        (∀ v, v ∈ l' ↔ v ∈ l ∨ (v % PGSIZE = 0 ∧ p ≤ v ∧ v < p + n * PGSIZE)) ∧
        (freerangeLoop n k p).refcount = k.refcount ∧
        (freerangeLoop n k p).use_lock = k.use_lock ∧
        (∀ g ∈ l', g + PGSIZE ≤ p + n * PGSIZE) := by
  intro n
  induction n with
  | zero =>
    intro k p l h _ _ hb _
    refine ⟨l, h, fun v => ⟨fun hv => Or.inl hv, fun hv => ?_⟩, rfl, rfl, fun g hg => ?_⟩
    · rcases hv with hv | hv
      · exact hv
      · omega
    · have := hb g hg; omega
  | succ n ih =>
    intro k p l h hp hle hb hval
    have hpv := hval p hp (Nat.le_refl _) (by unfold PGSIZE; omega)
    have hnotin : p ∉ l := fun hm => by
      have := hb p hm; unfold PGSIZE at this; omega
    have h1 := FreeOK_kfreePush L k p l hL h hpv.1 (by unfold PGSIZE at hle; omega) hpv.2 hnotin
    obtain ⟨l', a1, a2, a3, a4, a5⟩ := ih (kfreePush k p) (p + PGSIZE) (p :: l) h1
      (by unfold PGSIZE at *; omega) (by unfold PGSIZE at *; omega)
      (fun g hg => by
        rcases List.mem_cons.mp hg with e | e
        · omega
        · have := hb g e; omega)
      (fun v hv1 hv2 hv3 => hval v hv1 (by omega) (by unfold PGSIZE at *; omega))
    refine ⟨l', a1, fun v => ?_, a3, a4, fun g hg => ?_⟩
    · rw [a2 v, List.mem_cons]
      unfold PGSIZE at *
      constructor
      · rintro ((e | e) | e)
        · right; omega
        · left; exact e
        · right; omega
      · rintro (e | e)
        · left; right; exact e
        · by_cases hvp : v = p
          · left; left; exact hvp
          · right; omega
    · have := a5 g hg; unfold PGSIZE at *; omega

/-- The invariant of the allocator after initialisation. -/
theorem AllocStep_inv (L : Layout) (hL : LayoutOK L) (M : Nat → Prop)
    (hM : ∀ v, M v → v % PGSIZE = 0 ∧ v < 4294967296) (k k' : Kernel)
    (hs : AllocStep L k k')
    (h : k.use_lock = true ∧ ∃ l, FreeOK L k l ∧
      ∀ v, M v → k.refcount (V2P v / PGSIZE) = 0 → v ∈ l) :
    k'.use_lock = true ∧ ∃ l, FreeOK L k' l ∧
      ∀ v, M v → k'.refcount (V2P v / PGSIZE) = 0 → v ∈ l := by
  obtain ⟨hlock, l, hf, hm⟩ := h
  have hlt := FreeChain_mem_lt k _ _ hf.1
  cases hs with
  | kalloc =>
    cases l with
    | nil =>
      have : k.freelist = 0 := hf.1
      rw [kalloc_nil L k this]
      exact ⟨hlock, [], hf, hm⟩
    | cons g rest =>
      obtain ⟨_, b2, b3, b4, _, b6, _⟩ := kalloc_FreeOK L k g rest hL hlock hf
      refine ⟨b6, rest, b2, fun v hv hz => ?_⟩
      have hne : V2P v / PGSIZE ≠ V2P g / PGSIZE := fun e => by
        rw [e, b3] at hz; omega
      rw [b4 _ hne] at hz
      rcases List.mem_cons.mp (hm v hv hz) with e | e
      · exact absurd (congrArg (fun x => V2P x / PGSIZE) e) hne
      · exact e
  | kfree v _ hv32 hc hk =>
    have hvalid : ValidFrame L v := by
      unfold kfree at hk
      by_cases hbad : v % PGSIZE ≠ 0 ∨ v < L.kend ∨ V2P v ≥ L.PHYSTOP
      · simp [hbad] at hk
      · unfold ValidFrame; omega
    by_cases h2 : 2 ≤ k.refcount (V2P v / PGSIZE)
    · obtain ⟨e1, e2⟩ := kfree_shared_FreeOK L k v l _ hL hlock hf hvalid hv32 rfl h2
      rw [e1] at hk
      cases hk
      refine ⟨hlock, l, e2, fun u hu hz => ?_⟩
      have hne : V2P u / PGSIZE ≠ V2P v / PGSIZE := fun e => by
        rw [e] at hz; simp [setref] at hz; omega
      simp only [setref, hne, if_false] at hz
      exact hm u hu hz
    · have hc1 : k.refcount (V2P v / PGSIZE) = 1 := by omega
      obtain ⟨e1, e2⟩ := kfree_last_FreeOK L k v l hL hlock hf hvalid hv32 hc1
      rw [e1] at hk
      cases hk
      refine ⟨hlock, v :: l, e2, fun u hu hz => ?_⟩
      by_cases hne : V2P u / PGSIZE = V2P v / PGSIZE
      · have := idx_inj u v (hM u hu).1 hvalid.1 (hM u hu).2 hv32 hne
        rw [this]; exact List.mem_cons_self _ _
      · simp only [kfreePush, store, memset, setref, hne, if_false] at hz
        exact List.mem_cons_of_mem _ (hm u hu hz)
  | incref pa _ hc hk =>
    unfold incref at hk
    by_cases hbad : pa / PGSIZE ≥ MAX_PAGES L
    · simp [hbad] at hk
    · have hnz : k.refcount (pa / PGSIZE) ≠ 0 := by omega
      simp only [hbad, hlock, hnz, if_false, Bool.not_true, Bool.false_eq_true] at hk
      by_cases hov : k.refcount (pa / PGSIZE) ≥ 2147483647
      · rw [if_pos hov] at hk
        cases hk
      rw [if_neg hov] at hk
      cases hk
      refine ⟨hlock, l, ?_, fun u hu hz => ?_⟩
      · refine FreeOK_congr L k _ l hf rfl (fun _ _ => rfl) (fun g hg => ?_)
        have : V2P g / PGSIZE ≠ pa / PGSIZE := fun e => by
          have := (hf.2.2 g hg).2; rw [e] at this; omega
        simp [setref, this]
      · have hne : V2P u / PGSIZE ≠ pa / PGSIZE := fun e => by
          rw [e] at hz; simp [setref] at hz; omega
        simp only [setref, hne, if_false] at hz
        exact hm u hu hz
  | decref pa _ r hc hk =>
    unfold decref at hk
    by_cases hbad : pa / PGSIZE ≥ MAX_PAGES L
    · simp [hbad] at hk
    · have hnz : ¬ (k.refcount (pa / PGSIZE) ≤ 0) := by omega
      simp only [hbad, hlock, hnz, if_false, Bool.not_true, Bool.false_eq_true] at hk
      cases hk
      refine ⟨hlock, l, ?_, fun u hu hz => ?_⟩
      · refine FreeOK_congr L k _ l hf rfl (fun _ _ => rfl) (fun g hg => ?_)
        have : V2P g / PGSIZE ≠ pa / PGSIZE := fun e => by
          have := (hf.2.2 g hg).2; rw [e] at this; omega
        simp [setref, this]
      · have hne : V2P u / PGSIZE ≠ pa / PGSIZE := fun e => by
          rw [e] at hz; simp [setref] at hz; omega
        simp only [setref, hne, if_false] at hz
        exact hm u hu hz


theorem init_inv (L : Layout) (k0 : Kernel) (s1 e1 s2 e2 : Nat)
    (hL : LayoutOK L) (hP : L.PHYSTOP ≤ KERNBASE)
    (hb1 : k0.freelist = 0) (hb2 : ∀ i, k0.refcount i = 0)
    (h1 : L.kend ≤ PGROUNDUP s1) (h2 : KERNBASE ≤ PGROUNDUP s1) (h0 : PGROUNDUP s1 ≤ e1)
    (h3 : e1 ≤ PGROUNDUP s2) (h4 : e1 ≤ KERNBASE + L.PHYSTOP)
    (h5 : e2 ≤ KERNBASE + L.PHYSTOP) :
    (kinit2 (kinit1 k0 s1 e1) s2 e2).use_lock = true ∧
      ∃ l, FreeOK L (kinit2 (kinit1 k0 s1 e1) s2 e2) l ∧
        ∀ v, (InRange s1 e1 v ∨ InRange s2 e2 v) →
          (kinit2 (kinit1 k0 s1 e1) s2 e2).refcount (V2P v / PGSIZE) = 0 → v ∈ l := by
  have al1 : PGROUNDUP s1 % PGSIZE = 0 := by unfold PGROUNDUP PGSIZE; omega
  have al2 : PGROUNDUP s2 % PGSIZE = 0 := by unfold PGROUNDUP PGSIZE; omega
  have b2 : PGROUNDUP s2 ≤ 4294967296 := by unfold PGROUNDUP u32 PGSIZE; omega
  generalize hp1 : PGROUNDUP s1 = p1 at *
  generalize hp2 : PGROUNDUP s2 = p2 at *
  have hk1 : kinit1 k0 s1 e1 = freerangeLoop ((e1 - p1) / PGSIZE)
      { k0 with use_lock := false, num_free_pages := 0 } p1 := by
    unfold kinit1 freerange; rw [hp1]
  have hk2 : kinit2 (kinit1 k0 s1 e1) s2 e2 =
      { freerangeLoop ((e2 - p2) / PGSIZE) (kinit1 k0 s1 e1) p2 with use_lock := true } := by
    unfold kinit2 freerange; rw [hp2]
  have hvalid : ∀ v, v % PGSIZE = 0 → p1 ≤ v → v < KERNBASE + L.PHYSTOP →
      ValidFrame L v := by
    intro v a b c
    refine ⟨a, by omega, ?_⟩
    unfold V2P u32 KERNBASE at *
    omega
  have hk0 : FreeOK L { k0 with use_lock := false, num_free_pages := 0 } [] :=
    ⟨hb1, List.nodup_nil, fun g hg => by cases hg⟩
  have hn1 : p1 + (e1 - p1) / PGSIZE * PGSIZE ≤ e1 := by unfold PGSIZE; omega
  have hn2 : p2 + (e2 - p2) / PGSIZE * PGSIZE ≤ max e2 p2 := by unfold PGSIZE; omega
  obtain ⟨l1, a1, a2, a3, a4, a5⟩ := freerangeLoop_spec L hL
    ((e1 - p1) / PGSIZE) _ p1 [] hk0 al1
    (by unfold KERNBASE at *; omega) (fun g hg => by cases hg)
    (fun v c1 c2 c3 => ⟨hvalid v c1 c2 (by omega), hb2 _⟩)
  rw [← hk1] at a1 a3
  have hr1 : ∀ i, (kinit1 k0 s1 e1).refcount i = 0 := fun i => by
    rw [a3]; exact hb2 i
  obtain ⟨l2, c1, c2, c3, c4, c5⟩ := freerangeLoop_spec L hL
    ((e2 - p2) / PGSIZE) (kinit1 k0 s1 e1) p2 l1 a1 al2
    (by unfold KERNBASE at *; omega)
    (fun g hg => by have := a5 g hg; omega)
    (fun v d1 d2 d3 => ⟨hvalid v d1 (by omega) (by omega), hr1 _⟩)
  rw [hk2]
  refine ⟨rfl, l2, ?_, fun v hv _ => ?_⟩
  · exact FreeOK_congr L _ _ l2 c1 rfl (fun _ _ => rfl) (fun _ _ => rfl)
  · rw [c2 v, a2 v]
    unfold InRange at hv
    unfold PGSIZE at *
    rcases hv with hv | hv
    · left; right; omega
    · right; omega

/-- C8 (amended): take the boot state (empty free list, zeroed `refcount`),
run `kinit1` and `kinit2` over two successive ranges of valid frames, and then
any sequence of `kalloc` calls, `kfree` and `incref` calls on frames whose count
is at least 1 and `decref` calls on frames whose count is at least 2.  In the
state reached the free list is a finite list of distinct frames that all have
count 0, and a frame handed to the allocator by `kinit1` or `kinit2` is on the
free list if and only if its reference count is 0. -/
theorem alloc_free_iff_zero (L : Layout) (k0 : Kernel) (s1 e1 s2 e2 : Nat) (k : Kernel)
    (hL : LayoutOK L) (hP : L.PHYSTOP ≤ KERNBASE)
    (hb1 : k0.freelist = 0) (hb2 : ∀ i, k0.refcount i = 0)
    (h1 : L.kend ≤ PGROUNDUP s1) (h2 : KERNBASE ≤ PGROUNDUP s1) (h0 : PGROUNDUP s1 ≤ e1)
    (h3 : e1 ≤ PGROUNDUP s2) (h4 : e1 ≤ KERNBASE + L.PHYSTOP)
    (h5 : e2 ≤ KERNBASE + L.PHYSTOP)
    (hr : AllocReach L (kinit2 (kinit1 k0 s1 e1) s2 e2) k) :
    ∃ l, FreeList k l ∧ l.Nodup ∧ (∀ v ∈ l, k.refcount (V2P v / PGSIZE) = 0) ∧
      ∀ v, (InRange s1 e1 v ∨ InRange s2 e2 v) →
        (v ∈ l ↔ k.refcount (V2P v / PGSIZE) = 0) := by
  have hM : ∀ v, (InRange s1 e1 v ∨ InRange s2 e2 v) → v % PGSIZE = 0 ∧ v < 4294967296 := by
    intro v hv
    unfold InRange KERNBASE PGSIZE at *
    rcases hv with hv | hv <;> exact ⟨hv.1, by omega⟩
  have hinv : k.use_lock = true ∧ ∃ l, FreeOK L k l ∧
      ∀ v, (InRange s1 e1 v ∨ InRange s2 e2 v) → k.refcount (V2P v / PGSIZE) = 0 → v ∈ l := by
    induction hr with
    | refl => exact init_inv L k0 s1 e1 s2 e2 hL hP hb1 hb2 h1 h2 h0 h3 h4 h5
    | step k1 k2 _ hs ih => exact AllocStep_inv L hL _ hM k1 k2 hs ih
  obtain ⟨_, l, hf, hm⟩ := hinv
  exact ⟨l, hf.1, hf.2.1, fun v hv => (hf.2.2 v hv).2,
    fun v hv => ⟨fun hin => (hf.2.2 v hin).2, hm v hv⟩⟩

/-- Witness for `alloc_free_iff_zero`: the state after the first `kalloc`. -/
theorem alloc_free_iff_zero_witness :
    ∃ l, FreeList exAlloc l ∧ l.Nodup ∧ (∀ v ∈ l, exAlloc.refcount (V2P v / PGSIZE) = 0) ∧
      ∀ v, (InRange 0x80110000 0x80112000 v ∨ InRange 0x80112000 0x80120000 v) →
        (v ∈ l ↔ exAlloc.refcount (V2P v / PGSIZE) = 0) :=
  alloc_free_iff_zero exLayout exBoot 0x80110000 0x80112000 0x80112000 0x80120000 exAlloc
    (by decide) (by decide) rfl (fun _ => rfl) (by decide) (by decide) (by decide)
    (by decide) (by decide) (by decide)
    (AllocReach.step _ _ _ (AllocReach.refl _) (AllocStep.kalloc _))

/-- C8, counterexample to the claim as stated: after `kinit1`, `kinit2`, one
`kalloc` and one `decref` of the allocated frame, the frame at `0x8011f000`
(handed to the allocator by `kinit2`) has reference count 0 and is not on the
free list. -/
theorem decref_zero_not_on_free_list :
    exAlloc = (kalloc exLayout exInit).1 ∧
      decref exLayout exAlloc (V2P 0x8011f000) = .ok (exDec, 0) ∧
      InRange 0x80112000 0x80120000 0x8011f000 ∧
      exDec.refcount (V2P 0x8011f000 / PGSIZE) = 0 ∧
      ∀ l, FreeList exDec l → 0x8011f000 ∉ l := by
  refine ⟨rfl, rfl, by decide, by decide, fun l hl => ?_⟩
  have hc : FreeList exDec
      exFrames.tail := by
    decide
  rw [FreeChain_unique exDec _ _ _ hl hc]
  decide

/-! ## Building a page directory from the free list -/

theorem leafSlot_eq (k : Kernel) (d va : Nat) :
    leafSlot k d va =
      if pdeAt k d (PDX va) &&& PTE_P ≠ 0 then tableOf k d (PDX va) + 4 * PTX va else 0 := rfl

theorem PDX_lt (va : Nat) : PDX va < 1024 := by unfold PDX; omega
theorem PTX_lt (va : Nat) : PTX va < 1024 := by unfold PTX; omega

theorem V2P_P2V (a : Nat) (h : a < 4294967296) : V2P (P2V a) = a := by
  unfold V2P P2V u32 KERNBASE; omega

theorem P2V_V2P (a : Nat) (h : a < 4294967296) : P2V (V2P a) = a := by
  unfold V2P P2V u32 KERNBASE; omega

theorem V2P_aligned (g : Nat) (h : g % PGSIZE = 0) : V2P g % 4096 = 0 := by
  unfold V2P u32 KERNBASE PGSIZE at *; omega

theorem pde_bits (a : Nat) (h : a % 4096 = 0) :
    a ||| PTE_P ||| PTE_W ||| PTE_U = a + 7 := by
  rw [Nat.or_assoc, Nat.or_assoc]
  have : PTE_P ||| (PTE_W ||| PTE_U) = 7 := by decide
  rw [this]
  exact or_eq_add a 7 h (by omega)

/-- Pointwise description of the state after `walkpgdir` allocated a table. -/
theorem walk_absent_cons (L : Layout) (k : Kernel) (d a g : Nat)
    (hp : ¬ (pdeAt k d (PDX a) &&& PTE_P ≠ 0)) (hg : k.freelist = g) (hg0 : g ≠ 0) :
    walkpgdir L k d a 1 = (allocTable L k d a g, g + 4 * PTX a) := by
  have hne : k.freelist ≠ 0 := by omega
  have h2 : (kalloc L k).2 = g := by rw [(kalloc_fields L k hne).1, hg]
  unfold walkpgdir allocTable
  unfold pdeAt at hp
  simp only [hp, if_false, h2, hg0, Nat.one_ne_zero]

theorem walk_absent_nil (L : Layout) (k : Kernel) (d a : Nat)
    (hp : ¬ (pdeAt k d (PDX a) &&& PTE_P ≠ 0)) (hg : k.freelist = 0) :
    walkpgdir L k d a 1 = (k, 0) := by
  unfold walkpgdir
  unfold pdeAt at hp
  simp only [hp, if_false, kalloc_nil L k hg, Nat.one_ne_zero, if_true]

theorem walk_present (L : Layout) (k : Kernel) (d a alloc : Nat)
    (hp : pdeAt k d (PDX a) &&& PTE_P ≠ 0) :
    walkpgdir L k d a alloc = (k, tableOf k d (PDX a) + 4 * PTX a) := by
  unfold walkpgdir
  unfold pdeAt at hp
  simp only []
  rw [if_pos hp]
  rfl


theorem countP_range_update (f g : Nat → Bool) (i0 N : Nat) (hf : f i0 = false)
    (hg : g i0 = true) (hrest : ∀ j, j < N → j ≠ i0 → g j = f j) :
    ∀ n, n ≤ N →
      (List.range n).countP g = (List.range n).countP f + (if i0 < n then 1 else 0) := by
  intro n
  induction n with
  | zero => simp
  | succ n ih =>
    intro hn
    rw [List.range_succ, List.countP_append, List.countP_append, ih (by omega)]
    by_cases h : n = i0
    · subst h
      simp [hf, hg]
    · have h1 : g n = f n := hrest n (by omega) h
      have h2 : (i0 < n + 1) = (i0 < n) := by
        apply propext; omega
      simp only [List.countP_cons, List.countP_nil, h1, h2]
      omega

theorem Frames_of_FreeOK (L : Layout) (k : Kernel) (l : List Nat) (h : FreeOK L k l) :
    Frames L l :=
  ⟨h.2.1, fun g hg => ⟨(h.2.2 g hg).1, (FreeChain_mem_lt k _ _ h.1 g hg).2⟩⟩

theorem Frames_ne_zero (L : Layout) (hL : LayoutOK L) (l : List Nat) (h : Frames L l)
    (g : Nat) (hg : g ∈ l) : g ≠ 0 := by
  have := (h.2 g hg).1.2.1
  have := hL.2
  omega

theorem tableOf_aligned (k : Kernel) (d j : Nat) : tableOf k d j % PGSIZE = 0 :=
  P2V_PTE_ADDR_aligned _

theorem tableOf_lt (k : Kernel) (d j : Nat) : tableOf k d j < 4294967296 := u32_lt _

/-- A word inside the page at `u` lies outside the page at `v` when `u ≠ v`. -/
theorem Outside_in_page (u v x : Nat) (hu : u % PGSIZE = 0) (hv : v % PGSIZE = 0)
    (h : u ≠ v) (hx : x < PGSIZE) : Outside v (u + x) := by
  unfold Outside PGSIZE at *; omega

theorem mem_store (k : Kernel) (p v x : Nat) :
    (store k p v).mem x = if x = p then v else k.mem x := rfl

theorem mem_memset (k : Kernel) (p b x : Nat) :
    (memset k p b).mem x = if p ≤ x ∧ x < p + PGSIZE then b * 16843009 else k.mem x := rfl

theorem deref_congr (k k' : Kernel) (p : Nat) (h : k'.mem p = k.mem p) :
    deref k' p = deref k p := by
  unfold deref; rw [h]

theorem pdeAt_congr (k k' : Kernel) (d j : Nat) (h : k'.mem (d + 4 * j) = k.mem (d + 4 * j)) :
    pdeAt k' d j = pdeAt k d j := deref_congr k k' _ h

theorem tableOf_congr (k k' : Kernel) (d j : Nat) (h : pdeAt k' d j = pdeAt k d j) :
    tableOf k' d j = tableOf k d j := by
  unfold tableOf; rw [h]

theorem pdeCount_congr (k k' : Kernel) (d : Nat)
    (h : ∀ j, j < NPDENTRIES → pdeAt k' d j = pdeAt k d j) : pdeCount k' d = pdeCount k d := by
  unfold pdeCount
  apply List.countP_congr
  intro j hj
  rw [h j (List.mem_range.mp hj)]


theorem BuildInv_basic (L : Layout) (k0 : Kernel) (l0 : List Nat) (d : Nat) (W R : Nat → Prop)
    (k : Kernel) (used l : List Nat) (hF : Frames L l0)
    (hB : BuildInv L k0 l0 d W R k used l) :
    (∀ u ∈ used, u ∈ l0) ∧ (∀ g ∈ l, g ∈ l0) ∧ (∀ u ∈ used, ∀ g ∈ l, u ≠ g) ∧
      d % PGSIZE = 0 ∧ d < 4294967296 ∧ used.Nodup := by
  have hs := hB.split
  have hnd : (used ++ l).Nodup := hs ▸ hF.1
  have h1 : ∀ u ∈ used, u ∈ l0 := fun u hu => hs ▸ List.mem_append_left _ hu
  have h2 : ∀ g ∈ l, g ∈ l0 := fun g hg => hs ▸ List.mem_append_right _ hg
  refine ⟨h1, h2, fun u hu g hg e => ?_, (hF.2 d (h1 d hB.dmem)).1.1,
    (hF.2 d (h1 d hB.dmem)).2, (List.nodup_append.mp hnd).1⟩
  exact (List.nodup_append.mp hnd).2.2 hu (e ▸ hg)

theorem BuildInv_alloc (L : Layout) (k0 : Kernel) (l0 : List Nat) (d : Nat) (W R : Nat → Prop)
    (k : Kernel) (used : List Nat) (g : Nat) (rest : List Nat) (a : Nat)
    (hL : LayoutOK L) (hF : Frames L l0)
    (hB : BuildInv L k0 l0 d W R k used (g :: rest))
    (hp : ¬ (pdeAt k d (PDX a) &&& PTE_P ≠ 0)) :
    BuildInv L k0 l0 d W R (allocTable L k d a g) (used ++ [g]) rest ∧
      pdeAt (allocTable L k d a g) d (PDX a) &&& PTE_P ≠ 0 ∧
      tableOf (allocTable L k d a g) d (PDX a) = g ∧
      (∀ j, j < NPDENTRIES → j ≠ PDX a → pdeAt (allocTable L k d a g) d j = pdeAt k d j) ∧
      (∀ x, x < 1024 → deref (allocTable L k d a g) (g + 4 * x) = 0) ∧
      (∀ y, Outside g y → y ≠ d + 4 * PDX a → (allocTable L k d a g).mem y = k.mem y) ∧
      (∀ j, j ≠ V2P g / PGSIZE → (allocTable L k d a g).refcount j = k.refcount j) := by
  obtain ⟨b1, b2, b3, dal, d32, und⟩ := BuildInv_basic L k0 l0 d W R k used _ hF hB
  have gl0 : g ∈ l0 := b2 g (List.mem_cons_self _ _)
  have gal : g % PGSIZE = 0 := (hF.2 g gl0).1.1
  have g32 : g < 4294967296 := (hF.2 g gl0).2
  have gnu : g ∉ used := fun h => b3 g h g (List.mem_cons_self _ _) rfl
  have dg : d ≠ g := fun e => gnu (e ▸ hB.dmem)
  obtain ⟨_, f2, f3, f4, f5, f6, f7⟩ := kalloc_FreeOK L k g rest hL hB.lock hB.free
  have hx := PDX_lt a
  have hslotOut : Outside g (d + 4 * PDX a) :=
    Outside_in_page d g _ dal gal dg (by unfold PGSIZE; omega)
  -- memory of the new state
  have hmem : ∀ y, (allocTable L k d a g).mem y =
      if y = d + 4 * PDX a then V2P g ||| PTE_P ||| PTE_W ||| PTE_U
      else if g ≤ y ∧ y < g + PGSIZE then 0 else k.mem y := by
    intro y
    unfold allocTable
    rw [mem_store, mem_memset, f5]
  have hrc : (allocTable L k d a g).refcount = (kalloc L k).1.refcount := rfl
  have hmemOut : ∀ y, Outside g y → y ≠ d + 4 * PDX a →
      (allocTable L k d a g).mem y = k.mem y := by
    intro y hy hne
    rw [hmem, if_neg hne, if_neg (by unfold Outside at hy; omega)]
  have hval : V2P g ||| PTE_P ||| PTE_W ||| PTE_U = V2P g + 7 := pde_bits _ (V2P_aligned g gal)
  have hv32 : V2P g < 4294967296 := u32_lt _
  have hval32 : V2P g + 7 < 4294967296 := by have := V2P_aligned g gal; omega
  have hpde : pdeAt (allocTable L k d a g) d (PDX a) = V2P g + 7 := by
    unfold pdeAt deref
    rw [hmem, if_pos rfl, hval, u32_of_lt _ hval32]
  have hpres : pdeAt (allocTable L k d a g) d (PDX a) &&& PTE_P ≠ 0 := by
    rw [hpde]
    show (V2P g + 7) &&& 1 ≠ 0
    rw [Nat.and_one_is_mod]
    have := V2P_aligned g gal; omega
  have htab : tableOf (allocTable L k d a g) d (PDX a) = g := by
    unfold tableOf
    rw [hpde]
    have : PTE_ADDR (V2P g + 7) = V2P g := by
      unfold PTE_ADDR
      rw [u32_of_lt _ hval32]
      have := V2P_aligned g gal; omega
    rw [this, P2V_V2P g g32]
  have hother : ∀ j, j < NPDENTRIES → j ≠ PDX a →
      pdeAt (allocTable L k d a g) d j = pdeAt k d j := by
    intro j hj hne
    apply pdeAt_congr
    apply hmemOut
    · exact Outside_in_page d g _ dal gal dg (by unfold NPDENTRIES at hj; unfold PGSIZE; omega)
    · omega
  have hcount : pdeCount (allocTable L k d a g) d = pdeCount k d + 1 := by
    unfold pdeCount
    have := countP_range_update (fun i => decide (pdeAt k d i &&& PTE_P ≠ 0))
      (fun i => decide (pdeAt (allocTable L k d a g) d i &&& PTE_P ≠ 0)) (PDX a) NPDENTRIES
      (by simpa using hp) (by simpa using hpres)
      (fun j hjn hj => by simp only [hother j hjn hj]) NPDENTRIES (Nat.le_refl _)
    rw [this, if_pos (by unfold NPDENTRIES; omega)]
  have hidx : ∀ u ∈ used, V2P u / PGSIZE ≠ V2P g / PGSIZE := fun u hu e =>
    gnu ((idx_inj u g (hF.2 u (b1 u hu)).1.1 gal (hF.2 u (b1 u hu)).2 g32 e) ▸ hu)
  refine ⟨⟨?_, ?_, f6, List.mem_append_left _ hB.dmem, ?_, ?_, ?_, ?_, ?_, ?_⟩,
    hpres, htab, hother, ?_, hmemOut, fun j hj => by rw [hrc]; exact f4 j hj⟩
  · rw [hB.split]; simp
  · refine FreeOK_congr L _ _ rest f2 rfl (fun r hr => ?_) (fun _ _ => rfl)
    have hr0 : r ∈ l0 := b2 r (List.mem_cons_of_mem _ hr)
    have rg : r ≠ g := fun e => by
      have := (List.nodup_cons.mp hB.free.2.1).1
      exact this (e ▸ hr)
    have rd : r ≠ d := fun e => b3 d hB.dmem r (List.mem_cons_of_mem _ hr) e.symm
    have ral := (hF.2 r hr0).1.1
    rw [hmemOut r (Outside_of_ne g r gal ral (Ne.symm rg)), f5]
    unfold PGSIZE at *; omega
  · intro u hu
    rcases List.mem_append.mp hu with h | h
    · rw [hrc, f4 _ (hidx u h)]; exact hB.urc u h
    · have : u = g := by simpa using h
      rw [this, hrc]; exact f3
  · intro j hj hpj
    by_cases hje : j = PDX a
    · subst hje
      rw [htab]
      refine ⟨by simp, Ne.symm dg, fun j' hj' hne hp' => ?_⟩
      rw [hother j' hj' hne] at hp'
      rw [tableOf_congr _ _ _ _ (hother j' hj' hne)]
      exact fun e => gnu (e ▸ (hB.tabs j' hj' hp').1)
    · rw [hother j hj hje] at hpj
      rw [tableOf_congr _ _ _ _ (hother j hj hje)]
      obtain ⟨t1, t2, t3⟩ := hB.tabs j hj hpj
      refine ⟨List.mem_append_left _ t1, t2, fun j' hj' hne hp' => ?_⟩
      by_cases hje' : j' = PDX a
      · subst hje'
        rw [htab]
        exact fun e => gnu (e ▸ t1)
      · rw [hother j' hj' hje'] at hp'
        rw [tableOf_congr _ _ _ _ (hother j' hj' hje')]
        exact t3 j' hj' hne hp'
  · show (kalloc L k).1.num_free_pages = _
    rw [f7, hB.count]
    simp only [List.length_append, List.length_singleton]
    push_cast
    omega
  · rw [hcount, List.length_append, List.length_singleton, hB.pdes]
    omega
  · intro x hx hw
    have hxg : Outside g x := hx g (by simp)
    have hxd : Outside d x := hx d (List.mem_append_left _ hB.dmem)
    rw [hmemOut x hxg (by unfold Outside PGSIZE at hxd; omega)]
    exact hB.memf x (fun u hu => hx u (List.mem_append_left _ hu)) hw
  · intro j hj hr
    rw [hrc, f4 j (hj g (by simp))]
    exact hB.rcf j (fun u hu => hj u (List.mem_append_left _ hu)) hr
  · intro x hx
    unfold deref
    rw [hmem, if_neg, if_pos]
    · rfl
    · unfold PGSIZE; omega
    · have := Outside_in_page g d (4 * x) gal dal (Ne.symm dg) (by unfold PGSIZE; omega)
      unfold Outside PGSIZE at this; omega


/-- Writing a word inside one of the frames taken keeps the invariant, provided
the word is not a directory entry. -/
theorem BuildInv_store_used (L : Layout) (k0 : Kernel) (l0 : List Nat) (d : Nat)
    (W R : Nat → Prop) (k : Kernel) (used l : List Nat) (t x v : Nat)
    (hF : Frames L l0) (hB : BuildInv L k0 l0 d W R k used l)
    (ht : t ∈ used) (htd : t ≠ d) (hx : x < PGSIZE) :
    BuildInv L k0 l0 d W R (store k (t + x) v) used l ∧
      (∀ j, j < NPDENTRIES → pdeAt (store k (t + x) v) d j = pdeAt k d j) := by
  obtain ⟨b1, b2, b3, dal, d32, und⟩ := BuildInv_basic L k0 l0 d W R k used _ hF hB
  have tal : t % PGSIZE = 0 := (hF.2 t (b1 t ht)).1.1
  have hpd : ∀ j, j < NPDENTRIES → pdeAt (store k (t + x) v) d j = pdeAt k d j := by
    intro j hj
    apply pdeAt_congr
    rw [mem_store, if_neg]
    have := Outside_in_page d t (4 * j) dal tal (Ne.symm htd)
      (by unfold NPDENTRIES at hj; unfold PGSIZE; omega)
    unfold Outside at this; omega
  refine ⟨⟨hB.split, ?_, hB.lock, hB.dmem, hB.urc, ?_, hB.count, ?_, ?_, hB.rcf⟩, hpd⟩
  · refine FreeOK_congr L k _ l hB.free rfl (fun r hr => ?_) (fun _ _ => rfl)
    rw [mem_store, if_neg]
    have ral := (hF.2 r (b2 r hr)).1.1
    have := Outside_of_ne t r tal ral (b3 t ht r hr)
    unfold Outside at this; omega
  · intro j hj hp
    rw [hpd j hj] at hp
    rw [tableOf_congr _ _ _ _ (hpd j hj)]
    obtain ⟨t1, t2, t3⟩ := hB.tabs j hj hp
    refine ⟨t1, t2, fun j' hj' hne hp' => ?_⟩
    rw [hpd j' hj'] at hp'
    rw [tableOf_congr _ _ _ _ (hpd j' hj')]
    exact t3 j' hj' hne hp'
  · rw [pdeCount_congr _ _ _ hpd]; exact hB.pdes
  · intro y hy hw
    rw [mem_store, if_neg]
    · exact hB.memf y hy hw
    · have := hy t ht
      unfold Outside at this; omega

/-- Writing a word outside every frame of the initial free list keeps the
invariant, with the word added to the set of changed words. -/
theorem BuildInv_store_out (L : Layout) (k0 : Kernel) (l0 : List Nat) (d : Nat)
    (W R : Nat → Prop) (k : Kernel) (used l : List Nat) (s v : Nat)
    (hF : Frames L l0) (hB : BuildInv L k0 l0 d W R k used l)
    (hs : ∀ u ∈ l0, Outside u s) :
    BuildInv L k0 l0 d (fun x => W x ∨ x = s) R (store k s v) used l ∧
      (∀ j, j < NPDENTRIES → pdeAt (store k s v) d j = pdeAt k d j) := by
  obtain ⟨b1, b2, b3, dal, d32, und⟩ := BuildInv_basic L k0 l0 d W R k used _ hF hB
  have hpd : ∀ j, j < NPDENTRIES → pdeAt (store k s v) d j = pdeAt k d j := by
    intro j hj
    apply pdeAt_congr
    rw [mem_store, if_neg]
    have := hs d (b1 d hB.dmem)
    unfold NPDENTRIES at hj
    unfold Outside PGSIZE at this; omega
  refine ⟨⟨hB.split, ?_, hB.lock, hB.dmem, hB.urc, ?_, hB.count, ?_, ?_, hB.rcf⟩, hpd⟩
  · refine FreeOK_congr L k _ l hB.free rfl (fun r hr => ?_) (fun _ _ => rfl)
    rw [mem_store, if_neg]
    have := hs r (b2 r hr)
    unfold Outside PGSIZE at this; omega
  · intro j hj hp
    rw [hpd j hj] at hp
    rw [tableOf_congr _ _ _ _ (hpd j hj)]
    obtain ⟨t1, t2, t3⟩ := hB.tabs j hj hp
    refine ⟨t1, t2, fun j' hj' hne hp' => ?_⟩
    rw [hpd j' hj'] at hp'
    rw [tableOf_congr _ _ _ _ (hpd j' hj')]
    exact t3 j' hj' hne hp'
  · rw [pdeCount_congr _ _ _ hpd]; exact hB.pdes
  · intro y hy hw
    rw [mem_store, if_neg (fun e => hw (Or.inr e))]
    exact hB.memf y hy (fun h => hw (Or.inl h))

/-- Changing the count of a frame that is not on the initial free list keeps
the invariant, with the index added to the set of changed counts. -/
theorem BuildInv_setref (L : Layout) (k0 : Kernel) (l0 : List Nat) (d : Nat)
    (W R : Nat → Prop) (k : Kernel) (used l : List Nat) (i : Nat) (c : Int)
    (hF : Frames L l0) (hB : BuildInv L k0 l0 d W R k used l)
    (hi : ∀ u ∈ l0, i ≠ V2P u / PGSIZE) :
    BuildInv L k0 l0 d W (fun j => R j ∨ j = i) (setref k i c) used l := by
  obtain ⟨b1, b2, b3, dal, d32, und⟩ := BuildInv_basic L k0 l0 d W R k used _ hF hB
  refine ⟨hB.split, ?_, hB.lock, hB.dmem, ?_, hB.tabs, hB.count, hB.pdes, hB.memf, ?_⟩
  · refine FreeOK_congr L k _ l hB.free rfl (fun _ _ => rfl) (fun r hr => ?_)
    simp only [setref, if_neg (Ne.symm (hi r (b2 r hr)))]
  · intro u hu
    simp only [setref, if_neg (Ne.symm (hi u (b1 u hu)))]
    exact hB.urc u hu
  · intro j hj hr
    have : j ≠ i := fun e => hr (Or.inr e)
    simp only [setref, if_neg this]
    exact hB.rcf j hj (fun h => hr (Or.inl h))

theorem BuildInv_mono (L : Layout) (k0 : Kernel) (l0 : List Nat) (d : Nat)
    (W R W' R' : Nat → Prop) (k : Kernel) (used l : List Nat)
    (hB : BuildInv L k0 l0 d W R k used l) (hW : ∀ x, W x → W' x) (hR : ∀ j, R j → R' j) :
    BuildInv L k0 l0 d W' R' k used l :=
  ⟨hB.split, hB.free, hB.lock, hB.dmem, hB.urc, hB.tabs, hB.count, hB.pdes,
    fun x hx hw => hB.memf x hx (fun h => hw (hW x h)),
    fun j hj hr => hB.rcf j hj (fun h => hr (hR j h))⟩


theorem mappages_page (L : Layout) (k : Kernel) (d va pa perm : Nat)
    (hva : va % PGSIZE = 0) (hlt : va + PGSIZE ≤ 4294967296) :
    mappages L k d va PGSIZE pa perm =
      (if (walkpgdir L k d va 1).2 = 0 then .ok ((walkpgdir L k d va 1).1, -1)
       else if deref (walkpgdir L k d va 1).1 (walkpgdir L k d va 1).2 &&& PTE_P ≠ 0 then
         .error "remap"
       else .ok (store (walkpgdir L k d va 1).1 (walkpgdir L k d va 1).2
         (pa ||| perm ||| PTE_P), 0)) := by
  have h1 : PGROUNDDOWN va = va := by unfold PGROUNDDOWN u32 PGSIZE at *; omega
  have h2 : PGROUNDDOWN (u32 (u32 (va + PGSIZE) + 4294967296 - 1)) = va := by
    unfold PGROUNDDOWN u32 PGSIZE at *; omega
  unfold mappages
  rw [h1, h2]
  show mappagesLoop L (1048576 + 1) k d va va pa perm = _
  rw [mappagesLoop]
  simp only [if_true]

/-- Two addresses in different pages differ in their directory or table index. -/
theorem PDX_PTX_ne (a b : Nat) (ha : a < 4294967296) (hb : b < 4294967296)
    (h : a / PGSIZE ≠ b / PGSIZE) : PDX a ≠ PDX b ∨ PTX a ≠ PTX b := by
  unfold PDX PTX u32
  unfold PGSIZE at h
  omega

/-- Effect on the leaf entries of `d` of a store into one of its page tables. -/
theorem leaf_store (L : Layout) (k0 : Kernel) (l0 : List Nat) (d : Nat)
    (W R : Nat → Prop) (k : Kernel) (used l : List Nat) (j0 x0 v : Nat)
    (hL : LayoutOK L) (hF : Frames L l0) (hB : BuildInv L k0 l0 d W R k used l)
    (hj : j0 < NPDENTRIES) (hp : pdeAt k d j0 &&& PTE_P ≠ 0) (hx : x0 < 1024) :
    (∀ b, leafSlot (store k (tableOf k d j0 + 4 * x0) v) d b = leafSlot k d b) ∧
      (∀ b, PDX b = j0 → PTX b = x0 →
        leafSlot k d b ≠ 0 ∧ deref (store k (tableOf k d j0 + 4 * x0) v) (leafSlot k d b) = u32 v) ∧
      (∀ b, (PDX b ≠ j0 ∨ PTX b ≠ x0) → leafSlot k d b ≠ 0 →
        deref (store k (tableOf k d j0 + 4 * x0) v) (leafSlot k d b) =
          deref k (leafSlot k d b)) := by
  obtain ⟨b1, b2, b3, dal, d32, und⟩ := BuildInv_basic L k0 l0 d W R k used _ hF hB
  obtain ⟨t1, t2, t3⟩ := hB.tabs j0 hj hp
  obtain ⟨_, hpd⟩ := BuildInv_store_used L k0 l0 d W R k used l (tableOf k d j0) (4 * x0) v
    hF hB t1 t2 (by unfold PGSIZE; omega)
  have hT0 : tableOf k d j0 ≠ 0 := Frames_ne_zero L hL l0 hF _ (b1 _ t1)
  refine ⟨fun b => ?_, fun b e1 e2 => ?_, fun b hne hs => ?_⟩
  · rw [leafSlot_eq, leafSlot_eq, hpd _ (PDX_lt b), tableOf_congr _ _ _ _ (hpd _ (PDX_lt b))]
  · have hs : leafSlot k d b = tableOf k d j0 + 4 * x0 := by
      rw [leafSlot_eq, e1, e2, if_pos hp]
    rw [hs]
    exact ⟨by omega, deref_store_same _ _ _⟩
  · apply deref_store_ne
    rw [leafSlot_eq] at hs ⊢
    by_cases hpb : pdeAt k d (PDX b) &&& PTE_P ≠ 0
    · rw [if_pos hpb]
      have hxb := PTX_lt b
      by_cases e : PDX b = j0
      · rw [e]
        have : PTX b ≠ x0 := by
          rcases hne with h | h
          · exact absurd e h
          · exact h
        omega
      · have hne2 := t3 (PDX b) (PDX_lt b) e hpb
        have a1 := tableOf_aligned k d (PDX b)
        have a2 := tableOf_aligned k d j0
        unfold PGSIZE at a1 a2
        omega
    · rw [if_neg hpb] at hs
      exact absurd rfl hs


/-- One iteration of the loop of `mappages` on the directory under
construction: the walk (which may take a frame for a new page table) followed
by the store of the new entry. -/
theorem BuildInv_map_step (L : Layout) (k0 : Kernel) (l0 : List Nat) (d : Nat)
    (W R : Nat → Prop) (k : Kernel) (used l : List Nat) (a v : Nat) (k1 : Kernel) (pte : Nat)
    (hL : LayoutOK L) (hF : Frames L l0) (hB : BuildInv L k0 l0 d W R k used l)
    (hw : walkpgdir L k d a 1 = (k1, pte)) (hpte : pte ≠ 0) :
    ∃ used' l', BuildInv L k0 l0 d W R (store k1 pte v) used' l' ∧
      leafSlot (store k1 pte v) d a = pte ∧
      deref (store k1 pte v) pte = u32 v ∧
      (∀ b, (PDX b ≠ PDX a ∨ PTX b ≠ PTX a) → leafSlot k d b ≠ 0 →
        leafSlot (store k1 pte v) d b = leafSlot k d b ∧
          deref (store k1 pte v) (leafSlot k d b) = deref k (leafSlot k d b)) ∧
      (∀ b, (PDX b ≠ PDX a ∨ PTX b ≠ PTX a) → leafSlot k d b = 0 →
        leafSlot (store k1 pte v) d b ≠ 0 →
          deref (store k1 pte v) (leafSlot (store k1 pte v) d b) = 0) ∧
      (∀ j, j < NPDENTRIES → j ≠ PDX a → pdeAt (store k1 pte v) d j = pdeAt k d j) ∧
      (∀ y, (∀ u ∈ l0, Outside u y) → (store k1 pte v).mem y = k.mem y) ∧
      (∀ j, (∀ u ∈ l0, j ≠ V2P u / PGSIZE) → (store k1 pte v).refcount j = k.refcount j) := by
  obtain ⟨b1, b2, b3, dal, d32, und⟩ := BuildInv_basic L k0 l0 d W R k used _ hF hB
  by_cases hp : pdeAt k d (PDX a) &&& PTE_P ≠ 0
  · -- the page table exists
    rw [walk_present L k d a 1 hp] at hw
    cases hw
    obtain ⟨t1, t2, t3⟩ := hB.tabs _ (PDX_lt a) hp
    obtain ⟨c1, c2⟩ := BuildInv_store_used L k0 l0 d W R k used l (tableOf k d (PDX a))
      (4 * PTX a) v hF hB t1 t2 (by have := PTX_lt a; unfold PGSIZE; omega)
    obtain ⟨e1, e2, e3⟩ := leaf_store L k0 l0 d W R k used l (PDX a) (PTX a) v hL hF hB
      (PDX_lt a) hp (PTX_lt a)
    have hsa : leafSlot k d a = tableOf k d (PDX a) + 4 * PTX a := by
      rw [leafSlot_eq, if_pos hp]
    refine ⟨used, l, c1, ?_, deref_store_same _ _ _, fun b hb hs => ⟨e1 b, e3 b hb hs⟩,
      fun b hb hs hs' => ?_, fun j hj _ => c2 j hj, fun y hy => ?_, fun _ _ => rfl⟩
    · rw [e1 a, hsa]
    · rw [e1 b] at hs'; exact absurd hs hs'
    · rw [mem_store, if_neg]
      have := hy _ (b1 _ t1)
      have := PTX_lt a
      unfold Outside PGSIZE at *; omega
  · cases l with
    | nil =>
      have : k.freelist = 0 := hB.free.1
      rw [walk_absent_nil L k d a hp this] at hw
      cases hw
      exact absurd rfl hpte
    | cons g rest =>
      have hg : k.freelist = g := hB.free.1.1
      have hg0 : g ≠ 0 := hB.free.1.2.1
      rw [walk_absent_cons L k d a g hp hg hg0] at hw
      cases hw
      obtain ⟨A1, A2, A3, A4, A5, A6, A7⟩ := BuildInv_alloc L k0 l0 d W R k used g rest a hL hF hB hp
      have gl0 : g ∈ l0 := b2 g (List.mem_cons_self _ _)
      have gal : g % PGSIZE = 0 := (hF.2 g gl0).1.1
      have gnu : g ∉ used := fun h => b3 g h g (List.mem_cons_self _ _) rfl
      have dg : g ≠ d := fun e => gnu (e ▸ hB.dmem)
      have hxa := PTX_lt a
      obtain ⟨c1, c2⟩ := BuildInv_store_used L k0 l0 d W R (allocTable L k d a g) (used ++ [g])
        rest g (4 * PTX a) v hF A1 (by simp) dg (by unfold PGSIZE; omega)
      have e123 := leaf_store L k0 l0 d W R (allocTable L k d a g) (used ++ [g]) rest
        (PDX a) (PTX a) v hL hF A1 (PDX_lt a) A2 (PTX_lt a)
      rw [A3] at e123
      obtain ⟨e1, e2, e3⟩ := e123
      have hsa : leafSlot (allocTable L k d a g) d a = g + 4 * PTX a := by
        rw [leafSlot_eq, if_pos A2, A3]
      -- leaf slots of the old directory survive the allocation
      have hold : ∀ b, leafSlot k d b ≠ 0 →
          leafSlot (allocTable L k d a g) d b = leafSlot k d b ∧
            deref (allocTable L k d a g) (leafSlot k d b) = deref k (leafSlot k d b) := by
        intro b hs
        rw [leafSlot_eq] at hs
        by_cases hpb : pdeAt k d (PDX b) &&& PTE_P ≠ 0
        · have hne : PDX b ≠ PDX a := fun e => hp (e ▸ hpb)
          have hpe := A4 _ (PDX_lt b) hne
          obtain ⟨t1, t2, t3⟩ := hB.tabs _ (PDX_lt b) hpb
          have hT : tableOf k d (PDX b) ≠ g := fun e => gnu (e ▸ t1)
          have hs1 : leafSlot k d b = tableOf k d (PDX b) + 4 * PTX b := by
            rw [leafSlot_eq, if_pos hpb]
          constructor
          · rw [leafSlot_eq, leafSlot_eq, hpe, tableOf_congr _ _ _ _ hpe]
          · apply deref_congr
            rw [hs1]
            have hxb := PTX_lt b
            apply A6
            · exact Outside_in_page _ g _ (tableOf_aligned k d _) gal hT
                (by unfold PGSIZE; omega)
            · have := Outside_in_page _ d (4 * PTX b) (tableOf_aligned k d (PDX b)) dal t2
                (by unfold PGSIZE; omega)
              have := PDX_lt a
              unfold Outside PGSIZE at *; omega
        · rw [if_neg hpb] at hs
          exact absurd rfl hs
      refine ⟨used ++ [g], rest, c1, ?_, deref_store_same _ _ _, fun b hb hs => ?_,
        fun b hb hs hs' => ?_, fun j hj hne => ?_, fun y hy => ?_, fun j hj => ?_⟩
      · rw [e1 a, hsa]
      · obtain ⟨o1, o2⟩ := hold b hs
        refine ⟨by rw [e1 b, o1], ?_⟩
        rw [← o1, e3 b hb (by rw [o1]; exact hs), o1, o2]
      · rw [e1 b] at hs' ⊢
        rw [e3 b hb hs']
        -- the slot lies in the fresh, zeroed table
        rw [leafSlot_eq] at hs hs' ⊢
        by_cases hpb : pdeAt (allocTable L k d a g) d (PDX b) &&& PTE_P ≠ 0
        · rw [if_pos hpb]
          by_cases e : PDX b = PDX a
          · rw [e, A3]
            exact A5 _ (PTX_lt b)
          · rw [A4 _ (PDX_lt b) e] at hpb
            rw [if_pos hpb] at hs
            have := Frames_ne_zero L hL l0 hF _ (b1 _ (hB.tabs _ (PDX_lt b) hpb).1)
            omega
        · rw [if_neg hpb] at hs'
          exact absurd rfl hs'
      · rw [c2 j hj, A4 j hj hne]
      · rw [mem_store, if_neg, A6]
        · exact hy g gl0
        · have := hy d (b1 d hB.dmem)
          have := PDX_lt a
          unfold Outside PGSIZE at *; omega
        · have := hy g gl0
          unfold Outside PGSIZE at *; omega
      · show (allocTable L k d a g).refcount j = _
        exact A7 j (hj g gl0)


theorem walk_zero (L : Layout) (k0 : Kernel) (l0 : List Nat) (d : Nat)
    (W R : Nat → Prop) (k : Kernel) (used l : List Nat) (a : Nat) (k1 : Kernel)
    (hF : Frames L l0) (hB : BuildInv L k0 l0 d W R k used l)
    (hw : walkpgdir L k d a 1 = (k1, 0)) : k1 = k := by
  obtain ⟨b1, b2, b3, dal, d32, und⟩ := BuildInv_basic L k0 l0 d W R k used _ hF hB
  by_cases hp : pdeAt k d (PDX a) &&& PTE_P ≠ 0
  · rw [walk_present L k d a 1 hp] at hw
    exact (congrArg Prod.fst hw).symm
  · cases l with
    | nil =>
      have : k.freelist = 0 := hB.free.1
      rw [walk_absent_nil L k d a hp this] at hw
      exact (congrArg Prod.fst hw).symm
    | cons g rest =>
      have hg : k.freelist = g := hB.free.1.1
      have hg0 : g ≠ 0 := hB.free.1.2.1
      rw [walk_absent_cons L k d a g hp hg hg0] at hw
      have : g + 4 * PTX a = 0 := congrArg Prod.snd hw
      omega

theorem PDX_kernel (a : Nat) (h : KERNBASE ≤ a) (h2 : a < 4294967296) : 512 ≤ PDX a := by
  unfold PDX u32; unfold KERNBASE at h; omega

theorem BuildInv_mappagesLoop (L : Layout) (k0 : Kernel) (l0 : List Nat) (d : Nat)
    (W R : Nat → Prop) (hL : LayoutOK L) (hF : Frames L l0) :
    ∀ (fuel : Nat) (k : Kernel) (used l : List Nat) (a last pa perm : Nat) (k' : Kernel)
      (r : Int),
      BuildInv L k0 l0 d W R k used l →
      a % PGSIZE = 0 → last % PGSIZE = 0 → a ≤ last → last < 4294967296 → KERNBASE ≤ a →
      mappagesLoop L fuel k d a last pa perm = .ok (k', r) →
      ∃ used' l', BuildInv L k0 l0 d W R k' used' l' ∧
        (∀ j, j < 512 → pdeAt k' d j = pdeAt k d j) ∧
        (∀ y, (∀ u ∈ l0, Outside u y) → k'.mem y = k.mem y) ∧
        (∀ j, (∀ u ∈ l0, j ≠ V2P u / PGSIZE) → k'.refcount j = k.refcount j) := by
  intro fuel
  induction fuel with
  | zero =>
    intro k used l a last pa perm k' r _ _ _ _ _ _ hm
    rw [mappagesLoop] at hm
    cases hm
  | succ fuel ih =>
    intro k used l a last pa perm k' r hB ha hlast hle h32 hkern hm
    rw [mappagesLoop] at hm
    generalize hw : walkpgdir L k d a 1 = w at hm
    obtain ⟨k1, pte⟩ := w
    simp only at hm
    by_cases hpte : pte = 0
    · rw [if_pos hpte] at hm
      cases hm
      subst hpte
      rw [walk_zero L k0 l0 d W R k used l a k' hF hB hw]
      exact ⟨used, l, hB, fun _ _ => rfl, fun _ _ => rfl, fun _ _ => rfl⟩
    · rw [if_neg hpte] at hm
      by_cases hpres : deref k1 pte &&& PTE_P ≠ 0
      · rw [if_pos hpres] at hm
        cases hm
      · rw [if_neg hpres] at hm
        obtain ⟨used1, l1, s1, _, _, _, _, s6, s7, s8⟩ :=
          BuildInv_map_step L k0 l0 d W R k used l a (pa ||| perm ||| PTE_P) k1 pte hL hF hB
            hw hpte
        have hpdx := PDX_kernel a hkern (by omega)
        have hlow : ∀ j, j < 512 →
            pdeAt (store k1 pte (pa ||| perm ||| PTE_P)) d j = pdeAt k d j :=
          fun j hj => s6 j (by unfold NPDENTRIES; omega) (by omega)
        by_cases hal : a = last
        · rw [if_pos hal] at hm
          cases hm
          exact ⟨used1, l1, s1, hlow, s7, s8⟩
        · rw [if_neg hal] at hm
          have hnext : u32 (a + PGSIZE) = a + PGSIZE := by
            unfold u32 PGSIZE at *; omega
          rw [hnext] at hm
          obtain ⟨used2, l2, t1, t2, t3, t4⟩ := ih _ used1 l1 (a + PGSIZE) last _ perm k' r s1
            (by unfold PGSIZE at *; omega) hlast (by unfold PGSIZE at *; omega) h32
            (by omega) hm
          exact ⟨used2, l2, t1, fun j hj => by rw [t2 j hj, hlow j hj],
            fun y hy => by rw [t3 y hy, s7 y hy], fun j hj => by rw [t4 j hj, s8 j hj]⟩


theorem PGROUNDDOWN_aligned (a : Nat) : PGROUNDDOWN a % PGSIZE = 0 := by
  unfold PGROUNDDOWN PGSIZE; omega

theorem PGROUNDDOWN_lt (a : Nat) : PGROUNDDOWN a < 4294967296 := by
  unfold PGROUNDDOWN u32 PGSIZE; omega

theorem BuildInv_setupkvmLoop (L : Layout) (k0 : Kernel) (l0 : List Nat) (d : Nat)
    (W R : Nat → Prop) (hL : LayoutOK L) (hF : Frames L l0) :
    ∀ (ms : List Kmap) (k : Kernel) (used l : List Nat) (k' : Kernel) (b : Bool),
      (∀ m ∈ ms, KmapOK m) → BuildInv L k0 l0 d W R k used l →
      setupkvmLoop L ms k d = .ok (k', b) →
      ∃ used' l', BuildInv L k0 l0 d W R k' used' l' ∧
        (∀ j, j < 512 → pdeAt k' d j = pdeAt k d j) ∧
        (∀ y, (∀ u ∈ l0, Outside u y) → k'.mem y = k.mem y) ∧
        (∀ j, (∀ u ∈ l0, j ≠ V2P u / PGSIZE) → k'.refcount j = k.refcount j) := by
  intro ms
  induction ms with
  | nil =>
    intro k used l k' b _ hB hs
    rw [setupkvmLoop] at hs
    cases hs
    exact ⟨used, l, hB, fun _ _ => rfl, fun _ _ => rfl, fun _ _ => rfl⟩
  | cons m ms ih =>
    intro k used l k' b hK hB hs
    rw [setupkvmLoop] at hs
    generalize hm : mappages L k d m.virt (u32 (m.phys_end + 4294967296 - m.phys_start))
      m.phys_start m.perm = res at hs
    cases res with
    | error e => cases hs
    | ok p =>
      obtain ⟨k1, r⟩ := p
      simp only at hs
      have hk := hK m (List.mem_cons_self _ _)
      unfold mappages at hm
      obtain ⟨used1, l1, s1, s2, s3, s4⟩ := BuildInv_mappagesLoop L k0 l0 d W R hL hF _ k used l
        _ _ _ _ k1 r hB (PGROUNDDOWN_aligned _) (PGROUNDDOWN_aligned _) hk.2
        (PGROUNDDOWN_lt _) hk.1 hm
      by_cases hr : r < 0
      · rw [if_pos hr] at hs
        cases hs
        exact ⟨used1, l1, s1, s2, s3, s4⟩
      · rw [if_neg hr] at hs
        obtain ⟨used2, l2, t1, t2, t3, t4⟩ := ih k1 used1 l1 k' b
          (fun x hx => hK x (List.mem_cons_of_mem _ hx)) s1 hs
        exact ⟨used2, l2, t1, fun j hj => by rw [t2 j hj, s2 j hj],
          fun y hy => by rw [t3 y hy, s3 y hy], fun j hj => by rw [t4 j hj, s4 j hj]⟩

/-- The directory right after `kalloc` and `memset` in `setupkvm`. -/
theorem BuildInv_init (L : Layout) (k0 : Kernel) (g : Nat) (rest : List Nat)
    (hL : LayoutOK L) (hf : FreeOK L k0 (g :: rest)) (hlock : k0.use_lock = true) :
    BuildInv L k0 (g :: rest) g (fun _ => False) (fun _ => False)
        (memset (kalloc L k0).1 g 0) [g] rest ∧
      ∀ j, j < NPDENTRIES → pdeAt (memset (kalloc L k0).1 g 0) g j = 0 := by
  have hF := Frames_of_FreeOK L k0 _ hf
  obtain ⟨_, f2, f3, f4, f5, f6, f7⟩ := kalloc_FreeOK L k0 g rest hL hlock hf
  have gal : g % PGSIZE = 0 := (hF.2 g (List.mem_cons_self _ _)).1.1
  have hz : ∀ j, j < NPDENTRIES → pdeAt (memset (kalloc L k0).1 g 0) g j = 0 := by
    intro j hj
    unfold pdeAt deref
    rw [mem_memset, if_pos]
    · rfl
    · unfold NPDENTRIES at hj; unfold PGSIZE; omega
  refine ⟨⟨rfl, ?_, f6, List.mem_singleton.mpr rfl, ?_, ?_, ?_, ?_, ?_, ?_⟩, hz⟩
  · refine FreeOK_congr L _ _ rest f2 rfl (fun r hr => ?_) (fun _ _ => rfl)
    rw [mem_memset, if_neg]
    have rg : r ≠ g := fun e => (List.nodup_cons.mp hf.2.1).1 (e ▸ hr)
    have ral := (hF.2 r (List.mem_cons_of_mem _ hr)).1.1
    have := Outside_of_ne g r gal ral (Ne.symm rg)
    unfold Outside at this; omega
  · intro u hu
    rw [List.mem_singleton.mp hu]; exact f3
  · intro j hj hp
    rw [hz j hj] at hp
    exact absurd rfl hp
  · show (kalloc L k0).1.num_free_pages = _
    rw [f7]; simp
  · have : pdeCount (memset (kalloc L k0).1 g 0) g = 0 := by
      unfold pdeCount
      rw [List.countP_eq_zero]
      intro j hj
      rw [hz j (List.mem_range.mp hj)]
      simp
    rw [this]; rfl
  · intro x hx _
    rw [mem_memset, if_neg, f5]
    have := hx g (List.mem_singleton.mpr rfl)
    unfold Outside at this; omega
  · intro j hj _
    exact f4 j (hj g (List.mem_singleton.mpr rfl))

theorem setupkvm_build (L : Layout) (k0 : Kernel) (l0 : List Nat) (k1 : Kernel) (d : Nat)
    (hL : LayoutOK L) (hK : ∀ m ∈ L.kmap, KmapOK m) (hf : FreeOK L k0 l0)
    (hlock : k0.use_lock = true) (hs : setupkvm L k0 = .ok (k1, d)) (hd : d ≠ 0) :
    ∃ used l, BuildInv L k0 l0 d (fun _ => False) (fun _ => False) k1 used l ∧
      (∀ j, j < 512 → pdeAt k1 d j &&& PTE_P = 0) ∧
      (∀ y, (∀ u ∈ l0, Outside u y) → k1.mem y = k0.mem y) ∧
      (∀ j, (∀ u ∈ l0, j ≠ V2P u / PGSIZE) → k1.refcount j = k0.refcount j) := by
  have hF := Frames_of_FreeOK L k0 _ hf
  unfold setupkvm at hs
  cases l0 with
  | nil =>
    have : k0.freelist = 0 := hf.1
    rw [kalloc_nil L k0 this] at hs
    simp only [if_true] at hs
    cases hs
    exact absurd rfl hd
  | cons g rest =>
    obtain ⟨f1, f2, f3, f4, f5, f6, f7⟩ := kalloc_FreeOK L k0 g rest hL hlock hf
    obtain ⟨hB, hz⟩ := BuildInv_init L k0 g rest hL hf hlock
    have hg0 : g ≠ 0 := Frames_ne_zero L hL _ hF g (List.mem_cons_self _ _)
    generalize hka : kalloc L k0 = ka at hs f1 hB hz f4 f5
    obtain ⟨kA, p⟩ := ka
    simp only at f1 hs hB hz f4 f5
    subst f1
    rw [if_neg hg0] at hs
    by_cases hph : P2V L.PHYSTOP > L.DEVSPACE
    · rw [if_pos hph] at hs
      cases hs
    · rw [if_neg hph] at hs
      generalize hloop : setupkvmLoop L L.kmap (memset kA p 0) p = res at hs
      cases res with
      | error e => cases hs
      | ok q =>
        obtain ⟨k3, b⟩ := q
        obtain ⟨used, l, s1, s2, s3, s4⟩ := BuildInv_setupkvmLoop L k0 (p :: rest) p _ _ hL hF
          L.kmap _ [p] rest k3 b hK hB hloop
        cases b with
        | true =>
          simp only at hs
          have h1 := Except.ok.inj hs
          have hk : k3 = k1 := congrArg Prod.fst h1
          have hp : p = d := congrArg Prod.snd h1
          subst hk
          subst hp
          refine ⟨used, l, s1, fun j hj => ?_, fun y hy => ?_, fun j hj => ?_⟩
          · rw [s2 j hj, hz j (by unfold NPDENTRIES; omega)]
            rfl
          · rw [s3 y hy, mem_memset, if_neg, f5]
            have := hy p (List.mem_cons_self _ _)
            unfold Outside at this; omega
          · rw [s4 j hj]
            exact f4 j (hj p (List.mem_cons_self _ _))
        | false =>
          simp only at hs
          generalize freevm L k3 p = fr at hs
          cases fr with
          | error e => cases hs
          | ok k4 =>
            simp only at hs
            have h1 := Except.ok.inj hs
            have hp : 0 = d := congrArg Prod.snd h1
            exact absurd hp.symm hd

/-! ## The loop invariant of `copyuvm` -/

theorem PDX_user (a : Nat) (h : a < KERNBASE) : PDX a < 512 := by
  unfold PDX u32; unfold KERNBASE at h; omega

/-- Distinct user pages of a well-formed address space have distinct slots. -/
theorem SrcOK_slot_ne (L : Layout) (k0 : Kernel) (l0 : List Nat) (pgdir sz a b : Nat)
    (hS : SrcOK L k0 l0 pgdir sz) (ha : a < KERNBASE) (hb : b < KERNBASE)
    (hne : a / PGSIZE ≠ b / PGSIZE)
    (hsa : leafSlot k0 pgdir a ≠ 0) (hsb : leafSlot k0 pgdir b ≠ 0) :
    leafSlot k0 pgdir a ≠ leafSlot k0 pgdir b := by
  rw [leafSlot_eq] at hsa hsb ⊢
  rw [leafSlot_eq]
  by_cases hpa : pdeAt k0 pgdir (PDX a) &&& PTE_P ≠ 0
  · by_cases hpb : pdeAt k0 pgdir (PDX b) &&& PTE_P ≠ 0
    · rw [if_pos hpa, if_pos hpb]
      have hxa := PTX_lt a
      have hxb := PTX_lt b
      rcases PDX_PTX_ne a b (by unfold KERNBASE at ha; omega) (by unfold KERNBASE at hb; omega)
        hne with h | h
      · have := (hS.tabs _ (PDX_user b hb) hpb).2.2 _ (PDX_user a ha) h hpa
        have a1 := tableOf_aligned k0 pgdir (PDX a)
        have a2 := tableOf_aligned k0 pgdir (PDX b)
        unfold PGSIZE at a1 a2
        omega
      · by_cases e : PDX a = PDX b
        · rw [e]; omega
        · have := (hS.tabs _ (PDX_user b hb) hpb).2.2 _ (PDX_user a ha) e hpa
          have a1 := tableOf_aligned k0 pgdir (PDX a)
          have a2 := tableOf_aligned k0 pgdir (PDX b)
          unfold PGSIZE at a1 a2
          omega
    · rw [if_neg hpb] at hsb; exact absurd rfl hsb
  · rw [if_neg hpa] at hsa; exact absurd rfl hsa

/-- A leaf slot of a well-formed address space lies outside every free frame
and outside the page directory. -/
theorem SrcOK_slot_out (L : Layout) (k0 : Kernel) (l0 : List Nat) (pgdir sz a : Nat)
    (hF : Frames L l0) (hS : SrcOK L k0 l0 pgdir sz) (ha : a < KERNBASE)
    (hsa : leafSlot k0 pgdir a ≠ 0) :
    (∀ u ∈ l0, Outside u (leafSlot k0 pgdir a)) ∧ Outside pgdir (leafSlot k0 pgdir a) := by
  rw [leafSlot_eq] at hsa ⊢
  by_cases hpa : pdeAt k0 pgdir (PDX a) &&& PTE_P ≠ 0
  · rw [if_pos hpa]
    obtain ⟨t1, t2, _⟩ := hS.tabs _ (PDX_user a ha) hpa
    have hxa := PTX_lt a
    refine ⟨fun u hu => ?_, ?_⟩
    · exact Outside_in_page _ u _ (tableOf_aligned _ _ _) (hF.2 u hu).1.1
        (fun e => t1 (e ▸ hu)) (by unfold PGSIZE; omega)
    · exact Outside_in_page _ pgdir _ (tableOf_aligned _ _ _) hS.pal t2
        (by unfold PGSIZE; omega)
  · rw [if_neg hpa] at hsa; exact absurd rfl hsa


/-- What the copy loop may rely on about the source address space. -/
theorem CopyInv_view (L : Layout) (k0 : Kernel) (l0 : List Nat) (pgdir sz d i : Nat)
    (k : Kernel) (used l : List Nat) (hF : Frames L l0) (hS : SrcOK L k0 l0 pgdir sz)
    (hC : CopyInv L k0 l0 pgdir sz d i k used l) :
    (∀ a, leafSlot k pgdir a = leafSlot k0 pgdir a) ∧
      (∀ a, a % PGSIZE = 0 → i ≤ a → a < KERNBASE → leafSlot k0 pgdir a ≠ 0 →
        deref k (leafSlot k0 pgdir a) = entry k0 pgdir a) ∧
      (∀ a, a % PGSIZE = 0 → i ≤ a → a < sz → PrivateAt L k0 pgdir a →
        k.refcount (PTE_ADDR (entry k0 pgdir a) / PGSIZE) =
          k0.refcount (PTE_ADDR (entry k0 pgdir a) / PGSIZE)) := by
  obtain ⟨b1, b2, b3, dal, d32, und⟩ := BuildInv_basic L k0 l0 d _ _ k used _ hF hC.build
  have hszk := hS.szle
  have hpde : ∀ j, j < NPDENTRIES → pdeAt k pgdir j = pdeAt k0 pgdir j := by
    intro j hj
    apply pdeAt_congr
    apply hC.build.memf
    · intro u hu
      exact Outside_in_page pgdir u _ hS.pal (hF.2 u (b1 u hu)).1.1
        (fun e => hS.pfree (e ▸ b1 u hu)) (by unfold NPDENTRIES at hj; unfold PGSIZE; omega)
    · rintro ⟨a, a1, a2, a3, a4⟩
      have := (SrcOK_slot_out L k0 l0 pgdir sz a hF hS
        (by have := hC.bound a a1 a2; omega) a3.1).2
      rw [← a4] at this
      unfold NPDENTRIES at hj
      unfold Outside PGSIZE at this
      omega
  refine ⟨fun a => ?_, fun a a1 a2 a3 a4 => ?_, fun a a1 a2 a3 a4 => ?_⟩
  · rw [leafSlot_eq, leafSlot_eq, hpde _ (PDX_lt a), tableOf_congr _ _ _ _ (hpde _ (PDX_lt a))]
  · apply deref_congr
    apply hC.build.memf
    · intro u hu
      exact (SrcOK_slot_out L k0 l0 pgdir sz a hF hS a3 a4).1 u (b1 u hu)
    · rintro ⟨b, c1, c2, c3, c4⟩
      have hb := hC.bound b c1 c2
      refine SrcOK_slot_ne L k0 l0 pgdir sz a b hS a3 (by omega) ?_ a4 c3.1 c4
      unfold PGSIZE at *; omega
  · apply hC.build.rcf
    · intro u hu e
      have h1 := hS.data a a1 a3 a4
      have hu0 := b1 u hu
      have := idx_inj (P2V (PTE_ADDR (entry k0 pgdir a))) u (P2V_PTE_ADDR_aligned _)
        (hF.2 u hu0).1.1 (u32_lt _) (hF.2 u hu0).2
        (by rw [V2P_P2V _ (by unfold PTE_ADDR u32; omega)]; exact e)
      exact h1 (this ▸ hu0)
    · rintro ⟨b, c1, c2, c3, c4⟩
      have hb := hC.bound b c1 c2
      have := hS.inj a b a1 c1 a3 hb (by omega) a4 c3
      apply this
      unfold PTE_ADDR at c4 ⊢
      unfold PGSIZE at c4
      omega

theorem BuildInv_incref (L : Layout) (k0 : Kernel) (l0 : List Nat) (d : Nat)
    (W R : Nat → Prop) (k : Kernel) (used l : List Nat) (pa : Nat) (k2 : Kernel)
    (hF : Frames L l0) (hB : BuildInv L k0 l0 d W R k used l)
    (hi : ∀ u ∈ l0, pa / PGSIZE ≠ V2P u / PGSIZE) (hinc : incref L k pa = .ok k2) :
    BuildInv L k0 l0 d W (fun j => R j ∨ j = pa / PGSIZE) k2 used l ∧
      k2.mem = k.mem ∧
      k2.refcount (pa / PGSIZE) = inc1 (k.refcount (pa / PGSIZE)) ∧
      (∀ j, j ≠ pa / PGSIZE → k2.refcount j = k.refcount j) := by
  unfold incref at hinc
  by_cases hbad : pa / PGSIZE ≥ MAX_PAGES L
  · simp [hbad] at hinc
  · simp only [hbad, hB.lock, if_false, Bool.not_true, Bool.false_eq_true] at hinc
    by_cases hz : k.refcount (pa / PGSIZE) = 0
    · simp only [hz, if_true] at hinc
      by_cases hov : (setref k (pa / PGSIZE) 1).refcount (pa / PGSIZE) ≥ 2147483647
      · rw [if_pos hov] at hinc
        cases hinc
      rw [if_neg hov] at hinc
      cases hinc
      have h1 := BuildInv_setref L k0 l0 d W R k used l (pa / PGSIZE) 1 hF hB hi
      have h2 := BuildInv_setref L k0 l0 d W _ _ used l (pa / PGSIZE)
        ((setref k (pa / PGSIZE) 1).refcount (pa / PGSIZE) + 1) hF h1 hi
      refine ⟨BuildInv_mono L k0 l0 d W _ W _ _ used l h2 (fun _ h => h) (fun j h => ?_), rfl,
        ?_, fun j hj => ?_⟩
      · rcases h with (h | h) | h
        · exact Or.inl h
        · exact Or.inr h
        · exact Or.inr h
      · simp [setref, inc1, hz]
      · simp [setref, hj]
    · simp only [hz, if_false] at hinc
      by_cases hov : k.refcount (pa / PGSIZE) ≥ 2147483647
      · rw [if_pos hov] at hinc
        cases hinc
      rw [if_neg hov] at hinc
      cases hinc
      have h1 := BuildInv_setref L k0 l0 d W R k used l (pa / PGSIZE)
        (k.refcount (pa / PGSIZE) + 1) hF hB hi
      refine ⟨h1, rfl, ?_, fun j hj => ?_⟩
      · simp [setref, inc1, hz]
      · simp [setref, hj]


/-- A successful one-page `mappages` on the directory under construction. -/
theorem BuildInv_mappages_page (L : Layout) (k0 : Kernel) (l0 : List Nat) (d : Nat)
    (W R : Nat → Prop) (k : Kernel) (used l : List Nat) (va pa perm : Nat) (k' : Kernel)
    (r : Int) (hL : LayoutOK L) (hF : Frames L l0) (hB : BuildInv L k0 l0 d W R k used l)
    (hva : va % PGSIZE = 0) (hlt : va + PGSIZE ≤ 4294967296)
    (hm : mappages L k d va PGSIZE pa perm = .ok (k', r)) (hr : ¬ r < 0) :
    ∃ used' l', BuildInv L k0 l0 d W R k' used' l' ∧
      leafSlot k' d va ≠ 0 ∧
      deref k' (leafSlot k' d va) = u32 (pa ||| perm ||| PTE_P) ∧
      (∀ b, b < 4294967296 → b / PGSIZE ≠ va / PGSIZE → leafSlot k d b ≠ 0 →
        leafSlot k' d b = leafSlot k d b ∧
          deref k' (leafSlot k d b) = deref k (leafSlot k d b)) ∧
      (∀ b, b < 4294967296 → b / PGSIZE ≠ va / PGSIZE → leafSlot k d b = 0 →
        leafSlot k' d b ≠ 0 → deref k' (leafSlot k' d b) = 0) ∧
      (∀ y, (∀ u ∈ l0, Outside u y) → k'.mem y = k.mem y) ∧
      (∀ j, (∀ u ∈ l0, j ≠ V2P u / PGSIZE) → k'.refcount j = k.refcount j) ∧
      (∀ u ∈ used', u ∈ l0) ∧
      (∀ a, leafSlot k' d a ≠ 0 → ∃ t ∈ used', t % PGSIZE = 0 ∧ t ≤ leafSlot k' d a ∧
        leafSlot k' d a < t + PGSIZE) := by
  rw [mappages_page L k d va pa perm hva hlt] at hm
  generalize hw : walkpgdir L k d va 1 = w at hm
  obtain ⟨k1, pte⟩ := w
  simp only at hm
  by_cases hpte : pte = 0
  · rw [if_pos hpte] at hm
    have := congrArg Prod.snd (Except.ok.inj hm)
    simp only at this
    omega
  · rw [if_neg hpte] at hm
    by_cases hpres : deref k1 pte &&& PTE_P ≠ 0
    · rw [if_pos hpres] at hm
      cases hm
    · rw [if_neg hpres] at hm
      have hk : store k1 pte (pa ||| perm ||| PTE_P) = k' :=
        congrArg Prod.fst (Except.ok.inj hm)
      obtain ⟨used1, l1, s1, s2, s3, s4, s5, s6, s7, s8⟩ :=
        BuildInv_map_step L k0 l0 d W R k used l va (pa ||| perm ||| PTE_P) k1 pte hL hF hB
          hw hpte
      rw [hk] at s1 s2 s3 s4 s5 s6 s7 s8
      obtain ⟨b1, b2, b3, dal, d32, und⟩ := BuildInv_basic L k0 l0 d W R k' used1 _ hF s1
      have hva32 : va < 4294967296 := by unfold PGSIZE at hlt; omega
      refine ⟨used1, l1, s1, by rw [s2]; exact hpte, by rw [s2]; exact s3,
        fun b hb hne hs => s4 b (PDX_PTX_ne b va hb hva32 hne) hs,
        fun b hb hne hs hs' => s5 b (PDX_PTX_ne b va hb hva32 hne) hs hs', s7, s8, b1,
        fun a ha => ?_⟩
      rw [leafSlot_eq] at ha ⊢
      by_cases hp : pdeAt k' d (PDX a) &&& PTE_P ≠ 0
      · rw [if_pos hp]
        refine ⟨_, (s1.tabs _ (PDX_lt a) hp).1, tableOf_aligned _ _ _, by omega, ?_⟩
        have := PTX_lt a
        unfold PGSIZE; omega
      · rw [if_neg hp] at ha; exact absurd rfl ha

theorem entry_bits_lt (e f : Nat) (hf : f < 4096) :
    PTE_ADDR e ||| f ||| PTE_P < 4294967296 := by
  apply or_lt_u32
  · apply or_lt_u32
    · unfold PTE_ADDR u32; omega
    · omega
  · unfold PTE_P; omega

theorem and_le_self (a b : Nat) : a &&& b ≤ a := Nat.and_le_left


/-- The count index of a private source frame is not that of a free frame. -/
theorem SrcOK_idx_out (L : Layout) (k0 : Kernel) (l0 : List Nat) (pgdir sz a : Nat)
    (hF : Frames L l0) (hS : SrcOK L k0 l0 pgdir sz) (a1 : a % PGSIZE = 0) (a3 : a < sz)
    (a4 : PrivateAt L k0 pgdir a) :
    ∀ u ∈ l0, PTE_ADDR (entry k0 pgdir a) / PGSIZE ≠ V2P u / PGSIZE := by
  intro u hu e
  have h1 := hS.data a a1 a3 a4
  have := idx_inj (P2V (PTE_ADDR (entry k0 pgdir a))) u (P2V_PTE_ADDR_aligned _)
    (hF.2 u hu).1.1 (u32_lt _) (hF.2 u hu).2
    (by rw [V2P_P2V _ (by unfold PTE_ADDR u32; omega)]; exact e)
  exact h1 (this ▸ hu)

/-- The child part of the loop invariant after one more page was mapped. -/
theorem child_after_map (L : Layout) (k0 : Kernel) (pgdir d i : Nat) (k k2 : Kernel)
    (v : Nat) (hi : i % PGSIZE = 0) (hik : i < KERNBASE)
    (cd : ∀ a, a % PGSIZE = 0 → a < i →
      leafSlot k d a ≠ 0 ∧ deref k (leafSlot k d a) = childEntry L (entry k0 pgdir a))
    (cr : ∀ a, a % PGSIZE = 0 → i ≤ a → a < KERNBASE → leafSlot k d a ≠ 0 →
      deref k (leafSlot k d a) &&& PTE_P = 0)
    (s2 : leafSlot k2 d i ≠ 0) (s3 : deref k2 (leafSlot k2 d i) = v)
    (hv : v = childEntry L (entry k0 pgdir i))
    (s4 : ∀ b, b < 4294967296 → b / PGSIZE ≠ i / PGSIZE → leafSlot k d b ≠ 0 →
        leafSlot k2 d b = leafSlot k d b ∧
          deref k2 (leafSlot k d b) = deref k (leafSlot k d b))
    (s5 : ∀ b, b < 4294967296 → b / PGSIZE ≠ i / PGSIZE → leafSlot k d b = 0 →
        leafSlot k2 d b ≠ 0 → deref k2 (leafSlot k2 d b) = 0) :
    (∀ a, a % PGSIZE = 0 → a < i + PGSIZE →
      leafSlot k2 d a ≠ 0 ∧ deref k2 (leafSlot k2 d a) = childEntry L (entry k0 pgdir a)) ∧
    (∀ a, a % PGSIZE = 0 → i + PGSIZE ≤ a → a < KERNBASE → leafSlot k2 d a ≠ 0 →
      deref k2 (leafSlot k2 d a) &&& PTE_P = 0) := by
  constructor
  · intro a a1 a2
    by_cases e : a = i
    · subst e
      exact ⟨s2, by rw [s3, hv]⟩
    · have hlt : a < i := by unfold PGSIZE at *; omega
      obtain ⟨c1, c2⟩ := cd a a1 hlt
      obtain ⟨t1, t2⟩ := s4 a (by unfold KERNBASE at hik; omega)
        (by unfold PGSIZE at *; omega) c1
      rw [t1]
      exact ⟨c1, by rw [t2, c2]⟩
  · intro a a1 a2 a3 a4
    have hne : a / PGSIZE ≠ i / PGSIZE := by unfold PGSIZE at *; omega
    have h32 : a < 4294967296 := by unfold KERNBASE at a3; omega
    by_cases hs : leafSlot k d a = 0
    · rw [s5 a h32 hne hs a4]; rfl
    · obtain ⟨t1, t2⟩ := s4 a h32 hne hs
      rw [t1, t2]
      exact cr a a1 (by omega) a3 hs

theorem CopyInv_shared_step (L : Layout) (k0 : Kernel) (l0 : List Nat) (pgdir sz d i : Nat)
    (k : Kernel) (used l : List Nat) (k2 : Kernel) (r : Int)
    (hL : LayoutOK L) (hF : Frames L l0) (hS : SrcOK L k0 l0 pgdir sz)
    (hC : CopyInv L k0 l0 pgdir sz d i k used l) (hi : i < sz)
    (hs0 : leafSlot k0 pgdir i ≠ 0) (hpres : entry k0 pgdir i &&& PTE_P ≠ 0)
    (hsh : PTE_FLAGS (entry k0 pgdir i) &&& L.PTE_S ≠ 0)
    (hm : mappages L k d i PGSIZE (PTE_ADDR (entry k0 pgdir i))
      (PTE_FLAGS (entry k0 pgdir i)) = .ok (k2, r)) (hr : ¬ r < 0) :
    ∃ used' l', CopyInv L k0 l0 pgdir sz d (i + PGSIZE) k2 used' l' := by
  have hszk := hS.szle
  have hial := hC.ial
  obtain ⟨used1, l1, s1, s2, s3, s4, s5, s6, s7, s8, _⟩ :=
    BuildInv_mappages_page L k0 l0 d _ _ k used l i _ _ k2 r hL hF hC.build hial
      (by unfold KERNBASE PGSIZE at *; omega) hm hr
  have hv : u32 (PTE_ADDR (entry k0 pgdir i) ||| PTE_FLAGS (entry k0 pgdir i) ||| PTE_P) =
      childEntry L (entry k0 pgdir i) := by
    unfold childEntry
    rw [if_pos hsh]
    exact u32_of_lt _ (entry_bits_lt _ _ (by unfold PTE_FLAGS; omega))
  obtain ⟨n1, n2⟩ := child_after_map L k0 pgdir d i k k2 _ hial (by omega) hC.childdone
    hC.childrest s2 s3 hv s4 s5
  have hnot : ∀ a, a % PGSIZE = 0 → a < i + PGSIZE → PrivateAt L k0 pgdir a → a < i := by
    intro a a1 a2 a3
    by_cases e : a = i
    · subst e; exact absurd a3.2.2 hsh
    · unfold PGSIZE at *; omega
  refine ⟨used1, l1, ⟨?_, by unfold PGSIZE at *; omega, ?_, ?_, ?_, ?_, n1, n2⟩⟩
  · refine BuildInv_mono L k0 l0 d _ _ _ _ k2 used1 l1 s1 ?_ ?_
    · rintro x ⟨a, a1, a2, a3, a4⟩
      exact ⟨a, a1, by omega, a3, a4⟩
    · rintro x ⟨a, a1, a2, a3, a4⟩
      exact ⟨a, a1, by omega, a3, a4⟩
  · intro a a1 a2
    by_cases e : a = i
    · subst e; exact hi
    · exact hC.bound a a1 (by unfold PGSIZE at *; omega)
  · intro a a1 a2
    by_cases e : a = i
    · subst e; exact ⟨hs0, hpres⟩
    · exact hC.pres a a1 (by unfold PGSIZE at *; omega)
  · intro a a1 a2 a3
    have hlt := hnot a a1 a2 a3
    have hb := hC.bound a a1 hlt
    rw [deref_congr k k2 _ (s6 _ (SrcOK_slot_out L k0 l0 pgdir sz a hF hS (by omega) a3.1).1)]
    exact hC.srcdone a a1 hlt a3
  · intro a a1 a2 a3
    have hlt := hnot a a1 a2 a3
    have hb := hC.bound a a1 hlt
    rw [s7 _ (SrcOK_idx_out L k0 l0 pgdir sz a hF hS a1 hb a3)]
    exact hC.srcrc a a1 hlt a3


theorem leafSlot_congr (k k' : Kernel) (d a : Nat)
    (h : k'.mem (d + 4 * PDX a) = k.mem (d + 4 * PDX a)) :
    leafSlot k' d a = leafSlot k d a := by
  rw [leafSlot_eq, leafSlot_eq, pdeAt_congr k k' d _ h,
    tableOf_congr _ _ _ _ (pdeAt_congr k k' d _ h)]

theorem cowEntry_lt (e : Nat) : cowEntry e < 4294967296 := by
  unfold cowEntry
  apply entry_bits_lt
  have : PTE_FLAGS e &&& unot PTE_W ≤ PTE_FLAGS e := Nat.and_le_left
  unfold PTE_FLAGS at *
  omega

theorem CopyInv_private_step (L : Layout) (k0 : Kernel) (l0 : List Nat) (pgdir sz d i : Nat)
    (k : Kernel) (used l : List Nat) (k2 k3 : Kernel) (r : Int)
    (hL : LayoutOK L) (hF : Frames L l0) (hS : SrcOK L k0 l0 pgdir sz)
    (hC : CopyInv L k0 l0 pgdir sz d i k used l) (hi : i < sz)
    (hp : PrivateAt L k0 pgdir i)
    (hinc : incref L k (PTE_ADDR (entry k0 pgdir i)) = .ok k2)
    (hm : mappages L k2 d i PGSIZE (PTE_ADDR (entry k0 pgdir i))
      (PTE_FLAGS (entry k0 pgdir i) &&& unot PTE_W) = .ok (k3, r)) (hr : ¬ r < 0) :
    leafSlot k3 pgdir i = leafSlot k0 pgdir i ∧
      ∃ used' l', CopyInv L k0 l0 pgdir sz d (i + PGSIZE)
        (store k3 (leafSlot k0 pgdir i) (cowEntry (entry k0 pgdir i))) used' l' := by
  have hszk := hS.szle
  have hial := hC.ial
  obtain ⟨V1, V2, V3⟩ := CopyInv_view L k0 l0 pgdir sz d i k used l hF hS hC
  have idxout := SrcOK_idx_out L k0 l0 pgdir sz i hF hS hial hi hp
  obtain ⟨B2, m2, rc2, rc2'⟩ := BuildInv_incref L k0 l0 d _ _ k used l _ k2 hF hC.build
    idxout hinc
  have hls2 : ∀ a, leafSlot k2 d a = leafSlot k d a := fun a =>
    leafSlot_congr k k2 d a (by rw [m2])
  have hd2 : ∀ p, deref k2 p = deref k p := fun p => deref_congr k k2 p (by rw [m2])
  obtain ⟨used1, l1, s1, s2, s3, s4, s5, s6, s7, s8, s9⟩ :=
    BuildInv_mappages_page L k0 l0 d _ _ k2 used l i _ _ k3 r hL hF B2 hial
      (by unfold KERNBASE PGSIZE at *; omega) hm hr
  have hik : i < KERNBASE := by omega
  obtain ⟨so1, so2⟩ := SrcOK_slot_out L k0 l0 pgdir sz i hF hS hik hp.1
  obtain ⟨B4, pd4⟩ := BuildInv_store_out L k0 l0 d _ _ k3 used1 l1 (leafSlot k0 pgdir i)
    (cowEntry (entry k0 pgdir i)) hF s1 so1
  have hv : u32 (PTE_ADDR (entry k0 pgdir i) ||| (PTE_FLAGS (entry k0 pgdir i) &&& unot PTE_W)
      ||| PTE_P) = childEntry L (entry k0 pgdir i) := by
    unfold childEntry
    rw [if_neg (by rw [hp.2.2]; simp)]
    exact u32_of_lt _ (cowEntry_lt _)
  obtain ⟨n1, n2⟩ := child_after_map L k0 pgdir d i k2 k3 _ hial hik
    (fun a a1 a2 => by rw [hls2 a, hd2]; exact hC.childdone a a1 a2)
    (fun a a1 a2 a3 a4 => by
      rw [hls2 a] at a4 ⊢; rw [hd2]; exact hC.childrest a a1 a2 a3 a4)
    s2 s3 hv s4 s5
  -- the store into the source table does not disturb the child
  have hls4 : ∀ a, leafSlot (store k3 (leafSlot k0 pgdir i) (cowEntry (entry k0 pgdir i))) d a =
      leafSlot k3 d a := by
    intro a
    apply leafSlot_congr
    rw [mem_store, if_neg]
    have := so1 d (s8 d s1.dmem)
    have := PDX_lt a
    unfold Outside PGSIZE at *
    omega
  have hd4 : ∀ a, leafSlot k3 d a ≠ 0 →
      deref (store k3 (leafSlot k0 pgdir i) (cowEntry (entry k0 pgdir i))) (leafSlot k3 d a) =
        deref k3 (leafSlot k3 d a) := by
    intro a ha
    apply deref_store_ne
    obtain ⟨t, t1, t2, t3, t4⟩ := s9 a ha
    have := so1 t (s8 t t1)
    unfold Outside at this
    omega
  have hslot3 : leafSlot k3 pgdir i = leafSlot k0 pgdir i := by
    rw [← V1 i]
    apply leafSlot_congr
    rw [s6, m2]
    intro u hu
    have := PDX_lt i
    exact Outside_in_page pgdir u _ hS.pal (hF.2 u hu).1.1 (fun e => hS.pfree (e ▸ hu))
      (by unfold PGSIZE; omega)
  refine ⟨hslot3, used1, l1, ⟨?_, by unfold PGSIZE at *; omega, ?_, ?_, ?_, ?_, ?_, ?_⟩⟩
  · refine BuildInv_mono L k0 l0 d _ _ _ _ _ used1 l1 B4 ?_ ?_
    · rintro x (⟨a, a1, a2, a3, a4⟩ | h)
      · exact ⟨a, a1, by omega, a3, a4⟩
      · exact ⟨i, hial, by unfold PGSIZE; omega, hp, h⟩
    · rintro x (⟨a, a1, a2, a3, a4⟩ | h)
      · exact ⟨a, a1, by omega, a3, a4⟩
      · exact ⟨i, hial, by unfold PGSIZE; omega, hp, h⟩
  · intro a a1 a2
    by_cases e : a = i
    · subst e; exact hi
    · exact hC.bound a a1 (by unfold PGSIZE at *; omega)
  · intro a a1 a2
    by_cases e : a = i
    · subst e; exact ⟨hp.1, hp.2.1⟩
    · exact hC.pres a a1 (by unfold PGSIZE at *; omega)
  · intro a a1 a2 a3
    by_cases e : a = i
    · subst e
      rw [deref_store_same]
      exact u32_of_lt _ (cowEntry_lt _)
    · have hlt : a < i := by unfold PGSIZE at *; omega
      have hb := hC.bound a a1 hlt
      have hne : leafSlot k0 pgdir a ≠ leafSlot k0 pgdir i :=
        SrcOK_slot_ne L k0 l0 pgdir sz a i hS (by omega) hik
          (by unfold PGSIZE at *; omega) a3.1 hp.1
      rw [deref_store_ne _ _ _ _ hne,
        deref_congr k2 k3 _ (s6 _ (SrcOK_slot_out L k0 l0 pgdir sz a hF hS (by omega) a3.1).1),
        hd2]
      exact hC.srcdone a a1 hlt a3
  · intro a a1 a2 a3
    show k3.refcount _ = _
    by_cases e : a = i
    · subst e
      rw [s7 _ idxout, rc2, V3 a a1 (Nat.le_refl _) hi a3]
    · have hlt : a < i := by unfold PGSIZE at *; omega
      have hb := hC.bound a a1 hlt
      have hne : PTE_ADDR (entry k0 pgdir a) / PGSIZE ≠ PTE_ADDR (entry k0 pgdir i) / PGSIZE := by
        have := hS.inj a i a1 hial hb hi e a3 hp
        unfold PTE_ADDR at this ⊢
        unfold PGSIZE
        omega
      rw [s7 _ (SrcOK_idx_out L k0 l0 pgdir sz a hF hS a1 hb a3), rc2' _ hne]
      exact hC.srcrc a a1 hlt a3
  · intro a a1 a2
    obtain ⟨c1, c2⟩ := n1 a a1 a2
    rw [hls4 a]
    exact ⟨c1, by rw [hd4 a c1, c2]⟩
  · intro a a1 a2 a3 a4
    rw [hls4 a] at a4 ⊢
    rw [hd4 a a4]
    exact n2 a a1 a2 a3 a4


theorem CopyInv_loop (L : Layout) (k0 : Kernel) (l0 : List Nat) (pgdir sz d : Nat)
    (hL : LayoutOK L) (hF : Frames L l0) (hS : SrcOK L k0 l0 pgdir sz) :
    ∀ (fuel i : Nat) (k : Kernel) (used l : List Nat) (k' : Kernel),
      CopyInv L k0 l0 pgdir sz d i k used l →
      copyuvmLoop L fuel k pgdir d i sz = .ok (k', true) →
      ∃ i' used' l', CopyInv L k0 l0 pgdir sz d i' k' used' l' ∧ sz ≤ i' := by
  intro fuel
  induction fuel with
  | zero =>
    intro i k used l k' _ h
    rw [copyuvmLoop] at h
    cases h
  | succ fuel ih =>
    intro i k used l k' hC h
    rw [copyuvmLoop] at h
    by_cases hi : i < sz
    · rw [if_pos hi, walkpgdir_zero] at h
      simp only at h
      obtain ⟨V1, V2, V3⟩ := CopyInv_view L k0 l0 pgdir sz d i k used l hF hS hC
      have hszk := hS.szle
      have hial := hC.ial
      rw [V1 i] at h
      by_cases hs0 : leafSlot k0 pgdir i = 0
      · rw [if_pos hs0] at h; cases h
      · rw [if_neg hs0] at h
        have he : deref k (leafSlot k0 pgdir i) = entry k0 pgdir i :=
          V2 i hial (Nat.le_refl _) (by omega) hs0
        rw [he] at h
        by_cases hpr : entry k0 pgdir i &&& PTE_P = 0
        · rw [if_pos hpr] at h; cases h
        · rw [if_neg hpr] at h
          have hnext : u32 (i + PGSIZE) = i + PGSIZE := by
            unfold u32; unfold KERNBASE PGSIZE at *; omega
          rw [hnext] at h
          by_cases hsh : PTE_FLAGS (entry k0 pgdir i) &&& L.PTE_S ≠ 0
          · rw [if_pos hsh] at h
            generalize hm : mappages L k d i PGSIZE (PTE_ADDR (entry k0 pgdir i))
              (PTE_FLAGS (entry k0 pgdir i)) = res at h
            cases res with
            | error e => cases h
            | ok p =>
              obtain ⟨k2, r⟩ := p
              simp only at h
              by_cases hr : r < 0
              · rw [if_pos hr] at h
                have := congrArg Prod.snd (Except.ok.inj h)
                cases this
              · rw [if_neg hr] at h
                obtain ⟨used', l', hC'⟩ := CopyInv_shared_step L k0 l0 pgdir sz d i k used l k2 r
                  hL hF hS hC hi hs0 hpr hsh hm hr
                exact ih _ k2 used' l' k' hC' h
          · rw [if_neg hsh] at h
            have hp : PrivateAt L k0 pgdir i := ⟨hs0, hpr, by simpa using hsh⟩
            generalize hinc : incref L k (PTE_ADDR (entry k0 pgdir i)) = res at h
            cases res with
            | error e => cases h
            | ok k2 =>
              simp only at h
              generalize hm : mappages L k2 d i PGSIZE (PTE_ADDR (entry k0 pgdir i))
                (PTE_FLAGS (entry k0 pgdir i) &&& unot PTE_W) = res at h
              cases res with
              | error e => cases h
              | ok p =>
                obtain ⟨k3, r⟩ := p
                simp only at h
                by_cases hr : r < 0
                · rw [if_pos hr] at h
                  have := congrArg Prod.snd (Except.ok.inj h)
                  cases this
                · rw [if_neg hr, walkpgdir_zero] at h
                  simp only at h
                  obtain ⟨hsl, used', l', hC'⟩ := CopyInv_private_step L k0 l0 pgdir sz d i k
                    used l k2 k3 r hL hF hS hC hi hp hinc hm hr
                  rw [hsl, if_neg hs0] at h
                  exact ih _ _ used' l' k' hC' h
    · rw [if_neg hi] at h
      have hk : k = k' := congrArg Prod.fst (Except.ok.inj h)
      subst hk
      exact ⟨i, used, l, hC, by omega⟩

/-- The state after a successful `copyuvm` satisfies the loop invariant at an
address at or above `sz`. -/
theorem copyuvm_inv (L : Layout) (k0 : Kernel) (l0 : List Nat) (pgdir sz : Nat)
    (k' : Kernel) (d : Nat) (hL : LayoutOK L) (hK : ∀ m ∈ L.kmap, KmapOK m)
    (hf : FreeOK L k0 l0) (hlock : k0.use_lock = true) (hS : SrcOK L k0 l0 pgdir sz)
    (hc : copyuvm L k0 pgdir sz = .ok (k', d)) (hd : d ≠ 0) :
    ∃ i used l, CopyInv L k0 l0 pgdir sz d i k' used l ∧ sz ≤ i := by
  have hF := Frames_of_FreeOK L k0 _ hf
  unfold copyuvm at hc
  generalize hs : setupkvm L k0 = res at hc
  cases res with
  | error e => cases hc
  | ok p =>
    obtain ⟨k1, d1⟩ := p
    simp only at hc
    by_cases hd1 : d1 = 0
    · rw [if_pos hd1] at hc
      have := congrArg Prod.snd (Except.ok.inj hc)
      simp only at this
      exact absurd this.symm hd
    · rw [if_neg hd1] at hc
      generalize hloop : copyuvmLoop L LOOP_FUEL k1 pgdir d1 0 sz = res at hc
      cases res with
      | error e => cases hc
      | ok q =>
        obtain ⟨k2, b⟩ := q
        cases b with
        | false =>
          simp only at hc
          generalize freevm L k2 d1 = fr at hc
          cases fr with
          | error e => cases hc
          | ok k4 =>
            simp only at hc
            have := congrArg Prod.snd (Except.ok.inj hc)
            exact absurd this.symm hd
        | true =>
          simp only at hc
          have h1 := Except.ok.inj hc
          have e1 : k2 = k' := congrArg Prod.fst h1
          have e2 : d1 = d := congrArg Prod.snd h1
          subst e1; subst e2
          obtain ⟨used, l, B, u1, _, _⟩ := setupkvm_build L k0 l0 k1 d1 hL hK hf hlock hs hd1
          have hC0 : CopyInv L k0 l0 pgdir sz d1 0 k1 used l := by
            refine ⟨BuildInv_mono L k0 l0 d1 _ _ _ _ k1 used l B (fun _ h => h.elim)
              (fun _ h => h.elim), rfl, fun a _ h => by omega, fun a _ h => by omega,
              fun a _ h => by omega, fun a _ h => by omega, fun a _ h => by omega,
              fun a a1 _ a3 a4 => ?_⟩
            rw [leafSlot_eq] at a4
            have := u1 _ (PDX_user a a3)
            rw [if_neg (by rw [this]; simp)] at a4
            exact absurd rfl a4
          exact CopyInv_loop L k0 l0 pgdir sz d1 hL hF hS _ 0 k1 used l k2 hC0 hloop

theorem and_split (i a b c e : Nat) (hb : b < 2 ^ i) (he : e < 2 ^ i) :
    (2 ^ i * a + b) &&& (2 ^ i * c + e) = 2 ^ i * (a &&& c) + (b &&& e) := by
  apply Nat.eq_of_testBit_eq
  intro j
  have hbe : b &&& e < 2 ^ i := Nat.lt_of_le_of_lt Nat.and_le_left hb
  rw [Nat.testBit_and, Nat.testBit_mul_pow_two_add _ hb, Nat.testBit_mul_pow_two_add _ he,
    Nat.testBit_mul_pow_two_add _ hbe]
  by_cases h : j < i
  · simp only [h, if_true, Nat.testBit_and]
  · simp only [h, if_false, Nat.testBit_and]

theorem and_low (x m : Nat) (hm : m < 4096) : x &&& m = x % 4096 &&& m := by
  have h := and_split 12 (x / 4096) (x % 4096) 0 m (by omega) (by simpa using hm)
  have e1 : 2 ^ 12 * (x / 4096) + x % 4096 = x := by
    have : (2:Nat) ^ 12 = 4096 := by norm_num
    omega
  have e2 : 2 ^ 12 * 0 + m = m := by omega
  rw [e1, e2] at h
  rw [h]
  simp

theorem small_and_W : ∀ r, r < 4 → r &&& 2 = r / 2 * 2 ∧ (r % 2) &&& 2 = 0 := by
  decide

theorem flags_clear_W (f : Nat) (hf : f < 4096) :
    f &&& unot PTE_W = f - (f &&& PTE_W) ∧ (f &&& unot PTE_W) &&& PTE_W = 0 ∧
      (f &&& unot PTE_W) % 2 = f % 2 := by
  have hr := small_and_W (f % 4) (by omega)
  have h1 := and_split 2 (f / 4) (f % 4) 1073741823 1 (by omega) (by omega)
  have e1 : 2 ^ 2 * (f / 4) + f % 4 = f := by omega
  have e2 : 2 ^ 2 * 1073741823 + 1 = unot PTE_W := by decide
  rw [e1, e2] at h1
  have h2 := and_split 2 (f / 4) (f % 4) 0 2 (by omega) (by omega)
  have e3 : 2 ^ 2 * 0 + 2 = PTE_W := by decide
  rw [e1, e3] at h2
  have hq : f / 4 &&& 1073741823 = f / 4 := by
    have := @Nat.and_pow_two_sub_one_of_lt_two_pow 30 (f / 4) (by omega)
    simpa using this
  rw [hq, Nat.and_one_is_mod] at h1
  rw [Nat.and_zero, hr.1] at h2
  refine ⟨by omega, ?_, by omega⟩
  rw [h1]
  have h3 := and_split 2 (f / 4) (f % 4 % 2) 0 2 (by omega) (by omega)
  rw [e3] at h3
  rw [h3, Nat.and_zero, hr.2]
  rfl

/-- The copy-on-write entry is the source entry with its writable bit removed. -/
theorem cowEntry_eq (e : Nat) (he : e < 4294967296) (hp : e &&& PTE_P ≠ 0) :
    cowEntry e = e - (e &&& PTE_W) ∧ cowEntry e &&& PTE_W = 0 ∧ cowEntry e &&& PTE_P ≠ 0 ∧
      PTE_ADDR (cowEntry e) = PTE_ADDR e := by
  have hf : PTE_FLAGS e < 4096 := by unfold PTE_FLAGS; omega
  obtain ⟨f1, f2, f3⟩ := flags_clear_W (PTE_FLAGS e) hf
  have hfl : PTE_FLAGS e = e % 4096 := by unfold PTE_FLAGS; rw [u32_of_lt _ he]
  have hpa : PTE_ADDR e = e / 4096 * 4096 := by unfold PTE_ADDR; rw [u32_of_lt _ he]
  have hodd : e % 2 = 1 := by
    unfold PTE_P at hp
    rw [Nat.and_one_is_mod] at hp
    omega
  have hle : PTE_FLAGS e &&& unot PTE_W ≤ PTE_FLAGS e := Nat.and_le_left
  have hW : e &&& PTE_W = PTE_FLAGS e &&& PTE_W := by
    rw [hfl]; exact and_low e PTE_W (by decide)
  have hWle : PTE_FLAGS e &&& PTE_W ≤ PTE_FLAGS e := Nat.and_le_left
  have hval : cowEntry e = PTE_ADDR e + (PTE_FLAGS e &&& unot PTE_W) := by
    have h0 : PTE_ADDR e ||| (PTE_FLAGS e &&& unot PTE_W) =
        PTE_ADDR e + (PTE_FLAGS e &&& unot PTE_W) :=
      or_eq_add _ _ (by rw [hpa]; omega) (by omega)
    show (PTE_ADDR e ||| (PTE_FLAGS e &&& unot PTE_W)) ||| 1 = _
    rw [h0]
    apply or_one_of_present
    rw [Nat.and_one_is_mod, hpa]
    omega
  have hmod : cowEntry e % 4096 = PTE_FLAGS e &&& unot PTE_W := by
    rw [hval, hpa]; omega
  refine ⟨?_, ?_, ?_, ?_⟩
  · rw [hval, f1, hW, hpa]
    omega
  · rw [and_low _ PTE_W (by decide), hmod]
    exact f2
  · unfold PTE_P
    rw [Nat.and_one_is_mod, hval, hpa]
    omega
  · have hlt : cowEntry e < 4294967296 := cowEntry_lt e
    unfold PTE_ADDR
    rw [u32_of_lt _ hlt, u32_of_lt _ he, hval, hpa]
    omega

theorem incref_count (L : Layout) (k : Kernel) (pa : Nat) (k2 : Kernel)
    (hlock : k.use_lock = true) (hinc : incref L k pa = .ok k2) :
    k2.refcount (pa / PGSIZE) = inc1 (k.refcount (pa / PGSIZE)) := by
  unfold incref at hinc
  by_cases hbad : pa / PGSIZE ≥ MAX_PAGES L
  · simp [hbad] at hinc
  · simp only [hbad, hlock, if_false, Bool.not_true, Bool.false_eq_true] at hinc
    by_cases hz : k.refcount (pa / PGSIZE) = 0
    · simp only [hz, if_true] at hinc
      by_cases hov : (setref k (pa / PGSIZE) 1).refcount (pa / PGSIZE) ≥ 2147483647
      · rw [if_pos hov] at hinc
        cases hinc
      rw [if_neg hov] at hinc
      cases hinc
      simp [setref, inc1, hz]
    · simp only [hz, if_false] at hinc
      by_cases hov : k.refcount (pa / PGSIZE) ≥ 2147483647
      · rw [if_pos hov] at hinc
        cases hinc
      rw [if_neg hov] at hinc
      cases hinc
      simp [setref, inc1, hz]

/-- A directory built from the free list is a well-formed source for `copyuvm`. -/
theorem SrcOK_of_BuildInv (L : Layout) (k0 : Kernel) (l0 : List Nat) (d : Nat)
    (W R : Nat → Prop) (k : Kernel) (used l : List Nat) (sz : Nat)
    (hF : Frames L l0) (hB : BuildInv L k0 l0 d W R k used l) (hsz : sz ≤ KERNBASE)
    (hdata : ∀ a, a % PGSIZE = 0 → a < sz → PrivateAt L k d a →
      P2V (PTE_ADDR (entry k d a)) ∉ l)
    (hinj : ∀ a b, a % PGSIZE = 0 → b % PGSIZE = 0 → a < sz → b < sz → a ≠ b →
      PrivateAt L k d a → PrivateAt L k d b →
      PTE_ADDR (entry k d a) ≠ PTE_ADDR (entry k d b)) :
    SrcOK L k l d sz := by
  obtain ⟨b1, b2, b3, dal, d32, und⟩ := BuildInv_basic L k0 l0 d W R k used _ hF hB
  refine ⟨hsz, dal, fun h => b3 d hB.dmem d h rfl, fun j hj hp => ?_, hdata, hinj⟩
  obtain ⟨t1, t2, t3⟩ := hB.tabs j (by unfold NPDENTRIES; omega) hp
  exact ⟨fun h => b3 _ t1 _ h rfl, t2,
    fun j' hj' hne hp' => t3 j' (by unfold NPDENTRIES; omega) hne hp'⟩

/-- The example process is well formed. -/
theorem exProc_ok :
    ∃ l, FreeOK exLayout exProc l ∧ SrcOK exLayout exProc l 0x8011e000 PGSIZE ∧
      ∀ a, a % PGSIZE = 0 → a < KERNBASE → leafSlot exProc 0x8011e000 a ≠ 0 →
        entry exProc 0x8011e000 a &&& PTE_P ≠ 0 → a < PGSIZE := by
  have hL : LayoutOK exLayout := by decide
  have hf : FreeOK exLayout exData exFrames.tail := by decide
  have hF := Frames_of_FreeOK exLayout exData _ hf
  obtain ⟨used, l, B, hu, _⟩ := setupkvm_build exLayout exData exFrames.tail exKvm 0x8011e000 hL
    (by decide) hf (by decide) rfl (by decide)
  obtain ⟨used', l', B', _, _, _, s5, _, _, s8, _⟩ :=
    BuildInv_mappages_page exLayout exData exFrames.tail 0x8011e000 _ _ exKvm used l 0
      (V2P 0x8011f000) (PTE_W ||| PTE_U) exProc 0 hL hF B (by decide) (by decide) rfl
      (by decide)
  obtain ⟨b1, b2, b3, dal, d32, und⟩ := BuildInv_basic exLayout exData exFrames.tail
    0x8011e000 _ _ exProc used' _ hF B'
  refine ⟨l', B'.free, SrcOK_of_BuildInv exLayout exData exFrames.tail 0x8011e000 _ _ exProc
    used' l' PGSIZE hF B' (by decide) (fun a a1 a2 _ h => ?_) (fun a b a1 b1 a2 b2 hne => ?_),
    fun a a1 a2 a3 a4 => ?_⟩
  · have ha : a = 0 := by unfold PGSIZE at *; omega
    subst ha
    have : P2V (PTE_ADDR (entry exProc 0x8011e000 0)) = 0x8011f000 := by decide
    rw [this] at h
    have := b2 _ h
    revert this
    decide
  · unfold PGSIZE at *; omega
  · by_contra hge
    have hz : leafSlot exKvm 0x8011e000 a = 0 := by
      rw [leafSlot_eq, if_neg]
      rw [hu _ (PDX_user a a2)]
      simp
    have := s5 a (by unfold KERNBASE at a2; omega) (by unfold PGSIZE at *; omega) hz a3
    unfold entry at a4
    rw [this] at a4
    exact a4 (by decide)


/-- C3: after a successful `copyuvm`, for every page `a` below `sz` whose leaf
entry `e` in the source is present with the shared bit clear: the child maps
`a` with the entry `cowEntry e` (the frame of `e`, the flags of `e` without
`PTE_W`), the source's own entry for `a` is rewritten to the same value in the
same slot, that value is `e` with just its writable bit removed, and the count
of the frame is the count one `incref` produces from the count before the
call.  The source address space is assumed well formed (`SrcOK`) with respect
to a well-formed free list. -/
theorem copyuvm_private_page (L : Layout) (k : Kernel) (l0 : List Nat) (pgdir sz : Nat)
    (k' : Kernel) (d a : Nat) (hL : LayoutOK L) (hK : ∀ m ∈ L.kmap, KmapOK m)
    (hf : FreeOK L k l0) (hlock : k.use_lock = true) (hS : SrcOK L k l0 pgdir sz)
    (hc : copyuvm L k pgdir sz = .ok (k', d)) (hd : d ≠ 0)
    (ha : a % PGSIZE = 0) (hasz : a < sz) (hp : PrivateAt L k pgdir a) :
    leafSlot k' d a ≠ 0 ∧ entry k' d a = cowEntry (entry k pgdir a) ∧
      leafSlot k' pgdir a = leafSlot k pgdir a ∧
      entry k' pgdir a = cowEntry (entry k pgdir a) ∧
      PTE_ADDR (cowEntry (entry k pgdir a)) = PTE_ADDR (entry k pgdir a) ∧
      cowEntry (entry k pgdir a) = entry k pgdir a - (entry k pgdir a &&& PTE_W) ∧
      cowEntry (entry k pgdir a) &&& PTE_W = 0 ∧
      k'.refcount (PTE_ADDR (entry k pgdir a) / PGSIZE) =
        inc1 (k.refcount (PTE_ADDR (entry k pgdir a) / PGSIZE)) ∧
      (∀ k2, incref L k (PTE_ADDR (entry k pgdir a)) = .ok k2 →
        k'.refcount (PTE_ADDR (entry k pgdir a) / PGSIZE) =
          k2.refcount (PTE_ADDR (entry k pgdir a) / PGSIZE)) := by
  have hF := Frames_of_FreeOK L k _ hf
  obtain ⟨i, used, l, hC, hi⟩ := copyuvm_inv L k l0 pgdir sz k' d hL hK hf hlock hS hc hd
  obtain ⟨V1, _, _⟩ := CopyInv_view L k l0 pgdir sz d i k' used l hF hS hC
  obtain ⟨c1, c2⟩ := hC.childdone a ha (by omega)
  have hce : childEntry L (entry k pgdir a) = cowEntry (entry k pgdir a) := by
    unfold childEntry
    rw [if_neg (by rw [hp.2.2]; simp)]
  obtain ⟨e1, e2, _, e4⟩ := cowEntry_eq (entry k pgdir a) (deref_lt _ _) hp.2.1
  have hrc := hC.srcrc a ha (by omega) hp
  refine ⟨c1, (c2.trans hce : deref k' (leafSlot k' d a) = _), V1 a, ?_, e4, e1, e2, hrc,
    fun k2 h2 => ?_⟩
  · show deref k' (leafSlot k' pgdir a) = _
    rw [V1 a]
    exact hC.srcdone a ha (by omega) hp
  · rw [hrc, incref_count L k _ k2 hlock h2]

/-- Witness for `copyuvm_private_page`: page 0 of the example process. -/
theorem copyuvm_private_page_witness :
    entry exFork 0x8011b000 0 = cowEntry (entry exProc 0x8011e000 0) ∧
      entry exFork 0x8011e000 0 = cowEntry (entry exProc 0x8011e000 0) := by
  obtain ⟨l, hf, hS, _⟩ := exProc_ok
  obtain ⟨_, h2, _, h4, _⟩ := copyuvm_private_page exLayout exProc l 0x8011e000 PGSIZE exFork
    0x8011b000 0 (by decide) (by decide) hf (by decide) hS rfl (by decide) (by decide)
    (by decide) (by decide)
  exact ⟨h2, h4⟩

theorem entry_or_W (e : Nat) (he : e < 4294967296) (hP : e &&& PTE_P ≠ 0) :
    PTE_ADDR e ||| PTE_FLAGS e ||| PTE_W ||| PTE_P = e ||| PTE_W := by
  have h1 : PTE_ADDR e ||| PTE_FLAGS e = e := by
    unfold PTE_ADDR PTE_FLAGS
    rw [u32_of_lt _ he]
    exact addr_or_flags _
  rw [h1, Nat.or_assoc, Nat.or_comm PTE_W PTE_P, ← Nat.or_assoc]
  unfold PTE_P at hP ⊢
  rw [or_one_of_present _ hP]

/-- What a returning `cowfault` changes. -/
theorem cowfault_effect (L : Layout) (k : Kernel) (pgdir va : Nat) (k' : Kernel) (r : Int)
    (pte : Nat) (hslot : leafSlot k pgdir (PGROUNDDOWN va) = pte)
    (h : cowfault L k pgdir va = .ok (k', r)) (hfree : HeadFree k) :
    k'.use_lock = k.use_lock ∧
      (∀ x, (k.freelist ≠ 0 → Outside k.freelist x) → x ≠ pte → k'.mem x = k.mem x) ∧
      (∀ j, k'.refcount j ≤ k.refcount j ∨ k'.refcount j ≤ 1) ∧
      ((k.freelist ≠ 0 → Outside k.freelist pte) →
        deref k' pte = deref k pte ∨
        (PTE_ADDR (deref k' pte) = PTE_ADDR (deref k pte) ∧
          (∃ ref, getrefcount L k (PTE_ADDR (deref k pte)) = .ok ref ∧ ref < 2) ∧
          k'.refcount = k.refcount) ∨
        (PTE_ADDR (deref k' pte) = V2P k.freelist ∧
          k'.refcount (V2P k.freelist / PGSIZE) ≤ 1)) := by
  have hw : walkpgdir L k pgdir (PGROUNDDOWN va) 0 = (k, pte) := by
    rw [walkpgdir_zero, hslot]
  have same : ∀ r', (Except.ok (k, r') : Except String (Kernel × Int)) = .ok (k', r) →
      k'.use_lock = k.use_lock ∧
      (∀ x, (k.freelist ≠ 0 → Outside k.freelist x) → x ≠ pte → k'.mem x = k.mem x) ∧
      (∀ j, k'.refcount j ≤ k.refcount j ∨ k'.refcount j ≤ 1) ∧
      ((k.freelist ≠ 0 → Outside k.freelist pte) →
        deref k' pte = deref k pte ∨
        (PTE_ADDR (deref k' pte) = PTE_ADDR (deref k pte) ∧
          (∃ ref, getrefcount L k (PTE_ADDR (deref k pte)) = .ok ref ∧ ref < 2) ∧
          k'.refcount = k.refcount) ∨
        (PTE_ADDR (deref k' pte) = V2P k.freelist ∧
          k'.refcount (V2P k.freelist / PGSIZE) ≤ 1)) := by
    intro r' e
    have e1 := congrArg Prod.fst (Except.ok.inj e)
    simp only at e1
    subst e1
    exact ⟨rfl, fun _ _ _ => rfl, fun j => Or.inl (le_refl _), fun _ => Or.inl rfl⟩
  unfold cowfault at h
  simp only [hw] at h
  by_cases h0 : pte = 0
  · rw [if_pos h0] at h
    exact same _ h
  rw [if_neg h0] at h
  by_cases hP : deref k pte &&& PTE_P = 0
  · rw [if_pos hP] at h
    exact same _ h
  rw [if_neg hP] at h
  by_cases hW : deref k pte &&& PTE_W ≠ 0
  · rw [if_pos hW] at h
    exact same _ h
  rw [if_neg hW] at h
  obtain ⟨res, hrc⟩ : ∃ res, getrefcount L k (PTE_ADDR (deref k pte)) = res := ⟨_, rfl⟩
  rw [hrc] at h
  cases res with
  | error e => cases h
  | ok ref =>
    simp only at h
    by_cases h2 : ref < 2
    · rw [if_pos h2, entry_or_W _ (deref_lt k pte) hP] at h
      have e1 := congrArg Prod.fst (Except.ok.inj h)
      simp only at e1
      subst e1
      refine ⟨rfl, fun x _ hx => by simp [store, hx], fun j => Or.inl (le_refl _), fun _ =>
        Or.inr (Or.inl ⟨?_, ⟨ref, hrc, h2⟩, rfl⟩)⟩
      have hlt : deref k pte ||| PTE_W < 4294967296 :=
        or_lt_u32 _ _ (deref_lt k pte) (by unfold PTE_W; omega)
      rw [deref_store_same, u32_of_lt _ hlt]
      exact PTE_ADDR_or_flags _ _ (deref_lt k pte) (by unfold PTE_W; omega)
    · rw [if_neg h2] at h
      by_cases hfl : k.freelist = 0
      · have hk : kalloc L k = (k, 0) := by unfold kalloc; simp [hfl]
        rw [hk] at h
        simp only [if_true] at h
        exact same _ h
      · obtain ⟨hgal, hg0⟩ := hfree hfl
        obtain ⟨hidx, hlock, hcnt⟩ := getrefcount_ok L k _ ref hrc (by omega)
        obtain ⟨ka1, ka2, ka3, ka4, ka5, ka6, ka7⟩ := kalloc_fields L k hfl
        generalize hF : PTE_ADDR (deref k pte) = F at *
        generalize hK : kalloc L k = K at *
        obtain ⟨k1, g⟩ := K
        simp only at ka1 ka2 ka3 ka4 ka5 ka6 ka7 h
        subst ka1
        rw [if_neg hfl] at h
        have hFg : F / PGSIZE ≠ V2P k.freelist / PGSIZE := by
          intro e; rw [e, hg0] at hcnt; omega
        have hrc1 : k1.refcount (F / PGSIZE) = ref := by rw [ka6 _ hFg, hcnt]
        have hg1 : k1.refcount (V2P k.freelist / PGSIZE) ≤ 1 := by
          by_cases hi : V2P k.freelist / PGSIZE < MAX_PAGES L
          · have := congrArg Prod.fst hK
            rw [kalloc_eq_of_ne L k hfl] at this
            simp only [hi, hlock, hg0, true_and, if_true] at this
            rw [← this]
            simp [setref]
          · have := congrArg Prod.fst hK
            rw [kalloc_eq_of_ne L k hfl] at this
            simp only [hi, false_and, if_false] at this
            rw [← this]
            show k.refcount _ ≤ 1
            rw [hg0]; omega
        have hnl : ¬ (MAX_PAGES L ≤ F / PGSIZE) := by omega
        have hC : ¬ (ref ≤ 0) := by omega
        have hl2 : (memmove k1 k.freelist (P2V F)).use_lock = true := by
          show k1.use_lock = true
          rw [ka3]; exact hlock
        have hr2 : (memmove k1 k.freelist (P2V F)).refcount (F / PGSIZE) = ref := hrc1
        simp only [decref, hnl, ge_iff_le, if_false, hl2, hr2, hC, Bool.not_true,
          Bool.false_eq_true] at h
        have e1 := congrArg Prod.fst (Except.ok.inj h)
        simp only at e1
        subst e1
        refine ⟨ka3, ?_, ?_, ?_⟩
        · intro x ho hx
          have ho2 := ho hfl
          have : ¬ (k.freelist ≤ x ∧ x < k.freelist + PGSIZE) := by
            unfold Outside at ho2; omega
          simp [store, setref, memmove, hx, this, ka2]
        · intro j
          show (if j = F / PGSIZE then ref - 1 else k1.refcount j) ≤ _ ∨
            (if j = F / PGSIZE then ref - 1 else k1.refcount j) ≤ 1
          by_cases hj : j = F / PGSIZE
          · rw [if_pos hj, hj, hcnt]; left; omega
          · rw [if_neg hj]
            by_cases hjg : j = V2P k.freelist / PGSIZE
            · right; rw [hjg]; exact hg1
            · left; rw [ka6 _ hjg]
        · intro ho
          right; right
          have hflags : PTE_FLAGS (deref (setref (memmove k1 k.freelist (P2V F)) (F / PGSIZE)
              (ref - 1)) pte) ||| PTE_W < 4096 :=
            flags_or_lt _ _ (by unfold PTE_FLAGS; omega) (by unfold PTE_W; omega)
          have hV2P : V2P k.freelist < 4294967296 := u32_lt _
          have hfp : (PTE_FLAGS (deref (setref (memmove k1 k.freelist (P2V F)) (F / PGSIZE)
              (ref - 1)) pte) ||| PTE_W) ||| PTE_P < 4096 :=
            flags_or_lt _ _ hflags (by unfold PTE_P; omega)
          constructor
          · rw [deref_store_same, Nat.or_assoc, u32_of_lt _ (or_lt_u32 _ _ hV2P (by omega)),
              PTE_ADDR_or_flags _ _ hV2P hfp]
            unfold PTE_ADDR
            rw [u32_of_lt _ hV2P]
            unfold V2P u32 KERNBASE PGSIZE at *
            omega
          · show (if V2P k.freelist / PGSIZE = F / PGSIZE then ref - 1 else k1.refcount _) ≤ 1
            rw [if_neg (Ne.symm hFg)]
            exact hg1


theorem getrefcount_cases (L : Layout) (k : Kernel) (pa : Nat) (c : Int)
    (h : getrefcount L k pa = .ok c) :
    (k.use_lock = false ∧ c = 0) ∨ (k.use_lock = true ∧ c = k.refcount (pa / PGSIZE)) := by
  unfold getrefcount at h
  by_cases h1 : pa / PGSIZE ≥ MAX_PAGES L
  · simp [h1] at h
  · by_cases h2 : k.use_lock = true
    · simp [h1, h2] at h
      exact Or.inr ⟨h2, h.symm⟩
    · simp [h1, h2] at h
      exact Or.inl ⟨by simpa using h2, h.symm⟩

/-- A count read after a change that leaves the lock flag alone. -/
theorem getrefcount_after (L : Layout) (k k' : Kernel) (pa : Nat) (c : Int)
    (hl : k'.use_lock = k.use_lock) (h : getrefcount L k' pa = .ok c) :
    ∃ c0, getrefcount L k pa = .ok c0 ∧
      ((c = 0 ∧ c0 = 0) ∨ (c = k'.refcount (pa / PGSIZE) ∧ c0 = k.refcount (pa / PGSIZE))) := by
  unfold getrefcount at h ⊢
  by_cases h1 : pa / PGSIZE ≥ MAX_PAGES L
  · simp [h1] at h
  · by_cases h2 : k.use_lock = true
    · simp [h1, h2, hl] at h ⊢
      exact Or.inr h.symm
    · simp [h1, h2, hl] at h ⊢
      exact Or.inl h.symm

/-- Entries of the source that the copy loop has not rewritten. -/
theorem CopyInv_other (L : Layout) (k0 : Kernel) (l0 : List Nat) (pgdir sz d i : Nat)
    (k : Kernel) (used l : List Nat) (hF : Frames L l0) (hS : SrcOK L k0 l0 pgdir sz)
    (hC : CopyInv L k0 l0 pgdir sz d i k used l) (a : Nat) (a1 : a % PGSIZE = 0)
    (a3 : a < KERNBASE) (a4 : leafSlot k0 pgdir a ≠ 0)
    (a5 : ¬ (a < i ∧ PrivateAt L k0 pgdir a)) :
    deref k (leafSlot k0 pgdir a) = entry k0 pgdir a := by
  obtain ⟨b1, b2, b3, dal, d32, und⟩ := BuildInv_basic L k0 l0 d _ _ k used _ hF hC.build
  have hszk := hS.szle
  apply deref_congr
  apply hC.build.memf
  · intro u hu
    exact (SrcOK_slot_out L k0 l0 pgdir sz a hF hS a3 a4).1 u (b1 u hu)
  · rintro ⟨b, c1, c2, c3, c4⟩
    have hb := hC.bound b c1 c2
    by_cases hab : a = b
    · subst hab
      exact a5 ⟨c2, c3⟩
    · refine SrcOK_slot_ne L k0 l0 pgdir sz a b hS a3 (by omega) ?_ a4 c3.1 c4
      unfold PGSIZE at *; omega

theorem entry_or_P (e : Nat) (he : e < 4294967296) (hP : e &&& PTE_P ≠ 0) :
    PTE_ADDR e ||| PTE_FLAGS e ||| PTE_P = e := by
  have h1 : PTE_ADDR e ||| PTE_FLAGS e = e := by
    unfold PTE_ADDR PTE_FLAGS
    rw [u32_of_lt _ he]
    exact addr_or_flags _
  rw [h1]
  unfold PTE_P at hP ⊢
  rw [or_one_of_present _ hP]

/-- After a successful `copyuvm` neither the source nor the child has a
writable private user page. -/
theorem CowInv_copyuvm (L : Layout) (k : Kernel) (l0 : List Nat) (pgdir sz : Nat)
    (k' : Kernel) (d : Nat) (hL : LayoutOK L) (hK : ∀ m ∈ L.kmap, KmapOK m)
    (hf : FreeOK L k l0) (hlock : k.use_lock = true) (hS : SrcOK L k l0 pgdir sz)
    (hhigh : ∀ a, a % PGSIZE = 0 → a < KERNBASE → PrivateAt L k pgdir a → a < sz)
    (hc : copyuvm L k pgdir sz = .ok (k', d)) (hd : d ≠ 0) :
    CowInv L k' pgdir ∧ CowInv L k' d := by
  have hF := Frames_of_FreeOK L k _ hf
  obtain ⟨i, used, l, hC, hi⟩ := copyuvm_inv L k l0 pgdir sz k' d hL hK hf hlock hS hc hd
  obtain ⟨V1, _, _⟩ := CopyInv_view L k l0 pgdir sz d i k' used l hF hS hC
  constructor
  · intro a ha hak hpriv hw c _
    exfalso
    unfold PrivateAt entry at hpriv
    unfold entry at hw
    rw [V1 a] at hpriv hw
    by_cases hpr : a < i ∧ PrivateAt L k pgdir a
    · rw [hC.srcdone a ha hpr.1 hpr.2] at hw
      exact hw (cowEntry_eq _ (deref_lt _ _) hpr.2.2.1).2.1
    · rw [CopyInv_other L k l0 pgdir sz d i k' used l hF hS hC a ha hak hpriv.1 hpr] at hpriv
      have hp : PrivateAt L k pgdir a := hpriv
      exact hpr ⟨by have := hhigh a ha hak hp; omega, hp⟩
  · intro a ha hak hpriv hw c _
    exfalso
    unfold PrivateAt entry at hpriv
    unfold entry at hw
    by_cases hai : a < i
    · obtain ⟨c1, c2⟩ := hC.childdone a ha hai
      obtain ⟨p1, p2⟩ := hC.pres a ha hai
      rw [c2] at hpriv hw
      unfold childEntry at hpriv hw
      by_cases hs : PTE_FLAGS (entry k pgdir a) &&& L.PTE_S ≠ 0
      · rw [if_pos hs, entry_or_P (entry k pgdir a) (deref_lt _ _) p2] at hpriv
        exact hs hpriv.2.2
      · rw [if_neg hs] at hw
        exact hw (cowEntry_eq _ (deref_lt _ _) p2).2.1
    · exact hpriv.2.1 (hC.childrest a ha (by omega) hak hpriv.1)

/-- A returning `cowfault` keeps the invariant of any address space whose
directory and page tables are not in the frame at the head of the free list. -/
theorem CowInv_cowfault (L : Layout) (k : Kernel) (pgdir va : Nat) (k' : Kernel) (r : Int)
    (pgdir2 : Nat) (hfree : HeadFree k) (hclear : HeadClear k pgdir2)
    (hdir : ∀ j, j < NPDENTRIES → pgdir2 + 4 * j ≠ leafSlot k pgdir (PGROUNDDOWN va))
    (hinv : CowInv L k pgdir2) (h : cowfault L k pgdir va = .ok (k', r)) :
    CowInv L k' pgdir2 := by
  obtain ⟨e1, e2, e3, e4⟩ := cowfault_effect L k pgdir va k' r _ rfl h hfree
  intro a ha hak hpriv hw c hc
  have hslot : leafSlot k' pgdir2 a = leafSlot k pgdir2 a :=
    leafSlot_congr k k' pgdir2 a
      (e2 _ (fun hfl => (hclear hfl).1 _ (PDX_lt a)) (hdir _ (PDX_lt _)))
  unfold PrivateAt entry at hpriv
  unfold entry at hw hc
  rw [hslot] at hpriv hw hc
  have hout : k.freelist ≠ 0 → Outside k.freelist (leafSlot k pgdir2 a) :=
    fun hfl => (hclear hfl).2 a hak hpriv.1
  obtain ⟨c0, g1, g2⟩ := getrefcount_after L k k' _ c e1 hc
  have same : deref k' (leafSlot k pgdir2 a) = deref k (leafSlot k pgdir2 a) → c < 2 := by
    intro e
    rw [e] at hpriv hw g1 g2
    have := hinv a ha hak hpriv hw c0 g1
    rcases g2 with ⟨q1, _⟩ | ⟨q1, q2⟩
    · omega
    · rcases e3 (PTE_ADDR (deref k (leafSlot k pgdir2 a)) / PGSIZE) with q | q <;> omega
  by_cases hs : leafSlot k pgdir2 a = leafSlot k pgdir (PGROUNDDOWN va)
  · rw [← hs] at e4
    rcases e4 hout with q | ⟨q1, ⟨ref, q2, q3⟩, q4⟩ | ⟨q1, q2⟩
    · exact same q
    · rw [q1] at g1 g2
      rw [q2] at g1
      cases g1
      rcases g2 with ⟨p1, _⟩ | ⟨p1, p2⟩
      · omega
      · rw [q4] at p1; omega
    · rcases g2 with ⟨p1, _⟩ | ⟨p1, _⟩
      · omega
      · rw [q1] at p1; omega
  · exact same (deref_congr _ _ _ (e2 _ hout hs))

theorem HeadFree_of_FreeOK (L : Layout) (k : Kernel) (l : List Nat) (h : FreeOK L k l) :
    HeadFree k := by
  intro hfl
  cases l with
  | nil => exact absurd h.1 hfl
  | cons g gs =>
    have hg : k.freelist = g := h.1.1
    rw [hg]
    exact ⟨(h.2.2 g (List.mem_cons_self _ _)).1.1, (h.2.2 g (List.mem_cons_self _ _)).2⟩

theorem head_mem_of_FreeOK (L : Layout) (k : Kernel) (l : List Nat) (h : FreeOK L k l)
    (hfl : k.freelist ≠ 0) : k.freelist ∈ l := by
  cases l with
  | nil => exact absurd h.1 hfl
  | cons g gs =>
    have hg : k.freelist = g := h.1.1
    rw [hg]
    exact List.mem_cons_self _ _

/-- A directory built from frames taken off the free list is clear of its head. -/
theorem HeadClear_of_BuildInv (L : Layout) (k0 : Kernel) (l0 : List Nat) (d : Nat)
    (W R : Nat → Prop) (k : Kernel) (used l : List Nat) (hF : Frames L l0)
    (hB : BuildInv L k0 l0 d W R k used l) : HeadClear k d := by
  obtain ⟨b1, b2, b3, dal, d32, und⟩ := BuildInv_basic L k0 l0 d _ _ k used _ hF hB
  intro hfl
  have hg := head_mem_of_FreeOK L k l hB.free hfl
  have hgal := (hF.2 _ (b2 _ hg)).1.1
  refine ⟨fun j hj => ?_, fun a _ hs => ?_⟩
  · exact Outside_in_page d _ _ dal hgal (b3 d hB.dmem _ hg)
      (by unfold NPDENTRIES at hj; unfold PGSIZE; omega)
  · rw [leafSlot_eq] at hs ⊢
    by_cases hp : pdeAt k d (PDX a) &&& PTE_P ≠ 0
    · rw [if_pos hp]
      obtain ⟨t1, _⟩ := hB.tabs _ (PDX_lt a) hp
      have := PTX_lt a
      exact Outside_in_page _ _ _ (tableOf_aligned _ _ _) hgal (b3 _ t1 _ hg)
        (by unfold PGSIZE; omega)
    · rw [if_neg hp] at hs; exact absurd rfl hs

/-- After a successful `copyuvm` the head of the free list is a free page that
holds no part of the source's or the child's translation structure. -/
theorem copyuvm_head (L : Layout) (k : Kernel) (l0 : List Nat) (pgdir sz : Nat)
    (k' : Kernel) (d : Nat) (hL : LayoutOK L) (hK : ∀ m ∈ L.kmap, KmapOK m)
    (hf : FreeOK L k l0) (hlock : k.use_lock = true) (hS : SrcOK L k l0 pgdir sz)
    (hc : copyuvm L k pgdir sz = .ok (k', d)) (hd : d ≠ 0) :
    HeadFree k' ∧ HeadClear k' d ∧ HeadClear k' pgdir := by
  have hF := Frames_of_FreeOK L k _ hf
  obtain ⟨i, used, l, hC, hi⟩ := copyuvm_inv L k l0 pgdir sz k' d hL hK hf hlock hS hc hd
  obtain ⟨V1, _, _⟩ := CopyInv_view L k l0 pgdir sz d i k' used l hF hS hC
  obtain ⟨b1, b2, b3, dal, d32, und⟩ := BuildInv_basic L k l0 d _ _ k' used _ hF hC.build
  refine ⟨HeadFree_of_FreeOK L k' l hC.build.free,
    HeadClear_of_BuildInv L k l0 d _ _ k' used l hF hC.build, fun hfl => ?_⟩
  have hg := b2 _ (head_mem_of_FreeOK L k' l hC.build.free hfl)
  have hgal := (hF.2 _ hg).1.1
  refine ⟨fun j hj => ?_, fun a hak hs => ?_⟩
  · exact Outside_in_page pgdir _ _ hS.pal hgal (fun e => hS.pfree (e ▸ hg))
      (by unfold NPDENTRIES at hj; unfold PGSIZE; omega)
  · rw [V1 a] at hs ⊢
    exact (SrcOK_slot_out L k l0 pgdir sz a hF hS hak hs).1 _ hg

/-- C4: the invariant `CowInv` (no present user leaf entry below `KERNBASE`
with the shared bit clear is writable while the count of its frame is 2 or
more) is kept by `copyuvm` and by `cowfault`.  After a successful `copyuvm` on
a well-formed source whose private pages all lie below `sz` it holds for the
source and for the child.  A returning `cowfault` preserves it for every
address space `pgdir2` whose directory and user page tables are not in the
frame at the head of the free list and whose directory does not hold the
faulting entry, the head of the free list being a page with count 0. -/
theorem cow_invariant_preserved (L : Layout) :
    (∀ k l0 pgdir sz k' d, LayoutOK L → (∀ m ∈ L.kmap, KmapOK m) → FreeOK L k l0 →
      k.use_lock = true → SrcOK L k l0 pgdir sz →
      (∀ a, a % PGSIZE = 0 → a < KERNBASE → PrivateAt L k pgdir a → a < sz) →
      CowInv L k pgdir →
      copyuvm L k pgdir sz = .ok (k', d) → d ≠ 0 → CowInv L k' pgdir ∧ CowInv L k' d) ∧
    (∀ k pgdir va k' r pgdir2, HeadFree k → HeadClear k pgdir2 →
      (∀ j, j < NPDENTRIES → pgdir2 + 4 * j ≠ leafSlot k pgdir (PGROUNDDOWN va)) →
      CowInv L k pgdir2 → cowfault L k pgdir va = .ok (k', r) → CowInv L k' pgdir2) :=
  ⟨fun k l0 pgdir sz k' d hL hK hf hlock hS hhigh _ hc hd =>
    CowInv_copyuvm L k l0 pgdir sz k' d hL hK hf hlock hS hhigh hc hd,
   fun k pgdir va k' r pgdir2 hfree hclear hdir hinv h =>
    CowInv_cowfault L k pgdir va k' r pgdir2 hfree hclear hdir hinv h⟩

/-- Witness for `cow_invariant_preserved`: the fork of the example process and
the write fault of the child on page 0. -/
theorem cow_invariant_preserved_witness :
    (CowInv exLayout exFork 0x8011e000 ∧ CowInv exLayout exFork 0x8011b000) ∧
      CowInv exLayout exCow 0x8011e000 ∧ CowInv exLayout exCow 0x8011b000 := by
  obtain ⟨l, hf, hS, hhi⟩ := exProc_ok
  have hL : LayoutOK exLayout := by decide
  have hK : ∀ m ∈ exLayout.kmap, KmapOK m := by decide
  have hhigh : ∀ a, a % PGSIZE = 0 → a < KERNBASE → PrivateAt exLayout exProc 0x8011e000 a →
      a < PGSIZE := fun a a1 a2 a3 => hhi a a1 a2 a3.1 a3.2.1
  have hinv0 : CowInv exLayout exProc 0x8011e000 := by
    intro a a1 a2 a3 _ c hc
    have : a = 0 := by have := hhigh a a1 a2 a3; unfold PGSIZE at *; omega
    subst this
    have h1 : getrefcount exLayout exProc (PTE_ADDR (entry exProc 0x8011e000 0)) = .ok 1 := rfl
    rw [h1] at hc
    cases hc
    decide
  obtain ⟨hfree, hcd, hcp⟩ := copyuvm_head exLayout exProc l 0x8011e000 PGSIZE exFork 0x8011b000
    hL hK hf (by decide) hS rfl (by decide)
  have hslot : leafSlot exFork 0x8011b000 (PGROUNDDOWN 0) = 0x80119000 := by decide
  have h1 := (cow_invariant_preserved exLayout).1 exProc l 0x8011e000 PGSIZE exFork 0x8011b000
    hL hK hf (by decide) hS hhigh hinv0 rfl (by decide)
  refine ⟨h1, ?_, ?_⟩
  · exact (cow_invariant_preserved exLayout).2 exFork 0x8011b000 0 exCow 0 0x8011e000 hfree hcp
      (fun j hj => by rw [hslot]; unfold NPDENTRIES at hj; omega) h1.1 rfl
  · exact (cow_invariant_preserved exLayout).2 exFork 0x8011b000 0 exCow 0 0x8011b000 hfree hcd
      (fun j hj => by rw [hslot]; unfold NPDENTRIES at hj; omega) h1.2 rfl

theorem and_flags_zero (e s : Nat) (h : e &&& s = 0) : e % 4096 &&& s = 0 := by
  apply Nat.eq_of_testBit_eq
  intro i
  have h1 := congrArg (fun n => n.testBit i) h
  simp only [Nat.testBit_and, Nat.zero_testBit] at h1 ⊢
  have : e % 4096 = e % 2 ^ 12 := by norm_num
  rw [this, Nat.testBit_mod_two_pow]
  by_cases hi : i < 12
  · simp [hi, h1]
  · simp [hi]

theorem leafSlot_of_pde (k kS : Kernel) (d b : Nat)
    (h : ∀ j, j < NPDENTRIES → pdeAt k d j = pdeAt kS d j) :
    leafSlot k d b = leafSlot kS d b := by
  rw [leafSlot_eq, leafSlot_eq, h _ (PDX_lt b), tableOf_congr _ _ _ _ (h _ (PDX_lt b))]

theorem next_region (a : Nat) (ha : a < KERNBASE) :
    u32 (u32 (PGADDR (PDX a + 1) 0 0 + 4294967296 - PGSIZE) + PGSIZE) =
      (a / 4194304 + 1) * 4194304 := by
  have h1 : PDX a = a / 4194304 := by unfold PDX u32; unfold KERNBASE at ha; omega
  have h2 : PGADDR (PDX a + 1) 0 0 = (a / 4194304 + 1) * 4194304 := by
    unfold PGADDR
    rw [h1]
    simp only [Nat.zero_mul, Nat.or_zero]
    have : u32 0 = 0 := rfl
    rw [this, Nat.or_zero, u32_u32]
    unfold u32; unfold KERNBASE at ha; omega
  rw [h2]
  unfold u32 PGSIZE; unfold KERNBASE at ha; omega


theorem PTE_ADDR_childEntry (L : Layout) (e : Nat) (he : e < 4294967296)
    (hP : e &&& PTE_P ≠ 0) : PTE_ADDR (childEntry L e) = PTE_ADDR e := by
  unfold childEntry
  by_cases hs : PTE_FLAGS e &&& L.PTE_S ≠ 0
  · rw [if_pos hs, entry_or_P e he hP]
  · rw [if_neg hs]
    exact (cowEntry_eq e he hP).2.2.2

/-- An entry of the child without the shared bit comes from a private page. -/
theorem childEntry_private (L : Layout) (e : Nat) (he : e < 4294967296)
    (hP : e &&& PTE_P ≠ 0) (h : childEntry L e &&& L.PTE_S = 0) :
    PTE_FLAGS e &&& L.PTE_S = 0 := by
  by_contra hs
  unfold childEntry at h
  rw [if_pos hs, entry_or_P e he hP] at h
  apply hs
  unfold PTE_FLAGS
  rw [u32_of_lt _ he]
  exact and_flags_zero _ _ h

theorem deallocuvmStep_absent (L : Layout) (k : Kernel) (d a : Nat)
    (h0 : leafSlot k d a = 0) :
    deallocuvmStep L k d a =
      .ok (k, u32 (PGADDR (PDX a + 1) 0 0 + 4294967296 - PGSIZE)) := by
  unfold deallocuvmStep
  rw [walkpgdir_zero]
  simp only
  rw [if_pos h0]

theorem deallocuvmStep_skip (L : Layout) (k : Kernel) (d a : Nat)
    (h0 : leafSlot k d a ≠ 0) (hP : ¬ (deref k (leafSlot k d a) &&& PTE_P ≠ 0)) :
    deallocuvmStep L k d a = .ok (k, a) := by
  unfold deallocuvmStep
  rw [walkpgdir_zero]
  simp only
  rw [if_neg h0, if_neg hP]

theorem deallocuvmStep_shared (L : Layout) (k : Kernel) (d a : Nat)
    (h0 : leafSlot k d a ≠ 0) (hP : deref k (leafSlot k d a) &&& PTE_P ≠ 0)
    (hpa : PTE_ADDR (deref k (leafSlot k d a)) ≠ 0)
    (hS : ¬ (deref k (leafSlot k d a) &&& L.PTE_S = 0)) :
    deallocuvmStep L k d a = .ok (store k (leafSlot k d a) 0, a) := by
  unfold deallocuvmStep
  rw [walkpgdir_zero]
  simp only
  rw [if_neg h0, if_pos hP, if_neg hpa, if_neg hS]

theorem deallocuvmStep_free (L : Layout) (k : Kernel) (d a : Nat) (k2 : Kernel)
    (h0 : leafSlot k d a ≠ 0) (hP : deref k (leafSlot k d a) &&& PTE_P ≠ 0)
    (hpa : PTE_ADDR (deref k (leafSlot k d a)) ≠ 0)
    (hS : deref k (leafSlot k d a) &&& L.PTE_S = 0)
    (hk : kfree L k (P2V (PTE_ADDR (deref k (leafSlot k d a)))) = .ok k2) :
    deallocuvmStep L k d a = .ok (store k2 (leafSlot k d a) 0, a) := by
  unfold deallocuvmStep
  rw [walkpgdir_zero]
  simp only
  rw [if_neg h0, if_pos hP, if_neg hpa, if_pos hS, hk]

/-- `deallocuvm` on the child of a fresh `copyuvm`: every iteration succeeds,
private frames only lose the reference the child held, and nothing is pushed
on the free list. -/
theorem dealloc_child_loop (L : Layout) (k0 : Kernel) (l0 : List Nat) (pgdir sz d i : Nat)
    (kS : Kernel) (used l : List Nat) (hL : LayoutOK L) (hF : Frames L l0)
    (hS : SrcOK L k0 l0 pgdir sz) (hC : CopyInv L k0 l0 pgdir sz d i kS used l)
    (hnz : ∀ a, a % PGSIZE = 0 → a < sz → PTE_ADDR (entry k0 pgdir a) ≠ 0)
    (hval : ∀ a, a % PGSIZE = 0 → a < sz → PrivateAt L k0 pgdir a →
      ValidFrame L (P2V (PTE_ADDR (entry k0 pgdir a))) ∧
        0 ≤ k0.refcount (PTE_ADDR (entry k0 pgdir a) / PGSIZE)) :
    ∀ (fuel a : Nat) (k : Kernel), a % PGSIZE = 0 → a ≤ KERNBASE →
      (KERNBASE - a) / PGSIZE < fuel → DropInv L k0 l0 pgdir sz d kS a k used l →
      ∃ k2, deallocuvmLoop L fuel k d a KERNBASE = .ok k2 ∧
        DropInv L k0 l0 pgdir sz d kS KERNBASE k2 used l := by
  intro fuel
  induction fuel with
  | zero => intro a k _ _ hfu _; exact absurd hfu (Nat.not_lt_zero _)
  | succ fuel ih =>
    intro a k ha hak hfu hD
    rw [deallocuvmLoop]
    by_cases hlt : a < KERNBASE
    swap
    · rw [if_neg hlt]
      have : a = KERNBASE := by omega
      subst this
      exact ⟨k, rfl, hD⟩
    rw [if_pos hlt]
    have hslot : leafSlot k d a = leafSlot kS d a := leafSlot_of_pde k kS d a hD.pde
    have hmono : ∀ a', a ≤ a' → DropInv L k0 l0 pgdir sz d kS a' k used l := fun a' h =>
      ⟨hD.build, hD.pde, fun b b1 b2 b3 b4 => hD.ent b b1 (by omega) b3 b4,
        fun b b1 b2 b3 b4 => hD.rc b b1 (by omega) b3 b4⟩
    by_cases h0 : leafSlot k d a = 0
    · rw [deallocuvmStep_absent L k d a h0]
      show ∃ k2, deallocuvmLoop L fuel k d
        (u32 (u32 (PGADDR (PDX a + 1) 0 0 + 4294967296 - PGSIZE) + PGSIZE)) KERNBASE = .ok k2 ∧ _
      rw [next_region a hlt]
      apply ih
      · unfold PGSIZE; omega
      · unfold KERNBASE at hlt ⊢; omega
      · unfold PGSIZE at *; unfold KERNBASE at *; omega
      · apply hmono
        omega
    have hnext : u32 (a + PGSIZE) = a + PGSIZE := by
      unfold u32 PGSIZE; unfold KERNBASE at hlt; omega
    have hfu' : (KERNBASE - (a + PGSIZE)) / PGSIZE < fuel := by
      unfold PGSIZE at *; unfold KERNBASE at *; omega
    have hak' : a + PGSIZE ≤ KERNBASE := by
      unfold PGSIZE at *; unfold KERNBASE at *; omega
    have hal' : (a + PGSIZE) % PGSIZE = 0 := by unfold PGSIZE at *; omega
    have hstep2 : ∀ k1, DropInv L k0 l0 pgdir sz d kS (a + PGSIZE) k1 used l →
        ∃ k2, deallocuvmLoop L fuel k1 d (u32 (a + PGSIZE)) KERNBASE = .ok k2 ∧
          DropInv L k0 l0 pgdir sz d kS KERNBASE k2 used l := by
      intro k1 h5
      rw [hnext]
      exact ih _ _ hal' hak' hfu' h5
    have hs0 : leafSlot kS d a ≠ 0 := hslot ▸ h0
    have hent : deref k (leafSlot k d a) = deref kS (leafSlot kS d a) := by
      rw [hslot]; exact hD.ent a ha (le_refl _) hlt hs0
    by_cases hP : deref k (leafSlot k d a) &&& PTE_P ≠ 0
    swap
    · rw [deallocuvmStep_skip L k d a h0 hP]
      exact hstep2 _ (hmono _ (by omega))
    -- the page is one that `copyuvm` mapped
    have hai : a < i := by
      by_contra hge
      rw [hent] at hP
      exact hP (hC.childrest a ha (by omega) hlt hs0)
    have hasz := hC.bound a ha hai
    obtain ⟨_, c2⟩ := hC.childdone a ha hai
    obtain ⟨p1, p2⟩ := hC.pres a ha hai
    have he : deref k (leafSlot k d a) = childEntry L (entry k0 pgdir a) := hent.trans c2
    have hpa : PTE_ADDR (deref k (leafSlot k d a)) = PTE_ADDR (entry k0 pgdir a) := by
      rw [he]; exact PTE_ADDR_childEntry L _ (deref_lt _ _) p2
    have hpa0 : PTE_ADDR (deref k (leafSlot k d a)) ≠ 0 := by
      rw [hpa]; exact hnz a ha hasz
    -- the slot lies in a page table of the child
    have hpd : pdeAt k d (PDX a) &&& PTE_P ≠ 0 := by
      intro hn
      rw [leafSlot_eq, if_neg (not_not.mpr hn)] at h0
      exact h0 rfl
    have hsl : leafSlot k d a = tableOf k d (PDX a) + 4 * PTX a := by
      rw [leafSlot_eq, if_pos hpd]
    have step : ∀ k1, BuildInv L k0 l0 d (fun _ => True) (fun _ => True) k1 used l →
        k1.mem = k.mem →
        (∀ b, b % PGSIZE = 0 → a + PGSIZE ≤ b → b < sz → PrivateAt L k0 pgdir b →
          k1.refcount (PTE_ADDR (entry k0 pgdir b) / PGSIZE) =
            k.refcount (PTE_ADDR (entry k0 pgdir b) / PGSIZE)) →
        DropInv L k0 l0 pgdir sz d kS (a + PGSIZE) (store k1 (leafSlot k d a) 0) used l := by
      intro k1 hB1 hm hr
      have hpde1 : ∀ j, j < NPDENTRIES → pdeAt k1 d j = pdeAt k d j :=
        fun j _ => pdeAt_congr k k1 d j (by rw [hm])
      have hpd1 : pdeAt k1 d (PDX a) &&& PTE_P ≠ 0 := by rw [hpde1 _ (PDX_lt a)]; exact hpd
      have ht1 : tableOf k1 d (PDX a) = tableOf k d (PDX a) :=
        tableOf_congr _ _ _ _ (hpde1 _ (PDX_lt a))
      obtain ⟨t1, t2, _⟩ := hB1.tabs _ (PDX_lt a) hpd1
      have hx := PTX_lt a
      rw [hsl, ← ht1]
      obtain ⟨q1, q2⟩ := BuildInv_store_used L k0 l0 d _ _ k1 used l _ (4 * PTX a) 0 hF hB1 t1 t2
        (by unfold PGSIZE; omega)
      obtain ⟨_, _, r3⟩ := leaf_store L k0 l0 d _ _ k1 used l (PDX a) (PTX a) 0 hL hF hB1
        (PDX_lt a) hpd1 hx
      have hls1 : ∀ b, leafSlot k1 d b = leafSlot kS d b := fun b =>
        leafSlot_of_pde k1 kS d b (fun j hj => (hpde1 j hj).trans (hD.pde j hj))
      refine ⟨q1, fun j hj => (q2 j hj).trans ((hpde1 j hj).trans (hD.pde j hj)),
        fun b b1 b2 b3 b4 => ?_, fun b b1 b2 b3 b4 => ?_⟩
      · have := r3 b (PDX_PTX_ne b a (by unfold KERNBASE at b3; omega)
          (by unfold KERNBASE at hlt; omega) (by unfold PGSIZE at *; omega))
          (by rw [hls1 b]; exact b4)
        rw [hls1 b] at this
        rw [this, ← hD.ent b b1 (by omega) b3 b4]
        exact deref_congr _ _ _ (by rw [hm])
      · show k1.refcount _ = _
        rw [hr b b1 b2 b3 b4]
        exact hD.rc b b1 (by omega) b3 b4
    by_cases hSh : deref k (leafSlot k d a) &&& L.PTE_S = 0
    · have hpriv : PrivateAt L k0 pgdir a :=
        ⟨p1, p2, childEntry_private L _ (deref_lt _ _) p2 (he ▸ hSh)⟩
      obtain ⟨v1, v2⟩ := hval a ha hasz hpriv
      have hF32 : PTE_ADDR (entry k0 pgdir a) < 4294967296 := by unfold PTE_ADDR u32; omega
      have hcnt : k.refcount (V2P (P2V (PTE_ADDR (entry k0 pgdir a))) / PGSIZE) =
          inc1 (k0.refcount (PTE_ADDR (entry k0 pgdir a) / PGSIZE)) := by
        rw [V2P_P2V _ hF32, hD.rc a ha (le_refl _) hasz hpriv]
        exact hC.srcrc a ha hai hpriv
      have h2 : 2 ≤ inc1 (k0.refcount (PTE_ADDR (entry k0 pgdir a) / PGSIZE)) := by
        unfold inc1; split <;> omega
      obtain ⟨f1, _⟩ := kfree_shared_FreeOK L k _ l _ hL hD.build.lock hD.build.free v1
        (u32_lt _) hcnt h2
      rw [V2P_P2V _ hF32] at f1
      rw [← hpa] at f1
      rw [deallocuvmStep_free L k d a _ h0 hP hpa0 hSh f1, hpa]
      have hB1 := BuildInv_mono L k0 l0 d _ _ (fun _ => True) (fun _ => True) _ used l
        (BuildInv_setref L k0 l0 d _ _ k used l (PTE_ADDR (entry k0 pgdir a) / PGSIZE)
          (inc1 (k0.refcount (PTE_ADDR (entry k0 pgdir a) / PGSIZE)) - 1) hF hD.build
          (SrcOK_idx_out L k0 l0 pgdir sz a hF hS ha hasz hpriv))
        (fun _ _ => trivial) (fun _ _ => trivial)
      refine hstep2 _ (step _ hB1 rfl (fun b b1 b2 b3 b4 => ?_))
      have hne := hS.inj a b ha b1 hasz b3 (by unfold PGSIZE at *; omega) hpriv b4
      have : PTE_ADDR (entry k0 pgdir b) / PGSIZE ≠ PTE_ADDR (entry k0 pgdir a) / PGSIZE := by
        unfold PTE_ADDR at hne ⊢
        unfold PGSIZE
        omega
      simp [setref, this]
    · rw [deallocuvmStep_shared L k d a h0 hP hpa0 hSh]
      exact hstep2 _ (step k hD.build rfl (fun _ _ _ _ _ => rfl))


theorem kfreePush_mem (k : Kernel) (v x : Nat) (h : Outside v x) :
    (kfreePush k v).mem x = k.mem x := by
  have h1 : ¬ (v ≤ x ∧ x < v + PGSIZE) := by unfold Outside at h; omega
  have h2 : x ≠ v := by unfold Outside PGSIZE at h; omega
  simp [kfreePush, store, memset, h1, h2]

theorem kfreePush_lock (k : Kernel) (v : Nat) : (kfreePush k v).use_lock = k.use_lock := rfl

theorem kfreePush_refcount (k : Kernel) (v : Nat) : (kfreePush k v).refcount = k.refcount := rfl

theorem kfreePush_count (k : Kernel) (v : Nat) :
    (kfreePush k v).num_free_pages = k.num_free_pages + 1 := rfl

theorem setref_other (k : Kernel) (i j : Nat) (c : Int) (h : j ≠ i) :
    (setref k i c).refcount j = k.refcount j := by
  simp [setref, h]

/-- The directory loop of `freevm`: every page table of the directory is
pushed on the free list. -/
theorem free_tables_loop (L : Layout) (k0 : Kernel) (l0 : List Nat) (d : Nat)
    (W R : Nat → Prop) (kA : Kernel) (used l : List Nat) (hL : LayoutOK L)
    (hF : Frames L l0) (hB : BuildInv L k0 l0 d W R kA used l) :
    ∀ (n i : Nat) (k : Kernel) (T : List Nat), i + n = NPDENTRIES →
      TabInv L kA d used l i k T →
      ∃ k2 T2, freevmLoop L n k d i = .ok k2 ∧ TabInv L kA d used l NPDENTRIES k2 T2 := by
  obtain ⟨b1, b2, b3, dal, d32, und⟩ := BuildInv_basic L k0 l0 d _ _ kA used _ hF hB
  intro n
  induction n with
  | zero =>
    intro i k T hi hT
    have : i = NPDENTRIES := by omega
    subst this
    exact ⟨k, T, rfl, hT⟩
  | succ n ih =>
    intro i k T hi hT
    rw [freevmLoop]
    have hiN : i < NPDENTRIES := by omega
    have hrange : ∀ c : Bool, (pdeAt kA d i &&& PTE_P ≠ 0 ↔ c = true) →
        (List.range (i + 1)).countP (fun j => decide (pdeAt kA d j &&& PTE_P ≠ 0)) =
        (List.range i).countP (fun j => decide (pdeAt kA d j &&& PTE_P ≠ 0)) +
          (if c then 1 else 0) := by
      intro c hc
      rw [List.range_succ, List.countP_append]
      congr 1
      cases c with
      | true => simp [List.countP_cons, hc.mpr rfl]
      | false =>
        have : ¬ (pdeAt kA d i &&& PTE_P ≠ 0) := fun h => by simpa using hc.mp h
        simp [List.countP_cons, this]
    by_cases hp : deref k (d + 4 * i) &&& PTE_P ≠ 0
    · have hpA : pdeAt kA d i &&& PTE_P ≠ 0 := by rw [← hT.pde i hiN]; exact hp
      obtain ⟨t1, t2, t3⟩ := hB.tabs i hiN hpA
      have htab : P2V (PTE_ADDR (deref k (d + 4 * i))) = tableOf kA d i :=
        tableOf_congr _ _ _ _ (hT.pde i hiN)
      have hnT : tableOf kA d i ∉ T := by
        intro hm
        obtain ⟨_, _, j, j1, j2, j3⟩ := hT.sub _ hm
        exact t3 j (by omega) (by omega) j2 j3.symm
      have hv := hF.2 _ (b1 _ t1)
      obtain ⟨f1, f2⟩ := kfree_last_FreeOK L k (tableOf kA d i) (T ++ l) hL hT.lock hT.free
        hv.1 hv.2 (hT.rc _ t1 hnT)
      have hst : freevmStep L k d i =
          .ok (kfreePush (setref k (V2P (tableOf kA d i) / PGSIZE) 0) (tableOf kA d i)) := by
        unfold freevmStep
        rw [if_pos hp, htab, f1]
      rw [hst]
      have hi1 : i + 1 + n = NPDENTRIES := by omega
      rw [← List.cons_append] at f2
      refine ih (i + 1) (kfreePush (setref k (V2P (tableOf kA d i) / PGSIZE) 0) (tableOf kA d i))
        (tableOf kA d i :: T) hi1 ?_
      refine ⟨f2, ?_, fun j hj => ?_, fun t ht => ?_, ?_, fun u hu hnu => ?_, ?_,
        fun x hx => ?_, fun j hj => ?_⟩
      · rw [kfreePush_lock]
        exact hT.lock
      · rw [← hT.pde j hj]
        apply pdeAt_congr
        rw [kfreePush_mem _ _ _ (Outside_in_page d _ _ dal hv.1.1 (Ne.symm t2)
          (by unfold NPDENTRIES at hj; unfold PGSIZE; omega))]
        rfl
      · rcases List.mem_cons.mp ht with e | e
        · exact ⟨e ▸ t1, e ▸ t2, i, by omega, hpA, e⟩
        · obtain ⟨s1, s2, j, j1, j2, j3⟩ := hT.sub t e
          exact ⟨s1, s2, j, by omega, j2, j3⟩
      · rw [List.length_cons, hT.len, hrange true (by simp [hpA])]
        rfl
      · have hne : u ≠ tableOf kA d i := fun e => hnu (e ▸ List.mem_cons_self _ _)
        have hu' := hF.2 _ (b1 _ hu)
        have : V2P u / PGSIZE ≠ V2P (tableOf kA d i) / PGSIZE := fun e2 =>
          hne (idx_inj u _ hu'.1.1 hv.1.1 hu'.2 hv.2 e2)
        rw [kfreePush_refcount, setref_other _ _ _ _ this]
        exact hT.rc u hu (fun hm => hnu (List.mem_cons_of_mem _ hm))
      · rw [kfreePush_count]
        show k.num_free_pages + 1 = _
        rw [hT.cnt, List.length_cons]
        push_cast
        ring
      · rw [kfreePush_mem _ _ _ (hx _ t1)]
        exact hT.memf x hx
      · rw [kfreePush_refcount, setref_other _ _ _ _ (hj _ t1)]
        exact hT.rcf j hj
    · have hpA : ¬ (pdeAt kA d i &&& PTE_P ≠ 0) := by rw [← hT.pde i hiN]; exact hp
      have hst : freevmStep L k d i = .ok k := by
        unfold freevmStep
        rw [if_neg hp]
      rw [hst]
      refine ih (i + 1) k T (by omega) ⟨hT.free, hT.lock, hT.pde, fun t ht => ?_, ?_, hT.rc,
        hT.cnt, hT.memf, hT.rcf⟩
      · obtain ⟨s1, s2, j, j1, j2, j3⟩ := hT.sub t ht
        exact ⟨s1, s2, j, by omega, j2, j3⟩
      · rw [hT.len, hrange false (by simp [hpA])]
        rfl


/-- `freevm` of the child that a successful `copyuvm` returned: it succeeds
and the free list is again a rearrangement of the list before `copyuvm`. -/
theorem freevm_child (L : Layout) (k : Kernel) (l0 : List Nat) (pgdir sz : Nat)
    (k' : Kernel) (d : Nat) (hL : LayoutOK L) (hK : ∀ m ∈ L.kmap, KmapOK m)
    (hf : FreeOK L k l0) (hlock : k.use_lock = true) (hS : SrcOK L k l0 pgdir sz)
    (hnz : ∀ a, a % PGSIZE = 0 → a < sz → PTE_ADDR (entry k pgdir a) ≠ 0)
    (hval : ∀ a, a % PGSIZE = 0 → a < sz → PrivateAt L k pgdir a →
      ValidFrame L (P2V (PTE_ADDR (entry k pgdir a))) ∧
        0 ≤ k.refcount (PTE_ADDR (entry k pgdir a) / PGSIZE))
    (hc : copyuvm L k pgdir sz = .ok (k', d)) (hd : d ≠ 0) :
    ∃ k2 l2, freevm L k' d = .ok k2 ∧ k2.num_free_pages = k.num_free_pages ∧
      FreeOK L k2 l2 ∧ l2.Perm l0 := by
  have hF := Frames_of_FreeOK L k _ hf
  obtain ⟨i, used, l, hC, hi⟩ := copyuvm_inv L k l0 pgdir sz k' d hL hK hf hlock hS hc hd
  obtain ⟨b1, b2, b3, dal, d32, und⟩ := BuildInv_basic L k l0 d _ _ k' used _ hF hC.build
  have hD0 : DropInv L k l0 pgdir sz d k' 0 k' used l :=
    ⟨BuildInv_mono L k l0 d _ _ _ _ k' used l hC.build (fun _ _ => trivial)
      (fun _ _ => trivial), fun _ _ => rfl, fun _ _ _ _ _ => rfl, fun _ _ _ _ _ => rfl⟩
  obtain ⟨kA, hA, hDA⟩ := dealloc_child_loop L k l0 pgdir sz d i k' used l hL hF hS hC hnz hval
    LOOP_FUEL 0 k' (by decide) (by decide) (by decide) hD0
  have hBA := hDA.build
  have hT0 : TabInv L kA d used l 0 kA [] :=
    ⟨hBA.free, hBA.lock, fun _ _ => rfl, fun t ht => (by cases ht), rfl,
      fun u hu _ => hBA.urc u hu, (by simp), fun _ _ => rfl, fun _ _ => rfl⟩
  obtain ⟨kB, T, hBl, hTB⟩ := free_tables_loop L k l0 d _ _ kA used l hL hF hBA NPDENTRIES 0 kA []
    (by omega) hT0
  have hdT : d ∉ T := fun hm => (hTB.sub d hm).2.1 rfl
  have hvd := hF.2 _ (b1 _ hBA.dmem)
  obtain ⟨f1, f2⟩ := kfree_last_FreeOK L kB d (T ++ l) hL hTB.lock hTB.free hvd.1 hvd.2
    (hTB.rc d hBA.dmem hdT)
  have hlen : T.length = pdeCount kA d := hTB.len
  have hperm : (d :: T).Perm used := by
    have hnd : (d :: T).Nodup := by
      have := f2.2.1
      rw [← List.cons_append] at this
      exact (List.nodup_append.mp this).1
    have hsub : (d :: T) ⊆ used := by
      intro x hx
      rcases List.mem_cons.mp hx with e | e
      · exact e ▸ hBA.dmem
      · exact (hTB.sub x e).1
    refine (List.subperm_of_subset hnd hsub).perm_of_length_le ?_
    rw [List.length_cons, hlen, hBA.pdes]
    omega
  refine ⟨kfreePush (setref kB (V2P d / PGSIZE) 0) d, d :: (T ++ l), ?_, ?_, f2, ?_⟩
  · unfold freevm
    rw [if_neg hd]
    have hdl : deallocuvm L k' d KERNBASE 0 = .ok (kA, 0) := by
      unfold deallocuvm
      rw [if_neg (by decide)]
      have : PGROUNDUP 0 = 0 := by decide
      rw [this, hA]
    rw [hdl]
    simp only
    rw [hBl]
    exact f1
  · rw [kfreePush_count]
    show kB.num_free_pages + 1 = _
    rw [hTB.cnt, hBA.count, hlen]
    have := hBA.pdes
    omega
  · rw [← List.cons_append, hBA.split]
    exact hperm.append_right l

/-- C9: for a well-formed source address space whose user pages below `sz` are
all present, a successful `copyuvm` followed by `freevm` of the returned child
succeeds and leaves the free-frame count equal to its value before `copyuvm`.
The free list afterwards holds exactly the frames that were free before
`copyuvm` (so every directory and table frame taken for the child has been
returned), and no frame that the source maps below `sz` as a private page is
on it.  The frames of the source are assumed to be valid data frames, not the
frame at physical address 0, with non-negative counts. -/
theorem copyuvm_freevm_balance (L : Layout) (k : Kernel) (l0 : List Nat) (pgdir sz : Nat)
    (k' : Kernel) (d : Nat) (hL : LayoutOK L) (hK : ∀ m ∈ L.kmap, KmapOK m)
    (hf : FreeOK L k l0) (hlock : k.use_lock = true) (hS : SrcOK L k l0 pgdir sz)
    (_hpres : ∀ a, a % PGSIZE = 0 → a < sz →
      leafSlot k pgdir a ≠ 0 ∧ entry k pgdir a &&& PTE_P ≠ 0)
    (hnz : ∀ a, a % PGSIZE = 0 → a < sz → PTE_ADDR (entry k pgdir a) ≠ 0)
    (hval : ∀ a, a % PGSIZE = 0 → a < sz → PrivateAt L k pgdir a →
      ValidFrame L (P2V (PTE_ADDR (entry k pgdir a))) ∧
        0 ≤ k.refcount (PTE_ADDR (entry k pgdir a) / PGSIZE))
    (hc : copyuvm L k pgdir sz = .ok (k', d)) (hd : d ≠ 0) :
    ∃ k2, freevm L k' d = .ok k2 ∧ getNumFreePages k2 = getNumFreePages k ∧
      ∃ l2, FreeOK L k2 l2 ∧ l2.Perm l0 ∧ (∀ v, v ∈ l2 ↔ v ∈ l0) ∧
        ∀ a, a % PGSIZE = 0 → a < sz → PrivateAt L k pgdir a →
          P2V (PTE_ADDR (entry k pgdir a)) ∉ l2 := by
  obtain ⟨k2, l2, h1, h2, h3, h4⟩ :=
    freevm_child L k l0 pgdir sz k' d hL hK hf hlock hS hnz hval hc hd
  refine ⟨k2, h1, h2, l2, h3, h4, fun v => h4.mem_iff, fun a a1 a2 a3 hm => ?_⟩
  exact hS.data a a1 a2 a3 (h4.mem_iff.mp hm)

/-- Witness for `copyuvm_freevm_balance`: forking the example process and
destroying the child at once. -/
theorem copyuvm_freevm_balance_witness :
    ∃ k2, freevm exLayout exFork 0x8011b000 = .ok k2 ∧
      getNumFreePages k2 = getNumFreePages exProc := by
  obtain ⟨l, hf, hS, _⟩ := exProc_ok
  have h0 : ∀ a, a % PGSIZE = 0 → a < PGSIZE → a = 0 := fun a a1 a2 => by
    unfold PGSIZE at *; omega
  obtain ⟨k2, h1, h2, _⟩ := copyuvm_freevm_balance exLayout exProc l 0x8011e000 PGSIZE exFork
    0x8011b000 (by decide) (by decide) hf (by decide) hS
    (fun a a1 a2 => by rw [h0 a a1 a2]; decide)
    (fun a a1 a2 => by rw [h0 a a1 a2]; decide)
    (fun a a1 a2 _ => by rw [h0 a a1 a2]; decide) rfl (by decide)
  exact ⟨k2, h1, h2⟩

/-! ## Fork, fault and exit of several children -/

theorem mem_allFrames (l : List Nat) (cs : List Child) (x : Nat) :
    x ∈ allFrames l cs ↔ x ∈ l ∨ ∃ c ∈ cs, x ∈ c.used ∨ ∃ a, (a, x) ∈ c.own := by
  unfold allFrames Child.frames
  simp only [List.mem_append, List.mem_flatten, List.mem_map]
  constructor
  · rintro (h | ⟨fr, ⟨c, hc, rfl⟩, hx⟩)
    · exact Or.inl h
    · right
      refine ⟨c, hc, ?_⟩
      rcases List.mem_append.mp hx with h | h
      · exact Or.inl h
      · right
        obtain ⟨p, hp, rfl⟩ := List.mem_map.mp h
        exact ⟨p.1, hp⟩
  · rintro (h | ⟨c, hc, h⟩)
    · exact Or.inl h
    · right
      refine ⟨_, ⟨c, hc, rfl⟩, ?_⟩
      rcases h with h | ⟨a, h⟩
      · exact List.mem_append.mpr (Or.inl h)
      · exact List.mem_append.mpr (Or.inr (List.mem_map.mpr ⟨(a, x), h, rfl⟩))

theorem Frames_perm (L : Layout) (l l' : List Nat) (h : l'.Perm l) (hF : Frames L l) :
    Frames L l' :=
  ⟨h.nodup_iff.mpr hF.1, fun g hg => hF.2 g (h.mem_iff.mp hg)⟩

theorem Frames_sub (L : Layout) (l l' : List Nat) (h : l'.Sublist l) (hF : Frames L l) :
    Frames L l' :=
  ⟨hF.1.sublist h, fun g hg => hF.2 g (h.subset hg)⟩

theorem SrcOK_sub (L : Layout) (k : Kernel) (A A' : List Nat) (P sz : Nat)
    (h : ∀ x, x ∈ A' → x ∈ A) (hS : SrcOK L k A P sz) : SrcOK L k A' P sz :=
  ⟨hS.szle, hS.pal, fun hm => hS.pfree (h _ hm),
    fun j hj hp => ⟨fun hm => (hS.tabs j hj hp).1 (h _ hm), (hS.tabs j hj hp).2⟩,
    fun a a1 a2 a3 hm => hS.data a a1 a2 a3 (h _ hm), hS.inj⟩


/-- What a change of memory that spares the directory `d` and all but the word
`s` of its page tables leaves in place. -/
theorem dir_view (k k' : Kernel) (d : Nat) (used : List Nat) (s : Nat) (hd : d ∈ used)
    (htab : ∀ j, j < NPDENTRIES → pdeAt k d j &&& PTE_P ≠ 0 → tableOf k d j ∈ used)
    (hm : ∀ u ∈ used, ∀ x, x < PGSIZE → u + x ≠ s → k'.mem (u + x) = k.mem (u + x))
    (hs : Outside d s) :
    (∀ j, j < NPDENTRIES → pdeAt k' d j = pdeAt k d j) ∧
      (∀ b, leafSlot k' d b = leafSlot k d b) ∧
      (∀ b, leafSlot k d b ≠ 0 → leafSlot k d b ≠ s → entry k' d b = entry k d b) := by
  have hpde : ∀ j, j < NPDENTRIES → pdeAt k' d j = pdeAt k d j := by
    intro j hj
    apply pdeAt_congr
    apply hm d hd
    · unfold NPDENTRIES at hj; unfold PGSIZE; omega
    · unfold NPDENTRIES at hj; unfold Outside PGSIZE at hs; omega
  have hls : ∀ b, leafSlot k' d b = leafSlot k d b := fun b => leafSlot_of_pde k' k d b hpde
  refine ⟨hpde, hls, fun b hb hne => ?_⟩
  unfold entry
  rw [hls b]
  apply deref_congr
  rw [leafSlot_eq] at hb hne ⊢
  by_cases hp : pdeAt k d (PDX b) &&& PTE_P ≠ 0
  · rw [if_pos hp] at hne ⊢
    have := PTX_lt b
    exact hm _ (htab _ (PDX_lt b) hp) _ (by unfold PGSIZE; omega) hne
  · rw [if_neg hp] at hb; exact absurd rfl hb

/-- Distinct pages of a directory with distinct page tables have distinct slots. -/
theorem slot_ne (k : Kernel) (d a b : Nat)
    (htab : ∀ j, j < NPDENTRIES → pdeAt k d j &&& PTE_P ≠ 0 →
      ∀ j', j' < NPDENTRIES → j' ≠ j → pdeAt k d j' &&& PTE_P ≠ 0 →
        tableOf k d j' ≠ tableOf k d j)
    (ha : a < 4294967296) (hb : b < 4294967296) (hne : a / PGSIZE ≠ b / PGSIZE)
    (hsa : leafSlot k d a ≠ 0) (hsb : leafSlot k d b ≠ 0) :
    leafSlot k d a ≠ leafSlot k d b := by
  rw [leafSlot_eq] at hsa hsb ⊢
  rw [leafSlot_eq]
  by_cases hpa : pdeAt k d (PDX a) &&& PTE_P ≠ 0
  · by_cases hpb : pdeAt k d (PDX b) &&& PTE_P ≠ 0
    · rw [if_pos hpa, if_pos hpb]
      have hxa := PTX_lt a
      have hxb := PTX_lt b
      have a1 := tableOf_aligned k d (PDX a)
      have a2 := tableOf_aligned k d (PDX b)
      by_cases e : PDX a = PDX b
      · rcases PDX_PTX_ne a b ha hb hne with h | h
        · exact absurd e h
        · rw [e]; omega
      · have := htab _ (PDX_lt b) hpb _ (PDX_lt a) e hpa
        unfold PGSIZE at a1 a2
        omega
    · rw [if_neg hpb] at hsb; exact absurd rfl hsb
  · rw [if_neg hpa] at hsa; exact absurd rfl hsa

/-- A leaf slot of a directory lies in one of its page tables. -/
theorem slot_in_table (k : Kernel) (d a : Nat) (hs : leafSlot k d a ≠ 0) :
    pdeAt k d (PDX a) &&& PTE_P ≠ 0 ∧
      leafSlot k d a = tableOf k d (PDX a) + 4 * PTX a := by
  rw [leafSlot_eq] at hs ⊢
  by_cases hp : pdeAt k d (PDX a) &&& PTE_P ≠ 0
  · rw [if_pos hp]; exact ⟨hp, rfl⟩
  · rw [if_neg hp] at hs; exact absurd rfl hs

/-- A child is untouched by a change that spares its pages and counts and
keeps the parent's view. -/
theorem ChildOK_frame (L : Layout) (k k' : Kernel) (P sz : Nat) (c : Child)
    (hL : LayoutOK L) (hF : Frames L c.used) (hc : ChildOK L k P sz c)
    (hm : ∀ u ∈ c.used, ∀ x, x < PGSIZE → k'.mem (u + x) = k.mem (u + x))
    (hr : ∀ u ∈ c.frames, k'.refcount (V2P u / PGSIZE) = k.refcount (V2P u / PGSIZE))
    (hp : SameParent L k k' P sz) :
    ChildOK L k' P sz c ∧ (∀ j, j < NPDENTRIES → pdeAt k' c.d j = pdeAt k c.d j) ∧
      (∀ b, leafSlot k' c.d b = leafSlot k c.d b) ∧
      (∀ b, leafSlot k c.d b ≠ 0 → entry k' c.d b = entry k c.d b) := by
  have hd0 : 0 < c.d := by
    have := (hF.2 _ hc.dmem).1.2.1
    have := hL.2
    omega
  obtain ⟨v1, v2, v3⟩ := dir_view k k' c.d c.used 0 hc.dmem
    (fun j hj hp => (hc.tabs j hj hp).1) (fun u hu x hx _ => hm u hu x hx)
    (by unfold Outside; omega)
  have v3' : ∀ b, leafSlot k c.d b ≠ 0 → entry k' c.d b = entry k c.d b :=
    fun b hb => v3 b hb hb
  refine ⟨⟨hc.dmem, fun u hu => ?_, fun j hj hpj => ?_, ?_, hc.ownnd, fun p hp' => ?_,
    fun a a1 a2 a3 a4 => ?_⟩, v1, v2, v3'⟩
  · rw [hr u (List.mem_append.mpr (Or.inl hu))]
    exact hc.urc u hu
  · rw [v1 j hj] at hpj
    rw [tableOf_congr _ _ _ _ (v1 j hj)]
    obtain ⟨t1, t2, t3⟩ := hc.tabs j hj hpj
    refine ⟨t1, t2, fun j' hj' hne hp' => ?_⟩
    rw [v1 j' hj'] at hp'
    rw [tableOf_congr _ _ _ _ (v1 j' hj')]
    exact t3 j' hj' hne hp'
  · rw [pdeCount_congr k k' c.d v1]
    exact hc.pdes
  · obtain ⟨o1, o2, o3, o4, o5, o6, o7⟩ := hc.ownok p hp'
    rw [v2, v3' _ o3, hr p.2 (List.mem_append.mpr (Or.inr (List.mem_map.mpr ⟨p, hp', rfl⟩)))]
    exact ⟨o1, o2, o3, o4, o5, o6, o7⟩
  · rw [v2] at a3
    rw [v3' _ a3] at a4 ⊢
    obtain ⟨q1, q2⟩ := hc.pages a a1 a2 a3 a4
    refine ⟨q1, fun hs => ?_⟩
    rcases q2 hs with h | ⟨h1, h2, h3, h4⟩
    · exact Or.inl h
    · exact Or.inr ⟨h1, (hp a a1 h1).1.mpr h2, by rw [(hp a a1 h1).2]; exact h3, h4⟩

theorem Shares_frame (L : Layout) (k k' : Kernel) (P : Nat) (c : Child) (a : Nat)
    (h2 : leafSlot k' c.d a = leafSlot k c.d a)
    (h3 : leafSlot k c.d a ≠ 0 → entry k' c.d a = entry k c.d a)
    (hp : PTE_ADDR (entry k' P a) = PTE_ADDR (entry k P a)) :
    Shares L k' P c a ↔ Shares L k P c a := by
  unfold Shares
  rw [h2, hp]
  constructor
  · rintro ⟨s1, s2, s3, s4⟩
    rw [h3 s1] at s2 s3 s4
    exact ⟨s1, s2, s3, s4⟩
  · rintro ⟨s1, s2, s3, s4⟩
    rw [h3 s1]
    exact ⟨s1, s2, s3, s4⟩

theorem sharers_congr (L : Layout) (k k' : Kernel) (P : Nat) (cs : List Child) (a : Nat)
    (h : ∀ c ∈ cs, (Shares L k' P c a ↔ Shares L k P c a)) :
    sharers L k' P cs a = sharers L k P cs a := by
  unfold sharers
  apply List.countP_congr
  intro c hc
  simp only [decide_eq_true_eq]
  exact h c hc


/-- The parent is untouched by a change confined to frames that are free or
held by children. -/
theorem parent_frame (L : Layout) (k k' : Kernel) (A A' : List Nat) (P sz : Nat)
    (hL : LayoutOK L) (hF : Frames L A) (hS : SrcOK L k A P sz)
    (hm : ∀ x, (∀ u ∈ A, Outside u x) → k'.mem x = k.mem x)
    (hsub : ∀ x, x ∈ A' → x ∈ A) :
    SrcOK L k' A' P sz ∧ (∀ a, a < KERNBASE → leafSlot k' P a = leafSlot k P a) ∧
      (∀ a, a < KERNBASE → entry k' P a = entry k P a) ∧ SameParent L k k' P sz := by
  have hpde : ∀ j, j < 512 → pdeAt k' P j = pdeAt k P j := by
    intro j hj
    apply pdeAt_congr
    apply hm
    intro u hu
    exact Outside_in_page P u _ hS.pal (hF.2 u hu).1.1 (fun e => hS.pfree (e ▸ hu))
      (by unfold PGSIZE; omega)
  have hls : ∀ a, a < KERNBASE → leafSlot k' P a = leafSlot k P a := fun a ha =>
    leafSlot_congr k k' P a (by
      have := hpde _ (PDX_user a ha)
      apply hm
      intro u hu
      have := PDX_user a ha
      exact Outside_in_page P u _ hS.pal (hF.2 u hu).1.1 (fun e => hS.pfree (e ▸ hu))
        (by unfold PGSIZE; omega))
  have hen : ∀ a, a < KERNBASE → entry k' P a = entry k P a := by
    intro a ha
    unfold entry
    rw [hls a ha]
    apply deref_congr
    apply hm
    intro u hu
    by_cases h0 : leafSlot k P a = 0
    · rw [h0]
      have := (hF.2 u hu).1.2.1
      have := hL.2
      unfold Outside; omega
    · exact (SrcOK_slot_out L k A P sz a hF hS ha h0).1 u hu
  have hpr : ∀ a, a < KERNBASE → (PrivateAt L k' P a ↔ PrivateAt L k P a) := by
    intro a ha
    unfold PrivateAt
    rw [hls a ha, hen a ha]
  have hsz := hS.szle
  refine ⟨⟨hS.szle, hS.pal, fun hx => hS.pfree (hsub _ hx), fun j hj hp => ?_,
    fun a a1 a2 a3 hx => ?_, fun a b a1 b1 a2 b2 hne pa pb => ?_⟩, hls, hen,
    fun a _ a2 => ⟨hpr a (by omega), by rw [hen a (by omega)]⟩⟩
  · rw [hpde j hj] at hp
    rw [tableOf_congr _ _ _ _ (hpde j hj)]
    obtain ⟨t1, t2, t3⟩ := hS.tabs j hj hp
    refine ⟨fun hx => t1 (hsub _ hx), t2, fun j' hj' hne hp' => ?_⟩
    rw [hpde j' hj'] at hp'
    rw [tableOf_congr _ _ _ _ (hpde j' hj')]
    exact t3 j' hj' hne hp'
  · rw [hen a (by omega)] at hx
    exact hS.data a a1 a2 ((hpr a (by omega)).mp a3) (hsub _ hx)
  · rw [hen a (by omega), hen b (by omega)]
    exact hS.inj a b a1 b1 a2 b2 hne ((hpr a (by omega)).mp pa) ((hpr b (by omega)).mp pb)


theorem allFrames_split (l : List Nat) (cs1 cs2 : List Child) (c : Child) :
    (allFrames l (cs1 ++ c :: cs2)).Perm
      ((c.frames ++ l) ++ ((cs1 ++ cs2).map Child.frames).flatten) := by
  unfold allFrames
  simp only [List.map_append, List.map_cons, List.flatten_append, List.flatten_cons]
  have h1 : (l ++ ((cs1.map Child.frames).flatten ++
      (c.frames ++ (cs2.map Child.frames).flatten))).Perm
      (l ++ (c.frames ++ ((cs1.map Child.frames).flatten ++
        (cs2.map Child.frames).flatten))) := by
    apply List.Perm.append_left
    rw [← List.append_assoc, ← List.append_assoc]
    exact List.Perm.append_right _ List.perm_append_comm
  refine h1.trans ?_
  rw [← List.append_assoc l]
  exact List.Perm.append_right _ List.perm_append_comm

theorem mem_frames_of_mem (cs : List Child) (c : Child) (hc : c ∈ cs) (u : Nat)
    (hu : u ∈ c.frames) : u ∈ (cs.map Child.frames).flatten :=
  List.mem_flatten.mpr ⟨_, List.mem_map.mpr ⟨c, hc, rfl⟩, hu⟩

/-- The parts of the invariant that do not concern the acting child `c`, after
a change confined to the frames that are free or held by `c` and to the counts
with an index in `R`. -/
theorem others_ok (L : Layout) (k k' : Kernel) (P sz : Nat) (cs1 cs2 : List Child)
    (c : Child) (l : List Nat) (R : Nat → Prop) (hL : LayoutOK L)
    (hW : World L k P sz (cs1 ++ c :: cs2) l)
    (hm : ∀ x, (∀ u ∈ c.frames ++ l, Outside u x) → k'.mem x = k.mem x)
    (hr : ∀ j, (∀ u ∈ c.frames ++ l, j ≠ V2P u / PGSIZE) → ¬ R j →
      k'.refcount j = k.refcount j)
    (hR : ∀ j, R j → ∀ u ∈ allFrames l (cs1 ++ c :: cs2), j ≠ V2P u / PGSIZE) :
    (∀ A', (∀ x, x ∈ A' → x ∈ allFrames l (cs1 ++ c :: cs2)) → SrcOK L k' A' P sz) ∧
      (∀ a, a < KERNBASE → leafSlot k' P a = leafSlot k P a) ∧
      (∀ a, a < KERNBASE → entry k' P a = entry k P a) ∧ SameParent L k k' P sz ∧
      (∀ c' ∈ cs1 ++ cs2, ChildOK L k' P sz c' ∧
        (∀ b, leafSlot k' c'.d b = leafSlot k c'.d b) ∧
        (∀ b, leafSlot k c'.d b ≠ 0 → entry k' c'.d b = entry k c'.d b) ∧
        ∀ b, b < sz → (Shares L k' P c' b ↔ Shares L k P c' b)) ∧
      (∀ a, a % PGSIZE = 0 → a < sz → PrivateAt L k P a →
        ¬ R (PTE_ADDR (entry k P a) / PGSIZE) →
        k'.refcount (PTE_ADDR (entry k P a) / PGSIZE) =
          k.refcount (PTE_ADDR (entry k P a) / PGSIZE)) := by
  have hF := hW.frames
  have hperm := allFrames_split l cs1 cs2 c
  have hnd := hperm.nodup_iff.mp hF.1
  have hin : ∀ u ∈ c.frames ++ l, u ∈ allFrames l (cs1 ++ c :: cs2) := fun u hu =>
    hperm.mem_iff.mpr (List.mem_append.mpr (Or.inl hu))
  have hin2 : ∀ c' ∈ cs1 ++ cs2, ∀ u ∈ c'.frames, u ∈ allFrames l (cs1 ++ c :: cs2) :=
    fun c' hc' u hu =>
      hperm.mem_iff.mpr (List.mem_append.mpr (Or.inr (mem_frames_of_mem _ c' hc' u hu)))
  have hdis : ∀ c' ∈ cs1 ++ cs2, ∀ u' ∈ c'.frames, ∀ u ∈ c.frames ++ l, u ≠ u' := by
    intro c' hc' u' hu' u hu e
    exact (List.nodup_append.mp hnd).2.2 hu (e ▸ mem_frames_of_mem _ c' hc' u' hu')
  obtain ⟨p1, p2, p3, p4⟩ := parent_frame L k k' _ (allFrames l (cs1 ++ c :: cs2)) P sz hL hF
    hW.src (fun x hx => hm x (fun u hu => hx u (hin u hu))) (fun _ h => h)
  have hsz := hW.src.szle
  refine ⟨fun A' hA' => SrcOK_sub L k' _ A' P sz hA' p1, p2, p3, p4, fun c' hc' => ?_,
    fun a a1 a2 a3 a4 => ?_⟩
  · have hc'mem : c' ∈ cs1 ++ c :: cs2 := by
      rcases List.mem_append.mp hc' with h | h
      · exact List.mem_append.mpr (Or.inl h)
      · exact List.mem_append.mpr (Or.inr (List.mem_cons_of_mem _ h))
    have hFc : Frames L c'.used :=
      ⟨(List.nodup_append.mp ((List.nodup_append.mp hnd).2.1.sublist
          (List.sublist_flatten_of_mem (List.mem_map.mpr ⟨c', hc', rfl⟩)))).1,
        fun g hg => hF.2 g (hin2 c' hc' g (List.mem_append.mpr (Or.inl hg)))⟩
    obtain ⟨q1, q2, q3, q4⟩ := ChildOK_frame L k k' P sz c' hL hFc (hW.kids c' hc'mem)
      (fun u hu x hx => hm _ (fun v hv =>
        Outside_in_page u v x (hFc.2 u hu).1.1 (hF.2 v (hin v hv)).1.1
          (Ne.symm (hdis c' hc' u (List.mem_append.mpr (Or.inl hu)) v hv)) hx))
      (fun u hu => hr _ (fun v hv e =>
        hdis c' hc' u hu v hv
          (idx_inj u v (hF.2 u (hin2 c' hc' u hu)).1.1 (hF.2 v (hin v hv)).1.1
            (hF.2 u (hin2 c' hc' u hu)).2 (hF.2 v (hin v hv)).2 e).symm)
        (fun hRj => hR _ hRj u (hin2 c' hc' u hu) rfl))
      p4
    exact ⟨q1, q3, q4, fun b hb => Shares_frame L k k' P c' b (q3 b) (q4 b)
      (by rw [p3 b (by omega)])⟩
  · apply hr
    · intro u hu
      exact SrcOK_idx_out L k _ P sz a hF hW.src a1 a2 a3 u (hin u hu)
    · exact a4

theorem flagsS (e s : Nat) (he : e < 4294967296) (hs : s < 4096) :
    PTE_FLAGS e &&& s = e &&& s := by
  unfold PTE_FLAGS
  rw [u32_of_lt _ he]
  exact (and_low e s hs).symm

theorem small_clear : ∀ r, r < 4 → ∀ t, t < 4 → r &&& t = 0 → (r - (r &&& 2)) &&& t = 0 := by
  decide

/-- Removing the writable bit does not set the shared bit. -/
theorem cowEntry_S (e s : Nat) (he : e < 4294967296) (hp : e &&& PTE_P ≠ 0)
    (hs : e &&& s = 0) : cowEntry e &&& s = 0 := by
  rw [(cowEntry_eq e he hp).1]
  have h1 := and_split 2 (e / 4) (e % 4) (s / 4) (s % 4) (by omega) (by omega)
  have e1 : 2 ^ 2 * (e / 4) + e % 4 = e := by omega
  have e2 : 2 ^ 2 * (s / 4) + s % 4 = s := by omega
  rw [e1, e2, hs] at h1
  have hW := and_split 2 (e / 4) (e % 4) 0 2 (by omega) (by omega)
  have e3 : 2 ^ 2 * 0 + 2 = PTE_W := by decide
  rw [e1, e3, Nat.and_zero] at hW
  have hle : e % 4 &&& 2 ≤ e % 4 := Nat.and_le_left
  have h2 := and_split 2 (e / 4) (e % 4 - (e % 4 &&& 2)) (s / 4) (s % 4) (by omega) (by omega)
  have e4 : 2 ^ 2 * (e / 4) + (e % 4 - (e % 4 &&& 2)) = e - (e &&& PTE_W) := by
    rw [hW]; omega
  rw [e4, e2] at h2
  rw [h2]
  have h3 := small_clear (e % 4) (by omega) (s % 4) (by omega) (by omega)
  rw [h3]
  omega

/-- The parent's translation structure after the copy loop. -/
theorem copy_parent (L : Layout) (k : Kernel) (l : List Nat) (P sz d i : Nat) (k' : Kernel)
    (used l' : List Nat) (hF : Frames L l) (hS : SrcOK L k l P sz)
    (hC : CopyInv L k l P sz d i k' used l') (hi : sz ≤ i) :
    (∀ j, j < NPDENTRIES → pdeAt k' P j = pdeAt k P j) ∧
      (∀ a, leafSlot k' P a = leafSlot k P a) ∧
      (∀ a, a % PGSIZE = 0 → a < sz → PrivateAt L k P a →
        entry k' P a = cowEntry (entry k P a)) ∧
      (∀ a, a % PGSIZE = 0 → a < sz → ¬ PrivateAt L k P a →
        entry k' P a = entry k P a) ∧
      SameParent L k k' P sz := by
  obtain ⟨b1, b2, b3, dal, d32, und⟩ := BuildInv_basic L k l d _ _ k' used _ hF hC.build
  obtain ⟨V1, _, _⟩ := CopyInv_view L k l P sz d i k' used l' hF hS hC
  have hszk := hS.szle
  have hpde : ∀ j, j < NPDENTRIES → pdeAt k' P j = pdeAt k P j := by
    intro j hj
    apply pdeAt_congr
    apply hC.build.memf
    · intro u hu
      exact Outside_in_page P u _ hS.pal (hF.2 u (b1 u hu)).1.1
        (fun e => hS.pfree (e ▸ b1 u hu)) (by unfold NPDENTRIES at hj; unfold PGSIZE; omega)
    · rintro ⟨a, a1, a2, a3, a4⟩
      have := (SrcOK_slot_out L k l P sz a hF hS
        (by have := hC.bound a a1 a2; omega) a3.1).2
      rw [← a4] at this
      unfold NPDENTRIES at hj
      unfold Outside PGSIZE at this
      omega
  have hpriv : ∀ a, a % PGSIZE = 0 → a < sz → PrivateAt L k P a →
      entry k' P a = cowEntry (entry k P a) := by
    intro a a1 a2 a3
    unfold entry
    rw [V1 a]
    exact hC.srcdone a a1 (by omega) a3
  have hoth : ∀ a, a % PGSIZE = 0 → a < sz → ¬ PrivateAt L k P a →
      entry k' P a = entry k P a := by
    intro a a1 a2 a3
    have hp := hC.pres a a1 (by omega)
    show deref k' (leafSlot k' P a) = _
    rw [V1 a]
    exact CopyInv_other L k l P sz d i k' used l' hF hS hC a a1 (by omega) hp.1
      (fun h => a3 h.2)
  refine ⟨hpde, V1, hpriv, hoth, fun a a1 a2 => ?_⟩
  by_cases hp : PrivateAt L k P a
  · have he := hpriv a a1 a2 hp
    obtain ⟨c1, c2, c3, c4⟩ := cowEntry_eq (entry k P a) (deref_lt _ _) hp.2.1
    refine ⟨⟨fun _ => hp, fun _ => ⟨by rw [V1 a]; exact hp.1, by rw [he]; exact c3, ?_⟩⟩,
      by rw [he]; exact c4⟩
    rw [he]
    unfold PTE_FLAGS
    rw [u32_of_lt _ (cowEntry_lt _), c1]
    have h1 := hp.2.2
    unfold PTE_FLAGS at h1
    rw [u32_of_lt (entry k P a) (deref_lt _ _)] at h1
    have h2 : (entry k P a - (entry k P a &&& PTE_W)) % 4096 =
        entry k P a % 4096 - (entry k P a % 4096 &&& PTE_W) := by
      have hw : entry k P a &&& PTE_W = entry k P a % 4096 &&& PTE_W :=
        and_low _ PTE_W (by decide)
      have hle : entry k P a % 4096 &&& PTE_W ≤ entry k P a % 4096 := Nat.and_le_left
      rw [hw]
      omega
    rw [h2, ← (flags_clear_W (entry k P a % 4096) (by omega)).1, Nat.and_assoc,
      Nat.and_comm (unot PTE_W), ← Nat.and_assoc, h1, Nat.zero_and]
  · have he := hoth a a1 a2 hp
    unfold PrivateAt
    rw [V1 a, he]
    exact ⟨Iff.rfl, rfl⟩


theorem World_child (L : Layout) (k : Kernel) (P sz : Nat) (cs : List Child) (l : List Nat)
    (hW : World L k P sz cs l) (c : Child) (hc : c ∈ cs) :
    Frames L c.used ∧ (∀ u ∈ c.frames, u ∈ allFrames l cs) ∧
      (∀ u ∈ c.frames, ∀ g ∈ l, u ≠ g) ∧ c.frames.Nodup := by
  have hF := hW.frames
  have hnd : (l ++ (cs.map Child.frames).flatten).Nodup := hF.1
  have hsub : c.frames.Sublist (cs.map Child.frames).flatten :=
    List.sublist_flatten_of_mem (List.mem_map.mpr ⟨c, hc, rfl⟩)
  have hin : ∀ u ∈ c.frames, u ∈ allFrames l cs := fun u hu =>
    List.mem_append.mpr (Or.inr (hsub.subset hu))
  have hcn : c.frames.Nodup := (List.nodup_append.mp hnd).2.1.sublist hsub
  refine ⟨⟨(List.nodup_append.mp hcn).1, fun g hg =>
    hF.2 g (hin g (List.mem_append.mpr (Or.inl hg)))⟩, hin, fun u hu g hg e => ?_, hcn⟩
  exact (List.nodup_append.mp hnd).2.2 hg (e ▸ hsub.subset hu)

/-- One more child: `copyuvm` on the parent. -/
theorem fork_step (L : Layout) (k : Kernel) (P sz : Nat) (cs : List Child) (l : List Nat)
    (k' : Kernel) (d : Nat) (hLc : LayoutCow L) (hK : ∀ m ∈ L.kmap, KmapOK m)
    (hW : World L k P sz cs l) (hFull : Full L k P sz (cs.map Child.d))
    (hc : copyuvm L k P sz = .ok (k', d)) (hd : d ≠ 0) :
    ∃ used l', World L k' P sz (⟨d, used, []⟩ :: cs) l' ∧
      Full L k' P sz (d :: cs.map Child.d) ∧
      k'.num_free_pages = k.num_free_pages - used.length ∧ SameParent L k k' P sz := by
  obtain ⟨hL, hke, hS4, hSW⟩ := hLc
  have hFl := Frames_of_FreeOK L k l hW.free
  have hA := hW.frames
  have hlA : ∀ x, x ∈ l → x ∈ allFrames l cs := fun x hx => List.mem_append.mpr (Or.inl hx)
  have hSl := SrcOK_sub L k _ l P sz hlA hW.src
  obtain ⟨i, used, l', hC, hi⟩ := copyuvm_inv L k l P sz k' d hL hK hW.free hW.lock hSl hc hd
  obtain ⟨b1, b2, b3, dal, d32, und⟩ := BuildInv_basic L k l d _ _ k' used _ hFl hC.build
  obtain ⟨cp1, cp2, cp3, cp4, cp5⟩ := copy_parent L k l P sz d i k' used l' hFl hSl hC hi
  have hszk := hW.src.szle
  have hperm : (allFrames l' (⟨d, used, []⟩ :: cs)).Perm (allFrames l cs) := by
    unfold allFrames Child.frames
    simp only [List.map_cons, List.flatten_cons, List.map_nil, List.append_nil]
    rw [hC.build.split, ← List.append_assoc]
    exact List.Perm.append_right _ List.perm_append_comm
  have hold : ∀ c ∈ cs, ChildOK L k' P sz c ∧
      (∀ b, leafSlot k' c.d b = leafSlot k c.d b) ∧
      (∀ b, leafSlot k c.d b ≠ 0 → entry k' c.d b = entry k c.d b) := by
    intro c hc
    obtain ⟨w1, w2, w3, _⟩ := World_child L k P sz cs l hW c hc
    obtain ⟨q1, _, q3, q4⟩ := ChildOK_frame L k k' P sz c hL w1 (hW.kids c hc)
      (fun u hu x hx => hC.build.memf _
        (fun v hv => Outside_in_page u v x (w1.2 u hu).1.1 (hFl.2 v (b1 v hv)).1.1
          (w3 u (List.mem_append.mpr (Or.inl hu)) v (b1 v hv)) hx)
        (by
          rintro ⟨a, a1, a2, a3, a4⟩
          have := (SrcOK_slot_out L k _ P sz a hA hW.src
            (by have := hC.bound a a1 a2; omega) a3.1).1 u
            (w2 u (List.mem_append.mpr (Or.inl hu)))
          rw [← a4] at this
          unfold Outside at this
          omega))
      (fun u hu => hC.build.rcf _
        (fun v hv e => w3 u hu v (b1 v hv)
          (idx_inj u v (hA.2 u (w2 u hu)).1.1 (hFl.2 v (b1 v hv)).1.1
            (hA.2 u (w2 u hu)).2 (hFl.2 v (b1 v hv)).2 e))
        (by
          rintro ⟨a, a1, a2, a3, a4⟩
          exact SrcOK_idx_out L k _ P sz a hA hW.src a1 (hC.bound a a1 a2) a3 u (w2 u hu)
            a4.symm))
      cp5
    exact ⟨q1, q3, q4⟩
  -- the new child
  have hnew : ∀ a, a % PGSIZE = 0 → a < KERNBASE → leafSlot k' d a ≠ 0 →
      entry k' d a &&& PTE_P ≠ 0 →
      a < sz ∧ entry k' d a = childEntry L (entry k P a) ∧ entry k P a &&& PTE_P ≠ 0 := by
    intro a a1 a2 a3 a4
    have hai : a < i := by
      by_contra hge
      exact a4 (hC.childrest a a1 (by omega) a2 a3)
    exact ⟨hC.bound a a1 hai, (hC.childdone a a1 hai).2, (hC.pres a a1 hai).2⟩
  have hnewpriv : ∀ a, a % PGSIZE = 0 → a < sz → PrivateAt L k P a →
      leafSlot k' d a ≠ 0 ∧ entry k' d a = cowEntry (entry k P a) := by
    intro a a1 a2 a3
    obtain ⟨c1, c2⟩ := hC.childdone a a1 (by omega)
    refine ⟨c1, ?_⟩
    show deref k' (leafSlot k' d a) = _
    rw [c2]
    unfold childEntry
    rw [if_neg (by rw [a3.2.2]; simp)]
  have hshare0 : ∀ a, a % PGSIZE = 0 → a < sz → PrivateAt L k P a →
      Shares L k' P ⟨d, used, []⟩ a := by
    intro a a1 a2 a3
    obtain ⟨n1, n2⟩ := hnewpriv a a1 a2 a3
    obtain ⟨c1, c2, c3, c4⟩ := cowEntry_eq (entry k P a) (deref_lt _ _) a3.2.1
    have hs : entry k P a &&& L.PTE_S = 0 := by
      rw [← flagsS (entry k P a) _ (deref_lt _ _) hS4]; exact a3.2.2
    refine ⟨n1, ?_, ?_, ?_⟩
    · show entry k' d a &&& PTE_P ≠ 0
      rw [n2]; exact c3
    · show entry k' d a &&& L.PTE_S = 0
      rw [n2]; exact cowEntry_S (entry k P a) _ (deref_lt _ _) a3.2.1 hs
    · show PTE_ADDR (entry k' d a) = _
      rw [n2, c4, (cp5 a a1 a2).2]
  refine ⟨used, l', ⟨hC.build.free, hC.build.lock, Frames_perm L _ _ hperm hA, ?_, ?_, ?_, ?_,
    ?_⟩, ?_, hC.build.count, cp5⟩
  · -- the parent
    refine ⟨hW.src.szle, hW.src.pal, fun hx => hW.src.pfree (hperm.mem_iff.mp hx),
      fun j hj hp => ?_, fun a a1 a2 a3 hx => ?_, fun a b a1 b1 a2 b2 hne pa pb => ?_⟩
    · have hj' : j < NPDENTRIES := by unfold NPDENTRIES; omega
      rw [cp1 j hj'] at hp
      rw [tableOf_congr _ _ _ _ (cp1 j hj')]
      obtain ⟨t1, t2, t3⟩ := hW.src.tabs j hj hp
      refine ⟨fun hx => t1 (hperm.mem_iff.mp hx), t2, fun j' hj2 hne hp' => ?_⟩
      have hj2' : j' < NPDENTRIES := by unfold NPDENTRIES; omega
      rw [cp1 j' hj2'] at hp'
      rw [tableOf_congr _ _ _ _ (cp1 j' hj2')]
      exact t3 j' hj2 hne hp'
    · rw [(cp5 a a1 a2).2] at hx
      exact hW.src.data a a1 a2 ((cp5 a a1 a2).1.mp a3) (hperm.mem_iff.mp hx)
    · rw [(cp5 a a1 a2).2, (cp5 b b1 b2).2]
      exact hW.src.inj a b a1 b1 a2 b2 hne ((cp5 a a1 a2).1.mp pa) ((cp5 b b1 b2).1.mp pb)
  · intro a a1 a2
    rw [(cp5 a a1 a2).2]
    exact hW.pnz a a1 a2
  · intro a a1 a2 a3
    rw [(cp5 a a1 a2).2]
    exact hW.pval a a1 a2 ((cp5 a a1 a2).1.mp a3)
  · -- the counts
    intro a a1 a2 a3
    have a3k := (cp5 a a1 a2).1.mp a3
    have hsh : sharers L k' P (⟨d, used, []⟩ :: cs) a = sharers L k P cs a + 1 := by
      unfold sharers
      rw [List.countP_cons_of_pos _ _ (by simpa using hshare0 a a1 a2 a3k)]
      congr 1
      apply List.countP_congr
      intro c hc
      simp only [decide_eq_true_eq]
      obtain ⟨_, q3, q4⟩ := hold c hc
      exact Shares_frame L k k' P c a (q3 a) (q4 a) (cp5 a a1 a2).2
    obtain ⟨r1, r2⟩ := hW.prc a a1 a2 a3k
    have hrc := hC.srcrc a a1 (by omega) a3k
    rw [hsh, (cp5 a a1 a2).2, hrc]
    unfold inc1
    push_cast
    constructor
    · split <;> omega
    · intro _
      split
      · omega
      · by_cases hn : 1 ≤ sharers L k P cs a
        · have := r2 hn; omega
        · omega
  · -- the children
    intro c hc
    rcases List.mem_cons.mp hc with e | e
    · subst e
      refine ⟨hC.build.dmem, hC.build.urc, hC.build.tabs, hC.build.pdes, List.nodup_nil,
        fun p hp => (by cases hp), fun a a1 a2 a3 a4 => ?_⟩
      obtain ⟨n1, n2, n3⟩ := hnew a a1 a2 a3 a4
      refine ⟨?_, fun hs => Or.inr ?_⟩
      · show PTE_ADDR (entry k' d a) ≠ 0
        rw [n2, PTE_ADDR_childEntry L (entry k P a) (deref_lt _ _) n3]
        exact hW.pnz a a1 n1
      · have hs' : childEntry L (entry k P a) &&& L.PTE_S = 0 := by rw [← n2]; exact hs
        have hpk : PrivateAt L k P a :=
          ⟨(hC.pres a a1 (by omega)).1, n3, childEntry_private L (entry k P a) (deref_lt _ _) n3 hs'⟩
        obtain ⟨m1, m2⟩ := hnewpriv a a1 n1 hpk
        obtain ⟨c1, c2, c3, c4⟩ := cowEntry_eq (entry k P a) (deref_lt _ _) n3
        refine ⟨n1, (cp5 a a1 n1).1.mpr hpk, ?_, ?_⟩
        · show PTE_ADDR (entry k' d a) = _
          rw [m2, c4, (cp5 a a1 n1).2]
        · show entry k' d a &&& PTE_W = 0
          rw [m2]; exact c2
    · exact (hold c e).1
  · -- every child maps every private page
    intro d' hd' a a1 a2 a3
    have a3k := (cp5 a a1 a2).1.mp a3
    rcases List.mem_cons.mp hd' with e | e
    · subst e
      obtain ⟨s1, s2, s3, _⟩ := hshare0 a a1 a2 a3k
      exact ⟨s1, s2, s3⟩
    · obtain ⟨c, hc, rfl⟩ := List.mem_map.mp e
      obtain ⟨_, q3, q4⟩ := hold c hc
      obtain ⟨f1, f2, f3⟩ := hFull c.d e a a1 a2 a3k
      rw [q3 a, q4 a f1]
      exact ⟨f1, f2, f3⟩


/-- The state `cowfault` produces when it copies the page. -/
theorem cowfault_copy (L : Layout) (k : Kernel) (pgdir va pte g : Nat) (c : Int)
    (hslot : leafSlot k pgdir (PGROUNDDOWN va) = pte) (hne : pte ≠ 0)
    (hP : deref k pte &&& PTE_P ≠ 0) (hW : deref k pte &&& PTE_W = 0)
    (hrc : getrefcount L k (PTE_ADDR (deref k pte)) = .ok c) (hc : 2 ≤ c)
    (hg : k.freelist = g) (hg0 : g ≠ 0) (hsepG : Outside g pte)
    (hrg : k.refcount (V2P g / PGSIZE) = 0) :
    cowfault L k pgdir va =
      .ok (store (setref (memmove (kalloc L k).1 g (P2V (PTE_ADDR (deref k pte))))
        (PTE_ADDR (deref k pte) / PGSIZE) (c - 1)) pte
        (V2P g ||| (PTE_FLAGS (deref k pte) ||| PTE_W) ||| PTE_P), 0) := by
  have hw : walkpgdir L k pgdir (PGROUNDDOWN va) 0 = (k, pte) := by
    rw [walkpgdir_zero, hslot]
  obtain ⟨hidx, hlock, hcnt⟩ := getrefcount_ok L k _ c hrc (by omega)
  have hfl : k.freelist ≠ 0 := by omega
  obtain ⟨ka1, ka2, ka3, ka4, ka5, ka6, ka7⟩ := kalloc_fields L k hfl
  generalize hF : PTE_ADDR (deref k pte) = F at *
  generalize hK : kalloc L k = K at *
  obtain ⟨k1, r⟩ := K
  simp only at ka1 ka2 ka3 ka4 ka5 ka6 ka7
  rw [hg] at ka1 ka4 ka6 ka7
  subst ka1
  have hFg : F / PGSIZE ≠ V2P r / PGSIZE := by
    intro e; rw [e, hrg] at hcnt; omega
  have hrc1 : k1.refcount (F / PGSIZE) = c := by rw [ka6 _ hFg, hcnt]
  have hderef : deref (memmove k1 r (P2V F)) pte = deref k pte := by
    have : ¬ (r ≤ pte ∧ pte < r + PGSIZE) := by unfold Outside at hsepG; omega
    simp [deref, memmove, this, ka2]
  have hnl : ¬ (MAX_PAGES L ≤ F / PGSIZE) := by omega
  have hC : ¬ (c ≤ 0) := by omega
  have hc2 : ¬ (c < 2) := by omega
  unfold cowfault
  simp only [hw, hne, hP, hW, hF, hrc, hc2, hK, hg0, decref, hnl, ge_iff_le, if_false,
    if_true, ne_eq, not_true_eq_false, not_false_eq_true]
  have hl2 : (memmove k1 r (P2V F)).use_lock = true := by
    show k1.use_lock = true
    rw [ka3]; exact hlock
  have hr2 : (memmove k1 r (P2V F)).refcount (F / PGSIZE) = c := hrc1
  simp only [hl2, hr2, hC, Bool.not_true, Bool.false_eq_true, if_false]
  have hd3 : deref (setref (memmove k1 r (P2V F)) (F / PGSIZE) (c - 1)) pte = deref k pte :=
    hderef
  rw [hd3]


/-- The entry `cowfault` writes for the copy in the frame `g`. -/
theorem newEntry_bits (g e s : Nat) (hg : g % PGSIZE = 0) (he : e < 4294967296)
    (hP : e &&& PTE_P ≠ 0) (hs : e &&& s = 0) (hs4 : s < 4096) (hsW : s &&& PTE_W = 0) :
    V2P g ||| (PTE_FLAGS e ||| PTE_W) ||| PTE_P < 4294967296 ∧
      (V2P g ||| (PTE_FLAGS e ||| PTE_W) ||| PTE_P) &&& PTE_P ≠ 0 ∧
      (V2P g ||| (PTE_FLAGS e ||| PTE_W) ||| PTE_P) &&& s = 0 ∧
      PTE_ADDR (V2P g ||| (PTE_FLAGS e ||| PTE_W) ||| PTE_P) = V2P g := by
  have hflags : PTE_FLAGS e ||| PTE_W < 4096 :=
    flags_or_lt _ _ (by unfold PTE_FLAGS; omega) (by unfold PTE_W; omega)
  have hV2P : V2P g < 4294967296 := u32_lt _
  have hV2Pal : V2P g % 4096 = 0 := by unfold V2P u32 KERNBASE PGSIZE at *; omega
  have hfp : PTE_FLAGS e ||| PTE_P = PTE_FLAGS e := by
    apply or_one_of_present
    unfold PTE_FLAGS
    rw [u32_of_lt _ he, Nat.and_one_is_mod]
    unfold PTE_P at hP
    rw [Nat.and_one_is_mod] at hP
    omega
  have hp : (PTE_FLAGS e ||| PTE_W) ||| PTE_P = PTE_FLAGS e ||| PTE_W := by
    rw [Nat.or_assoc, Nat.or_comm PTE_W PTE_P, ← Nat.or_assoc, hfp]
  have hval : V2P g ||| (PTE_FLAGS e ||| PTE_W) ||| PTE_P =
      V2P g + (PTE_FLAGS e ||| PTE_W) := by
    rw [Nat.or_assoc, hp]
    exact or_eq_add _ _ hV2Pal hflags
  have hodd : (PTE_FLAGS e ||| PTE_W) % 2 = 1 := by
    have h2 : PTE_FLAGS e % 2 = 1 := by
      unfold PTE_FLAGS
      rw [u32_of_lt _ he]
      unfold PTE_P at hP
      rw [Nat.and_one_is_mod] at hP
      omega
    have h3 : (PTE_FLAGS e ||| PTE_W).testBit 0 = true := by
      rw [Nat.testBit_or]
      simp [Nat.testBit_zero, h2]
    simpa [Nat.testBit_zero] using h3
  have hfs : (PTE_FLAGS e ||| PTE_W) &&& s = 0 := by
    rw [Nat.and_comm, Nat.and_or_distrib_left, Nat.and_comm s (PTE_FLAGS e),
      flagsS e s he hs4, hs, hsW]
    rfl
  rw [hval]
  refine ⟨by omega, ?_, ?_, ?_⟩
  · unfold PTE_P
    rw [Nat.and_one_is_mod]
    omega
  · rw [and_low _ s hs4]
    have : (V2P g + (PTE_FLAGS e ||| PTE_W)) % 4096 = PTE_FLAGS e ||| PTE_W := by omega
    rw [this, hfs]
  · unfold PTE_ADDR
    rw [u32_of_lt _ (by omega)]
    omega

theorem sharers_split (L : Layout) (k : Kernel) (P : Nat) (cs1 cs2 : List Child) (c : Child)
    (a : Nat) : sharers L k P (cs1 ++ c :: cs2) a =
      sharers L k P (cs1 ++ cs2) a + (if Shares L k P c a then 1 else 0) := by
  unfold sharers
  rw [List.countP_append, List.countP_cons, List.countP_append]
  simp only [decide_eq_true_eq]
  omega

theorem PGROUNDDOWN_of_aligned (a : Nat) (h : a % PGSIZE = 0) (h2 : a < 4294967296) :
    PGROUNDDOWN a = a := by
  unfold PGROUNDDOWN u32
  unfold PGSIZE at *
  omega

/-- Without a free frame `cowfault` on a shared page reports failure. -/
theorem cowfault_nomem (L : Layout) (k : Kernel) (pgdir va pte : Nat) (c : Int)
    (hslot : leafSlot k pgdir (PGROUNDDOWN va) = pte) (hne : pte ≠ 0)
    (hP : deref k pte &&& PTE_P ≠ 0) (hW : deref k pte &&& PTE_W = 0)
    (hrc : getrefcount L k (PTE_ADDR (deref k pte)) = .ok c) (hc : 2 ≤ c)
    (hg : k.freelist = 0) : cowfault L k pgdir va = .ok (k, -1) := by
  have hw : walkpgdir L k pgdir (PGROUNDDOWN va) 0 = (k, pte) := by
    rw [walkpgdir_zero, hslot]
  have hc2 : ¬ (c < 2) := by omega
  unfold cowfault
  simp only [hw, hne, hP, hW, hrc, hc2, kalloc_nil L k hg, if_false, if_true, ne_eq,
    not_true_eq_false, not_false_eq_true]

/-- A page that a child shares with the parent is not one it holds a copy of. -/
theorem Shares_not_own (L : Layout) (k : Kernel) (P sz : Nat) (cs : List Child) (l : List Nat)
    (c : Child) (a : Nat) (hW : World L k P sz cs l) (hc : c ∈ cs) (a1 : a % PGSIZE = 0)
    (a2 : a < sz) (hpa : PrivateAt L k P a) (hsh : Shares L k P c a) :
    ∀ g, (a, g) ∉ c.own := by
  intro g hg
  obtain ⟨o1, o2, o3, o4, o5, o6, o7⟩ := (hW.kids c hc).ownok (a, g) hg
  obtain ⟨w1, w2, w3, _⟩ := World_child L k P sz cs l hW c hc
  have hgA : g ∈ allFrames l cs :=
    w2 g (List.mem_append.mpr (Or.inr (List.mem_map.mpr ⟨(a, g), hg, rfl⟩)))
  have h1 : V2P g = PTE_ADDR (entry k P a) := o6.symm.trans hsh.2.2.2
  have h2 : P2V (PTE_ADDR (entry k P a)) = g := by
    rw [← h1]; exact P2V_V2P g (hW.frames.2 g hgA).2
  exact hW.src.data a a1 a2 hpa (h2 ▸ hgA)

/-- A child that maps a private page of the parent without holding a copy of
it shares the parent's frame. -/
theorem Shares_of_full (L : Layout) (k : Kernel) (P sz : Nat) (cs : List Child) (l : List Nat)
    (c : Child) (a : Nat) (hW : World L k P sz cs l) (hc : c ∈ cs) (a1 : a % PGSIZE = 0)
    (a2 : a < sz) (hfull : leafSlot k c.d a ≠ 0 ∧ entry k c.d a &&& PTE_P ≠ 0 ∧
      entry k c.d a &&& L.PTE_S = 0)
    (hno : ∀ g, (a, g) ∉ c.own) : Shares L k P c a ∧ entry k c.d a &&& PTE_W = 0 := by
  have hsz := hW.src.szle
  obtain ⟨q1, q2⟩ := (hW.kids c hc).pages a a1 (by omega) hfull.1 hfull.2.1
  rcases q2 hfull.2.2 with ⟨g, hg⟩ | ⟨_, _, h3, h4⟩
  · exact absurd hg (hno g)
  · exact ⟨⟨hfull.1, hfull.2.1, hfull.2.2, h3⟩, h4⟩

theorem sharers_pos (L : Layout) (k : Kernel) (P : Nat) (cs : List Child) (c : Child) (a : Nat)
    (hc : c ∈ cs) (hsh : Shares L k P c a) : 1 ≤ sharers L k P cs a := by
  unfold sharers
  exact List.countP_pos_iff.mpr ⟨c, hc, by simpa using hsh⟩

theorem getrefcount_eq (L : Layout) (k : Kernel) (pa : Nat) (hlock : k.use_lock = true)
    (hidx : pa / PGSIZE < MAX_PAGES L) : getrefcount L k pa = .ok (k.refcount (pa / PGSIZE)) := by
  unfold getrefcount
  simp [hlock, Nat.not_le.mpr hidx]

theorem parent_idx (L : Layout) (k : Kernel) (P sz : Nat) (cs : List Child) (l : List Nat)
    (hL : LayoutOK L) (hW : World L k P sz cs l) (a : Nat) (a1 : a % PGSIZE = 0) (a2 : a < sz)
    (hpa : PrivateAt L k P a) : PTE_ADDR (entry k P a) / PGSIZE < MAX_PAGES L := by
  have hv := hW.pval a a1 a2 hpa
  have h32 : PTE_ADDR (entry k P a) < 4294967296 := by unfold PTE_ADDR u32; omega
  have := idx_lt_MAX_PAGES L _ hL.1 hv.2.2
  rw [V2P_P2V _ h32] at this
  exact this


/-- What a change made by the child `c` at its slot for page `a` leaves in
place: the change writes `v` to the slot, touches no other word outside the
frames `G` (free frames or copies held by `c`) and no count outside `G` and `R`. -/
theorem act_frame (L : Layout) (k k' : Kernel) (P sz : Nat) (cs1 cs2 : List Child)
    (c : Child) (l : List Nat) (a v : Nat) (G : List Nat) (R : Nat → Prop) (hL : LayoutOK L)
    (hW : World L k P sz (cs1 ++ c :: cs2) l) (a2 : a < 4294967296)
    (hs0 : leafSlot k c.d a ≠ 0)
    (hG : ∀ g ∈ G, g ∈ c.frames ++ l) (hGd : ∀ g ∈ G, g ∉ c.used)
    (hm1 : k'.mem (leafSlot k c.d a) = v)
    (hm2 : ∀ x, x ≠ leafSlot k c.d a → (∀ g ∈ G, Outside g x) → k'.mem x = k.mem x)
    (hr : ∀ j, (∀ g ∈ G, j ≠ V2P g / PGSIZE) → ¬ R j → k'.refcount j = k.refcount j)
    (hR : ∀ j, R j → ∀ u ∈ allFrames l (cs1 ++ c :: cs2), j ≠ V2P u / PGSIZE) :
    ((∀ A', (∀ x, x ∈ A' → x ∈ allFrames l (cs1 ++ c :: cs2)) → SrcOK L k' A' P sz) ∧
      (∀ a, a < KERNBASE → leafSlot k' P a = leafSlot k P a) ∧
      (∀ a, a < KERNBASE → entry k' P a = entry k P a) ∧ SameParent L k k' P sz ∧
      (∀ c' ∈ cs1 ++ cs2, ChildOK L k' P sz c' ∧
        (∀ b, leafSlot k' c'.d b = leafSlot k c'.d b) ∧
        (∀ b, leafSlot k c'.d b ≠ 0 → entry k' c'.d b = entry k c'.d b) ∧
        ∀ b, b < sz → (Shares L k' P c' b ↔ Shares L k P c' b)) ∧
      (∀ a, a % PGSIZE = 0 → a < sz → PrivateAt L k P a →
        ¬ R (PTE_ADDR (entry k P a) / PGSIZE) →
        k'.refcount (PTE_ADDR (entry k P a) / PGSIZE) =
          k.refcount (PTE_ADDR (entry k P a) / PGSIZE))) ∧
      (∀ j, j < NPDENTRIES → pdeAt k' c.d j = pdeAt k c.d j) ∧
      (∀ b, leafSlot k' c.d b = leafSlot k c.d b) ∧
      entry k' c.d a = u32 v ∧
      (∀ b, b < 4294967296 → b / PGSIZE ≠ a / PGSIZE → leafSlot k c.d b ≠ 0 →
        entry k' c.d b = entry k c.d b) ∧
      (∀ u ∈ c.frames, u ∉ G →
        k'.refcount (V2P u / PGSIZE) = k.refcount (V2P u / PGSIZE)) := by
  have hcm : c ∈ cs1 ++ c :: cs2 := List.mem_append.mpr (Or.inr (List.mem_cons_self _ _))
  have hck := hW.kids c hcm
  obtain ⟨w1, w2, w3, w4⟩ := World_child L k P sz _ l hW c hcm
  have hA := hW.frames
  have hperm := allFrames_split l cs1 cs2 c
  have hin : ∀ u ∈ c.frames ++ l, u ∈ allFrames l (cs1 ++ c :: cs2) := fun u hu =>
    hperm.mem_iff.mpr (List.mem_append.mpr (Or.inl hu))
  obtain ⟨hpd, hsl⟩ := slot_in_table k c.d a hs0
  obtain ⟨t1, t2, _⟩ := hck.tabs _ (PDX_lt a) hpd
  have hx := PTX_lt a
  have htal := (w1.2 _ t1).1.1
  have hdal := (w1.2 _ hck.dmem).1.1
  have hoth := others_ok L k k' P sz cs1 cs2 c l R hL hW
    (fun x hx' => hm2 x
      (fun e => by
        have := hx' _ (List.mem_append.mpr (Or.inl (List.mem_append.mpr (Or.inl t1))))
        rw [e, hsl] at this
        unfold Outside PGSIZE at this
        omega)
      (fun g hg => hx' g (hG g hg)))
    (fun j hj hRj => hr j (fun g hg => hj g (hG g hg)) hRj) hR
  obtain ⟨v1, v2, v3⟩ := dir_view k k' c.d c.used (leafSlot k c.d a) hck.dmem
    (fun j hj hp => (hck.tabs j hj hp).1)
    (fun u hu x hx' hne => hm2 _ hne (fun g hg =>
      Outside_in_page u g x (w1.2 u hu).1.1 (hA.2 g (hin g (hG g hg))).1.1
        (fun e => hGd g hg (e ▸ hu)) hx'))
    (by rw [hsl]; exact Outside_in_page _ _ _ htal hdal t2 (by unfold PGSIZE; omega))
  refine ⟨hoth, v1, v2, ?_, fun b hb hne hsb => ?_, fun u hu hnG => ?_⟩
  · show deref k' (leafSlot k' c.d a) = _
    rw [v2 a]
    unfold deref
    rw [hm1]
  · exact v3 b hsb (slot_ne k c.d b a (fun j hj hp => (hck.tabs j hj hp).2.2) hb a2 hne hsb hs0)
  · apply hr
    · intro g hg e
      have hgA := hin g (hG g hg)
      have huA := w2 u hu
      exact hnG ((idx_inj u g (hA.2 u huA).1.1 (hA.2 g hgA).1.1 (hA.2 u huA).2
        (hA.2 g hgA).2 e) ▸ hg)
    · exact fun hRj => hR _ hRj u (w2 u hu) rfl


/-- The acting child after the change at its slot for page `a`, with the
copies `own'` that differ from the old ones at page `a` only. -/
theorem act_child (L : Layout) (k k' : Kernel) (P sz : Nat) (c : Child)
    (own' : List (Nat × Nat)) (a v : Nat) (hck : ChildOK L k P sz c)
    (a1 : a % PGSIZE = 0) (a2 : a < KERNBASE) (hs0 : leafSlot k c.d a ≠ 0)
    (hsp : SameParent L k k' P sz)
    (v1 : ∀ j, j < NPDENTRIES → pdeAt k' c.d j = pdeAt k c.d j)
    (v2 : ∀ b, leafSlot k' c.d b = leafSlot k c.d b)
    (v3 : entry k' c.d a = v)
    (v4 : ∀ b, b < 4294967296 → b / PGSIZE ≠ a / PGSIZE → leafSlot k c.d b ≠ 0 →
      entry k' c.d b = entry k c.d b)
    (hur : ∀ u ∈ c.used, k'.refcount (V2P u / PGSIZE) = k.refcount (V2P u / PGSIZE))
    (hor : ∀ p ∈ c.own, p.1 ≠ a →
      k'.refcount (V2P p.2 / PGSIZE) = k.refcount (V2P p.2 / PGSIZE))
    (hown : ∀ p : Nat × Nat, p.1 ≠ a → (p ∈ own' ↔ p ∈ c.own))
    (hnd : (own'.map Prod.fst).Nodup)
    (hnew : ∀ p ∈ own', p.1 = a → v &&& PTE_P ≠ 0 ∧ v &&& L.PTE_S = 0 ∧
      PTE_ADDR v = V2P p.2 ∧ k'.refcount (V2P p.2 / PGSIZE) = 1)
    (hpg : v &&& PTE_P ≠ 0 → PTE_ADDR v ≠ 0 ∧ (v &&& L.PTE_S = 0 →
      (∃ g, (a, g) ∈ own') ∨
      (a < sz ∧ PrivateAt L k' P a ∧ PTE_ADDR v = PTE_ADDR (entry k' P a) ∧
        v &&& PTE_W = 0))) :
    ChildOK L k' P sz ⟨c.d, c.used, own'⟩ := by
  have hdiv : ∀ b, b % PGSIZE = 0 → b ≠ a → b / PGSIZE ≠ a / PGSIZE := by
    intro b hb hne
    unfold PGSIZE at *
    omega
  refine ⟨hck.dmem, fun u hu => ?_, fun j hj hpj => ?_, ?_, hnd, fun p hp => ?_,
    fun b b1 b2 b3 b4 => ?_⟩
  · show k'.refcount _ = 1
    rw [hur u hu]; exact hck.urc u hu
  · show tableOf k' c.d j ∈ c.used ∧ tableOf k' c.d j ≠ c.d ∧ _
    have hpj' : pdeAt k c.d j &&& PTE_P ≠ 0 := by rw [← v1 j hj]; exact hpj
    rw [tableOf_congr _ _ _ _ (v1 j hj)]
    obtain ⟨t1, t2, t3⟩ := hck.tabs j hj hpj'
    refine ⟨t1, t2, fun j' hj' hne hp' => ?_⟩
    have hp'' : pdeAt k c.d j' &&& PTE_P ≠ 0 := by rw [← v1 j' hj']; exact hp'
    show tableOf k' c.d j' ≠ _
    rw [tableOf_congr _ _ _ _ (v1 j' hj')]
    exact t3 j' hj' hne hp''
  · show c.used.length = 1 + pdeCount k' c.d
    rw [pdeCount_congr k k' c.d v1]
    exact hck.pdes
  · show p.1 % PGSIZE = 0 ∧ p.1 < KERNBASE ∧ leafSlot k' c.d p.1 ≠ 0 ∧
      entry k' c.d p.1 &&& PTE_P ≠ 0 ∧ entry k' c.d p.1 &&& L.PTE_S = 0 ∧
      PTE_ADDR (entry k' c.d p.1) = V2P p.2 ∧ k'.refcount (V2P p.2 / PGSIZE) = 1
    by_cases hpa : p.1 = a
    · obtain ⟨n1, n2, n3, n4⟩ := hnew p hp hpa
      rw [hpa, v2, v3]
      exact ⟨a1, a2, hs0, n1, n2, n3, n4⟩
    · have hpo := (hown p hpa).mp hp
      obtain ⟨o1, o2, o3, o4, o5, o6, o7⟩ := hck.ownok p hpo
      rw [v2, v4 p.1 (by unfold KERNBASE at o2; omega) (hdiv _ o1 hpa) o3, hor p hpo hpa]
      exact ⟨o1, o2, o3, o4, o5, o6, o7⟩
  · have b3' : leafSlot k c.d b ≠ 0 := by rw [← v2 b]; exact b3
    have b4' : entry k' c.d b &&& PTE_P ≠ 0 := b4
    show PTE_ADDR (entry k' c.d b) ≠ 0 ∧ (entry k' c.d b &&& L.PTE_S = 0 → _)
    by_cases hba : b = a
    · subst hba
      rw [v3] at b4' ⊢
      exact hpg b4'
    · have he := v4 b (by unfold KERNBASE at b2; omega) (hdiv _ b1 hba) b3'
      rw [he] at b4' ⊢
      obtain ⟨q1, q2⟩ := hck.pages b b1 b2 b3' b4'
      refine ⟨q1, fun hs => ?_⟩
      rcases q2 hs with ⟨g, hg⟩ | ⟨h1, h2, h3, h4⟩
      · exact Or.inl ⟨g, (hown (b, g) hba).mpr hg⟩
      · exact Or.inr ⟨h1, (hsp b b1 h1).1.mpr h2, by rw [(hsp b b1 h1).2]; exact h3, h4⟩


theorem sharers_others (L : Layout) (k k' : Kernel) (P sz : Nat) (cs : List Child) (b : Nat)
    (hb : b < sz)
    (h : ∀ c' ∈ cs, ChildOK L k' P sz c' ∧
        (∀ b, leafSlot k' c'.d b = leafSlot k c'.d b) ∧
        (∀ b, leafSlot k c'.d b ≠ 0 → entry k' c'.d b = entry k c'.d b) ∧
        ∀ b, b < sz → (Shares L k' P c' b ↔ Shares L k P c' b)) :
    sharers L k' P cs b = sharers L k P cs b :=
  sharers_congr L k k' P cs b (fun c hc => (h c hc).2.2.2 b hb)

/-- The invariant after a change made by the child `c` at its slot for page `a`. -/
theorem act_world (L : Layout) (k k' : Kernel) (P sz : Nat) (cs1 cs2 : List Child)
    (c : Child) (l l' : List Nat) (own' : List (Nat × Nat)) (a : Nat) (R : Nat → Prop)
    (hW : World L k P sz (cs1 ++ c :: cs2) l)
    (hfree : FreeOK L k' l') (hlock : k'.use_lock = true)
    (hperm : (allFrames l' (cs1 ++ ⟨c.d, c.used, own'⟩ :: cs2)).Perm
      (allFrames l (cs1 ++ c :: cs2)))
    (hoth : (∀ A', (∀ x, x ∈ A' → x ∈ allFrames l (cs1 ++ c :: cs2)) → SrcOK L k' A' P sz) ∧
      (∀ a, a < KERNBASE → leafSlot k' P a = leafSlot k P a) ∧
      (∀ a, a < KERNBASE → entry k' P a = entry k P a) ∧ SameParent L k k' P sz ∧
      (∀ c' ∈ cs1 ++ cs2, ChildOK L k' P sz c' ∧
        (∀ b, leafSlot k' c'.d b = leafSlot k c'.d b) ∧
        (∀ b, leafSlot k c'.d b ≠ 0 → entry k' c'.d b = entry k c'.d b) ∧
        ∀ b, b < sz → (Shares L k' P c' b ↔ Shares L k P c' b)) ∧
      (∀ a, a % PGSIZE = 0 → a < sz → PrivateAt L k P a →
        ¬ R (PTE_ADDR (entry k P a) / PGSIZE) →
        k'.refcount (PTE_ADDR (entry k P a) / PGSIZE) =
          k.refcount (PTE_ADDR (entry k P a) / PGSIZE)))
    (hchild : ChildOK L k' P sz ⟨c.d, c.used, own'⟩)
    (hsame : ∀ b, b % PGSIZE = 0 → b < sz → b ≠ a →
      (Shares L k' P c b ↔ Shares L k P c b))
    (hRb : ∀ b, b % PGSIZE = 0 → b < sz → b ≠ a → PrivateAt L k P b →
      ¬ R (PTE_ADDR (entry k P b) / PGSIZE))
    (hprca : a % PGSIZE = 0 → a < sz → PrivateAt L k P a →
      (sharers L k' P (cs1 ++ ⟨c.d, c.used, own'⟩ :: cs2) a : Int) ≤
          k'.refcount (PTE_ADDR (entry k P a) / PGSIZE) ∧
        (1 ≤ sharers L k' P (cs1 ++ ⟨c.d, c.used, own'⟩ :: cs2) a →
          (sharers L k' P (cs1 ++ ⟨c.d, c.used, own'⟩ :: cs2) a : Int) + 1 ≤
            k'.refcount (PTE_ADDR (entry k P a) / PGSIZE))) :
    World L k' P sz (cs1 ++ ⟨c.d, c.used, own'⟩ :: cs2) l' := by
  obtain ⟨o1, o2, o3, o4, o5, o6⟩ := hoth
  have hsz := hW.src.szle
  refine ⟨hfree, hlock, Frames_perm L _ _ hperm hW.frames,
    o1 _ (fun x hx => hperm.mem_iff.mp hx), fun b b1 b2 => ?_, fun b b1 b2 b3 => ?_,
    fun b b1 b2 b3 => ?_, fun c' hc' => ?_⟩
  · rw [o3 b (by omega)]; exact hW.pnz b b1 b2
  · rw [o3 b (by omega)]; exact hW.pval b b1 b2 ((o4 b b1 b2).1.mp b3)
  · have b3k := (o4 b b1 b2).1.mp b3
    rw [o3 b (by omega)]
    by_cases hba : b = a
    · subst hba
      exact hprca b1 b2 b3k
    · have h1 : sharers L k' P (cs1 ++ ⟨c.d, c.used, own'⟩ :: cs2) b =
          sharers L k P (cs1 ++ c :: cs2) b := by
        rw [sharers_split, sharers_split, sharers_others L k k' P sz _ b b2 o5]
        congr 1
        have : Shares L k' P ⟨c.d, c.used, own'⟩ b ↔ Shares L k P c b := hsame b b1 b2 hba
        simp only [this]
      rw [h1, o6 b b1 b2 b3k (hRb b b1 b2 hba b3k)]
      exact hW.prc b b1 b2 b3k
  · rcases List.mem_append.mp hc' with h | h
    · exact (o5 c' (List.mem_append.mpr (Or.inl h))).1
    · rcases List.mem_cons.mp h with e | e
      · subst e; exact hchild
      · exact (o5 c' (List.mem_append.mpr (Or.inr e))).1

theorem V2P_ne_zero (L : Layout) (g : Nat) (hk : KERNBASE < L.kend) (hv : ValidFrame L g)
    (h32 : g < 4294967296) : V2P g ≠ 0 := by
  have := hv.2.1
  unfold V2P u32
  unfold KERNBASE at *
  omega

/-- A child takes its copy of page `a`: a successful `cowfault` on a page it
shares with the parent. -/
theorem fault_step (L : Layout) (k : Kernel) (P sz : Nat) (cs1 cs2 : List Child) (c : Child)
    (l : List Nat) (a : Nat) (k' : Kernel) (hLc : LayoutCow L)
    (hW : World L k P sz (cs1 ++ c :: cs2) l) (a1 : a % PGSIZE = 0) (a2 : a < sz)
    (hpa : PrivateAt L k P a) (hsh : Shares L k P c a) (hWc : entry k c.d a &&& PTE_W = 0)
    (hf : cowfault L k c.d a = .ok (k', 0)) :
    ∃ g l', l = g :: l' ∧
      World L k' P sz (cs1 ++ ⟨c.d, c.used, (a, g) :: c.own⟩ :: cs2) l' ∧
      k'.num_free_pages = k.num_free_pages - 1 ∧ SameParent L k k' P sz ∧
      (∀ c' ∈ cs1 ++ cs2, (∀ b, leafSlot k' c'.d b = leafSlot k c'.d b) ∧
        ∀ b, leafSlot k c'.d b ≠ 0 → entry k' c'.d b = entry k c'.d b) ∧
      (∀ b, leafSlot k' c.d b = leafSlot k c.d b) ∧
      (∀ b, b < 4294967296 → b / PGSIZE ≠ a / PGSIZE → leafSlot k c.d b ≠ 0 →
        entry k' c.d b = entry k c.d b) ∧
      entry k' c.d a &&& PTE_P ≠ 0 ∧ entry k' c.d a &&& L.PTE_S = 0 := by
  obtain ⟨hL, hke, hS4, hSW⟩ := hLc
  have hcm : c ∈ cs1 ++ c :: cs2 := List.mem_append.mpr (Or.inr (List.mem_cons_self _ _))
  have hck := hW.kids c hcm
  obtain ⟨w1, w2, w3, w4⟩ := World_child L k P sz _ l hW c hcm
  have hA := hW.frames
  have hsz := hW.src.szle
  have a3 : a < 4294967296 := by unfold KERNBASE at hsz; omega
  obtain ⟨s1, s2, s3, s4⟩ := hsh
  have hnoown := Shares_not_own L k P sz _ l c a hW hcm a1 a2 hpa ⟨s1, s2, s3, s4⟩
  -- the count of the shared frame
  have hn := sharers_pos L k P _ c a hcm ⟨s1, s2, s3, s4⟩
  obtain ⟨r1, r2⟩ := hW.prc a a1 a2 hpa
  have hrc2 : 2 ≤ k.refcount (PTE_ADDR (entry k P a) / PGSIZE) := by
    have := r2 hn; omega
  have hidx := parent_idx L k P sz _ l hL hW a a1 a2 hpa
  have hget : getrefcount L k (PTE_ADDR (deref k (leafSlot k c.d a))) =
      .ok (k.refcount (PTE_ADDR (entry k P a) / PGSIZE)) := by
    have : PTE_ADDR (deref k (leafSlot k c.d a)) = PTE_ADDR (entry k P a) := s4
    rw [this]
    exact getrefcount_eq L k _ hW.lock hidx
  have hslot : leafSlot k c.d (PGROUNDDOWN a) = leafSlot k c.d a := by
    rw [PGROUNDDOWN_of_aligned a a1 a3]
  cases l with
  | nil =>
    have hg : k.freelist = 0 := hW.free.1
    rw [cowfault_nomem L k c.d a _ _ hslot s1 s2 hWc hget hrc2 hg] at hf
    have := congrArg Prod.snd (Except.ok.inj hf)
    simp at this
  | cons g l' =>
    have hg : k.freelist = g := hW.free.1.1
    have hgl : g ∈ g :: l' := List.mem_cons_self _ _
    obtain ⟨hgv, hgrc⟩ := hW.free.2.2 g hgl
    have hgA : g ∈ allFrames (g :: l') (cs1 ++ c :: cs2) := List.mem_append.mpr (Or.inl hgl)
    have hg32 := (hA.2 g hgA).2
    have hg0 : g ≠ 0 := by have := hgv.2.1; have := hL.2; omega
    obtain ⟨hpd, hsl⟩ := slot_in_table k c.d a s1
    obtain ⟨t1, t2, _⟩ := hck.tabs _ (PDX_lt a) hpd
    have hx := PTX_lt a
    have htal := (w1.2 _ t1).1.1
    have htg : tableOf k c.d (PDX a) ≠ g := w3 _ (List.mem_append.mpr (Or.inl t1)) g hgl
    have hout : Outside g (leafSlot k c.d a) := by
      rw [hsl]
      exact Outside_in_page _ _ _ htal hgv.1 htg (by unfold PGSIZE; omega)
    rw [cowfault_copy L k c.d a _ g _ hslot s1 s2 hWc hget hrc2 hg hg0 hout hgrc] at hf
    have hk' := congrArg Prod.fst (Except.ok.inj hf)
    simp only at hk'
    obtain ⟨_, ka2, ka3, ka4, ka5, ka6, ka7⟩ := kalloc_FreeOK L k g l' hL hW.lock hW.free
    generalize (kalloc L k).1 = k1 at hk' ka2 ka3 ka4 ka5 ka6 ka7
    have hFg : PTE_ADDR (entry k P a) / PGSIZE ≠ V2P g / PGSIZE := by
      intro e; rw [e, hgrc] at hrc2; omega
    have hPF : PTE_ADDR (deref k (leafSlot k c.d a)) = PTE_ADDR (entry k P a) := s4
    rw [hPF] at hk'
    obtain ⟨n1, n2, n3, n4⟩ := newEntry_bits g (deref k (leafSlot k c.d a)) L.PTE_S hgv.1
      (deref_lt _ _) s2 s3 hS4 hSW
    generalize hv : V2P g ||| (PTE_FLAGS (deref k (leafSlot k c.d a)) ||| PTE_W) ||| PTE_P = v
      at hk' n1 n2 n3 n4
    have hm1 : k'.mem (leafSlot k c.d a) = v := by rw [← hk']; simp [store]
    have hm2 : ∀ x, x ≠ leafSlot k c.d a → (∀ g' ∈ [g], Outside g' x) →
        k'.mem x = k.mem x := by
      intro x hx1 hx2
      have := hx2 g (List.mem_singleton.mpr rfl)
      have h3 : ¬ (g ≤ x ∧ x < g + PGSIZE) := by unfold Outside at this; omega
      rw [← hk']
      simp [store, setref, memmove, hx1, h3, ka5]
    have hr : ∀ j, (∀ g' ∈ [g], j ≠ V2P g' / PGSIZE) →
        ¬ (j = PTE_ADDR (entry k P a) / PGSIZE) → k'.refcount j = k.refcount j := by
      intro j hj1 hj2
      rw [← hk']
      simp only [store, setref, memmove, hj2, if_false]
      exact ka4 j (hj1 g (List.mem_singleton.mpr rfl))
    have hrF : k'.refcount (PTE_ADDR (entry k P a) / PGSIZE) =
        k.refcount (PTE_ADDR (entry k P a) / PGSIZE) - 1 := by
      rw [← hk']; simp [store, setref]
    have hrg : k'.refcount (V2P g / PGSIZE) = 1 := by
      rw [← hk']
      simp only [store, setref, memmove, Ne.symm hFg, if_false]
      exact ka3
    have hlock : k'.use_lock = true := by rw [← hk']; exact ka6
    have hfl : k'.freelist = k1.freelist := by rw [← hk']; rfl
    have hnum : k'.num_free_pages = k.num_free_pages - 1 := by rw [← hk']; exact ka7
    clear hk' hf
    have hR : ∀ j, j = PTE_ADDR (entry k P a) / PGSIZE →
        ∀ u ∈ allFrames (g :: l') (cs1 ++ c :: cs2), j ≠ V2P u / PGSIZE := by
      intro j hj u hu
      rw [hj]
      exact SrcOK_idx_out L k _ P sz a hA hW.src a1 a2 hpa u hu
    obtain ⟨hoth, v1, v2, v3, v4, v5⟩ := act_frame L k k' P sz cs1 cs2 c (g :: l') a v [g]
      (fun j => j = PTE_ADDR (entry k P a) / PGSIZE) hL hW a3 s1
      (fun g' hg' => by
        rw [List.mem_singleton.mp hg']; exact List.mem_append.mpr (Or.inr hgl))
      (fun g' hg' hu => by
        rw [List.mem_singleton.mp hg'] at hu
        exact w3 g (List.mem_append.mpr (Or.inl hu)) g hgl rfl)
      hm1 hm2 hr hR
    rw [u32_of_lt _ n1] at v3
    have hin : ∀ u ∈ c.frames, u ∈ allFrames (g :: l') (cs1 ++ c :: cs2) := w2
    -- the free list
    have hfree : FreeOK L k' l' := by
      refine FreeOK_congr L k1 k' l' ka2 hfl (fun g' hg' => ?_) (fun g' hg' => ?_)
      · have hg'l : g' ∈ g :: l' := List.mem_cons_of_mem _ hg'
        have hg'v := (hW.free.2.2 g' hg'l).1
        have hne : g ≠ g' := fun e => (List.nodup_cons.mp hW.free.2.1).1 (e ▸ hg')
        rw [ka5]
        apply hm2
        · intro e
          have := Outside_in_page _ g' (4 * PTX a) htal hg'v.1
            (w3 _ (List.mem_append.mpr (Or.inl t1)) g' hg'l) (by unfold PGSIZE; omega)
          rw [← hsl, ← e] at this
          unfold Outside PGSIZE at this
          omega
        · intro g2 hg2
          rw [List.mem_singleton.mp hg2]
          exact Outside_of_ne g g' hgv.1 hg'v.1 hne
      · have hg'l : g' ∈ g :: l' := List.mem_cons_of_mem _ hg'
        have hg'v := (hW.free.2.2 g' hg'l).1
        have hg'A : g' ∈ allFrames (g :: l') (cs1 ++ c :: cs2) :=
          List.mem_append.mpr (Or.inl hg'l)
        have hne : g' ≠ g := fun e => (List.nodup_cons.mp hW.free.2.1).1 (e ▸ hg')
        have hi : V2P g' / PGSIZE ≠ V2P g / PGSIZE := fun e =>
          hne (idx_inj g' g hg'v.1 hgv.1 (hA.2 g' hg'A).2 hg32 e)
        rw [hr _ (fun g2 hg2 => by rw [List.mem_singleton.mp hg2]; exact hi)
          (fun e => hR _ e g' hg'A rfl), ka4 _ hi]
    -- the frames
    have hperm : (allFrames l' (cs1 ++ ⟨c.d, c.used, (a, g) :: c.own⟩ :: cs2)).Perm
        (allFrames (g :: l') (cs1 ++ c :: cs2)) := by
      refine (allFrames_split l' cs1 cs2 _).trans
        (List.Perm.trans ?_ (allFrames_split (g :: l') cs1 cs2 c).symm)
      apply List.Perm.append_right
      unfold Child.frames
      simp only [List.map_cons]
      have e1 : (c.used ++ g :: List.map Prod.snd c.own) ++ l' =
          c.used ++ g :: (List.map Prod.snd c.own ++ l') := by simp
      have e2 : (c.used ++ List.map Prod.snd c.own) ++ g :: l' =
          (c.used ++ List.map Prod.snd c.own) ++ g :: l' := rfl
      rw [e1]
      refine List.perm_middle.trans ?_
      refine List.Perm.trans ?_ List.perm_middle.symm
      rw [List.append_assoc]
    -- the child
    have hanot : a ∉ c.own.map Prod.fst := by
      intro hm
      obtain ⟨p, hp, hpa'⟩ := List.mem_map.mp hm
      exact hnoown p.2 (by rw [← hpa']; exact hp)
    have hVg : V2P g ≠ 0 := V2P_ne_zero L g hke hgv hg32
    have hchild : ChildOK L k' P sz ⟨c.d, c.used, (a, g) :: c.own⟩ := by
      refine act_child L k k' P sz c _ a v hck a1 (by omega) s1 hoth.2.2.2.1 v1 v2 v3 v4
        (fun u hu => v5 u (List.mem_append.mpr (Or.inl hu)) (fun hm =>
          w3 u (List.mem_append.mpr (Or.inl hu)) g hgl (List.mem_singleton.mp hm)))
        (fun p hp _ => v5 p.2 (List.mem_append.mpr (Or.inr (List.mem_map.mpr ⟨p, hp, rfl⟩)))
          (fun hm => w3 p.2 (List.mem_append.mpr (Or.inr (List.mem_map.mpr ⟨p, hp, rfl⟩))) g
            hgl (List.mem_singleton.mp hm)))
        (fun p hp => ⟨fun h => ?_, fun h => List.mem_cons_of_mem _ h⟩) ?_
        (fun p hp hpa' => ?_) (fun _ => ⟨by rw [n4]; exact hVg, fun _ => Or.inl ⟨g, ?_⟩⟩)
      · rcases List.mem_cons.mp h with e | e
        · exact absurd (by rw [e]) hp
        · exact e
      · simp only [List.map_cons]
        exact List.nodup_cons.mpr ⟨hanot, hck.ownnd⟩
      · rcases List.mem_cons.mp hp with e | e
        · rw [e]
          exact ⟨n2, n3, n4, hrg⟩
        · exact absurd (List.mem_map.mpr ⟨p, e, hpa'⟩) hanot
      · exact List.mem_cons_self _ _
    -- the page is no longer shared
    have hnosh : ¬ Shares L k' P ⟨c.d, c.used, (a, g) :: c.own⟩ a := by
      rintro ⟨_, _, _, h4⟩
      have h4' : PTE_ADDR (entry k' c.d a) = PTE_ADDR (entry k' P a) := h4
      rw [v3, n4, hoth.2.2.1 a (by omega)] at h4'
      have : P2V (PTE_ADDR (entry k P a)) = g := by rw [← h4']; exact P2V_V2P g hg32
      have hgA' : P2V (PTE_ADDR (entry k P a)) ∈ allFrames (g :: l') (cs1 ++ c :: cs2) := by
        rw [this]; exact hgA
      exact hW.src.data a a1 a2 hpa hgA'
    have hWk' := act_world L k k' P sz cs1 cs2 c (g :: l') l' ((a, g) :: c.own) a
      (fun j => j = PTE_ADDR (entry k P a) / PGSIZE) hW hfree hlock hperm hoth hchild
      (fun b b1 b2 hba => Shares_frame L k k' P c b (v2 b)
        (fun hb => v4 b (by unfold KERNBASE at hsz; omega)
          (by unfold PGSIZE at *; omega) hb)
        (by rw [hoth.2.2.1 b (by omega)]))
      (fun b b1 b2 hba hpb e => by
        have := hW.src.inj b a b1 a1 b2 a2 hba hpb hpa
        apply this
        unfold PTE_ADDR at e ⊢
        unfold PGSIZE at e
        omega)
      (fun _ _ _ => by
        have e1 : sharers L k P (cs1 ++ c :: cs2) a = sharers L k P (cs1 ++ cs2) a + 1 := by
          rw [sharers_split, if_pos ⟨s1, s2, s3, s4⟩]
        have e2 : sharers L k' P (cs1 ++ ⟨c.d, c.used, (a, g) :: c.own⟩ :: cs2) a =
            sharers L k P (cs1 ++ cs2) a := by
          rw [sharers_split, if_neg hnosh, sharers_others L k k' P sz _ a a2 hoth.2.2.2.2.1]
          rfl
        have r3 := r2 hn
        rw [e2, hrF]
        rw [e1] at r1 r3
        push_cast at r1 r3
        constructor
        · omega
        · intro h1
          omega)
    refine ⟨g, l', rfl, hWk', hnum, hoth.2.2.2.1,
      fun c' hc' => ⟨(hoth.2.2.2.2.1 c' hc').2.1, (hoth.2.2.2.2.1 c' hc').2.2.1⟩, v2, v4, ?_, ?_⟩
    · rw [v3]; exact n2
    · rw [v3]; exact n3

theorem zero_and (x : Nat) : (0 : Nat) &&& x = 0 := Nat.zero_and x

/-- One present page of a child is unmapped by `deallocuvm`: a copy held by
the child goes back to the free list, a frame shared with the parent loses one
reference, a page with the shared bit is only unmapped. -/
theorem unmap_step (L : Layout) (k : Kernel) (P sz : Nat) (cs1 cs2 : List Child) (c : Child)
    (l : List Nat) (a : Nat) (hLc : LayoutCow L)
    (hW : World L k P sz (cs1 ++ c :: cs2) l) (a1 : a % PGSIZE = 0) (a2 : a < KERNBASE)
    (hs0 : leafSlot k c.d a ≠ 0) (hP : entry k c.d a &&& PTE_P ≠ 0) :
    ∃ k' own' l', deallocuvmStep L k c.d a = .ok (k', a) ∧
      World L k' P sz (cs1 ++ ⟨c.d, c.used, own'⟩ :: cs2) l' ∧
      k'.num_free_pages + own'.length = k.num_free_pages + c.own.length ∧
      (∀ b, leafSlot k' c.d b = leafSlot k c.d b) ∧
      entry k' c.d a = 0 ∧
      (∀ b, b < 4294967296 → b / PGSIZE ≠ a / PGSIZE → leafSlot k c.d b ≠ 0 →
        entry k' c.d b = entry k c.d b) := by
  obtain ⟨hL, hke, hS4, hSW⟩ := hLc
  have hcm : c ∈ cs1 ++ c :: cs2 := List.mem_append.mpr (Or.inr (List.mem_cons_self _ _))
  have hck := hW.kids c hcm
  obtain ⟨w1, w2, w3, w4⟩ := World_child L k P sz _ l hW c hcm
  have hA := hW.frames
  have hsz := hW.src.szle
  have a3 : a < 4294967296 := by unfold KERNBASE at a2; omega
  obtain ⟨q1, q2⟩ := hck.pages a a1 a2 hs0 hP
  obtain ⟨hpd, hsl⟩ := slot_in_table k c.d a hs0
  obtain ⟨t1, t2, _⟩ := hck.tabs _ (PDX_lt a) hpd
  have hx := PTX_lt a
  have htal := (w1.2 _ t1).1.1
  have hdiv : ∀ b, b % PGSIZE = 0 → b ≠ a → b / PGSIZE ≠ a / PGSIZE := by
    intro b hb hne
    unfold PGSIZE at *
    omega
  -- the slot is not the first word of a free frame
  have hslot_free : ∀ g' ∈ l, g' ≠ leafSlot k c.d a := by
    intro g' hg' e
    have hg'v := (hW.free.2.2 g' hg').1
    have := Outside_in_page _ g' (4 * PTX a) htal hg'v.1
      (w3 _ (List.mem_append.mpr (Or.inl t1)) g' hg') (by unfold PGSIZE; omega)
    rw [← hsl, ← e] at this
    unfold Outside PGSIZE at this
    omega
  have hnotP : ¬ ((0 : Nat) &&& PTE_P ≠ 0) := by simp
  by_cases hS : entry k c.d a &&& L.PTE_S = 0
  swap
  · -- a page with the shared bit
    have hstep := deallocuvmStep_shared L k c.d a hs0 hP q1 hS
    obtain ⟨k', hk'⟩ : ∃ k', store k (leafSlot k c.d a) 0 = k' := ⟨_, rfl⟩
    rw [hk'] at hstep
    have hm1 : k'.mem (leafSlot k c.d a) = 0 := by rw [← hk']; simp [store]
    have hm2 : ∀ x, x ≠ leafSlot k c.d a → k'.mem x = k.mem x := by
      intro x hx1; rw [← hk']; simp [store, hx1]
    have hrc : k'.refcount = k.refcount := by rw [← hk']; rfl
    have hlock : k'.use_lock = true := by rw [← hk']; exact hW.lock
    have hfl : k'.freelist = k.freelist := by rw [← hk']; rfl
    have hnum : k'.num_free_pages = k.num_free_pages := by rw [← hk']; rfl
    clear hk'
    obtain ⟨hoth, v1, v2, v3, v4, v5⟩ := act_frame L k k' P sz
      cs1 cs2 c l a 0 [] (fun _ => False) hL hW a3 hs0 (fun g hg => by cases hg)
      (fun g hg => by cases hg) hm1 (fun x hx1 _ => hm2 x hx1)
      (fun j _ _ => by rw [hrc]) (fun j hj => hj.elim)
    have hchild := act_child L k k' P sz c c.own a 0 hck a1 a2 hs0 hoth.2.2.2.1 v1 v2 v3 v4
      (fun u hu => by rw [hrc]) (fun p hp _ => by rw [hrc]) (fun p _ => Iff.rfl) hck.ownnd
      (fun p hp hpa => by
        obtain ⟨_, _, _, _, o5, _⟩ := hck.ownok p hp
        rw [hpa] at o5
        exact absurd o5 hS)
      (fun h => absurd h hnotP)
    have hnosh : ¬ Shares L k P c a := fun h => hS h.2.2.1
    have hnosh' : ¬ Shares L k' P ⟨c.d, c.used, c.own⟩ a := by
      rintro ⟨_, h2, _⟩
      have h2' : entry k' c.d a &&& PTE_P ≠ 0 := h2
      rw [v3] at h2'
      exact hnotP h2'
    have hWk' := act_world L k k' P sz cs1 cs2 c l l c.own a (fun _ => False) hW
      (FreeOK_congr L k k' l hW.free hfl
        (fun g hg => hm2 g (hslot_free g hg)) (fun g hg => by rw [hrc]))
      hlock (List.Perm.refl _) hoth hchild
      (fun b b1 b2 hba => Shares_frame L k k' P c b (v2 b)
        (fun hb => v4 b (by unfold KERNBASE at hsz; omega) (hdiv b b1 hba) hb)
        (by rw [hoth.2.2.1 b (by omega)]))
      (fun _ _ _ _ _ h => h)
      (fun _ h2 h3 => by
        have e2 : sharers L k' P (cs1 ++ ⟨c.d, c.used, c.own⟩ :: cs2) a =
            sharers L k P (cs1 ++ c :: cs2) a := by
          rw [sharers_split, if_neg hnosh', sharers_split, if_neg hnosh,
            sharers_others L k k' P sz _ a h2 hoth.2.2.2.2.1]
        rw [e2, hrc]
        exact hW.prc a a1 h2 h3)
    exact ⟨k', c.own, l, hstep, hWk', by rw [hnum], v2, by rw [v3]; rfl, v4⟩
  rcases q2 hS with ⟨g, hg⟩ | ⟨h1, h2, h3, h4⟩
  · -- a copy held by the child
    obtain ⟨_, _, _, _, _, o6, o7⟩ := hck.ownok (a, g) hg
    have hgf : g ∈ c.frames :=
      List.mem_append.mpr (Or.inr (List.mem_map.mpr ⟨(a, g), hg, rfl⟩))
    have hgA := w2 g hgf
    have hgv := (hA.2 g hgA).1
    have hg32 := (hA.2 g hgA).2
    have hownf : (c.own.map Prod.snd).Nodup := (List.nodup_append.mp w4).2.1
    have hgu : g ∉ c.used := fun hu =>
      (List.nodup_append.mp w4).2.2 hu (List.mem_map.mpr ⟨(a, g), hg, rfl⟩)
    have hPg : P2V (PTE_ADDR (deref k (leafSlot k c.d a))) = g := by
      have : PTE_ADDR (deref k (leafSlot k c.d a)) = V2P g := o6
      rw [this]; exact P2V_V2P g hg32
    obtain ⟨f1, f2⟩ := kfree_last_FreeOK L k g l hL hW.lock hW.free hgv hg32 o7
    have f1' : kfree L k (P2V (PTE_ADDR (deref k (leafSlot k c.d a)))) =
        .ok (kfreePush (setref k (V2P g / PGSIZE) 0) g) := by rw [hPg]; exact f1
    have hstep := deallocuvmStep_free L k c.d a _ hs0 hP q1 hS f1'
    obtain ⟨k', hk'⟩ : ∃ k', store (kfreePush (setref k (V2P g / PGSIZE) 0) g)
        (leafSlot k c.d a) 0 = k' := ⟨_, rfl⟩
    rw [hk'] at hstep
    have hgslot : g ≠ leafSlot k c.d a := by
      intro e
      have := Outside_in_page _ g (4 * PTX a) htal hgv.1
        (fun e2 => hgu (e2 ▸ t1)) (by unfold PGSIZE; omega)
      rw [← hsl, ← e] at this
      unfold Outside PGSIZE at this
      omega
    have hm1 : k'.mem (leafSlot k c.d a) = 0 := by rw [← hk']; simp [store]
    have hm2 : ∀ x, x ≠ leafSlot k c.d a → (∀ g' ∈ [g], Outside g' x) →
        k'.mem x = k.mem x := by
      intro x hx1 hx2
      rw [← hk']
      show (if x = leafSlot k c.d a then 0
        else (kfreePush (setref k (V2P g / PGSIZE) 0) g).mem x) = _
      rw [if_neg hx1, kfreePush_mem _ _ _ (hx2 g (List.mem_singleton.mpr rfl))]
      rfl
    have hmp : ∀ x, x ≠ leafSlot k c.d a →
        k'.mem x = (kfreePush (setref k (V2P g / PGSIZE) 0) g).mem x := by
      intro x hx1; rw [← hk']; simp [store, hx1]
    have hr : ∀ j, (∀ g' ∈ [g], j ≠ V2P g' / PGSIZE) → ¬ False →
        k'.refcount j = k.refcount j := by
      intro j hj _
      rw [← hk']
      show (kfreePush (setref k (V2P g / PGSIZE) 0) g).refcount j = _
      rw [kfreePush_refcount, setref_other _ _ _ _ (hj g (List.mem_singleton.mpr rfl))]
    have hrp : k'.refcount = (kfreePush (setref k (V2P g / PGSIZE) 0) g).refcount := by
      rw [← hk']; rfl
    have hlock : k'.use_lock = true := by rw [← hk']; exact hW.lock
    have hfl : k'.freelist = (kfreePush (setref k (V2P g / PGSIZE) 0) g).freelist := by
      rw [← hk']; rfl
    have hnum : k'.num_free_pages = k.num_free_pages + 1 := by rw [← hk']; rfl
    clear hk'
    obtain ⟨hoth, v1, v2, v3, v4, v5⟩ := act_frame L k k' P sz
      cs1 cs2 c l a 0 [g] (fun _ => False) hL hW a3 hs0
      (fun g' hg' => by
        rw [List.mem_singleton.mp hg']; exact List.mem_append.mpr (Or.inl hgf))
      (fun g' hg' => by rw [List.mem_singleton.mp hg']; exact hgu)
      hm1 hm2 hr (fun j hj => hj.elim)
    have hfree : FreeOK L k' (g :: l) := by
      refine FreeOK_congr L _ k' (g :: l) f2 hfl (fun g' hg' => ?_) (fun g' hg' => by rw [hrp])
      apply hmp
      rcases List.mem_cons.mp hg' with e | e
      · rw [e]; exact hgslot
      · exact hslot_free g' e
    obtain ⟨s, t, hst⟩ := List.append_of_mem hg
    have hpo : c.own.Perm ((a, g) :: (s ++ t)) := by rw [hst]; exact List.perm_middle
    have hperm : (allFrames (g :: l) (cs1 ++ ⟨c.d, c.used, s ++ t⟩ :: cs2)).Perm
        (allFrames l (cs1 ++ c :: cs2)) := by
      refine (allFrames_split (g :: l) cs1 cs2 _).trans
        (List.Perm.trans ?_ (allFrames_split l cs1 cs2 c).symm)
      apply List.Perm.append_right
      unfold Child.frames
      have hp1 : (c.own.map Prod.snd).Perm (g :: (s ++ t).map Prod.snd) := by
        have := hpo.map Prod.snd
        simpa using this
      refine List.Perm.trans ?_ (List.Perm.append_right l
        (List.Perm.append_left c.used hp1.symm))
      simp only [List.append_assoc]
      apply List.Perm.append_left
      refine List.perm_middle.trans ?_
      simp
    have hown_nd : c.own.Nodup := List.Nodup.of_map _ hck.ownnd
    have hnd2 : ((a, g) :: (s ++ t)).Nodup := hpo.nodup_iff.mp hown_nd
    have hmem_erase : ∀ p : Nat × Nat, p ∈ s ++ t ↔ p ≠ (a, g) ∧ p ∈ c.own := by
      intro p
      constructor
      · intro hp
        exact ⟨fun e => (List.nodup_cons.mp hnd2).1 (e ▸ hp),
          hpo.mem_iff.mpr (List.mem_cons_of_mem _ hp)⟩
      · rintro ⟨hne, hp⟩
        rcases List.mem_cons.mp (hpo.mem_iff.mp hp) with e | e
        · exact absurd e hne
        · exact e
    have huniq : ∀ p ∈ c.own, p.1 = a → p = (a, g) := fun p hp hpa =>
      List.inj_on_of_nodup_map hck.ownnd hp hg hpa
    have hnd3 : ((s ++ t).map Prod.fst).Nodup := by
      have := (hpo.map Prod.fst).nodup_iff.mp hck.ownnd
      simp only [List.map_cons] at this
      exact (List.nodup_cons.mp this).2
    have hchild := act_child L k k' P sz c (s ++ t) a 0 hck a1 a2 hs0
      hoth.2.2.2.1 v1 v2 v3 v4
      (fun u hu => v5 u (List.mem_append.mpr (Or.inl hu)) (fun hm =>
        hgu (List.mem_singleton.mp hm ▸ hu)))
      (fun p hp hpa => v5 p.2
        (List.mem_append.mpr (Or.inr (List.mem_map.mpr ⟨p, hp, rfl⟩)))
        (fun hm => hpa (by
          have := List.inj_on_of_nodup_map hownf hp hg (List.mem_singleton.mp hm)
          rw [this])))
      (fun p hpa => ⟨fun h => ((hmem_erase p).mp h).2,
        fun h => (hmem_erase p).mpr ⟨fun e => hpa (by rw [e]), h⟩⟩)
      hnd3
      (fun p hp hpa => absurd (huniq p ((hmem_erase p).mp hp).2 hpa) ((hmem_erase p).mp hp).1)
      (fun h => absurd h hnotP)
    have hnosh' : ¬ Shares L k' P ⟨c.d, c.used, s ++ t⟩ a := by
      rintro ⟨_, h2, _⟩
      have h2' : entry k' c.d a &&& PTE_P ≠ 0 := h2
      rw [v3] at h2'
      exact hnotP h2'
    have hWk' := act_world L k k' P sz cs1 cs2 c l (g :: l) (s ++ t) a
      (fun _ => False) hW hfree hlock hperm hoth hchild
      (fun b b1 b2 hba => Shares_frame L k k' P c b (v2 b)
        (fun hb => v4 b (by unfold KERNBASE at hsz; omega) (hdiv b b1 hba) hb)
        (by rw [hoth.2.2.1 b (by omega)]))
      (fun _ _ _ _ _ h => h)
      (fun _ h2 h3 => by
        have hnosh : ¬ Shares L k P c a := fun h =>
          Shares_not_own L k P sz _ l c a hW hcm a1 h2 h3 h g hg
        have e2 : sharers L k' P (cs1 ++ ⟨c.d, c.used, s ++ t⟩ :: cs2) a =
            sharers L k P (cs1 ++ c :: cs2) a := by
          rw [sharers_split, if_neg hnosh', sharers_split, if_neg hnosh,
            sharers_others L k k' P sz _ a h2 hoth.2.2.2.2.1]
        rw [e2, hoth.2.2.2.2.2 a a1 h2 h3 (fun h => h)]
        exact hW.prc a a1 h2 h3)
    refine ⟨k', s ++ t, g :: l, hstep, hWk', ?_, v2, by rw [v3]; rfl, v4⟩
    rw [hnum, hst]
    simp only [List.length_append, List.length_cons]
    push_cast
    ring
  · -- a frame shared with the parent
    have hsh : Shares L k P c a := ⟨hs0, hP, hS, h3⟩
    have hn := sharers_pos L k P _ c a hcm hsh
    obtain ⟨r1, r2⟩ := hW.prc a a1 h1 h2
    have r3 := r2 hn
    have hv := hW.pval a a1 h1 h2
    have hF32 : PTE_ADDR (entry k P a) < 4294967296 := by unfold PTE_ADDR u32; omega
    have hPF : PTE_ADDR (deref k (leafSlot k c.d a)) = PTE_ADDR (entry k P a) := h3
    obtain ⟨f1, f2⟩ := kfree_shared_FreeOK L k (P2V (PTE_ADDR (entry k P a))) l
      (k.refcount (PTE_ADDR (entry k P a) / PGSIZE)) hL hW.lock hW.free hv (u32_lt _)
      (by rw [V2P_P2V _ hF32]) (by omega)
    rw [V2P_P2V _ hF32] at f1 f2
    have f1' : kfree L k (P2V (PTE_ADDR (deref k (leafSlot k c.d a)))) =
        .ok (setref k (PTE_ADDR (entry k P a) / PGSIZE)
          (k.refcount (PTE_ADDR (entry k P a) / PGSIZE) - 1)) := by rw [hPF]; exact f1
    have hstep := deallocuvmStep_free L k c.d a _ hs0 hP q1 hS f1'
    obtain ⟨k', hk'⟩ : ∃ k', store (setref k (PTE_ADDR (entry k P a) / PGSIZE)
        (k.refcount (PTE_ADDR (entry k P a) / PGSIZE) - 1)) (leafSlot k c.d a) 0 = k' :=
      ⟨_, rfl⟩
    rw [hk'] at hstep
    have hm1 : k'.mem (leafSlot k c.d a) = 0 := by rw [← hk']; simp [store]
    have hm2 : ∀ x, x ≠ leafSlot k c.d a → k'.mem x = k.mem x := by
      intro x hx1; rw [← hk']; simp [store, setref, hx1]
    have hr : ∀ j, ¬ (j = PTE_ADDR (entry k P a) / PGSIZE) →
        k'.refcount j = k.refcount j := by
      intro j hj; rw [← hk']; simp [store, setref, hj]
    have hrF : k'.refcount (PTE_ADDR (entry k P a) / PGSIZE) =
        k.refcount (PTE_ADDR (entry k P a) / PGSIZE) - 1 := by
      rw [← hk']; simp [store, setref]
    have hlock : k'.use_lock = true := by rw [← hk']; exact hW.lock
    have hfl : k'.freelist = k.freelist := by rw [← hk']; rfl
    have hnum : k'.num_free_pages = k.num_free_pages := by rw [← hk']; rfl
    clear hk'
    have hR : ∀ j, j = PTE_ADDR (entry k P a) / PGSIZE →
        ∀ u ∈ allFrames l (cs1 ++ c :: cs2), j ≠ V2P u / PGSIZE := by
      intro j hj u hu
      rw [hj]
      exact SrcOK_idx_out L k _ P sz a hA hW.src a1 h1 h2 u hu
    obtain ⟨hoth, v1, v2, v3, v4, v5⟩ := act_frame L k k' P sz
      cs1 cs2 c l a 0 [] (fun j => j = PTE_ADDR (entry k P a) / PGSIZE) hL hW a3 hs0
      (fun g hg => by cases hg) (fun g hg => by cases hg) hm1 (fun x hx1 _ => hm2 x hx1)
      (fun j _ hj => hr j hj) hR
    have hfree : FreeOK L k' l := by
      refine FreeOK_congr L k k' l hW.free hfl (fun g hg => hm2 g (hslot_free g hg))
        (fun g hg => hr _ (fun e =>
          hR _ e g (List.mem_append.mpr (Or.inl hg)) rfl))
    have hchild := act_child L k k' P sz c c.own a 0 hck a1 a2 hs0 hoth.2.2.2.1 v1 v2 v3 v4
      (fun u hu => v5 u (List.mem_append.mpr (Or.inl hu)) (fun hm => by cases hm))
      (fun p hp _ => v5 p.2 (List.mem_append.mpr (Or.inr (List.mem_map.mpr ⟨p, hp, rfl⟩)))
        (fun hm => by cases hm))
      (fun p _ => Iff.rfl) hck.ownnd
      (fun p hp hpa =>
        absurd (by rw [← hpa]; exact hp)
          (Shares_not_own L k P sz _ l c a hW hcm a1 h1 h2 hsh p.2))
      (fun h => absurd h hnotP)
    have hnosh' : ¬ Shares L k' P ⟨c.d, c.used, c.own⟩ a := by
      rintro ⟨_, h2', _⟩
      have h2'' : entry k' c.d a &&& PTE_P ≠ 0 := h2'
      rw [v3] at h2''
      exact hnotP h2''
    have hWk' := act_world L k k' P sz cs1 cs2 c l l c.own a
      (fun j => j = PTE_ADDR (entry k P a) / PGSIZE) hW hfree hlock (List.Perm.refl _) hoth
      hchild
      (fun b b1 b2 hba => Shares_frame L k k' P c b (v2 b)
        (fun hb => v4 b (by unfold KERNBASE at hsz; omega) (hdiv b b1 hba) hb)
        (by rw [hoth.2.2.1 b (by omega)]))
      (fun b b1 b2 hba hpb e => by
        have := hW.src.inj b a b1 a1 b2 h1 hba hpb h2
        apply this
        unfold PTE_ADDR at e ⊢
        unfold PGSIZE at e
        omega)
      (fun _ _ _ => by
        have e1 : sharers L k P (cs1 ++ c :: cs2) a = sharers L k P (cs1 ++ cs2) a + 1 := by
          rw [sharers_split, if_pos hsh]
        have e2 : sharers L k' P (cs1 ++ ⟨c.d, c.used, c.own⟩ :: cs2) a =
            sharers L k P (cs1 ++ cs2) a := by
          rw [sharers_split, if_neg hnosh', sharers_others L k k' P sz _ a h1 hoth.2.2.2.2.1]
          rfl
        rw [e2, hrF]
        rw [e1] at r1 r3
        push_cast at r1 r3
        constructor
        · omega
        · intro _
          omega)
    exact ⟨k', c.own, l, hstep, hWk', by rw [hnum], v2, by rw [v3]; rfl, v4⟩

/-- The loop of `deallocuvm` on a child: every present page is unmapped, the
copies the child held go back to the free list. -/
theorem drop_loop (L : Layout) (P sz : Nat) (cs1 cs2 : List Child) (d : Nat)
    (used : List Nat) (hLc : LayoutCow L) :
    ∀ (fuel a : Nat) (k : Kernel) (own : List (Nat × Nat)) (l : List Nat),
      a % PGSIZE = 0 → a ≤ KERNBASE → (KERNBASE - a) / PGSIZE < fuel →
      World L k P sz (cs1 ++ ⟨d, used, own⟩ :: cs2) l →
      (∀ b, b % PGSIZE = 0 → b < a → leafSlot k d b ≠ 0 → entry k d b &&& PTE_P = 0) →
      ∃ k2 l2, deallocuvmLoop L fuel k d a KERNBASE = .ok k2 ∧
        World L k2 P sz (cs1 ++ ⟨d, used, []⟩ :: cs2) l2 ∧
        k2.num_free_pages = k.num_free_pages + own.length ∧
        (∀ b, b % PGSIZE = 0 → b < KERNBASE → leafSlot k2 d b ≠ 0 →
          entry k2 d b &&& PTE_P = 0) := by
  intro fuel
  induction fuel with
  | zero => intro a k own l _ _ hfu _ _; exact absurd hfu (Nat.not_lt_zero _)
  | succ fuel ih =>
    intro a k own l ha hak hfu hW hcl
    have hcm : (⟨d, used, own⟩ : Child) ∈ cs1 ++ ⟨d, used, own⟩ :: cs2 :=
      List.mem_append.mpr (Or.inr (List.mem_cons_self _ _))
    have hck := hW.kids _ hcm
    rw [deallocuvmLoop]
    by_cases hlt : a < KERNBASE
    swap
    · rw [if_neg hlt]
      have : a = KERNBASE := by omega
      subst this
      have hown : own = [] := by
        apply List.eq_nil_iff_forall_not_mem.mpr
        intro p hp
        obtain ⟨o1, o2, o3, o4, _⟩ := hck.ownok p hp
        exact o4 (hcl p.1 o1 o2 o3)
      subst hown
      exact ⟨k, l, rfl, hW, by simp, hcl⟩
    rw [if_pos hlt]
    have hnext : u32 (a + PGSIZE) = a + PGSIZE := by
      unfold u32 PGSIZE; unfold KERNBASE at hlt; omega
    have hfu' : (KERNBASE - (a + PGSIZE)) / PGSIZE < fuel := by
      unfold PGSIZE at *; unfold KERNBASE at *; omega
    have hak' : a + PGSIZE ≤ KERNBASE := by
      unfold PGSIZE at *; unfold KERNBASE at *; omega
    have hal' : (a + PGSIZE) % PGSIZE = 0 := by unfold PGSIZE at *; omega
    by_cases h0 : leafSlot k d a = 0
    · rw [deallocuvmStep_absent L k d a h0]
      show ∃ k2 l2, deallocuvmLoop L fuel k d
        (u32 (u32 (PGADDR (PDX a + 1) 0 0 + 4294967296 - PGSIZE) + PGSIZE)) KERNBASE = .ok k2 ∧ _
      rw [next_region a hlt]
      apply ih _ _ _ _ _ _ _ hW
      · intro b b1 b2 b3
        by_cases hba : b < a
        · exact hcl b b1 hba b3
        · exfalso
          have hpdx : PDX b = PDX a := by
            unfold PDX u32
            unfold KERNBASE at hlt
            omega
          have hnp : ¬ (pdeAt k d (PDX a) &&& PTE_P ≠ 0) := by
            intro hp
            obtain ⟨t1, _, _⟩ := hck.tabs _ (PDX_lt a) hp
            obtain ⟨w1, _⟩ := World_child L k P sz _ l hW _ hcm
            have h1 : L.kend ≤ tableOf k d (PDX a) := (w1.2 _ t1).1.2.1
            have h2 := hLc.1.2
            rw [leafSlot_eq, if_pos hp] at h0
            omega
          rw [leafSlot_eq, hpdx, if_neg hnp] at b3
          exact b3 rfl
      · unfold PGSIZE; omega
      · unfold KERNBASE at hlt ⊢; omega
      · unfold PGSIZE at *; unfold KERNBASE at *; omega
    by_cases hP : entry k d a &&& PTE_P ≠ 0
    · obtain ⟨k', own', l', hstep, hW', hnum, v2, v3, v4⟩ :=
        unmap_step L k P sz cs1 cs2 ⟨d, used, own⟩ l a hLc hW ha hlt h0 hP
      have hstep' : deallocuvmStep L k d a = .ok (k', a) := hstep
      rw [hstep']
      show ∃ k2 l2, deallocuvmLoop L fuel k' d (u32 (a + PGSIZE)) KERNBASE = .ok k2 ∧ _
      rw [hnext]
      obtain ⟨k2, l2, e1, e2, e3, e4⟩ := ih (a + PGSIZE) k' own' l' hal' hak' hfu' hW' (by
        intro b b1 b2 b3
        have b3' : leafSlot k d b ≠ 0 := by rw [← v2 b]; exact b3
        by_cases hba : b = a
        · subst hba
          show entry k' d b &&& PTE_P = 0
          rw [v3]
          simp
        · have hbl : b < a := by unfold PGSIZE at *; omega
          have : entry k' d b = entry k d b :=
            v4 b (by unfold KERNBASE at hlt; omega) (by unfold PGSIZE at *; omega) b3'
          rw [this]
          exact hcl b b1 hbl b3')
      refine ⟨k2, l2, e1, e2, ?_, e4⟩
      rw [e3]
      have hnum' : k'.num_free_pages + (own'.length : Int) =
          k.num_free_pages + (own.length : Int) := hnum
      omega
    · rw [deallocuvmStep_skip L k d a h0 hP]
      show ∃ k2 l2, deallocuvmLoop L fuel k d (u32 (a + PGSIZE)) KERNBASE = .ok k2 ∧ _
      rw [hnext]
      apply ih (a + PGSIZE) k own l hal' hak' hfu' hW
      intro b b1 b2 b3
      by_cases hba : b = a
      · subst hba
        by_contra hne
        exact hP hne
      · exact hcl b b1 (by unfold PGSIZE at *; omega) b3

/-- A child is destroyed: `freevm` succeeds and returns the frames of its
translation structure and every copy it held. -/
theorem destroy_step (L : Layout) (k : Kernel) (P sz : Nat) (cs1 cs2 : List Child)
    (c : Child) (l : List Nat) (hLc : LayoutCow L)
    (hW : World L k P sz (cs1 ++ c :: cs2) l) :
    ∃ k' l', freevm L k c.d = .ok k' ∧ World L k' P sz (cs1 ++ cs2) l' ∧
      k'.num_free_pages = k.num_free_pages + c.used.length + c.own.length := by
  obtain ⟨d, used, own⟩ := c
  have hL := hLc.1
  obtain ⟨kA, lA, hA, hWA, hnumA, hclr⟩ := drop_loop L P sz cs1 cs2 d used hLc LOOP_FUEL 0 k own l
    (by decide) (by decide) (by decide) hW (fun b _ hb => absurd hb (Nat.not_lt_zero _))
  have hcm : (⟨d, used, []⟩ : Child) ∈ cs1 ++ ⟨d, used, []⟩ :: cs2 :=
    List.mem_append.mpr (Or.inr (List.mem_cons_self _ _))
  have hck := hWA.kids _ hcm
  obtain ⟨w1, w2, w3, w4⟩ := World_child L kA P sz _ lA hWA _ hcm
  have hAF := hWA.frames
  have hperm := allFrames_split lA cs1 cs2 ⟨d, used, []⟩
  have hfr : Child.frames ⟨d, used, []⟩ = used := by simp [Child.frames]
  rw [hfr] at hperm
  have hF : Frames L (used ++ lA) :=
    Frames_sub L _ _ (List.sublist_append_left _ _) (Frames_perm L _ _ hperm.symm hAF)
  have hdu : d ∈ used := hck.dmem
  have hvd := hF.2 d (List.mem_append.mpr (Or.inl hdu))
  have hd0 : d ≠ 0 := by have := hvd.1.2.1; have := hL.2; omega
  -- the directory as built from free frames
  have hB : BuildInv L { kA with num_free_pages := kA.num_free_pages + used.length }
      (used ++ lA) d (fun _ => True) (fun _ => True) kA used lA :=
    ⟨rfl, hWA.free, hWA.lock, hdu, hck.urc, hck.tabs, by simp, hck.pdes,
      fun _ _ h => absurd trivial h, fun _ _ h => absurd trivial h⟩
  have hT0 : TabInv L kA d used lA 0 kA [] :=
    ⟨hWA.free, hWA.lock, fun _ _ => rfl, fun t ht => (by cases ht), rfl,
      fun u hu _ => hck.urc u hu, (by simp), fun _ _ => rfl, fun _ _ => rfl⟩
  obtain ⟨kB, T, hBl, hTB⟩ := free_tables_loop L _ (used ++ lA) d _ _ kA used lA hL hF hB
    NPDENTRIES 0 kA [] (by omega) hT0
  have hdT : d ∉ T := fun hm => (hTB.sub d hm).2.1 rfl
  obtain ⟨f1, f2⟩ := kfree_last_FreeOK L kB d (T ++ lA) hL hTB.lock hTB.free hvd.1 hvd.2
    (hTB.rc d hdu hdT)
  have hlen : T.length = pdeCount kA d := hTB.len
  have hpermT : (d :: T).Perm used := by
    have hnd : (d :: T).Nodup := by
      have := f2.2.1
      rw [← List.cons_append] at this
      exact (List.nodup_append.mp this).1
    have hsub : (d :: T) ⊆ used := by
      intro x hx
      rcases List.mem_cons.mp hx with e | e
      · exact e ▸ hdu
      · exact (hTB.sub x e).1
    refine (List.subperm_of_subset hnd hsub).perm_of_length_le ?_
    have hpd : used.length = 1 + pdeCount kA d := hck.pdes
    rw [List.length_cons, hlen, hpd]
    omega
  obtain ⟨kC, hkC⟩ : ∃ kC, kfreePush (setref kB (V2P d / PGSIZE) 0) d = kC := ⟨_, rfl⟩
  rw [hkC] at f1 f2
  have hmC : ∀ x, (∀ u ∈ used ++ lA, Outside u x) → kC.mem x = kA.mem x := by
    intro x hx
    rw [← hkC, kfreePush_mem _ _ _ (hx d (List.mem_append.mpr (Or.inl hdu)))]
    exact hTB.memf x (fun u hu => hx u (List.mem_append.mpr (Or.inl hu)))
  have hrC : ∀ j, (∀ u ∈ used ++ lA, j ≠ V2P u / PGSIZE) → kC.refcount j = kA.refcount j := by
    intro j hj
    rw [← hkC, kfreePush_refcount,
      setref_other _ _ _ _ (hj d (List.mem_append.mpr (Or.inl hdu)))]
    exact hTB.rcf j (fun u hu => hj u (List.mem_append.mpr (Or.inl hu)))
  have hlockC : kC.use_lock = true := by rw [← hkC, kfreePush_lock]; exact hTB.lock
  have hnumC : kC.num_free_pages = kB.num_free_pages + 1 := by rw [← hkC]; rfl
  clear hkC
  obtain ⟨o1, o2, o3, o4, o5, o6⟩ := others_ok L kA kC P sz cs1 cs2 ⟨d, used, []⟩ lA
    (fun _ => False) hL hWA (by rw [hfr]; exact hmC) (by rw [hfr]; exact fun j hj _ => hrC j hj)
    (fun j hj => hj.elim)
  have hsz := hWA.src.szle
  have hpermC : (allFrames (d :: (T ++ lA)) (cs1 ++ cs2)).Perm
      (allFrames lA (cs1 ++ ⟨d, used, []⟩ :: cs2)) := by
    refine List.Perm.trans ?_ hperm.symm
    unfold allFrames
    apply List.Perm.append_right
    rw [← List.cons_append]
    exact List.Perm.append_right _ hpermT
  have hnosh : ∀ a, a % PGSIZE = 0 → a < sz → ¬ Shares L kA P ⟨d, used, []⟩ a := by
    rintro a a1 a2 ⟨s1, s2, _⟩
    exact s2 (hclr a a1 (by omega) s1)
  refine ⟨kC, d :: (T ++ lA), ?_, ⟨f2, hlockC, Frames_perm L _ _ hpermC hAF,
    o1 _ (fun x hx => hpermC.mem_iff.mp hx), fun a a1 a2 => ?_, fun a a1 a2 a3 => ?_,
    fun a a1 a2 a3 => ?_, fun c' hc' => (o5 c' hc').1⟩, ?_⟩
  · unfold freevm
    have hd0' : ¬ ((⟨d, used, own⟩ : Child).d = 0) := hd0
    rw [if_neg hd0']
    have hdl : deallocuvm L k d KERNBASE 0 = .ok (kA, 0) := by
      unfold deallocuvm
      rw [if_neg (by decide)]
      have : PGROUNDUP 0 = 0 := by decide
      rw [this, hA]
    show (match deallocuvm L k d KERNBASE 0 with
      | .error e => (Except.error e : Except String Kernel)
      | .ok (k1, _) =>
        match freevmLoop L NPDENTRIES k1 d 0 with
        | .error e => (Except.error e : Except String Kernel)
        | .ok k2 => kfree L k2 d) = _
    rw [hdl]
    simp only
    rw [hBl]
    exact f1
  · rw [o3 a (by omega)]; exact hWA.pnz a a1 a2
  · rw [o3 a (by omega)]; exact hWA.pval a a1 a2 ((o4 a a1 a2).1.mp a3)
  · have a3k := (o4 a a1 a2).1.mp a3
    have e1 : sharers L kC P (cs1 ++ cs2) a = sharers L kA P (cs1 ++ ⟨d, used, []⟩ :: cs2) a := by
      rw [sharers_split, if_neg (hnosh a a1 a2), sharers_others L kA kC P sz _ a a2 o5]
      rfl
    rw [o3 a (by omega), e1, o6 a a1 a2 a3k (fun h => h)]
    exact hWA.prc a a1 a2 a3k
  · rw [hnumC, hTB.cnt, hnumA, hlen]
    have hpd : used.length = 1 + pdeCount kA d := hck.pdes
    show _ = k.num_free_pages + (used.length : Int) + (own.length : Int)
    omega

theorem forkN_succ (L : Layout) (n : Nat) (k : Kernel) (pgdir sz : Nat) :
    forkN L (n + 1) k pgdir sz =
      match copyuvm L k pgdir sz with
      | .error e => .error e
      | .ok (k1, d) =>
        match forkN L n k1 pgdir sz with
        | .error e => .error e
        | .ok (k2, ds) => .ok (k2, d :: ds) := by
  rw [forkN]

theorem faultAll_cons (L : Layout) (k : Kernel) (p : Nat × Nat) (fs : List (Nat × Nat)) :
    faultAll L k (p :: fs) =
      match cowfault L k p.1 p.2 with
      | .error e => .error e
      | .ok (k1, r) =>
        match faultAll L k1 fs with
        | .error e => .error e
        | .ok (k2, rs) => .ok (k2, r :: rs) := by
  rw [faultAll]

theorem freeAll_cons (L : Layout) (k : Kernel) (d : Nat) (ds : List Nat) :
    freeAll L k (d :: ds) =
      match freevm L k d with
      | .error e => .error e
      | .ok k1 => freeAll L k1 ds := by
  rw [freeAll]


theorem SameParent_trans (L : Layout) (k k1 k2 : Kernel) (P sz : Nat)
    (h1 : SameParent L k k1 P sz) (h2 : SameParent L k1 k2 P sz) : SameParent L k k2 P sz :=
  fun a a1 a2 => ⟨(h2 a a1 a2).1.trans (h1 a a1 a2).1, (h2 a a1 a2).2.trans (h1 a a1 a2).2⟩

theorem SameParent_refl (L : Layout) (k : Kernel) (P sz : Nat) : SameParent L k k P sz :=
  fun _ _ _ => ⟨Iff.rfl, rfl⟩

theorem held_cons (c : Child) (cs : List Child) :
    held (c :: cs) = (c.used.length : Int) + (c.own.length : Int) + held cs := by
  unfold held
  simp

theorem held_append (cs1 cs2 : List Child) : held (cs1 ++ cs2) = held cs1 + held cs2 := by
  unfold held
  simp

/-- The fork phase. -/
theorem forkN_world (L : Layout) (P sz : Nat) (hLc : LayoutCow L)
    (hK : ∀ m ∈ L.kmap, KmapOK m) :
    ∀ (n : Nat) (k : Kernel) (cs : List Child) (l : List Nat) (k1 : Kernel) (ds : List Nat),
      World L k P sz cs l → Full L k P sz (cs.map Child.d) → (∀ c ∈ cs, c.own = []) →
      forkN L n k P sz = .ok (k1, ds) → (∀ d ∈ ds, d ≠ 0) →
      ∃ cs1 l1, World L k1 P sz cs1 l1 ∧ Full L k1 P sz (cs1.map Child.d) ∧
        (∀ c ∈ cs1, c.own = []) ∧ (cs1.map Child.d).Perm (ds ++ cs.map Child.d) ∧
        k1.num_free_pages + held cs1 = k.num_free_pages + held cs ∧
        SameParent L k k1 P sz := by
  intro n
  induction n with
  | zero =>
    intro k cs l k1 ds hW hFull hown hf _
    rw [forkN] at hf
    have e := Except.ok.inj hf
    have e1 := congrArg Prod.fst e
    have e2 := congrArg Prod.snd e
    simp only at e1 e2
    subst e1
    subst e2
    exact ⟨cs, l, hW, hFull, hown, by simp, rfl, SameParent_refl L k P sz⟩
  | succ n ih =>
    intro k cs l k1 ds hW hFull hown hf hds
    rw [forkN_succ] at hf
    generalize hc : copyuvm L k P sz = res at hf
    cases res with
    | error e => cases hf
    | ok p =>
      obtain ⟨k', d⟩ := p
      simp only at hf
      generalize hr : forkN L n k' P sz = res2 at hf
      cases res2 with
      | error e => cases hf
      | ok q =>
        obtain ⟨k2, ds2⟩ := q
        simp only at hf
        have e := Except.ok.inj hf
        have e1 := congrArg Prod.fst e
        have e2 := congrArg Prod.snd e
        simp only at e1 e2
        subst e1
        subst e2
        have hd : d ≠ 0 := hds d (List.mem_cons_self _ _)
        obtain ⟨used, l', hW', hFull', hnum, hsp⟩ :=
          fork_step L k P sz cs l k' d hLc hK hW hFull hc hd
        obtain ⟨cs1, l1, g1, g2, g3, g4, g5, g6⟩ := ih k' (⟨d, used, []⟩ :: cs) l' k2 ds2 hW'
          hFull' (fun c hc' => by
            rcases List.mem_cons.mp hc' with e | e
            · rw [e]
            · exact hown c e)
          hr (fun x hx => hds x (List.mem_cons_of_mem _ hx))
        refine ⟨cs1, l1, g1, g2, g3, ?_, ?_, SameParent_trans L k k' k2 P sz hsp g6⟩
        · refine g4.trans ?_
          simp only [List.map_cons, List.cons_append]
          exact List.perm_middle
        · rw [g5, held_cons, hnum]
          simp
          ring


theorem mem_split (cs1 cs2 : List Child) (c c0 : Child) (h : c0 ∈ cs1 ++ c :: cs2) :
    c0 = c ∨ c0 ∈ cs1 ++ cs2 := by
  rcases List.mem_append.mp h with h | h
  · exact Or.inr (List.mem_append.mpr (Or.inl h))
  · rcases List.mem_cons.mp h with e | e
    · exact Or.inl e
    · exact Or.inr (List.mem_append.mpr (Or.inr e))

theorem mem_split_other (cs1 cs2 : List Child) (c c0 : Child) (h : c0 ∈ cs1 ++ cs2) :
    c0 ∈ cs1 ++ c :: cs2 := by
  rcases List.mem_append.mp h with h | h
  · exact List.mem_append.mpr (Or.inl h)
  · exact List.mem_append.mpr (Or.inr (List.mem_cons_of_mem _ h))

/-- A write fault of a child on a page it shares with the parent returns: with
code `-1` and the state unchanged when no frame is free, with code `0`
otherwise. -/
theorem fault_returns (L : Layout) (k : Kernel) (P sz : Nat) (cs1 cs2 : List Child) (c : Child)
    (l : List Nat) (a : Nat) (hLc : LayoutCow L)
    (hW : World L k P sz (cs1 ++ c :: cs2) l) (a1 : a % PGSIZE = 0) (a2 : a < sz)
    (hpa : PrivateAt L k P a) (hsh : Shares L k P c a) (hWc : entry k c.d a &&& PTE_W = 0) :
    cowfault L k c.d a = .ok (k, -1) ∨ ∃ k', cowfault L k c.d a = .ok (k', 0) := by
  obtain ⟨hL, hke, hS4, hSW⟩ := hLc
  have hcm : c ∈ cs1 ++ c :: cs2 := List.mem_append.mpr (Or.inr (List.mem_cons_self _ _))
  have hck := hW.kids c hcm
  obtain ⟨w1, w2, w3, w4⟩ := World_child L k P sz _ l hW c hcm
  have hA := hW.frames
  have hsz := hW.src.szle
  have a3 : a < 4294967296 := by unfold KERNBASE at hsz; omega
  obtain ⟨s1, s2, s3, s4⟩ := hsh
  have hn := sharers_pos L k P _ c a hcm ⟨s1, s2, s3, s4⟩
  obtain ⟨r1, r2⟩ := hW.prc a a1 a2 hpa
  have hrc2 : 2 ≤ k.refcount (PTE_ADDR (entry k P a) / PGSIZE) := by
    have := r2 hn; omega
  have hidx := parent_idx L k P sz _ l hL hW a a1 a2 hpa
  have hget : getrefcount L k (PTE_ADDR (deref k (leafSlot k c.d a))) =
      .ok (k.refcount (PTE_ADDR (entry k P a) / PGSIZE)) := by
    have : PTE_ADDR (deref k (leafSlot k c.d a)) = PTE_ADDR (entry k P a) := s4
    rw [this]
    exact getrefcount_eq L k _ hW.lock hidx
  have hslot : leafSlot k c.d (PGROUNDDOWN a) = leafSlot k c.d a := by
    rw [PGROUNDDOWN_of_aligned a a1 a3]
  cases l with
  | nil =>
    have hg : k.freelist = 0 := hW.free.1
    exact Or.inl (cowfault_nomem L k c.d a _ _ hslot s1 s2 hWc hget hrc2 hg)
  | cons g l' =>
    have hg : k.freelist = g := hW.free.1.1
    have hgl : g ∈ g :: l' := List.mem_cons_self _ _
    obtain ⟨hgv, hgrc⟩ := hW.free.2.2 g hgl
    have hg0 : g ≠ 0 := by have := hgv.2.1; have := hL.2; omega
    obtain ⟨hpd, hsl⟩ := slot_in_table k c.d a s1
    obtain ⟨t1, t2, _⟩ := hck.tabs _ (PDX_lt a) hpd
    have hx := PTX_lt a
    have htal := (w1.2 _ t1).1.1
    have htg : tableOf k c.d (PDX a) ≠ g := w3 _ (List.mem_append.mpr (Or.inl t1)) g hgl
    have hout : Outside g (leafSlot k c.d a) := by
      rw [hsl]
      exact Outside_in_page _ _ _ htal hgv.1 htg (by unfold PGSIZE; omega)
    exact Or.inr ⟨_, cowfault_copy L k c.d a _ g _ hslot s1 s2 hWc hget hrc2 hg hg0 hout hgrc⟩

/-- The fault phase: each listed fault is taken by a child on a page it still
shares with the parent.  Every fault returns, and frames only move from the
free list to the children. -/
theorem faults_world (L : Layout) (P sz : Nat) (hLc : LayoutCow L) :
    ∀ (fs : List (Nat × Nat)) (k : Kernel) (cs : List Child) (l : List Nat),
      World L k P sz cs l → Full L k P sz (cs.map Child.d) → fs.Nodup →
      (∀ p ∈ fs, p.2 % PGSIZE = 0 ∧ p.2 < sz ∧ PrivateAt L k P p.2 ∧
        ∃ c ∈ cs, c.d = p.1 ∧ ∀ g, (p.2, g) ∉ c.own) →
      ∃ k2 rs cs2 l2, faultAll L k fs = .ok (k2, rs) ∧ World L k2 P sz cs2 l2 ∧
        cs2.map Child.d = cs.map Child.d ∧
        k2.num_free_pages + held cs2 = k.num_free_pages + held cs := by
  intro fs
  induction fs with
  | nil =>
    intro k cs l hW _ _ _
    exact ⟨k, [], cs, l, rfl, hW, rfl, rfl⟩
  | cons p fs ih =>
    intro k cs l hW hFull hnd hpend
    obtain ⟨a1, a2, hpa, c, hc, hcd, hno⟩ := hpend p (List.mem_cons_self _ _)
    obtain ⟨cs1, cs2, hsplit⟩ := List.append_of_mem hc
    subst hsplit
    have hsz := hW.src.szle
    have hfull := hFull c.d (List.mem_map.mpr ⟨c, hc, rfl⟩) p.2 a1 a2 hpa
    obtain ⟨hsh, hWc⟩ := Shares_of_full L k P sz _ l c p.2 hW hc a1 a2 hfull hno
    rcases fault_returns L k P sz cs1 cs2 c l p.2 hLc hW a1 a2 hpa hsh hWc with hcf | ⟨k', hcf⟩
    · obtain ⟨k3, rs2, cs3, l3, g0, g1, g2, g3⟩ := ih k _ l hW hFull
        (List.nodup_cons.mp hnd).2 (fun p' hp' => hpend p' (List.mem_cons_of_mem _ hp'))
      refine ⟨k3, -1 :: rs2, cs3, l3, ?_, g1, g2, g3⟩
      rw [faultAll_cons, ← hcd, hcf]
      simp only
      rw [g0]
    · obtain ⟨g, l', hl, hW', hnum, hsp, hoth, v2, v4, hpres, hS⟩ :=
        fault_step L k P sz cs1 cs2 c l p.2 k' hLc hW a1 a2 hpa hsh hWc hcf
      have hmapd : (cs1 ++ (⟨c.d, c.used, (p.2, g) :: c.own⟩ : Child) :: cs2).map Child.d =
          (cs1 ++ c :: cs2).map Child.d := by simp
      have hFull' : Full L k' P sz
          ((cs1 ++ (⟨c.d, c.used, (p.2, g) :: c.own⟩ : Child) :: cs2).map Child.d) := by
        rw [hmapd]
        intro d' hd' b b1 b2 b3
        have b3k := (hsp b b1 b2).1.mp b3
        obtain ⟨f1, f2, f3⟩ := hFull d' hd' b b1 b2 b3k
        obtain ⟨c0, hc0, rfl⟩ := List.mem_map.mp hd'
        rcases mem_split cs1 cs2 c c0 hc0 with e | e
        · subst e
          rw [v2 b]
          by_cases hb : b = p.2
          · subst hb
            exact ⟨f1, hpres, hS⟩
          · rw [v4 b (by unfold KERNBASE at hsz; omega) (by unfold PGSIZE at *; omega) f1]
            exact ⟨f1, f2, f3⟩
        · obtain ⟨q1, q2⟩ := hoth c0 e
          rw [q1 b, q2 b f1]
          exact ⟨f1, f2, f3⟩
      obtain ⟨k3, rs2, cs3, l3, g0, g1, g2, g3⟩ := ih k' _ l' hW' hFull'
        (List.nodup_cons.mp hnd).2
        (fun p' hp' => by
          obtain ⟨b1, b2, b3, c0, hc0, hcd0, hno0⟩ := hpend p' (List.mem_cons_of_mem _ hp')
          refine ⟨b1, b2, (hsp p'.2 b1 b2).1.mpr b3, ?_⟩
          rcases mem_split cs1 cs2 c c0 hc0 with e | e
          · subst e
            refine ⟨⟨c0.d, c0.used, (p.2, g) :: c0.own⟩,
              List.mem_append.mpr (Or.inr (List.mem_cons_self _ _)), hcd0, fun g' hg' => ?_⟩
            rcases List.mem_cons.mp hg' with e2 | e2
            · have h1 : p'.2 = p.2 := congrArg Prod.fst e2
              have h2 : p' = p := Prod.ext (hcd0.symm.trans hcd) h1
              exact (List.nodup_cons.mp hnd).1 (h2 ▸ hp')
            · exact hno0 g' e2
          · exact ⟨c0, mem_split_other cs1 cs2 _ c0 e, hcd0, hno0⟩)
      refine ⟨k3, 0 :: rs2, cs3, l3, ?_, g1, g2.trans hmapd, ?_⟩
      · rw [faultAll_cons, ← hcd, hcf]
        simp only
        rw [g0]
      · rw [g3, hnum, held_append, held_append, held_cons, held_cons]
        simp only [List.length_cons]
        push_cast
        ring

/-- The exit phase: the children are destroyed in any order. -/
theorem frees_world (L : Layout) (P sz : Nat) (hLc : LayoutCow L) :
    ∀ (ds : List Nat) (k : Kernel) (cs : List Child) (l : List Nat),
      World L k P sz cs l → (cs.map Child.d).Perm ds →
      ∃ k3 l3, freeAll L k ds = .ok k3 ∧ World L k3 P sz [] l3 ∧
        k3.num_free_pages = k.num_free_pages + held cs := by
  intro ds
  induction ds with
  | nil =>
    intro k cs l hW hp
    have : cs = [] := by
      have := hp.length_eq
      simp at this
      exact this
    subst this
    exact ⟨k, l, rfl, hW, by simp [held]⟩
  | cons d ds ih =>
    intro k cs l hW hp
    have hd : d ∈ cs.map Child.d := hp.mem_iff.mpr (List.mem_cons_self _ _)
    obtain ⟨c, hc, hcd⟩ := List.mem_map.mp hd
    obtain ⟨cs1, cs2, hsplit⟩ := List.append_of_mem hc
    subst hsplit
    obtain ⟨k', l', hf, hW', hnum⟩ := destroy_step L k P sz cs1 cs2 c l hLc hW
    have hp' : ((cs1 ++ cs2).map Child.d).Perm ds := by
      have h1 : ((cs1 ++ c :: cs2).map Child.d).Perm (d :: (cs1 ++ cs2).map Child.d) := by
        simp only [List.map_append, List.map_cons, hcd]
        exact List.perm_middle
      exact (List.Perm.cons_inv (h1.symm.trans hp))
    obtain ⟨k3, l3, g1, g2, g3⟩ := ih k' (cs1 ++ cs2) l' hW' hp'
    refine ⟨k3, l3, ?_, g2, ?_⟩
    · rw [freeAll_cons, ← hcd, hf]
      exact g1
    · rw [g3, hnum, held_append, held_append, held_cons]
      ring

/-- C10: a parent `P` of size `sz` forks `N` times (`copyuvm`), the children
take write faults (`cowfault`) in any order, at most one for each child and
page, on pages that are private in the parent, and all children are then
destroyed (`freevm`) in any order.  Every fault and every `freevm` returns,
the free-frame count afterwards equals its value before the first `copyuvm`,
and the free list is again a list of distinct frames with count 0.  In
particular this holds when each child faults once on each page of a set of
private pages whose frames have count 1.  The parent is assumed well formed,
its frames valid data frames with non-negative counts; of the constants of
the absent headers it is assumed that the kernel image ends above `KERNBASE`
and that `PTE_S` is a flag bit other than `PTE_W`. -/
theorem fork_fault_exit_balance (L : Layout) (k : Kernel) (l : List Nat) (P sz N : Nat)
    (k1 : Kernel) (ds : List Nat) (fs : List (Nat × Nat)) (ds' : List Nat)
    (hLc : LayoutCow L) (hK : ∀ m ∈ L.kmap, KmapOK m)
    (hf : FreeOK L k l) (hlock : k.use_lock = true) (hS : SrcOK L k l P sz)
    (hnz : ∀ a, a % PGSIZE = 0 → a < sz → PTE_ADDR (entry k P a) ≠ 0)
    (hval : ∀ a, a % PGSIZE = 0 → a < sz → PrivateAt L k P a →
      ValidFrame L (P2V (PTE_ADDR (entry k P a))) ∧
        0 ≤ k.refcount (PTE_ADDR (entry k P a) / PGSIZE))
    (hfork : forkN L N k P sz = .ok (k1, ds)) (hds : ∀ d ∈ ds, d ≠ 0)
    (hnd : fs.Nodup)
    (hfs : ∀ p ∈ fs, p.1 ∈ ds ∧ p.2 % PGSIZE = 0 ∧ p.2 < sz ∧ PrivateAt L k P p.2)
    (hperm : ds'.Perm ds) :
    ∃ k2 rs k3, faultAll L k1 fs = .ok (k2, rs) ∧ freeAll L k2 ds' = .ok k3 ∧
      getNumFreePages k3 = getNumFreePages k ∧ ∃ l3, FreeOK L k3 l3 := by
  have hW0 : World L k P sz [] l :=
    ⟨hf, hlock, by simpa [allFrames] using Frames_of_FreeOK L k l hf,
      by simpa [allFrames] using hS, hnz, fun a a1 a2 a3 => (hval a a1 a2 a3).1,
      fun a a1 a2 a3 => by
        have := (hval a a1 a2 a3).2
        simp [sharers]
        exact this,
      fun c hc => by cases hc⟩
  obtain ⟨cs1, l1, w1, w2, w3, w4, w5, w6⟩ := forkN_world L P sz hLc hK N k [] l k1 ds hW0
    (fun d hd => by cases hd) (fun c hc => by cases hc) hfork hds
  simp only [List.map_nil, List.append_nil] at w4
  obtain ⟨k2, rs, cs2, l2, x0, x1, x2, x3⟩ := faults_world L P sz hLc fs k1 cs1 l1 w1 w2 hnd
    (fun p hp => by
      obtain ⟨p1, p2, p3, p4⟩ := hfs p hp
      obtain ⟨c, hc, hcd⟩ := List.mem_map.mp (w4.mem_iff.mpr p1)
      exact ⟨p2, p3, (w6 p.2 p2 p3).1.mpr p4, c, hc, hcd, fun g hg => by
        rw [w3 c hc] at hg; cases hg⟩)
  obtain ⟨k3, l3, y1, y2, y3⟩ := frees_world L P sz hLc ds' k2 cs2 l2 x1
    (by rw [x2]; exact w4.trans hperm.symm)
  refine ⟨k2, rs, k3, x0, y1, ?_, l3, y2.free⟩
  show k3.num_free_pages = k.num_free_pages
  rw [y3, x3, w5]
  simp [held]

theorem fork_fault_exit_balance_witness :
    ∃ k2 rs k3, faultAll exLayout exFork2 [(0x8011b000, 0), (0x80118000, 0)] = .ok (k2, rs) ∧
      freeAll exLayout k2 [0x80118000, 0x8011b000] = .ok k3 ∧
      getNumFreePages k3 = getNumFreePages exProc ∧ ∃ l3, FreeOK exLayout k3 l3 := by
  obtain ⟨l, hf, hS, _⟩ := exProc_ok
  have h0 : ∀ a, a % PGSIZE = 0 → a < PGSIZE → a = 0 := fun a a1 a2 => by
    unfold PGSIZE at *; omega
  exact fork_fault_exit_balance exLayout exProc l 0x8011e000 PGSIZE 2 exFork2
    [0x8011b000, 0x80118000] [(0x8011b000, 0), (0x80118000, 0)]
    [0x80118000, 0x8011b000] (by decide) (by decide) hf (by decide) hS
    (fun a a1 a2 => by rw [h0 a a1 a2]; decide)
    (fun a a1 a2 _ => by rw [h0 a a1 a2]; decide)
    rfl (by decide) (by decide) (by decide) (List.Perm.swap _ _ _)

/-! ## The shared page: find_shared and unmap_shared -/

theorem toInt_of_lt (a : Nat) (h : a < KERNBASE) : toInt a = (a : Int) := by
  unfold toInt u32
  unfold KERNBASE at h
  rw [Nat.mod_eq_of_lt (by omega), if_pos (by omega)]

theorem find_sharedLoop_succ (L : Layout) (fuel : Nat) (k : Kernel) (pgdir sz a : Nat) :
    find_sharedLoop L (fuel + 1) k pgdir sz a =
      if a < sz ∧ a < KERNBASE then
        if SharedAt L k pgdir a then .ok (k, toInt a)
        else find_sharedLoop L fuel k pgdir sz (u32 (a + PGSIZE))
      else .ok (k, -1) := by
  rw [find_sharedLoop]
  simp only [walkpgdir_zero]
  rfl

theorem unmap_sharedLoop_succ (L : Layout) (fuel : Nat) (k : Kernel) (pgdir sz a : Nat) :
    unmap_sharedLoop L (fuel + 1) k pgdir sz a =
      if a < sz ∧ a < KERNBASE then
        if SharedAt L k pgdir a then unmap_sharedHit L k (leafSlot k pgdir a) a
        else unmap_sharedLoop L fuel k pgdir sz (u32 (a + PGSIZE))
      else .ok (k, -1) := by
  rw [unmap_sharedLoop]
  simp only [walkpgdir_zero]
  rfl

/-- Both scans return `-1` and leave the state alone when no page from `a` on
has the shared bit. -/
theorem scan_none (L : Layout) (k : Kernel) (pgdir sz : Nat) :
    ∀ fuel a, a % PGSIZE = 0 → a ≤ KERNBASE → (KERNBASE - a) / PGSIZE + 1 ≤ fuel →
      (∀ b, b % PGSIZE = 0 → a ≤ b → b < sz → b < KERNBASE → ¬ SharedAt L k pgdir b) →
      find_sharedLoop L fuel k pgdir sz a = .ok (k, -1) ∧
        unmap_sharedLoop L fuel k pgdir sz a = .ok (k, -1) := by
  intro fuel
  induction fuel with
  | zero => intro a _ _ hf _; simp at hf
  | succ n ih =>
    intro a ha hle hf hno
    rw [find_sharedLoop_succ, unmap_sharedLoop_succ]
    by_cases hc : a < sz ∧ a < KERNBASE
    · rw [if_pos hc, if_pos hc, if_neg (hno a ha (le_refl _) hc.1 hc.2),
        if_neg (hno a ha (le_refl _) hc.1 hc.2)]
      have hu : u32 (a + PGSIZE) = a + PGSIZE := by
        apply u32_of_lt
        have := hc.2
        unfold KERNBASE at this; unfold PGSIZE; omega
      rw [hu]
      have h2 := hc.2
      refine ih (a + PGSIZE) ?_ ?_ ?_ ?_
      · unfold PGSIZE at *; omega
      · unfold PGSIZE KERNBASE at *; omega
      · unfold PGSIZE KERNBASE at *; omega
      · intro b b1 b2 b3 b4
        exact hno b b1 (by omega) b3 b4
    · rw [if_neg hc, if_neg hc]
      exact ⟨rfl, rfl⟩

/-- Both scans stop at the first page from `a` on that has the shared bit. -/
theorem scan_hit (L : Layout) (k : Kernel) (pgdir sz a0 : Nat) (h0 : a0 % PGSIZE = 0)
    (h1 : a0 < sz) (h2 : a0 < KERNBASE) (hs : SharedAt L k pgdir a0) :
    ∀ fuel a, a % PGSIZE = 0 → a ≤ a0 → (KERNBASE - a) / PGSIZE + 1 ≤ fuel →
      (∀ b, b % PGSIZE = 0 → a ≤ b → b < a0 → ¬ SharedAt L k pgdir b) →
      find_sharedLoop L fuel k pgdir sz a = .ok (k, (a0 : Int)) ∧
        unmap_sharedLoop L fuel k pgdir sz a =
          unmap_sharedHit L k (leafSlot k pgdir a0) a0 := by
  intro fuel
  induction fuel with
  | zero => intro a _ _ hf _; simp at hf
  | succ n ih =>
    intro a ha hle hf hno
    rw [find_sharedLoop_succ, unmap_sharedLoop_succ]
    have hc : a < sz ∧ a < KERNBASE := ⟨by omega, by omega⟩
    rw [if_pos hc, if_pos hc]
    by_cases hsa : SharedAt L k pgdir a
    · have : a = a0 := by
        by_contra hne
        exact hno a ha (le_refl _) (by omega) hsa
      subst this
      rw [if_pos hsa, if_pos hsa, toInt_of_lt a h2]
      exact ⟨rfl, rfl⟩
    · rw [if_neg hsa, if_neg hsa]
      have hne : a ≠ a0 := fun e => hsa (e ▸ hs)
      have hu : u32 (a + PGSIZE) = a + PGSIZE := by
        apply u32_of_lt
        unfold KERNBASE at h2; unfold PGSIZE; omega
      rw [hu]
      refine ih (a + PGSIZE) ?_ ?_ ?_ ?_
      · unfold PGSIZE at *; omega
      · unfold PGSIZE at *; omega
      · unfold PGSIZE KERNBASE at *; omega
      · intro b b1 b2 b3
        exact hno b b1 (by omega) b3

theorem LOOP_FUEL_enough (a : Nat) : (KERNBASE - a) / PGSIZE + 1 ≤ LOOP_FUEL := by
  unfold KERNBASE PGSIZE LOOP_FUEL; omega

/-- C20: `find_shared` returns and leaves the whole state as it was (every
page-table entry, every reference count, the free list).  If `a` is the
lowest page-aligned address below the bound and below `KERNBASE` whose leaf
entry exists and has the shared bit set, it returns `a`; it returns `-1`
exactly when there is no such address.  `sys_getshared` turns the `-1` into 0. -/
theorem find_shared_lowest (L : Layout) (k : Kernel) (pgdir sz : Nat) :
    ∃ r, find_shared L k pgdir sz = .ok (k, r) ∧
      (∀ a, a % PGSIZE = 0 → a < sz → a < KERNBASE → SharedAt L k pgdir a →
        (∀ b, b % PGSIZE = 0 → b < a → ¬ SharedAt L k pgdir b) → r = (a : Int)) ∧
      (r = -1 ↔ ∀ a, a % PGSIZE = 0 → a < sz → a < KERNBASE → ¬ SharedAt L k pgdir a) ∧
      (r = -1 ∨ ∃ a : Nat, r = (a : Int) ∧ a % PGSIZE = 0 ∧ a < sz ∧ a < KERNBASE ∧
        SharedAt L k pgdir a ∧ ∀ b, b % PGSIZE = 0 → b < a → ¬ SharedAt L k pgdir b) ∧
      sys_getshared L k ⟨pgdir, sz⟩ = .ok (k, if r < 0 then 0 else r) := by
  classical
  by_cases hex : ∃ a, a % PGSIZE = 0 ∧ a < sz ∧ a < KERNBASE ∧ SharedAt L k pgdir a
  · have hmin : ∀ m, m < Nat.find hex →
        ¬ (m % PGSIZE = 0 ∧ m < sz ∧ m < KERNBASE ∧ SharedAt L k pgdir m) :=
      fun m hm => Nat.find_min hex hm
    obtain ⟨m0, m1, m2, m3⟩ := Nat.find_spec hex
    generalize Nat.find hex = a0 at hmin m0 m1 m2 m3
    have hlow : ∀ b, b % PGSIZE = 0 → b < a0 → ¬ SharedAt L k pgdir b :=
      fun b b1 b2 b3 => hmin b b2 ⟨b1, by omega, by omega, b3⟩
    have hf : find_shared L k pgdir sz = .ok (k, (a0 : Int)) :=
      (scan_hit L k pgdir sz a0 m0 m1 m2 m3 LOOP_FUEL 0 (by decide) (by omega)
        (LOOP_FUEL_enough 0) (fun b b1 _ b3 => hlow b b1 b3)).1
    refine ⟨(a0 : Int), hf, ?_, ?_, ?_, ?_⟩
    · intro a a1 a2 a3 a4 a5
      have h1 : ¬ (a < a0) := fun h => hlow a a1 h a4
      have h2 : ¬ (a0 < a) := fun h => a5 a0 m0 h m3
      have : a0 = a := by omega
      rw [this]
    · constructor
      · intro h; omega
      · intro h; exact absurd m3 (h a0 m0 m1 m2)
    · exact Or.inr ⟨a0, rfl, m0, m1, m2, m3, hlow⟩
    · have : ¬ ((a0 : Int) < 0) := by omega
      simp only [sys_getshared, hf, this, if_false]
  · have hno : ∀ a, a % PGSIZE = 0 → a < sz → a < KERNBASE → ¬ SharedAt L k pgdir a :=
      fun a a1 a2 a3 a4 => hex ⟨a, a1, a2, a3, a4⟩
    have hf : find_shared L k pgdir sz = .ok (k, -1) :=
      (scan_none L k pgdir sz LOOP_FUEL 0 (by decide) (by decide)
        (LOOP_FUEL_enough 0) (fun b b1 _ b3 b4 => hno b b1 b3 b4)).1
    refine ⟨-1, hf, ?_, ?_, Or.inl rfl, ?_⟩
    · intro a a1 a2 a3 a4 _
      exact absurd a4 (hno a a1 a2 a3)
    · exact ⟨fun _ => hno, fun _ => rfl⟩
    · simp only [sys_getshared, hf]
      rfl

/-! ## A user address space under changes of memory -/

/-- `kfree` of a valid frame returns and writes only inside that frame. -/
theorem kfree_outside (L : Layout) (k : Kernel) (v : Nat) (hv : ValidFrame L v) :
    ∃ k1, kfree L k v = .ok k1 ∧ (∀ x, Outside v x → k1.mem x = k.mem x) ∧
      k1.use_lock = k.use_lock := by
  obtain ⟨v1, v2, v3⟩ := hv
  have hchk : ¬ (v % PGSIZE ≠ 0 ∨ v < L.kend ∨ V2P v ≥ L.PHYSTOP) := by
    intro h; rcases h with h | h | h <;> omega
  unfold kfree
  simp only [hchk, if_false]
  by_cases hc : V2P v / PGSIZE < MAX_PAGES L ∧ k.use_lock = true
  · rw [if_pos hc]
    have hidx : ¬ (V2P v / PGSIZE ≥ MAX_PAGES L) := by omega
    unfold decref
    simp only [hidx, hc.2, if_false, Bool.not_true]
    rw [if_neg Bool.false_ne_true]
    by_cases hz : k.refcount (V2P v / PGSIZE) ≤ 0
    · rw [if_pos hz]
      simp only
      rw [if_neg (by omega)]
      exact ⟨_, rfl, fun x hx => kfreePush_mem k v x hx, hc.2⟩
    · rw [if_neg hz]
      simp only
      by_cases hp : (setref k (V2P v / PGSIZE) (k.refcount (V2P v / PGSIZE) - 1)).refcount
          (V2P v / PGSIZE) > 0
      · rw [if_pos hp]
        exact ⟨_, rfl, fun x _ => rfl, hc.2⟩
      · rw [if_neg hp]
        exact ⟨_, rfl, fun x hx => kfreePush_mem _ v x hx, hc.2⟩
  · rw [if_neg hc]
    exact ⟨_, rfl, fun x hx => kfreePush_mem k v x hx, rfl⟩

theorem SrcOK_zero (L : Layout) (k : Kernel) (l : List Nat) (pgdir sz : Nat)
    (h : SrcOK L k l pgdir sz) : DirOK L k l pgdir :=
  ⟨Nat.zero_le _, h.pal, h.pfree, h.tabs, fun _ _ h0 => absurd h0 (Nat.not_lt_zero _),
    fun _ _ _ _ h0 => absurd h0 (Nat.not_lt_zero _)⟩

theorem DirOK_nil (L : Layout) (k : Kernel) (l : List Nat) (pgdir : Nat)
    (h : DirOK L k l pgdir) : DirOK L k [] pgdir :=
  ⟨Nat.zero_le _, h.pal, List.not_mem_nil _,
    fun j hj hp => ⟨List.not_mem_nil _, (h.tabs j hj hp).2⟩,
    fun _ _ h0 => absurd h0 (Nat.not_lt_zero _),
    fun _ _ _ _ h0 => absurd h0 (Nat.not_lt_zero _)⟩

/-- A change of memory that spares the user half of the directory keeps the
directory entries, the page tables and the slots of the user pages. -/
theorem DirOK_view (L : Layout) (k k' : Kernel) (l : List Nat) (pgdir : Nat)
    (hD : DirOK L k l pgdir)
    (hm : ∀ j, j < 512 → k'.mem (pgdir + 4 * j) = k.mem (pgdir + 4 * j)) :
    (∀ j, j < 512 → pdeAt k' pgdir j = pdeAt k pgdir j) ∧
      (∀ j, j < 512 → tableOf k' pgdir j = tableOf k pgdir j) ∧
      (∀ b, b < KERNBASE → leafSlot k' pgdir b = leafSlot k pgdir b) ∧
      DirOK L k' l pgdir := by
  have h1 : ∀ j, j < 512 → pdeAt k' pgdir j = pdeAt k pgdir j :=
    fun j hj => pdeAt_congr k k' pgdir j (hm j hj)
  have h2 : ∀ j, j < 512 → tableOf k' pgdir j = tableOf k pgdir j :=
    fun j hj => tableOf_congr k k' pgdir j (h1 j hj)
  refine ⟨h1, h2, fun b hb => ?_, ?_⟩
  · rw [leafSlot_eq, leafSlot_eq, h1 _ (PDX_user b hb), h2 _ (PDX_user b hb)]
  · refine ⟨Nat.zero_le _, hD.pal, hD.pfree, fun j hj hp => ?_,
      fun _ _ h0 => absurd h0 (Nat.not_lt_zero _),
      fun _ _ _ _ h0 => absurd h0 (Nat.not_lt_zero _)⟩
    rw [h1 j hj] at hp
    obtain ⟨t1, t2, t3⟩ := hD.tabs j hj hp
    rw [h2 j hj]
    refine ⟨t1, t2, fun j' hj' hne hp' => ?_⟩
    rw [h1 j' hj'] at hp'
    rw [h2 j' hj']
    exact t3 j' hj' hne hp'

/-- The words of the directory and of the user page tables lie outside a frame
that holds none of them. -/
theorem OffTables_out (L : Layout) (k : Kernel) (l : List Nat) (pgdir v : Nat)
    (hD : DirOK L k l pgdir) (hv : v % PGSIZE = 0) (ho : OffTables k pgdir v) :
    (∀ j, j < 1024 → Outside v (pgdir + 4 * j)) ∧
      (∀ j x, j < 512 → pdeAt k pgdir j &&& PTE_P ≠ 0 → x < 1024 →
        Outside v (tableOf k pgdir j + 4 * x)) ∧
      (∀ b, b < KERNBASE → leafSlot k pgdir b ≠ 0 → Outside v (leafSlot k pgdir b)) := by
  have h2 : ∀ j x, j < 512 → pdeAt k pgdir j &&& PTE_P ≠ 0 → x < 1024 →
      Outside v (tableOf k pgdir j + 4 * x) := fun j x hj hp hx =>
    Outside_in_page _ v _ (tableOf_aligned _ _ _) hv (ho.2 j hj hp) (by unfold PGSIZE; omega)
  refine ⟨fun j hj => ?_, h2, fun b hb hs => ?_⟩
  · exact Outside_in_page pgdir v _ hD.pal hv (Ne.symm ho.1) (by unfold PGSIZE; omega)
  · obtain ⟨hp, hsl⟩ := slot_in_table k pgdir b hs
    rw [hsl]
    exact h2 _ _ (PDX_user b hb) hp (PTX_lt b)

/-- A store into the slot of the user page `a` changes the entry of `a` only. -/
theorem store_slot_view (L : Layout) (k : Kernel) (l : List Nat) (pgdir a x : Nat)
    (hD : DirOK L k l pgdir) (ha : a < KERNBASE) (hs : leafSlot k pgdir a ≠ 0) :
    (∀ j, j < 1024 → (store k (leafSlot k pgdir a) x).mem (pgdir + 4 * j) =
        k.mem (pgdir + 4 * j)) ∧
      (∀ b, b < KERNBASE → leafSlot (store k (leafSlot k pgdir a) x) pgdir b =
        leafSlot k pgdir b) ∧
      entry (store k (leafSlot k pgdir a) x) pgdir a = u32 x ∧
      (∀ b, b < KERNBASE → b / PGSIZE ≠ a / PGSIZE → leafSlot k pgdir b ≠ 0 →
        entry (store k (leafSlot k pgdir a) x) pgdir b = entry k pgdir b) ∧
      DirOK L (store k (leafSlot k pgdir a) x) l pgdir := by
  have hout := (SrcOK_slot_out L k [] pgdir 0 a
    ⟨List.nodup_nil, fun _ h => absurd h (List.not_mem_nil _)⟩
    (DirOK_nil L k l pgdir hD) ha hs).2
  have hdir : ∀ j, j < 1024 → (store k (leafSlot k pgdir a) x).mem (pgdir + 4 * j) =
      k.mem (pgdir + 4 * j) := by
    intro j hj
    rw [mem_store, if_neg]
    intro e
    rw [← e] at hout
    unfold Outside PGSIZE at hout
    omega
  obtain ⟨v1, v2, v3, v4⟩ := DirOK_view L k _ l pgdir hD (fun j hj => hdir j (by omega))
  refine ⟨hdir, v3, ?_, fun b hb hne hsb => ?_, v4⟩
  · show deref _ (leafSlot _ pgdir a) = _
    rw [v3 a ha]
    exact deref_store_same k _ x
  · show deref _ (leafSlot _ pgdir b) = _
    rw [v3 b hb]
    apply deref_store_ne
    exact SrcOK_slot_ne L k l pgdir 0 b a hD hb ha hne hsb hs

/-- `kfree` of a valid frame that holds no part of the translation structure
leaves the user part of the address space as it was. -/
theorem kfree_view (L : Layout) (k : Kernel) (l : List Nat) (pgdir v : Nat)
    (hD : DirOK L k l pgdir) (hv : ValidFrame L v) (ho : OffTables k pgdir v) :
    ∃ k1, kfree L k v = .ok k1 ∧ (∀ x, Outside v x → k1.mem x = k.mem x) ∧
      k1.use_lock = k.use_lock ∧
      (∀ j, j < 512 → pdeAt k1 pgdir j = pdeAt k pgdir j) ∧
      (∀ b, b < KERNBASE → leafSlot k1 pgdir b = leafSlot k pgdir b) ∧
      (∀ b, b < KERNBASE → leafSlot k pgdir b ≠ 0 → entry k1 pgdir b = entry k pgdir b) ∧
      DirOK L k1 l pgdir := by
  obtain ⟨k1, h1, h2, h3⟩ := kfree_outside L k v hv
  obtain ⟨o1, o2, o3⟩ := OffTables_out L k l pgdir v hD hv.1 ho
  obtain ⟨v1, v2, v3, v4⟩ := DirOK_view L k k1 l pgdir hD
    (fun j hj => h2 _ (o1 j (by omega)))
  refine ⟨k1, h1, h2, h3, v1, v3, fun b hb hs => ?_, v4⟩
  show deref k1 (leafSlot k1 pgdir b) = _
  rw [v3 b hb]
  exact deref_congr k k1 _ (h2 _ (o3 b hb hs))

theorem unmap_sharedHit_present (L : Layout) (k : Kernel) (pte a : Nat) (k1 : Kernel)
    (hP : deref k pte &&& PTE_P ≠ 0) (hpa : PTE_ADDR (deref k pte) ≠ 0)
    (hk : kfree L k (P2V (PTE_ADDR (deref k pte))) = .ok k1) :
    unmap_sharedHit L k pte a = .ok (store k1 pte 0, toInt a) := by
  unfold unmap_sharedHit
  simp only
  rw [if_pos hP, if_neg hpa, hk]

/-- C13: an address space in which exactly one page `a0` below the bound has a
leaf entry with the shared bit, that entry present.  `unmap_shared` returns
`a0`; the state it leaves is the state after one call of `kfree` on the frame
of the entry, with the entry then cleared.  A second `unmap_shared` with the
same bound, and likewise `find_shared`, returns `-1` and leaves the whole state
as it is (page tables, reference counts, free list).  The frame is assumed to
be a valid frame that is not one of the pages of the translation structure. -/
theorem unmap_shared_once (L : Layout) (k : Kernel) (l : List Nat) (pgdir sz a0 : Nat)
    (hD : DirOK L k l pgdir) (h0 : a0 % PGSIZE = 0) (h1 : a0 < sz) (h2 : a0 < KERNBASE)
    (hs : SharedAt L k pgdir a0) (hP : entry k pgdir a0 &&& PTE_P ≠ 0)
    (huniq : ∀ b, b % PGSIZE = 0 → b < sz → b < KERNBASE → SharedAt L k pgdir b → b = a0)
    (hnz : PTE_ADDR (entry k pgdir a0) ≠ 0)
    (hv : ValidFrame L (P2V (PTE_ADDR (entry k pgdir a0))))
    (ho : OffTables k pgdir (P2V (PTE_ADDR (entry k pgdir a0)))) :
    ∃ k1 k', kfree L k (P2V (PTE_ADDR (entry k pgdir a0))) = .ok k1 ∧
      k' = store k1 (leafSlot k pgdir a0) 0 ∧
      unmap_shared L k pgdir sz = .ok (k', (a0 : Int)) ∧
      leafSlot k' pgdir a0 = leafSlot k pgdir a0 ∧ entry k' pgdir a0 = 0 ∧
      (∀ b, b < KERNBASE → b / PGSIZE ≠ a0 / PGSIZE → leafSlot k pgdir b ≠ 0 →
        leafSlot k' pgdir b = leafSlot k pgdir b ∧ entry k' pgdir b = entry k pgdir b) ∧
      unmap_shared L k' pgdir sz = .ok (k', -1) ∧
      find_shared L k' pgdir sz = .ok (k', -1) ∧
      sys_unmapshared L k' ⟨pgdir, sz⟩ = .ok (k', ⟨pgdir, sz⟩, -1) := by
  obtain ⟨k1, f1, f2, f3, f4, f5, f6, f7⟩ := kfree_view L k l pgdir _ hD hv ho
  have hs1 : leafSlot k1 pgdir a0 ≠ 0 := by rw [f5 a0 h2]; exact hs.1
  obtain ⟨s1, s2, s3, s4, s5⟩ := store_slot_view L k1 l pgdir a0 0 f7 h2 hs1
  rw [f5 a0 h2] at s1 s2 s3 s4 s5
  have hfirst : unmap_shared L k pgdir sz =
      .ok (store k1 (leafSlot k pgdir a0) 0, (a0 : Int)) := by
    have := (scan_hit L k pgdir sz a0 h0 h1 h2 hs LOOP_FUEL 0 (by decide) (by omega)
      (LOOP_FUEL_enough 0) (fun b b1 _ b3 b4 => by
        have := huniq b b1 (by omega) (by omega) b4; omega)).2
    unfold unmap_shared
    rw [this, unmap_sharedHit_present L k _ a0 k1 hP hnz f1, toInt_of_lt a0 h2]
  have hno : ∀ b, b % PGSIZE = 0 → b < sz → b < KERNBASE →
      ¬ SharedAt L (store k1 (leafSlot k pgdir a0) 0) pgdir b := by
    intro b b1 b2 b3 hsb
    by_cases hb : b = a0
    · subst hb
      have := hsb.2
      rw [s3] at this
      exact this (by simp [u32])
    · have hpg : b / PGSIZE ≠ a0 / PGSIZE := by unfold PGSIZE at *; omega
      have hsl : leafSlot k pgdir b ≠ 0 := by
        have := hsb.1
        rw [s2 b b3, f5 b b3] at this
        exact this
      have he := s4 b b3 hpg (by rw [f5 b b3]; exact hsl)
      have := hsb.2
      rw [he, f6 b b3 hsl] at this
      exact hb (huniq b b1 b2 b3 ⟨hsl, this⟩)
  obtain ⟨n1, n2⟩ := scan_none L (store k1 (leafSlot k pgdir a0) 0) pgdir sz LOOP_FUEL 0
    (by decide) (by decide) (LOOP_FUEL_enough 0) (fun b b1 _ b3 b4 => hno b b1 b3 b4)
  have n2' : unmap_shared L (store k1 (leafSlot k pgdir a0) 0) pgdir sz =
      .ok (store k1 (leafSlot k pgdir a0) 0, -1) := n2
  refine ⟨k1, _, f1, rfl, hfirst, ?_, ?_, fun b hb hne hsb => ⟨?_, ?_⟩, n2', n1, ?_⟩
  · rw [s2 a0 h2, f5 a0 h2]
  · rw [s3]; simp [u32]
  · rw [s2 b hb, f5 b hb]
  · rw [s4 b hb hne (by rw [f5 b hb]; exact hsb), f6 b hb hsb]
  · simp only [sys_unmapshared, n2']
    rfl

/-! ## deallocuvm on any address space -/

theorem deallocuvmLoop_done (L : Layout) (fuel : Nat) (k : Kernel) (pgdir a oldsz : Nat)
    (h : ¬ a < oldsz) : deallocuvmLoop L (fuel + 1) k pgdir a oldsz = .ok k := by
  rw [deallocuvmLoop, if_neg h]

theorem deallocuvmLoop_step (L : Layout) (fuel : Nat) (k : Kernel) (pgdir a oldsz : Nat)
    (k1 : Kernel) (a1 : Nat) (h : a < oldsz) (hs : deallocuvmStep L k pgdir a = .ok (k1, a1)) :
    deallocuvmLoop L (fuel + 1) k pgdir a oldsz =
      deallocuvmLoop L fuel k1 pgdir (u32 (a1 + PGSIZE)) oldsz := by
  rw [deallocuvmLoop, if_pos h, hs]

theorem pagesFrom_append (m : Nat) : ∀ (r a : Nat),
    pagesFrom a (m + r) = pagesFrom a m ++ pagesFrom (a + m * PGSIZE) r := by
  induction m with
  | zero => intro r a; simp [pagesFrom]
  | succ m ih =>
    intro r a
    have : m + 1 + r = (m + r) + 1 := by omega
    rw [this, pagesFrom, pagesFrom, ih r (a + PGSIZE)]
    have : a + PGSIZE + m * PGSIZE = a + (m + 1) * PGSIZE := by ring
    rw [this]
    rfl

theorem mem_pagesFrom (n : Nat) : ∀ (a b : Nat), b ∈ pagesFrom a n →
    ∃ i, i < n ∧ b = a + i * PGSIZE := by
  induction n with
  | zero => intro a b h; cases h
  | succ n ih =>
    intro a b h
    rw [pagesFrom] at h
    rcases List.mem_cons.mp h with e | e
    · exact ⟨0, by omega, by omega⟩
    · obtain ⟨i, hi, hb⟩ := ih _ _ e
      exact ⟨i + 1, by omega, by rw [hb]; ring⟩

theorem pagesFrom_mem (n : Nat) : ∀ (a i : Nat), i < n → a + i * PGSIZE ∈ pagesFrom a n := by
  induction n with
  | zero => intro a i h; omega
  | succ n ih =>
    intro a i h
    rw [pagesFrom]
    cases i with
    | zero => simp
    | succ i =>
      have := ih (a + PGSIZE) i (by omega)
      have e : a + (i + 1) * PGSIZE = a + PGSIZE + i * PGSIZE := by ring
      rw [e]
      exact List.mem_cons_of_mem _ this

theorem filterMap_none (C : Nat → Option Nat) (xs : List Nat) (h : ∀ b ∈ xs, C b = none) :
    xs.filterMap C = [] := by
  induction xs with
  | nil => rfl
  | cons x xs ih =>
    rw [List.filterMap_cons, h x (List.mem_cons_self _ _)]
    exact ih (fun b hb => h b (List.mem_cons_of_mem _ hb))

theorem Frames_nil (L : Layout) : Frames L [] :=
  ⟨List.nodup_nil, fun _ h => absurd h (List.not_mem_nil _)⟩

/-- With no page table at address 0, a page has a leaf slot exactly when its
directory entry is present. -/
theorem slot_zero_iff (k : Kernel) (pgdir a : Nat) (ha : a < KERNBASE)
    (htz : ∀ j, j < 512 → pdeAt k pgdir j &&& PTE_P ≠ 0 → tableOf k pgdir j ≠ 0) :
    leafSlot k pgdir a = 0 ↔ ¬ (pdeAt k pgdir (PDX a) &&& PTE_P ≠ 0) := by
  rw [leafSlot_eq]
  by_cases hp : pdeAt k pgdir (PDX a) &&& PTE_P ≠ 0
  · rw [if_pos hp]
    have := htz _ (PDX_user a ha) hp
    constructor
    · intro h; omega
    · intro h; exact absurd hp h
  · rw [if_neg hp]
    exact ⟨fun _ => hp, fun _ => rfl⟩

theorem PDX_region (a b : Nat) (ha : a < KERNBASE) (h1 : a ≤ b)
    (h2 : b < (a / 4194304 + 1) * 4194304) : PDX b = PDX a := by
  unfold PDX u32
  unfold KERNBASE at ha
  omega

theorem PGROUNDUP_facts (sz : Nat) (h : sz < KERNBASE) :
    PGROUNDUP sz % PGSIZE = 0 ∧ sz ≤ PGROUNDUP sz ∧ PGROUNDUP sz < sz + PGSIZE ∧
      PGROUNDUP sz ≤ KERNBASE := by
  unfold PGROUNDUP u32 PGSIZE
  unfold KERNBASE at *
  rw [Nat.mod_eq_of_lt (by omega : sz < 4294967296),
    Nat.mod_eq_of_lt (by omega : sz + 4096 - 1 < 4294967296)]
  omega

/-! ## Growing an address space: the invariant -/

theorem range_basic (L : Layout) (k0 : Kernel) (l0 : List Nat) (pgdir a0 top : Nat) (k : Kernel)
    (D : List (Nat × Nat)) (T X l : List Nat) (hF : Frames L l0)
    (hR : RangeInv L k0 l0 pgdir a0 top k D T X l) :
    (D.map Prod.snd ++ (T ++ (X ++ l))).Nodup ∧
      (∀ x, x ∈ D.map Prod.snd ++ (T ++ (X ++ l)) →
        x ∈ l0 ∧ ValidFrame L x ∧ x < 4294967296) ∧
      (∀ x, x ∈ D.map Prod.snd ++ (X ++ l) → x ∈ D.map Prod.snd ++ (T ++ (X ++ l))) := by
  refine ⟨hR.perm.nodup_iff.mpr hF.1, fun x hx => ?_, fun x hx => ?_⟩
  · have := hR.perm.mem_iff.mp hx
    exact ⟨this, hF.2 x this⟩
  · simp only [List.mem_append] at hx ⊢
    tauto

/-- What stays in place when memory changes only inside the frame `g`, which is
not a page table, and at the word `s`, which is not a directory word, and only
the count of `g` changes. -/
theorem range_act (L : Layout) (k0 : Kernel) (l0 : List Nat) (pgdir a0 top : Nat) (k : Kernel)
    (D : List (Nat × Nat)) (T X l : List Nat) (k' : Kernel) (g s : Nat) (hF : Frames L l0)
    (hR : RangeInv L k0 l0 pgdir a0 top k D T X l)
    (hg : g ∈ D.map Prod.snd ++ (X ++ l))
    (hm : ∀ x, Outside g x → x ≠ s → k'.mem x = k.mem x)
    (hr : ∀ j, j ≠ V2P g / PGSIZE → k'.refcount j = k.refcount j)
    (hs : ∀ j, j < 1024 → s ≠ pgdir + 4 * j)
    (hsD : ∀ p ∈ D, p.2 ≠ g → Outside p.2 s) :
    (∀ j, j < 1024 → pdeAt k' pgdir j = pdeAt k pgdir j) ∧
      DirOK L k' (D.map Prod.snd ++ (X ++ l)) pgdir ∧
      (∀ j, j < 512 → pdeAt k' pgdir j &&& PTE_P ≠ 0 → tableOf k' pgdir j ≠ 0) ∧
      (∀ j, j < 1024 → pdeAt k0 pgdir j &&& PTE_P ≠ 0 →
        pdeAt k' pgdir j = pdeAt k0 pgdir j) ∧
      pdeCount k' pgdir = pdeCount k pgdir ∧
      (∀ b, b < KERNBASE → leafSlot k' pgdir b = leafSlot k pgdir b) ∧
      (∀ b, b < KERNBASE → leafSlot k pgdir b ≠ 0 → leafSlot k pgdir b ≠ s →
        entry k' pgdir b = entry k pgdir b) ∧
      (∀ p ∈ D, p.2 ≠ g → leafSlot k pgdir p.1 ≠ s →
        p.1 % PGSIZE = 0 ∧ a0 ≤ p.1 ∧ p.1 < KERNBASE ∧ leafSlot k' pgdir p.1 ≠ 0 ∧
        entry k' pgdir p.1 = V2P p.2 ||| (PTE_W ||| PTE_U) ||| PTE_P ∧
        k'.refcount (V2P p.2 / PGSIZE) = 1 ∧
        ∀ x, p.2 ≤ x → x < p.2 + PGSIZE → k'.mem x = 0) ∧
      (∀ j, (∀ u ∈ l0, j ≠ V2P u / PGSIZE) → k'.refcount j = k0.refcount j) := by
  obtain ⟨bnd, bmem, bsub⟩ := range_basic L k0 l0 pgdir a0 top k D T X l hF hR
  obtain ⟨gl0, gv, g32⟩ := bmem g (bsub g hg)
  have hgp : g ≠ pgdir := fun e => hR.dir.pfree (e ▸ hg)
  have hdirw : ∀ j, j < 1024 → k'.mem (pgdir + 4 * j) = k.mem (pgdir + 4 * j) := by
    intro j hj
    refine hm _ ?_ (fun e => hs j hj e.symm)
    exact Outside_in_page pgdir g _ hR.dir.pal gv.1 (Ne.symm hgp) (by unfold PGSIZE; omega)
  have hpde : ∀ j, j < 1024 → pdeAt k' pgdir j = pdeAt k pgdir j :=
    fun j hj => pdeAt_congr k k' pgdir j (hdirw j hj)
  obtain ⟨v1, v2, v3, v4⟩ := DirOK_view L k k' _ pgdir hR.dir (fun j hj => hdirw j (by omega))
  have hent : ∀ b, b < KERNBASE → leafSlot k pgdir b ≠ 0 → leafSlot k pgdir b ≠ s →
      entry k' pgdir b = entry k pgdir b := by
    intro b hb h0 hne
    show deref k' (leafSlot k' pgdir b) = _
    rw [v3 b hb]
    apply deref_congr
    refine hm _ ?_ hne
    obtain ⟨hp, hsl⟩ := slot_in_table k pgdir b h0
    rw [hsl]
    have htg : tableOf k pgdir (PDX b) ≠ g := fun e =>
      (hR.dir.tabs _ (PDX_user b hb) hp).1 (e ▸ hg)
    have := PTX_lt b
    exact Outside_in_page _ g _ (tableOf_aligned _ _ _) gv.1 htg (by unfold PGSIZE; omega)
  refine ⟨hpde, v4, fun j hj hp => ?_, fun j hj hp => ?_, ?_, v3, hent,
    fun p hp hpg hps => ?_, fun j hj => ?_⟩
  · rw [v2 j hj]
    rw [v1 j hj] at hp
    exact hR.tnz j hj hp
  · rw [hpde j hj]
    exact hR.olddir j hj hp
  · exact pdeCount_congr k k' pgdir (fun j hj => hpde j (by unfold NPDENTRIES at hj; omega))
  · obtain ⟨d1, d2, d3, d4, d5, d6, d7⟩ := hR.data p hp
    have hpA : p.2 ∈ D.map Prod.snd ++ (T ++ (X ++ l)) :=
      List.mem_append_left _ (List.mem_map.mpr ⟨p, hp, rfl⟩)
    obtain ⟨_, pv, p32⟩ := bmem p.2 hpA
    refine ⟨d1, d2, d3, by rw [v3 p.1 d3]; exact d4, by rw [hent p.1 d3 d4 hps]; exact d5,
      ?_, fun x x1 x2 => ?_⟩
    · rw [hr _ (fun e => hpg (idx_inj p.2 g pv.1 gv.1 p32 g32 e))]
      exact d6
    · rw [hm x ?_ ?_]
      · exact d7 x x1 x2
      · have := Outside_of_ne g p.2 gv.1 pv.1 (Ne.symm hpg)
        have h1 := pv.1
        have h2 := gv.1
        unfold Outside PGSIZE at *
        omega
      · intro e
        have := hsD p hp hpg
        rw [← e] at this
        unfold Outside at this
        omega
  · rw [hr j (hj g gl0)]
    exact hR.rcold j hj

/-- A leaf slot of a user page lies outside every frame that is not a page
table, and is not a directory word. -/
theorem range_slot_out (L : Layout) (k0 : Kernel) (l0 : List Nat) (pgdir a0 top : Nat) (k : Kernel)
    (D : List (Nat × Nat)) (T X l : List Nat) (hF : Frames L l0)
    (hR : RangeInv L k0 l0 pgdir a0 top k D T X l) (b : Nat) (hb : b < KERNBASE)
    (h0 : leafSlot k pgdir b ≠ 0) :
    (∀ f, f ∈ D.map Prod.snd ++ (X ++ l) → Outside f (leafSlot k pgdir b)) ∧
      (∀ j, j < 1024 → leafSlot k pgdir b ≠ pgdir + 4 * j) := by
  obtain ⟨bnd, bmem, bsub⟩ := range_basic L k0 l0 pgdir a0 top k D T X l hF hR
  obtain ⟨hp, hsl⟩ := slot_in_table k pgdir b h0
  obtain ⟨t1, t2, _⟩ := hR.dir.tabs _ (PDX_user b hb) hp
  have := PTX_lt b
  refine ⟨fun f hf => ?_, fun j hj e => ?_⟩
  · rw [hsl]
    exact Outside_in_page _ f _ (tableOf_aligned _ _ _) (bmem f (bsub f hf)).2.1.1
      (fun e => t1 (e ▸ hf)) (by unfold PGSIZE; omega)
  · rw [hsl] at e
    have a1 := tableOf_aligned k pgdir (PDX b)
    have a2 := hR.dir.pal
    unfold PGSIZE at a1 a2
    omega

theorem frame_ne_dirword (g pgdir j : Nat) (hg : g % PGSIZE = 0) (hp : pgdir % PGSIZE = 0)
    (hne : g ≠ pgdir) (hj : j < 1024) : g ≠ pgdir + 4 * j := by
  unfold PGSIZE at *; omega

/-- A frame is taken from the free list and zeroed. -/
theorem take_frame (L : Layout) (k0 : Kernel) (l0 : List Nat) (pgdir a0 top : Nat) (k : Kernel)
    (D : List (Nat × Nat)) (T X : List Nat) (g : Nat) (l : List Nat) (hL : LayoutOK L)
    (hF : Frames L l0) (hR : RangeInv L k0 l0 pgdir a0 top k D T X (g :: l)) :
    (kalloc L k).2 = g ∧
      RangeInv L k0 l0 pgdir a0 top (memset (kalloc L k).1 g 0) D T (g :: X) l ∧
      (∀ x, g ≤ x → x < g + PGSIZE → (memset (kalloc L k).1 g 0).mem x = 0) ∧
      (∀ x, Outside g x → (memset (kalloc L k).1 g 0).mem x = k.mem x) ∧
      (∀ j, j < 1024 → pdeAt (memset (kalloc L k).1 g 0) pgdir j = pdeAt k pgdir j) ∧
      (∀ b, b < KERNBASE → leafSlot (memset (kalloc L k).1 g 0) pgdir b = leafSlot k pgdir b) ∧
      (∀ b, b < KERNBASE → leafSlot k pgdir b ≠ 0 →
        entry (memset (kalloc L k).1 g 0) pgdir b = entry k pgdir b) := by
  obtain ⟨bnd, bmem, bsub⟩ := range_basic L k0 l0 pgdir a0 top k D T X _ hF hR
  have hgl : g ∈ D.map Prod.snd ++ (X ++ g :: l) := by simp
  obtain ⟨gl0, gv, g32⟩ := bmem g (bsub g hgl)
  obtain ⟨ka1, ka2, ka3, ka4, ka5, ka6, ka7⟩ := kalloc_FreeOK L k g l hL hR.lock hR.free
  generalize hk1 : (kalloc L k).1 = k1 at *
  have hgp : g ≠ pgdir := fun e => hR.dir.pfree (e ▸ hgl)
  have hm : ∀ x, Outside g x → x ≠ g → (memset k1 g 0).mem x = k.mem x := by
    intro x hx _
    rw [mem_memset, if_neg (by unfold Outside at hx; omega), ka5]
  have hm' : ∀ x, Outside g x → (memset k1 g 0).mem x = k.mem x := by
    intro x hx
    exact hm x hx (fun e => by subst e; unfold Outside PGSIZE at hx; omega)
  have hr : ∀ j, j ≠ V2P g / PGSIZE → (memset k1 g 0).refcount j = k.refcount j :=
    fun j hj => ka4 j hj
  -- the frames of the lists are pairwise distinct
  have hnd2 : ∀ f, f ∈ D.map Prod.snd ++ (T ++ (X ++ l)) → f ≠ g := by
    intro f hf e
    subst e
    have h1 : (D.map Prod.snd ++ (T ++ (X ++ f :: l))).Perm
        (f :: (D.map Prod.snd ++ (T ++ (X ++ l)))) := by
      rw [← List.append_assoc, ← List.append_assoc, ← List.append_assoc,
        ← List.append_assoc]
      exact List.perm_middle
    have := (h1.nodup_iff.mp bnd)
    exact (List.nodup_cons.mp this).1 hf
  obtain ⟨c1, c2, c3, c4, c5, c6, c7, c8, c9⟩ := range_act L k0 l0 pgdir a0 top k D T X (g :: l)
    (memset k1 g 0) g g hF hR hgl hm hr
    (fun j hj => frame_ne_dirword g pgdir j gv.1 hR.dir.pal hgp hj)
    (fun p hp hpg => by
      have hpA : p.2 ∈ D.map Prod.snd ++ (T ++ (X ++ g :: l)) :=
        List.mem_append_left _ (List.mem_map.mpr ⟨p, hp, rfl⟩)
      exact Outside_of_ne p.2 g (bmem p.2 hpA).2.1.1 gv.1 hpg)
  have hslotg : ∀ b, b < KERNBASE → leafSlot k pgdir b ≠ 0 → leafSlot k pgdir b ≠ g := by
    intro b hb h0 e
    have := (range_slot_out L k0 l0 pgdir a0 top k D T X _ hF hR b hb h0).1 g hgl
    rw [e] at this
    unfold Outside PGSIZE at this
    omega
  refine ⟨ka1, ⟨?_, ?_, ka6, ?_, ?_, c3, c4, ?_, ?_, hR.dnd, ?_, ?_, c9, hR.dtop⟩, ?_, hm', c1, c6,
    fun b hb h0 => c7 b hb h0 (hslotg b hb h0)⟩
  · have h1 : (D.map Prod.snd ++ (T ++ ((g :: X) ++ l))).Perm
        (D.map Prod.snd ++ (T ++ (X ++ g :: l))) := by
      apply List.Perm.append_left
      apply List.Perm.append_left
      exact List.perm_middle.symm
    exact h1.trans hR.perm
  · refine FreeOK_congr L k1 _ l ka2 rfl (fun f hf => ?_) (fun f hf => rfl)
    rw [mem_memset, if_neg]
    have hfA : f ∈ D.map Prod.snd ++ (T ++ (X ++ l)) := by simp [hf]
    have hne := hnd2 f hfA
    have hfal : f % PGSIZE = 0 := (ka2.2.2 f hf).1.1
    have hgal := gv.1
    unfold PGSIZE at hfal hgal ⊢
    omega
  · show k1.num_free_pages = _
    rw [ka7, hR.count]
    simp only [List.length_cons]
    push_cast
    ring
  · refine SrcOK_sub L _ _ _ pgdir 0 (fun x hx => ?_) c2
    simp only [List.mem_append, List.mem_cons] at hx ⊢
    rcases hx with h | (h | h) | h
    · exact Or.inl h
    · exact Or.inr (Or.inr (Or.inl h))
    · exact Or.inr (Or.inl h)
    · exact Or.inr (Or.inr (Or.inr h))
  · rw [hR.tcnt, c5]
  · intro p hp
    have hpA : p.2 ∈ D.map Prod.snd ++ (T ++ (X ++ l)) :=
      List.mem_append_left _ (List.mem_map.mpr ⟨p, hp, rfl⟩)
    exact c8 p hp (hnd2 p.2 hpA) (hslotg p.1 (hR.data p hp).2.2.1 (hR.data p hp).2.2.2.1)
  · intro x hx
    rcases List.mem_cons.mp hx with e | e
    · subst e; exact ka3
    · have hxA : x ∈ D.map Prod.snd ++ (T ++ (X ++ l)) := by simp [e]
      have hne := hnd2 x hxA
      have hxA' : x ∈ D.map Prod.snd ++ (T ++ (X ++ g :: l)) := by simp [e]
      show k1.refcount _ = 1
      rw [ka4 _ (fun e2 => hne (idx_inj x g (bmem x hxA').2.1.1 gv.1 (bmem x hxA').2.2 g32 e2))]
      exact hR.xrc x e
  · intro b b1 b2 b3 b4
    rw [c6 b b2] at b4
    rw [c7 b b2 b4 (hslotg b b2 b4)]
    exact hR.rest b b1 b2 b3 b4
  · intro x x1 x2
    rw [mem_memset, if_pos ⟨x1, x2⟩]

theorem leafval_lt (g : Nat) : V2P g ||| (PTE_W ||| PTE_U) ||| PTE_P < 4294967296 :=
  or_lt_u32 _ _ (or_lt_u32 _ _ (u32_lt _) (by decide)) (by decide)

theorem pair_not_mem (D : List (Nat × Nat)) (a : Nat) (hnew : ∀ g, (a, g) ∉ D)
    (p : Nat × Nat) (hp : p ∈ D) : p.1 ≠ a := by
  intro e
  apply hnew p.2
  rw [← e]
  exact hp

/-- The frame held in `X` is mapped at the page `a`. -/
theorem map_frame (L : Layout) (k0 : Kernel) (l0 : List Nat) (pgdir a0 top : Nat) (k : Kernel)
    (D : List (Nat × Nat)) (T : List Nat) (g : Nat) (l : List Nat) (a : Nat)
    (hF : Frames L l0) (hR : RangeInv L k0 l0 pgdir a0 top k D T [g] l)
    (a1 : a % PGSIZE = 0) (a2 : a0 ≤ a) (a3 : a < KERNBASE) (a4 : a < top)
    (hnew : ∀ g', (a, g') ∉ D)
    (h0 : leafSlot k pgdir a ≠ 0) (hz : ∀ x, g ≤ x → x < g + PGSIZE → k.mem x = 0) :
    RangeInv L k0 l0 pgdir a0 top
      (store k (leafSlot k pgdir a) (V2P g ||| (PTE_W ||| PTE_U) ||| PTE_P))
      ((a, g) :: D) T [] l := by
  obtain ⟨bnd, bmem, bsub⟩ := range_basic L k0 l0 pgdir a0 top k D T [g] l hF hR
  have hgl : g ∈ D.map Prod.snd ++ ([g] ++ l) := by simp
  obtain ⟨gl0, gv, g32⟩ := bmem g (bsub g hgl)
  obtain ⟨so1, so2⟩ := range_slot_out L k0 l0 pgdir a0 top k D T [g] l hF hR a a3 h0
  generalize hs : leafSlot k pgdir a = s at *
  generalize hv : V2P g ||| (PTE_W ||| PTE_U) ||| PTE_P = v
  have hv32 : v < 4294967296 := by rw [← hv]; exact leafval_lt g
  have hnd2 : ∀ f, f ∈ D.map Prod.snd ++ (T ++ l) → f ≠ g := by
    intro f hf e
    subst e
    have h1 : (D.map Prod.snd ++ (T ++ ([f] ++ l))).Perm
        (f :: (D.map Prod.snd ++ (T ++ l))) := by
      show (D.map Prod.snd ++ (T ++ f :: l)).Perm (f :: (D.map Prod.snd ++ (T ++ l)))
      rw [← List.append_assoc, ← List.append_assoc]
      exact List.perm_middle
    exact (List.nodup_cons.mp (h1.nodup_iff.mp bnd)).1 hf
  have hslne : ∀ b, b % PGSIZE = 0 → b < KERNBASE → b ≠ a → leafSlot k pgdir b ≠ 0 →
      leafSlot k pgdir b ≠ s := by
    intro b b1 b2 b3 b4
    rw [← hs]
    exact SrcOK_slot_ne L k _ pgdir 0 b a hR.dir b2 a3 (by unfold PGSIZE at *; omega) b4
      (by rw [hs]; exact h0)
  obtain ⟨c1, c2, c3, c4, c5, c6, c7, c8, c9⟩ := range_act L k0 l0 pgdir a0 top k D T [g] l
    (store k s v) g s hF hR hgl (fun x _ hx => by rw [mem_store, if_neg hx]) (fun _ _ => rfl)
    so2 (fun p hp _ => so1 p.2 (List.mem_append_left _ (List.mem_map.mpr ⟨p, hp, rfl⟩)))
  refine ⟨?_, ?_, hR.lock, ?_, ?_, c3, c4, ?_, ?_, ?_, ?_, ?_, c9, ?_⟩
  · have h1 : (((a, g) :: D).map Prod.snd ++ (T ++ ([] ++ l))).Perm
        (D.map Prod.snd ++ (T ++ ([g] ++ l))) := by
      show (g :: (D.map Prod.snd ++ (T ++ l))).Perm (D.map Prod.snd ++ (T ++ g :: l))
      rw [← List.append_assoc, ← List.append_assoc]
      exact List.perm_middle.symm
    exact h1.trans hR.perm
  · refine FreeOK_congr L k _ l hR.free rfl (fun f hf => ?_) (fun f hf => rfl)
    rw [mem_store, if_neg]
    intro e
    have := so1 f (by simp [hf])
    rw [← e] at this
    unfold Outside PGSIZE at this
    omega
  · show k.num_free_pages = _
    rw [hR.count]
    simp only [List.length_cons, List.length_nil]
    push_cast
    ring
  · refine SrcOK_sub L _ _ _ pgdir 0 (fun x hx => ?_) c2
    simp only [List.map_cons, List.mem_append, List.mem_cons, List.nil_append,
      List.mem_singleton, List.not_mem_nil, or_false] at hx ⊢
    rcases hx with (h | h) | h
    · exact Or.inr (Or.inl h)
    · exact Or.inl h
    · exact Or.inr (Or.inr h)
  · rw [hR.tcnt, c5]
  · intro p hp
    rcases List.mem_cons.mp hp with e | e
    · subst e
      refine ⟨a1, a2, a3, by rw [c6 a a3, hs]; exact h0, ?_, hR.xrc g (List.mem_singleton.mpr rfl),
        fun x x1 x2 => ?_⟩
      · show deref (store k s v) (leafSlot (store k s v) pgdir a) = _
        rw [c6 a a3, hs, deref_store_same, u32_of_lt v hv32]
        exact hv.symm
      · rw [mem_store, if_neg]
        · exact hz x x1 x2
        · intro e
          have := so1 g hgl
          rw [← e] at this
          unfold Outside at this
          omega
    · have hpA : p.2 ∈ D.map Prod.snd ++ (T ++ l) :=
        List.mem_append_left _ (List.mem_map.mpr ⟨p, e, rfl⟩)
      obtain ⟨d1, _, d3, d4, _⟩ := hR.data p e
      exact c8 p e (hnd2 p.2 hpA) (hslne p.1 d1 d3 (pair_not_mem D a hnew p e) d4)
  · rw [List.map_cons, List.nodup_cons]
    refine ⟨fun h => ?_, hR.dnd⟩
    obtain ⟨p, hp, e⟩ := List.mem_map.mp h
    exact pair_not_mem D a hnew p hp e
  · intro x hx
    cases hx
  · intro b b1 b2 b3 b4
    have hba : b ≠ a := fun e => b3 g (by rw [e]; exact List.mem_cons_self _ _)
    have hbD : ∀ g', (b, g') ∉ D := fun g' h => b3 g' (List.mem_cons_of_mem _ h)
    rw [c6 b b2] at b4
    rw [c7 b b2 b4 (hslne b b1 b2 hba b4)]
    exact hR.rest b b1 b2 hbD b4
  · intro p hp
    rcases List.mem_cons.mp hp with e | e
    · subst e; exact a4
    · exact hR.dtop p e

/-- The zeroed frame `t` held in `X` becomes the page table for the region of
the page `a`. -/
theorem link_table (L : Layout) (k0 : Kernel) (l0 : List Nat) (pgdir a0 top : Nat) (k : Kernel)
    (D : List (Nat × Nat)) (T : List Nat) (t : Nat) (X l : List Nat) (a : Nat)
    (hL : LayoutOK L) (hF : Frames L l0)
    (hR : RangeInv L k0 l0 pgdir a0 top k D T (t :: X) l) (a3 : a < KERNBASE)
    (hp : ¬ (pdeAt k pgdir (PDX a) &&& PTE_P ≠ 0))
    (hz : ∀ x, t ≤ x → x < t + PGSIZE → k.mem x = 0) :
    RangeInv L k0 l0 pgdir a0 top
        (store k (pgdir + 4 * PDX a) (V2P t ||| PTE_P ||| PTE_W ||| PTE_U)) D (t :: T) X l ∧
      (∀ x, x ≠ pgdir + 4 * PDX a →
        (store k (pgdir + 4 * PDX a) (V2P t ||| PTE_P ||| PTE_W ||| PTE_U)).mem x = k.mem x) ∧
      (∀ b, b < KERNBASE → PDX b = PDX a →
        leafSlot (store k (pgdir + 4 * PDX a) (V2P t ||| PTE_P ||| PTE_W ||| PTE_U)) pgdir b =
            t + 4 * PTX b ∧
          t + 4 * PTX b ≠ 0 ∧
          entry (store k (pgdir + 4 * PDX a) (V2P t ||| PTE_P ||| PTE_W ||| PTE_U)) pgdir b
            = 0) := by
  obtain ⟨bnd, bmem, bsub⟩ := range_basic L k0 l0 pgdir a0 top k D T (t :: X) l hF hR
  have htl : t ∈ D.map Prod.snd ++ ((t :: X) ++ l) := by simp
  obtain ⟨tl0, tv, t32⟩ := bmem t (bsub t htl)
  have tal := tv.1
  have htp : t ≠ pgdir := fun e => hR.dir.pfree (e ▸ htl)
  have ht0 : t ≠ 0 := by have := tv.2.1; have := hL.2; omega
  have hx := PDX_user a a3
  have pal := hR.dir.pal
  generalize hw : pgdir + 4 * PDX a = w at *
  have hval : V2P t ||| PTE_P ||| PTE_W ||| PTE_U = V2P t + 7 := pde_bits _ (V2P_aligned t tal)
  have hv32 : V2P t < 4294967296 := u32_lt _
  have hval32 : V2P t + 7 < 4294967296 := by have := V2P_aligned t tal; omega
  rw [hval]
  generalize hk' : store k w (V2P t + 7) = k' at *
  have hmem : ∀ y, k'.mem y = if y = w then V2P t + 7 else k.mem y := by
    intro y; rw [← hk']; rfl
  have hrc : k'.refcount = k.refcount := by rw [← hk']; rfl
  have hpde : pdeAt k' pgdir (PDX a) = V2P t + 7 := by
    unfold pdeAt deref
    rw [hw, hmem, if_pos rfl, u32_of_lt _ hval32]
  have hpres : pdeAt k' pgdir (PDX a) &&& PTE_P ≠ 0 := by
    rw [hpde]
    show (V2P t + 7) &&& 1 ≠ 0
    rw [Nat.and_one_is_mod]
    have := V2P_aligned t tal; omega
  have htab : tableOf k' pgdir (PDX a) = t := by
    unfold tableOf
    rw [hpde]
    have : PTE_ADDR (V2P t + 7) = V2P t := by
      unfold PTE_ADDR
      rw [u32_of_lt _ hval32]
      have := V2P_aligned t tal; omega
    rw [this, P2V_V2P t t32]
  have hother : ∀ j, j < 1024 → j ≠ PDX a → pdeAt k' pgdir j = pdeAt k pgdir j := by
    intro j hj hne
    apply pdeAt_congr
    rw [hmem, if_neg]
    omega
  have hothert : ∀ j, j < 1024 → j ≠ PDX a → tableOf k' pgdir j = tableOf k pgdir j :=
    fun j hj hne => tableOf_congr k k' pgdir j (hother j hj hne)
  have hcount : pdeCount k' pgdir = pdeCount k pgdir + 1 := by
    unfold pdeCount
    have := countP_range_update (fun i => decide (pdeAt k pgdir i &&& PTE_P ≠ 0))
      (fun i => decide (pdeAt k' pgdir i &&& PTE_P ≠ 0)) (PDX a) NPDENTRIES
      (by simpa using hp) (by simpa using hpres)
      (fun j hjn hj => by
        simp only [hother j (by unfold NPDENTRIES at hjn; omega) hj])
      NPDENTRIES (Nat.le_refl _)
    rw [this, if_pos (by unfold NPDENTRIES; omega)]
  -- the frames of the lists other than `t`
  have hnd2 : ∀ f, f ∈ D.map Prod.snd ++ (T ++ (X ++ l)) → f ≠ t := by
    intro f hf e
    subst e
    have h1 : (D.map Prod.snd ++ (T ++ ((f :: X) ++ l))).Perm
        (f :: (D.map Prod.snd ++ (T ++ (X ++ l)))) := by
      show (D.map Prod.snd ++ (T ++ f :: (X ++ l))).Perm _
      rw [← List.append_assoc]
      exact List.perm_middle.trans (List.Perm.cons _ (by rw [List.append_assoc]))
    exact (List.nodup_cons.mp (h1.nodup_iff.mp bnd)).1 hf
  have hsub : ∀ f, f ∈ D.map Prod.snd ++ (X ++ l) → f ∈ D.map Prod.snd ++ ((t :: X) ++ l) := by
    intro f hf
    simp only [List.mem_append, List.mem_cons, List.cons_append] at hf ⊢
    rcases hf with h | h | h
    · exact Or.inl h
    · exact Or.inr (Or.inr (Or.inl h))
    · exact Or.inr (Or.inr (Or.inr h))
  have hsubA : ∀ f, f ∈ D.map Prod.snd ++ (X ++ l) → f ∈ D.map Prod.snd ++ (T ++ (X ++ l)) := by
    intro f hf
    simp only [List.mem_append] at hf ⊢
    rcases hf with h | h | h
    · exact Or.inl h
    · exact Or.inr (Or.inr (Or.inl h))
    · exact Or.inr (Or.inr (Or.inr h))
  -- slots and entries of the pages of other regions
  have hslot : ∀ b, b < KERNBASE → PDX b ≠ PDX a → leafSlot k' pgdir b = leafSlot k pgdir b := by
    intro b hb hne
    rw [leafSlot_eq, leafSlot_eq, hother _ (PDX_lt b) hne, hothert _ (PDX_lt b) hne]
  have hslotw : ∀ b, b < KERNBASE → leafSlot k pgdir b ≠ 0 → leafSlot k pgdir b ≠ w := by
    intro b hb h0
    rw [← hw]
    exact (range_slot_out L k0 l0 pgdir a0 top k D T (t :: X) l hF hR b hb h0).2 _ (PDX_lt a)
  have hpdx : ∀ b, leafSlot k pgdir b ≠ 0 → PDX b ≠ PDX a := by
    intro b h0 e
    obtain ⟨q, _⟩ := slot_in_table k pgdir b h0
    rw [e] at q
    exact hp q
  have hent : ∀ b, b < KERNBASE → leafSlot k pgdir b ≠ 0 → entry k' pgdir b = entry k pgdir b := by
    intro b hb h0
    show deref k' (leafSlot k' pgdir b) = _
    rw [hslot b hb (hpdx b h0)]
    apply deref_congr
    rw [hmem, if_neg (hslotw b hb h0)]
  have hnew : ∀ b, b < KERNBASE → PDX b = PDX a →
      leafSlot k' pgdir b = t + 4 * PTX b ∧ t + 4 * PTX b ≠ 0 ∧ entry k' pgdir b = 0 := by
    intro b hb e
    have h1 : leafSlot k' pgdir b = t + 4 * PTX b := by
      rw [leafSlot_eq, e, if_pos hpres, htab]
    refine ⟨h1, by omega, ?_⟩
    show deref k' (leafSlot k' pgdir b) = 0
    rw [h1]
    unfold deref
    have hxb := PTX_lt b
    rw [hmem, if_neg, hz _ (by omega) (by unfold PGSIZE; omega)]
    · rfl
    · intro e2
      have := Outside_in_page pgdir t (4 * PDX a) pal tal (Ne.symm htp)
        (by unfold PGSIZE; omega)
      rw [hw, ← e2] at this
      unfold Outside PGSIZE at this
      omega
  have hlock : k'.use_lock = true := by rw [← hk']; exact hR.lock
  refine ⟨⟨?_, ?_, hlock, ?_, ?_, ?_, ?_, ?_, ?_, hR.dnd, ?_, ?_, ?_, hR.dtop⟩,
    fun x hx => by rw [hmem, if_neg hx], hnew⟩
  · have h1 : (D.map Prod.snd ++ ((t :: T) ++ (X ++ l))).Perm
        (D.map Prod.snd ++ (T ++ ((t :: X) ++ l))) := by
      apply List.Perm.append_left
      show (t :: (T ++ (X ++ l))).Perm (T ++ t :: (X ++ l))
      exact List.perm_middle.symm
    exact h1.trans hR.perm
  · refine FreeOK_congr L k k' l hR.free (by rw [← hk']; rfl) (fun f hf => ?_)
      (fun f hf => by rw [hrc])
    rw [hmem, if_neg]
    intro e
    have hfl : f ∈ D.map Prod.snd ++ ((t :: X) ++ l) := by simp [hf]
    have hfp : f ≠ pgdir := fun e2 => hR.dir.pfree (e2 ▸ hfl)
    have hfal := (bmem f (bsub f hfl)).2.1.1
    rw [← hw] at e
    unfold PGSIZE at hfal pal
    omega
  · show k'.num_free_pages = _
    have : k'.num_free_pages = k.num_free_pages := by rw [← hk']; rfl
    rw [this, hR.count]
    simp only [List.length_cons]
    push_cast
    ring
  · -- the directory
    refine ⟨Nat.zero_le _, pal, fun h => hR.dir.pfree (hsub _ h), fun j hj hpj => ?_,
      fun _ _ h0 => absurd h0 (Nat.not_lt_zero _),
      fun _ _ _ _ h0 => absurd h0 (Nat.not_lt_zero _)⟩
    by_cases hje : j = PDX a
    · subst hje
      rw [htab]
      refine ⟨fun h => hnd2 t (hsubA t h) rfl, htp, fun j' hj' hne hp' => ?_⟩
      rw [hother j' (by omega) hne] at hp'
      rw [hothert j' (by omega) hne]
      exact fun e => (hR.dir.tabs j' hj' hp').1 (by rw [e]; exact htl)
    · rw [hother j (by omega) hje] at hpj
      rw [hothert j (by omega) hje]
      obtain ⟨t1, t2, t3⟩ := hR.dir.tabs j hj hpj
      refine ⟨fun h => t1 (hsub _ h), t2, fun j' hj' hne hp' => ?_⟩
      by_cases hje' : j' = PDX a
      · subst hje'
        rw [htab]
        exact fun e => t1 (by rw [← e]; exact htl)
      · rw [hother j' (by omega) hje'] at hp'
        rw [hothert j' (by omega) hje']
        exact t3 j' hj' hne hp'
  · intro j hj hpj
    by_cases hje : j = PDX a
    · subst hje; rw [htab]; exact ht0
    · rw [hother j (by omega) hje] at hpj
      rw [hothert j (by omega) hje]
      exact hR.tnz j hj hpj
  · intro j hj hpj
    have hje : j ≠ PDX a := by
      intro e
      subst e
      have := hR.olddir _ hj hpj
      rw [← this] at hpj
      exact hp hpj
    rw [hother j hj hje]
    exact hR.olddir j hj hpj
  · rw [hcount, ← hR.tcnt]
    simp only [List.length_cons]
    omega
  · intro p hpD
    obtain ⟨d1, d2, d3, d4, d5, d6, d7⟩ := hR.data p hpD
    refine ⟨d1, d2, d3, by rw [hslot p.1 d3 (hpdx p.1 d4)]; exact d4,
      by rw [hent p.1 d3 d4]; exact d5, by rw [hrc]; exact d6, fun x x1 x2 => ?_⟩
    rw [hmem, if_neg, d7 x x1 x2]
    intro e
    have hpl : p.2 ∈ D.map Prod.snd ++ ((t :: X) ++ l) :=
      List.mem_append_left _ (List.mem_map.mpr ⟨p, hpD, rfl⟩)
    have hpp : p.2 ≠ pgdir := fun e2 => hR.dir.pfree (e2 ▸ hpl)
    have hpal := (bmem p.2 (bsub p.2 hpl)).2.1.1
    have := Outside_in_page pgdir p.2 (4 * PDX a) pal hpal (Ne.symm hpp)
      (by unfold PGSIZE; omega)
    rw [hw, ← e] at this
    unfold Outside at this
    omega
  · intro x hx
    rw [hrc]
    exact hR.xrc x (List.mem_cons_of_mem _ hx)
  · intro b b1 b2 b3 b4
    by_cases e : PDX b = PDX a
    · right
      refine ⟨?_, (hnew b b2 e).2.2⟩
      rw [leafSlot_eq, if_neg]
      rw [e]
      intro hp0
      have := hR.olddir _ (PDX_lt a) hp0
      rw [← this] at hp0
      exact hp hp0
    · rw [hslot b b2 e] at b4
      rw [hent b b2 b4]
      exact hR.rest b b1 b2 b3 b4
  · intro j hj
    rw [hrc]
    exact hR.rcold j hj

/-- The entry that `allocuvm` writes for the frame `g`. -/
theorem leafval_bits (g s : Nat) (hg : g % PGSIZE = 0) (hs4 : s < 4096)
    (hs7 : s &&& (PTE_W ||| PTE_U ||| PTE_P) = 0) :
    V2P g ||| (PTE_W ||| PTE_U) ||| PTE_P = V2P g + 7 ∧
      (V2P g ||| (PTE_W ||| PTE_U) ||| PTE_P) &&& PTE_P ≠ 0 ∧
      (V2P g ||| (PTE_W ||| PTE_U) ||| PTE_P) &&& PTE_W ≠ 0 ∧
      (V2P g ||| (PTE_W ||| PTE_U) ||| PTE_P) &&& PTE_U ≠ 0 ∧
      PTE_ADDR (V2P g ||| (PTE_W ||| PTE_U) ||| PTE_P) = V2P g ∧
      (V2P g ||| (PTE_W ||| PTE_U) ||| PTE_P) &&& s = 0 := by
  have hV2P : V2P g < 4294967296 := u32_lt _
  have hal : V2P g % 4096 = 0 := V2P_aligned g hg
  have hval : V2P g ||| (PTE_W ||| PTE_U) ||| PTE_P = V2P g + 7 := by
    rw [Nat.or_assoc]
    have : PTE_W ||| PTE_U ||| PTE_P = 7 := by decide
    rw [this]
    exact or_eq_add _ 7 hal (by omega)
  have h7 : (7 : Nat) &&& s = 0 := by
    have : PTE_W ||| PTE_U ||| PTE_P = 7 := by decide
    rw [this, Nat.and_comm] at hs7
    exact hs7
  have hmod : (V2P g + 7) % 4096 = 7 := by omega
  rw [hval]
  refine ⟨rfl, ?_, ?_, ?_, ?_, ?_⟩
  · rw [and_low _ PTE_P (by decide), hmod]; decide
  · rw [and_low _ PTE_W (by decide), hmod]; decide
  · rw [and_low _ PTE_U (by decide), hmod]; decide
  · unfold PTE_ADDR
    rw [u32_of_lt _ (by omega)]
    omega
  · rw [and_low _ s hs4, hmod, h7]

/-- The last reference to the frame `g` is dropped by `kfree`: the memory
outside the frame, the other counts and the lock flag stay, and the frame is
the new head of the free list. -/
theorem kfree_last (L : Layout) (k : Kernel) (g : Nat) (l : List Nat) (hL : LayoutOK L)
    (hlock : k.use_lock = true) (hf : FreeOK L k l) (hv : ValidFrame L g)
    (h32 : g < 4294967296) (hc : k.refcount (V2P g / PGSIZE) = 1) :
    ∃ k1, kfree L k g = .ok k1 ∧ FreeOK L k1 (g :: l) ∧ k1.use_lock = true ∧
      k1.num_free_pages = k.num_free_pages + 1 ∧
      (∀ x, Outside g x → k1.mem x = k.mem x) ∧
      (∀ j, j ≠ V2P g / PGSIZE → k1.refcount j = k.refcount j) := by
  obtain ⟨h1, h2⟩ := kfree_last_FreeOK L k g l hL hlock hf hv h32 hc
  refine ⟨_, h1, h2, ?_, ?_, fun x hx => ?_, fun j hj => ?_⟩
  · rw [kfreePush_lock]; exact hlock
  · rw [kfreePush_count]; rfl
  · rw [kfreePush_mem _ g x hx]; rfl
  · rw [kfreePush_refcount]
    exact setref_other k _ j 0 hj

/-- The page `a` is taken back: its frame returns to the free list and its
entry is cleared. -/
theorem drop_frame (L : Layout) (k0 : Kernel) (l0 : List Nat) (pgdir a0 top : Nat) (k : Kernel)
    (s t : List (Nat × Nat)) (T X l : List Nat) (a g : Nat) (hLg : LayoutGrow L)
    (hF : Frames L l0) (hR : RangeInv L k0 l0 pgdir a0 top k (s ++ (a, g) :: t) T X l) :
    ∃ k1, kfree L k g = .ok k1 ∧
      RangeInv L k0 l0 pgdir a0 top (store k1 (leafSlot k pgdir a) 0) (s ++ t) T X (g :: l) ∧
      leafSlot k pgdir a ≠ 0 ∧ entry k pgdir a &&& PTE_P ≠ 0 ∧
      PTE_ADDR (entry k pgdir a) ≠ 0 ∧ entry k pgdir a &&& L.PTE_S = 0 ∧
      P2V (PTE_ADDR (entry k pgdir a)) = g := by
  obtain ⟨hL, hke, hS4, hS7⟩ := hLg
  obtain ⟨bnd, bmem, bsub⟩ := range_basic L k0 l0 pgdir a0 top k _ T X l hF hR
  have hmemD : (a, g) ∈ s ++ (a, g) :: t := by simp
  have hgl : g ∈ (s ++ (a, g) :: t).map Prod.snd ++ (X ++ l) :=
    List.mem_append_left _ (List.mem_map.mpr ⟨(a, g), hmemD, rfl⟩)
  obtain ⟨gl0, gv, g32⟩ := bmem g (bsub g hgl)
  obtain ⟨d1, d2, d3, d4, d5, d6, d7⟩ := hR.data (a, g) hmemD
  simp only at d1 d2 d3 d4 d5 d6 d7
  obtain ⟨v1, v2, v3, v4, v5, v6⟩ := leafval_bits g L.PTE_S gv.1 hS4 hS7
  obtain ⟨so1, so2⟩ := range_slot_out L k0 l0 pgdir a0 top k _ T X l hF hR a d3 d4
  obtain ⟨k1, f1, f2, f3, f4, f5, f6⟩ := kfree_last L k g l hL hR.lock hR.free gv g32 d6
  have hfacts : entry k pgdir a &&& PTE_P ≠ 0 ∧ PTE_ADDR (entry k pgdir a) ≠ 0 ∧
      entry k pgdir a &&& L.PTE_S = 0 ∧ P2V (PTE_ADDR (entry k pgdir a)) = g := by
    rw [d5]
    refine ⟨v2, ?_, v6, ?_⟩
    · rw [v5]; exact V2P_ne_zero L g hke gv g32
    · rw [v5, P2V_V2P g g32]
  generalize hs : leafSlot k pgdir a = sl at *
  -- distinctness of the frames and of the pages
  have hperm : ((s ++ (a, g) :: t).map Prod.snd ++ (T ++ (X ++ l))).Perm
      (g :: ((s ++ t).map Prod.snd ++ (T ++ (X ++ l)))) := by
    simp only [List.map_append, List.map_cons, List.append_assoc, List.cons_append]
    exact List.perm_middle
  have hnd2 : ∀ f, f ∈ (s ++ t).map Prod.snd ++ (T ++ (X ++ l)) → f ≠ g := by
    intro f hf e
    subst e
    exact (List.nodup_cons.mp (hperm.nodup_iff.mp bnd)).1 hf
  have hdnd : ((s ++ (a, g) :: t).map Prod.fst).Perm (a :: (s ++ t).map Prod.fst) := by
    simp only [List.map_append, List.map_cons]
    exact List.perm_middle
  have hpa : ∀ p, p ∈ s ++ t → p.1 ≠ a := by
    intro p hp e
    have := (List.nodup_cons.mp (hdnd.nodup_iff.mp hR.dnd)).1
    exact this (List.mem_map.mpr ⟨p, hp, e⟩)
  have hsubD : ∀ p, p ∈ s ++ t → p ∈ s ++ (a, g) :: t := by
    intro p hp
    rcases List.mem_append.mp hp with h | h
    · exact List.mem_append_left _ h
    · exact List.mem_append_right _ (List.mem_cons_of_mem _ h)
  have hslne : ∀ b, b % PGSIZE = 0 → b < KERNBASE → b ≠ a → leafSlot k pgdir b ≠ 0 →
      leafSlot k pgdir b ≠ sl := by
    intro b b1 b2 b3 b4
    rw [← hs]
    exact SrcOK_slot_ne L k _ pgdir 0 b a hR.dir b2 d3 (by unfold PGSIZE at *; omega) b4
      (by rw [hs]; exact d4)
  obtain ⟨c1, c2, c3, c4, c5, c6, c7, c8, c9⟩ := range_act L k0 l0 pgdir a0 top k _ T X l
    (store k1 sl 0) g sl hF hR hgl
    (fun x hx hne => by rw [mem_store, if_neg hne, f5 x hx]) (fun j hj => f6 j hj) so2
    (fun p hp _ => so1 p.2 (List.mem_append_left _ (List.mem_map.mpr ⟨p, hp, rfl⟩)))
  refine ⟨k1, f1, ⟨?_, ?_, f3, ?_, ?_, c3, c4, ?_, ?_, ?_, ?_, ?_, c9,
    fun p hp => hR.dtop p (hsubD p hp)⟩, d4, hfacts⟩
  · have h1 : ((s ++ t).map Prod.snd ++ (T ++ (X ++ g :: l))).Perm
        (g :: ((s ++ t).map Prod.snd ++ (T ++ (X ++ l)))) := by
      rw [← List.append_assoc, ← List.append_assoc, ← List.append_assoc,
        ← List.append_assoc]
      exact List.perm_middle
    exact (h1.trans hperm.symm).trans hR.perm
  · refine FreeOK_congr L k1 _ (g :: l) f2 rfl (fun f hf => ?_) (fun f hf => rfl)
    rw [mem_store, if_neg]
    intro e
    have hfl : f ∈ (s ++ (a, g) :: t).map Prod.snd ++ (X ++ l) := by
      rcases List.mem_cons.mp hf with h | h
      · rw [h]; exact hgl
      · exact List.mem_append_right _ (List.mem_append_right _ h)
    have := so1 f hfl
    rw [← e] at this
    unfold Outside PGSIZE at this
    omega
  · show k1.num_free_pages = _
    rw [f4, hR.count]
    simp only [List.length_append, List.length_cons]
    push_cast
    ring
  · refine SrcOK_sub L _ _ _ pgdir 0 (fun x hx => ?_) c2
    rcases List.mem_append.mp hx with h | h
    · obtain ⟨p, hp, e⟩ := List.mem_map.mp h
      exact List.mem_append_left _ (List.mem_map.mpr ⟨p, hsubD p hp, e⟩)
    · rcases List.mem_append.mp h with h | h
      · exact List.mem_append_right _ (List.mem_append_left _ h)
      · rcases List.mem_cons.mp h with h | h
        · rw [h]; exact hgl
        · exact List.mem_append_right _ (List.mem_append_right _ h)
  · rw [hR.tcnt, c5]
  · intro p hp
    have hpA : p.2 ∈ (s ++ t).map Prod.snd ++ (T ++ (X ++ l)) :=
      List.mem_append_left _ (List.mem_map.mpr ⟨p, hp, rfl⟩)
    obtain ⟨e1, _, e3, e4, _⟩ := hR.data p (hsubD p hp)
    exact c8 p (hsubD p hp) (hnd2 p.2 hpA) (hslne p.1 e1 e3 (hpa p hp) e4)
  · exact (List.nodup_cons.mp (hdnd.nodup_iff.mp hR.dnd)).2
  · intro x hx
    have hxA : x ∈ (s ++ t).map Prod.snd ++ (T ++ (X ++ l)) := by simp [hx]
    have hxA' : x ∈ (s ++ (a, g) :: t).map Prod.snd ++ (T ++ (X ++ l)) := by simp [hx]
    show k1.refcount _ = 1
    rw [f6 _ (fun e => hnd2 x hxA (idx_inj x g (bmem x hxA').2.1.1 gv.1 (bmem x hxA').2.2 g32 e))]
    exact hR.xrc x hx
  · intro b b1 b2 b3 b4
    rw [c6 b b2] at b4
    by_cases hba : b = a
    · subst hba
      have he : entry (store k1 sl 0) pgdir b = 0 := by
        show deref (store k1 sl 0) (leafSlot (store k1 sl 0) pgdir b) = 0
        rw [c6 b b2, hs, deref_store_same]
        rfl
      by_cases h0 : leafSlot k0 pgdir b = 0
      · exact Or.inr ⟨h0, he⟩
      · exact Or.inl ⟨h0, Or.inr ⟨d2, hR.dtop (b, g) hmemD, he⟩⟩
    · have hbD : ∀ g', (b, g') ∉ s ++ (a, g) :: t := by
        intro g' h
        rcases List.mem_append.mp h with h | h
        · exact b3 g' (List.mem_append_left _ h)
        · rcases List.mem_cons.mp h with h | h
          · exact hba (congrArg Prod.fst h)
          · exact b3 g' (List.mem_append_right _ h)
      rw [c7 b b2 b4 (hslne b b1 b2 hba b4)]
      exact hR.rest b b1 b2 hbD b4

/-- The frame held in `X` goes back to the free list. -/
theorem drop_extra (L : Layout) (k0 : Kernel) (l0 : List Nat) (pgdir a0 top : Nat) (k : Kernel)
    (D : List (Nat × Nat)) (T : List Nat) (g : Nat) (l : List Nat) (hL : LayoutOK L)
    (hF : Frames L l0) (hR : RangeInv L k0 l0 pgdir a0 top k D T [g] l) :
    ∃ k1, kfree L k g = .ok k1 ∧ RangeInv L k0 l0 pgdir a0 top k1 D T [] (g :: l) ∧
      (∀ b, b < KERNBASE → leafSlot k1 pgdir b = leafSlot k pgdir b) ∧
      (∀ b, b < KERNBASE → leafSlot k pgdir b ≠ 0 → entry k1 pgdir b = entry k pgdir b) := by
  obtain ⟨bnd, bmem, bsub⟩ := range_basic L k0 l0 pgdir a0 top k D T [g] l hF hR
  have hgl : g ∈ D.map Prod.snd ++ ([g] ++ l) := by simp
  obtain ⟨gl0, gv, g32⟩ := bmem g (bsub g hgl)
  have hgp : g ≠ pgdir := fun e => hR.dir.pfree (e ▸ hgl)
  obtain ⟨k1, f1, f2, f3, f4, f5, f6⟩ := kfree_last L k g l hL hR.lock hR.free gv g32
    (hR.xrc g (List.mem_singleton.mpr rfl))
  have hnd2 : ∀ f, f ∈ D.map Prod.snd ++ (T ++ l) → f ≠ g := by
    intro f hf e
    subst e
    have h1 : (D.map Prod.snd ++ (T ++ ([f] ++ l))).Perm
        (f :: (D.map Prod.snd ++ (T ++ l))) := by
      show (D.map Prod.snd ++ (T ++ f :: l)).Perm (f :: (D.map Prod.snd ++ (T ++ l)))
      rw [← List.append_assoc, ← List.append_assoc]
      exact List.perm_middle
    exact (List.nodup_cons.mp (h1.nodup_iff.mp bnd)).1 hf
  have hslotg : ∀ b, b < KERNBASE → leafSlot k pgdir b ≠ 0 → leafSlot k pgdir b ≠ g := by
    intro b hb h0 e
    have := (range_slot_out L k0 l0 pgdir a0 top k D T [g] l hF hR b hb h0).1 g hgl
    rw [e] at this
    unfold Outside PGSIZE at this
    omega
  obtain ⟨c1, c2, c3, c4, c5, c6, c7, c8, c9⟩ := range_act L k0 l0 pgdir a0 top k D T [g] l
    k1 g g hF hR hgl (fun x hx _ => f5 x hx) f6
    (fun j hj => frame_ne_dirword g pgdir j gv.1 hR.dir.pal hgp hj)
    (fun p hp hpg => by
      have hpA : p.2 ∈ D.map Prod.snd ++ (T ++ ([g] ++ l)) :=
        List.mem_append_left _ (List.mem_map.mpr ⟨p, hp, rfl⟩)
      exact Outside_of_ne p.2 g (bmem p.2 hpA).2.1.1 gv.1 hpg)
  refine ⟨k1, f1, ⟨?_, f2, f3, ?_, ?_, c3, c4, ?_, ?_, hR.dnd, ?_, ?_, c9, hR.dtop⟩, c6,
    fun b hb h0 => c7 b hb h0 (hslotg b hb h0)⟩
  · exact hR.perm
  · rw [f4, hR.count]
    simp only [List.length_cons, List.length_nil]
    push_cast
    ring
  · exact c2
  · rw [hR.tcnt, c5]
  · intro p hp
    have hpA : p.2 ∈ D.map Prod.snd ++ (T ++ l) :=
      List.mem_append_left _ (List.mem_map.mpr ⟨p, hp, rfl⟩)
    exact c8 p hp (hnd2 p.2 hpA) (hslotg p.1 (hR.data p hp).2.2.1 (hR.data p hp).2.2.2.1)
  · intro x hx; cases hx
  · intro b b1 b2 b3 b4
    rw [c6 b b2] at b4
    rw [c7 b b2 b4 (hslotg b b2 b4)]
    exact hR.rest b b1 b2 b3 b4

/-! ## allocuvm: taking back what was mapped -/

/-- The loop of `deallocuvm` under an invariant of the state and the scan
address, without regard to the calls of `kfree`. -/
theorem dealloc_rule0 (L : Layout) (pgdir oldsz : Nat) (hle : oldsz ≤ KERNBASE)
    (I : Kernel → Nat → Prop)
    (habs : ∀ k a, a % PGSIZE = 0 → a < oldsz → I k a → leafSlot k pgdir a = 0 →
      I k ((a / 4194304 + 1) * 4194304))
    (hpres : ∀ k a, a % PGSIZE = 0 → a < oldsz → I k a → leafSlot k pgdir a ≠ 0 →
      ∃ k1, deallocuvmStep L k pgdir a = .ok (k1, a) ∧ I k1 (a + PGSIZE)) :
    ∀ n fuel k a, a % PGSIZE = 0 → pageCount a oldsz ≤ n → n < fuel → I k a →
      ∃ k' a', deallocuvmLoop L fuel k pgdir a oldsz = .ok k' ∧ oldsz ≤ a' ∧
        a' % PGSIZE = 0 ∧ a ≤ a' ∧ I k' a' := by
  intro n
  induction n with
  | zero =>
    intro fuel k a ha hn hf hI
    obtain ⟨f, rfl⟩ : ∃ f, fuel = f + 1 := ⟨fuel - 1, by omega⟩
    have hge : ¬ a < oldsz := by
      unfold pageCount PGSIZE at hn; unfold PGSIZE at ha; omega
    exact ⟨k, a, deallocuvmLoop_done L f k pgdir a oldsz hge, by omega, ha, le_refl _, hI⟩
  | succ m ih =>
    intro fuel k a ha hn hf hI
    obtain ⟨f, rfl⟩ : ∃ f, fuel = f + 1 := ⟨fuel - 1, by omega⟩
    by_cases hlt : a < oldsz
    · by_cases h0 : leafSlot k pgdir a = 0
      · have hI' := habs k a ha hlt hI h0
        have hstep := deallocuvmStep_absent L k pgdir a h0
        have hnext := next_region a (by omega)
        have hal : (a / 4194304 + 1) * 4194304 % PGSIZE = 0 := by unfold PGSIZE; omega
        have hgt : a + PGSIZE ≤ (a / 4194304 + 1) * 4194304 := by
          unfold PGSIZE at *; omega
        obtain ⟨k', a', r1, r2, r3, r4, r5⟩ := ih f k ((a / 4194304 + 1) * 4194304) hal
          (by unfold pageCount PGSIZE at *; omega) (by omega) hI'
        refine ⟨k', a', ?_, r2, r3, by omega, r5⟩
        rw [deallocuvmLoop_step L f k pgdir a oldsz _ _ hlt hstep, hnext]
        exact r1
      · obtain ⟨k1, hstep, hI'⟩ := hpres k a ha hlt hI h0
        have hu : u32 (a + PGSIZE) = a + PGSIZE := by
          apply u32_of_lt; unfold KERNBASE at hle; unfold PGSIZE; omega
        obtain ⟨k', a', r1, r2, r3, r4, r5⟩ := ih f k1 (a + PGSIZE)
          (by unfold PGSIZE at *; omega) (by unfold pageCount PGSIZE at *; omega) (by omega) hI'
        refine ⟨k', a', ?_, r2, r3, by omega, r5⟩
        rw [deallocuvmLoop_step L f k pgdir a oldsz _ _ hlt hstep, hu]
        exact r1
    · exact ⟨k, a, deallocuvmLoop_done L f k pgdir a oldsz hlt, by omega, ha, le_refl _, hI⟩

/-- A page outside `D` that has a leaf entry is not present, when the pages of
the range were not present at the start. -/
theorem rest_absent (L : Layout) (k0 : Kernel) (l0 : List Nat) (pgdir a0 top newsz : Nat)
    (k : Kernel) (D : List (Nat × Nat)) (T X l : List Nat)
    (hR : RangeInv L k0 l0 pgdir a0 top k D T X l)
    (hun : ∀ b, b % PGSIZE = 0 → a0 ≤ b → b < newsz → leafSlot k0 pgdir b ≠ 0 →
      entry k0 pgdir b &&& PTE_P = 0)
    (b : Nat) (b1 : b % PGSIZE = 0) (b2 : b < KERNBASE) (b3 : a0 ≤ b) (b4 : b < newsz)
    (hb : ∀ g, (b, g) ∉ D) (h0 : leafSlot k pgdir b ≠ 0) :
    entry k pgdir b &&& PTE_P = 0 := by
  rcases hR.rest b b1 b2 hb h0 with ⟨r1, r2 | ⟨_, _, r2⟩⟩ | ⟨_, r2⟩
  · rw [r2]; exact hun b b1 b3 b4 r1
  · rw [r2]; rfl
  · rw [r2]; rfl

/-- The rollback of `allocuvm`: `deallocuvm(pgdir, newsz, oldsz)` takes back
every page that has been added. -/
theorem rollback (L : Layout) (k0 : Kernel) (l0 : List Nat) (pgdir oldsz newsz : Nat)
    (k : Kernel) (D : List (Nat × Nat)) (T X l : List Nat) (hLg : LayoutGrow L)
    (hF : Frames L l0) (hlt : oldsz < newsz) (hle : newsz < KERNBASE)
    (hR : RangeInv L k0 l0 pgdir (PGROUNDUP oldsz) newsz k D T X l)
    (hun : ∀ b, b % PGSIZE = 0 → PGROUNDUP oldsz ≤ b → b < newsz →
      leafSlot k0 pgdir b ≠ 0 → entry k0 pgdir b &&& PTE_P = 0) :
    ∃ k' l', deallocuvm L k pgdir newsz oldsz = .ok (k', oldsz) ∧
      RangeInv L k0 l0 pgdir (PGROUNDUP oldsz) newsz k' [] T X l' := by
  obtain ⟨r1, r2, r3, r4⟩ := PGROUNDUP_facts oldsz (by omega)
  generalize hA : PGROUNDUP oldsz = a0 at *
  let I : Kernel → Nat → Prop := fun k a =>
    a0 ≤ a ∧ ∃ D' l', RangeInv L k0 l0 pgdir a0 newsz k D' T X l' ∧ ∀ p ∈ D', a ≤ p.1 ∧ p.1 < newsz
  have hI0 : I k a0 := ⟨le_refl _, D, l, hR, fun p hp => ⟨(hR.data p hp).2.1, hR.dtop p hp⟩⟩
  have habs : ∀ k a, a % PGSIZE = 0 → a < newsz → I k a → leafSlot k pgdir a = 0 →
      I k ((a / 4194304 + 1) * 4194304) := by
    intro k a ha han ⟨ha0, D', l', hR', hD'⟩ h0
    refine ⟨by omega, D', l', hR', fun p hp => ⟨?_, (hD' p hp).2⟩⟩
    by_contra hlt2
    obtain ⟨d1, d2, d3, d4, _⟩ := hR'.data p hp
    have hpd := PDX_region a p.1 (by omega) (hD' p hp).1 (by omega)
    have hz := (slot_zero_iff k pgdir a (by omega) hR'.tnz).mp h0
    have hnz := (slot_zero_iff k pgdir p.1 d3 hR'.tnz).not.mp d4
    rw [hpd] at hnz
    exact hnz hz
  have hpres : ∀ k a, a % PGSIZE = 0 → a < newsz → I k a → leafSlot k pgdir a ≠ 0 →
      ∃ k1, deallocuvmStep L k pgdir a = .ok (k1, a) ∧ I k1 (a + PGSIZE) := by
    intro k a ha han ⟨ha0, D', l', hR', hD'⟩ h0
    by_cases hex : ∃ g, (a, g) ∈ D'
    · obtain ⟨g, hg⟩ := hex
      obtain ⟨s, t, hst⟩ := List.append_of_mem hg
      subst hst
      obtain ⟨k1, f1, f2, f3, f4, f5, f6, f7⟩ :=
        drop_frame L k0 l0 pgdir a0 newsz k s t T X l' a g hLg hF hR'
      have hk : kfree L k (P2V (PTE_ADDR (deref k (leafSlot k pgdir a)))) = .ok k1 := by
        have : P2V (PTE_ADDR (deref k (leafSlot k pgdir a))) = g := f7
        rw [this]; exact f1
      refine ⟨_, deallocuvmStep_free L k pgdir a k1 h0 f4 f5 f6 hk, by omega, s ++ t,
        g :: l', f2, fun p hp => ?_⟩
      have hpD : p ∈ s ++ (a, g) :: t := by
        rcases List.mem_append.mp hp with h | h
        · exact List.mem_append_left _ h
        · exact List.mem_append_right _ (List.mem_cons_of_mem _ h)
      obtain ⟨q1, q2⟩ := hD' p hpD
      have hne : p.1 ≠ a := by
        intro e
        have hdnd : ((s ++ (a, g) :: t).map Prod.fst).Perm (a :: (s ++ t).map Prod.fst) := by
          simp only [List.map_append, List.map_cons]
          exact List.perm_middle
        exact (List.nodup_cons.mp (hdnd.nodup_iff.mp hR'.dnd)).1
          (List.mem_map.mpr ⟨p, hp, e⟩)
      have := (hR'.data p hpD).1
      refine ⟨?_, q2⟩
      unfold PGSIZE at *; omega
    · have hno : ∀ g, (a, g) ∉ D' := fun g h => hex ⟨g, h⟩
      have hnp := rest_absent L k0 l0 pgdir a0 newsz newsz k D' T X l' hR' hun a ha (by omega)
        ha0 han hno h0
      refine ⟨k, deallocuvmStep_skip L k pgdir a h0 (by rw [ne_eq, not_not]; exact hnp),
        by omega, D', l', hR', fun p hp => ?_⟩
      obtain ⟨q1, q2⟩ := hD' p hp
      have hne : p.1 ≠ a := pair_not_mem D' a hno p hp
      have := (hR'.data p hp).1
      refine ⟨?_, q2⟩
      unfold PGSIZE at *; omega
  obtain ⟨k', a', e1, e2, e3, e4, _, D', l', e5, e6⟩ :=
    dealloc_rule0 L pgdir newsz (by omega) I habs hpres (pageCount a0 newsz) LOOP_FUEL k a0 r1
      (le_refl _) (by unfold pageCount PGSIZE LOOP_FUEL; unfold KERNBASE at hle; omega) hI0
  have hnil : D' = [] := by
    cases D' with
    | nil => rfl
    | cons p ps =>
      have := e6 p (List.mem_cons_self _ _)
      omega
  subst hnil
  refine ⟨k', l', ?_, e5⟩
  unfold deallocuvm
  rw [if_neg (by omega), hA, e1]

/-! ## allocuvm: one page -/

theorem allocuvmStep_nomem (L : Layout) (k : Kernel) (pgdir oldsz newsz a : Nat)
    (k2 : Kernel) (r : Nat) (h0 : k.freelist = 0)
    (hd : deallocuvm L k pgdir newsz oldsz = .ok (k2, r)) :
    allocuvmStep L k pgdir oldsz newsz a = .ok (k2, false) := by
  unfold allocuvmStep
  rw [kalloc_nil L k h0]
  simp only [if_true]
  rw [hd]

theorem allocuvmStep_map (L : Layout) (k : Kernel) (pgdir oldsz newsz a : Nat)
    (k3 : Kernel) (hg : (kalloc L k).2 ≠ 0)
    (hm : mappages L (memset (kalloc L k).1 (kalloc L k).2 0) pgdir a PGSIZE
      (V2P (kalloc L k).2) (PTE_W ||| PTE_U) = .ok (k3, 0)) :
    allocuvmStep L k pgdir oldsz newsz a = .ok (k3, true) := by
  unfold allocuvmStep
  generalize kalloc L k = K at *
  obtain ⟨k1, g⟩ := K
  simp only at hg hm ⊢
  rw [if_neg hg, hm]
  simp

theorem allocuvmStep_nomap (L : Layout) (k : Kernel) (pgdir oldsz newsz a : Nat)
    (k3 k4 k5 : Kernel) (r : Nat) (hg : (kalloc L k).2 ≠ 0)
    (hm : mappages L (memset (kalloc L k).1 (kalloc L k).2 0) pgdir a PGSIZE
      (V2P (kalloc L k).2) (PTE_W ||| PTE_U) = .ok (k3, -1))
    (hd : deallocuvm L k3 pgdir newsz oldsz = .ok (k4, r))
    (hf : kfree L k4 (kalloc L k).2 = .ok k5) :
    allocuvmStep L k pgdir oldsz newsz a = .ok (k5, false) := by
  unfold allocuvmStep
  generalize kalloc L k = K at *
  obtain ⟨k1, g⟩ := K
  simp only at hg hm hf ⊢
  rw [if_neg hg, hm]
  simp only
  rw [if_pos (by decide), hd]
  simp only
  rw [hf]

theorem FreeOK_head (L : Layout) (k : Kernel) (g : Nat) (l : List Nat)
    (h : FreeOK L k (g :: l)) : k.freelist = g ∧ g ≠ 0 :=
  ⟨h.1.1, h.1.2.1⟩

theorem FreeOK_nil_head (L : Layout) (k : Kernel) (h : FreeOK L k []) : k.freelist = 0 := h.1

/-- The body of the loop of `allocuvm` for the page `a`, next in the range:
with enough free frames the page is added; otherwise everything added so far
is taken back. -/
theorem grow_step (L : Layout) (k0 : Kernel) (l0 : List Nat) (pgdir oldsz newsz : Nat)
    (k : Kernel) (D : List (Nat × Nat)) (T l : List Nat) (a : Nat) (hLg : LayoutGrow L)
    (hF : Frames L l0) (hol : oldsz ≤ newsz) (hle : newsz < KERNBASE)
    (hR : RangeInv L k0 l0 pgdir (PGROUNDUP oldsz) newsz k D T [] l)
    (hDb : ∀ p ∈ D, p.1 < a) (a1 : a % PGSIZE = 0) (a2 : PGROUNDUP oldsz ≤ a)
    (a3 : a < newsz)
    (hun : ∀ b, b % PGSIZE = 0 → PGROUNDUP oldsz ≤ b → b < newsz →
      leafSlot k0 pgdir b ≠ 0 → entry k0 pgdir b &&& PTE_P = 0) :
    ∃ k1 ok D' T' l', allocuvmStep L k pgdir oldsz newsz a = .ok (k1, ok) ∧
      RangeInv L k0 l0 pgdir (PGROUNDUP oldsz) newsz k1 D' T' [] l' ∧
      ((ok = true ∧ (∃ g, D' = (a, g) :: D) ∧
          l'.length + (if pdeAt k pgdir (PDX a) &&& PTE_P ≠ 0 then 1 else 2) = l.length) ∨
        (ok = false ∧ D' = [] ∧
          l.length < (if pdeAt k pgdir (PDX a) &&& PTE_P ≠ 0 then 1 else 2))) := by
  have hL := hLg.1
  obtain ⟨r1, r2, r3, r4⟩ := PGROUNDUP_facts oldsz (by omega)
  have hlt : oldsz < newsz := by omega
  have hak : a < KERNBASE := by omega
  have hnew : ∀ g', (a, g') ∉ D := fun g' h => by have := hDb _ h; simp at this
  have h32 : a + PGSIZE ≤ 4294967296 := by unfold KERNBASE at hak; unfold PGSIZE; omega
  cases l with
  | nil =>
    obtain ⟨k', l', d1, d2⟩ := rollback L k0 l0 pgdir oldsz newsz k D T [] [] hLg hF hlt hle hR
      hun
    refine ⟨k', false, [], T, l', allocuvmStep_nomem L k pgdir oldsz newsz a k' oldsz
      (FreeOK_nil_head L k hR.free) d1, d2, Or.inr ⟨rfl, rfl, ?_⟩⟩
    by_cases hp : pdeAt k pgdir (PDX a) &&& PTE_P ≠ 0
    · rw [if_pos hp]; simp
    · rw [if_neg hp]; simp
  | cons g l1 =>
    obtain ⟨ka1, hR2, z1, z2, z3, z4, z5⟩ := take_frame L k0 l0 pgdir _ newsz k D T [] g l1 hL hF hR
    have hg0 : g ≠ 0 := (FreeOK_head L k g l1 hR.free).2
    generalize hk2 : memset (kalloc L k).1 g 0 = k2 at *
    by_cases hp : pdeAt k pgdir (PDX a) &&& PTE_P ≠ 0
    · -- the page table exists
      have hp2 : pdeAt k2 pgdir (PDX a) &&& PTE_P ≠ 0 := by rw [z3 _ (PDX_lt a)]; exact hp
      have hw := walk_present L k2 pgdir a 1 hp2
      have hsl : leafSlot k2 pgdir a = tableOf k2 pgdir (PDX a) + 4 * PTX a := by
        rw [leafSlot_eq, if_pos hp2]
      have hs0 : leafSlot k2 pgdir a ≠ 0 :=
        (slot_zero_iff k2 pgdir a hak hR2.tnz).not.mpr (not_not.mpr hp2)
      have hnp := rest_absent L k0 l0 pgdir _ newsz newsz k2 D T [g] l1 hR2 hun a a1 hak a2 a3 hnew hs0
      have hmap : mappages L k2 pgdir a PGSIZE (V2P g) (PTE_W ||| PTE_U) =
          .ok (store k2 (leafSlot k2 pgdir a) (V2P g ||| (PTE_W ||| PTE_U) ||| PTE_P), 0) := by
        rw [mappages_page L k2 pgdir a (V2P g) (PTE_W ||| PTE_U) a1 h32, hw]
        simp only
        rw [← hsl, if_neg hs0, if_neg (by rw [ne_eq, not_not]; exact hnp)]
      have hR3 := map_frame L k0 l0 pgdir _ newsz k2 D T g l1 a hF hR2 a1 a2 hak a3 hnew hs0 z1
      refine ⟨_, true, (a, g) :: D, T, l1, ?_, hR3, Or.inl ⟨rfl, ⟨g, rfl⟩, ?_⟩⟩
      · apply allocuvmStep_map L k pgdir oldsz newsz a _ (by rw [ka1]; exact hg0)
        rw [ka1, hk2]
        exact hmap
      · rw [if_pos hp]; simp
    · -- a page table is needed
      have hp2 : ¬ (pdeAt k2 pgdir (PDX a) &&& PTE_P ≠ 0) := by rw [z3 _ (PDX_lt a)]; exact hp
      cases l1 with
      | nil =>
        have hw := walk_absent_nil L k2 pgdir a hp2 (FreeOK_nil_head L k2 hR2.free)
        have hmap : mappages L k2 pgdir a PGSIZE (V2P g) (PTE_W ||| PTE_U) = .ok (k2, -1) := by
          rw [mappages_page L k2 pgdir a (V2P g) (PTE_W ||| PTE_U) a1 h32, hw]
          simp only [if_true]
        obtain ⟨k4, l4, d1, d2⟩ := rollback L k0 l0 pgdir oldsz newsz k2 D T [g] [] hLg hF hlt
          hle hR2 hun
        obtain ⟨k5, e1, e2, _⟩ := drop_extra L k0 l0 pgdir _ newsz k4 [] T g l4 hL hF d2
        refine ⟨k5, false, [], T, g :: l4, ?_, e2, Or.inr ⟨rfl, rfl, ?_⟩⟩
        · apply allocuvmStep_nomap L k pgdir oldsz newsz a k2 k4 k5 oldsz
            (by rw [ka1]; exact hg0)
          · rw [ka1, hk2]; exact hmap
          · exact d1
          · rw [ka1]; exact e1
        · rw [if_neg hp]; simp
      | cons t l2 =>
        obtain ⟨ht, ht0⟩ := FreeOK_head L k2 t l2 hR2.free
        have hw := walk_absent_cons L k2 pgdir a t hp2 ht ht0
        obtain ⟨kb1, hR3, y1, y2, y3, y4, y5⟩ :=
          take_frame L k0 l0 pgdir _ newsz k2 D T [g] t l2 hL hF hR2
        have hp3 : ¬ (pdeAt (memset (kalloc L k2).1 t 0) pgdir (PDX a) &&& PTE_P ≠ 0) := by
          rw [y3 _ (PDX_lt a)]; exact hp2
        obtain ⟨hR4, m1, m2⟩ := link_table L k0 l0 pgdir _ newsz _ D T t [g] l2 a hL hF hR3 hak hp3 y1
        obtain ⟨n1, n2, n3⟩ := m2 a hak rfl
        have hat : allocTable L k2 pgdir a t =
            store (memset (kalloc L k2).1 t 0) (pgdir + 4 * PDX a)
              (V2P t ||| PTE_P ||| PTE_W ||| PTE_U) := rfl
        rw [← hat] at hR4 m1 n1 n3
        generalize hk3 : allocTable L k2 pgdir a t = k3 at *
        -- the frame `g` is still zero
        obtain ⟨bnd, bmem, bsub⟩ := range_basic L k0 l0 pgdir _ newsz k2 D T [g] (t :: l2) hF hR2
        have hgl : g ∈ D.map Prod.snd ++ ([g] ++ t :: l2) := by simp
        have htl : t ∈ D.map Prod.snd ++ ([g] ++ t :: l2) := by simp
        obtain ⟨_, gv, g32⟩ := bmem g (bsub g hgl)
        obtain ⟨_, tv, t32⟩ := bmem t (bsub t htl)
        have hgt : g ≠ t := by
          intro e
          have h1 : (D.map Prod.snd ++ (T ++ ([g] ++ t :: l2))).Perm
              (g :: t :: (D.map Prod.snd ++ (T ++ l2))) := by
            show (D.map Prod.snd ++ (T ++ g :: t :: l2)).Perm _
            rw [← List.append_assoc]
            exact List.perm_middle.trans (List.Perm.cons _
              (List.perm_middle.trans (List.Perm.cons _ (by rw [List.append_assoc]))))
          have := (List.nodup_cons.mp (h1.nodup_iff.mp bnd)).1
          rw [e] at this
          exact this (List.mem_cons_self _ _)
        have hgp : g ≠ pgdir := fun e => hR2.dir.pfree (e ▸ hgl)
        have hz3 : ∀ x, g ≤ x → x < g + PGSIZE → k3.mem x = 0 := by
          intro x x1 x2
          have hO : Outside t x := by
            have := Outside_of_ne t g tv.1 gv.1 (Ne.symm hgt)
            have h1 := gv.1
            have h2 := tv.1
            unfold Outside PGSIZE at *
            omega
          rw [m1 x ?_, y2 x hO, z1 x x1 x2]
          intro e
          have := Outside_in_page pgdir g (4 * PDX a) hR2.dir.pal gv.1 (Ne.symm hgp)
            (by have := PDX_lt a; unfold PGSIZE; omega)
          rw [← e] at this
          unfold Outside at this
          omega
        have hs3 : leafSlot k3 pgdir a ≠ 0 := by rw [n1]; exact n2
        have hmap : mappages L k2 pgdir a PGSIZE (V2P g) (PTE_W ||| PTE_U) =
            .ok (store k3 (leafSlot k3 pgdir a) (V2P g ||| (PTE_W ||| PTE_U) ||| PTE_P), 0) := by
          rw [mappages_page L k2 pgdir a (V2P g) (PTE_W ||| PTE_U) a1 h32, hw]
          simp only
          rw [← n1, if_neg hs3, if_neg]
          rw [ne_eq, not_not]
          have : deref k3 (leafSlot k3 pgdir a) = 0 := n3
          rw [this]
          rfl
        have hR5 := map_frame L k0 l0 pgdir _ newsz k3 D (t :: T) g l2 a hF hR4 a1 a2 hak a3 hnew hs3 hz3
        refine ⟨_, true, (a, g) :: D, t :: T, l2, ?_, hR5, Or.inl ⟨rfl, ⟨g, rfl⟩, ?_⟩⟩
        · apply allocuvmStep_map L k pgdir oldsz newsz a _ (by rw [ka1]; exact hg0)
          rw [ka1, hk2]
          exact hmap
        · rw [if_neg hp]; simp

/-! ## allocuvm: the loop -/

theorem allocuvmLoop_done (L : Layout) (fuel : Nat) (k : Kernel) (pgdir oldsz newsz a : Nat)
    (h : ¬ a < newsz) :
    allocuvmLoop L (fuel + 1) k pgdir oldsz newsz a = .ok (k, toInt newsz) := by
  rw [allocuvmLoop, if_neg h]

theorem allocuvmLoop_go (L : Layout) (fuel : Nat) (k : Kernel) (pgdir oldsz newsz a : Nat)
    (k1 : Kernel) (h : a < newsz)
    (hs : allocuvmStep L k pgdir oldsz newsz a = .ok (k1, true)) :
    allocuvmLoop L (fuel + 1) k pgdir oldsz newsz a =
      allocuvmLoop L fuel k1 pgdir oldsz newsz (u32 (a + PGSIZE)) := by
  rw [allocuvmLoop, if_pos h, hs]

theorem allocuvmLoop_stop (L : Layout) (fuel : Nat) (k : Kernel) (pgdir oldsz newsz a : Nat)
    (k1 : Kernel) (h : a < newsz)
    (hs : allocuvmStep L k pgdir oldsz newsz a = .ok (k1, false)) :
    allocuvmLoop L (fuel + 1) k pgdir oldsz newsz a = .ok (k1, 0) := by
  rw [allocuvmLoop, if_pos h, hs]

/-- The frames the loop takes for the page `a` are at most `growCost` of the
page in the state the call began in. -/
theorem growCost_ge (L : Layout) (k0 : Kernel) (l0 : List Nat) (pgdir a0 top : Nat)
    (k : Kernel) (D : List (Nat × Nat)) (T l : List Nat) (a : Nat)
    (hR : RangeInv L k0 l0 pgdir a0 top k D T [] l)
    (a1 : a % PGSIZE = 0) (a2 : a0 ≤ a) (a3 : a < KERNBASE) (ha0 : a0 % PGSIZE = 0)
    (hcov : ∀ b, b % PGSIZE = 0 → a0 ≤ b → b < a → ∃ g, (b, g) ∈ D) :
    (if pdeAt k pgdir (PDX a) &&& PTE_P ≠ 0 then 1 else 2) ≤ growCost k0 pgdir a0 a := by
  unfold growCost
  by_cases hp : pdeAt k pgdir (PDX a) &&& PTE_P ≠ 0
  · rw [if_pos hp]
    split_ifs <;> omega
  · rw [if_neg hp, if_pos]
    refine ⟨fun hp0 => ?_, ?_⟩
    · have := hR.olddir _ (PDX_lt a) hp0
      rw [← this] at hp0
      exact hp hp0
    · by_contra hc
      have c1 : a ≠ a0 := fun e => hc (Or.inl e)
      have c2 : PTX a ≠ 0 := fun e => hc (Or.inr e)
      have hprev : PDX (a - PGSIZE) = PDX a := by
        unfold PTX u32 at c2
        unfold PDX u32 PGSIZE
        unfold KERNBASE at a3
        unfold PGSIZE at a1
        omega
      obtain ⟨g, hg⟩ := hcov (a - PGSIZE) (by unfold PGSIZE at *; omega)
        (by unfold PGSIZE at *; omega) (by unfold PGSIZE at *; omega)
      obtain ⟨d1, d2, d3, d4, _⟩ := hR.data _ hg
      have := (slot_in_table k pgdir _ d4).1
      rw [hprev] at this
      exact hp this

/-- The loop of `allocuvm` from the page `a` on: either every page of the range
is added, or the free list was too short and everything added is taken back. -/
theorem grow_loop (L : Layout) (k0 : Kernel) (l0 : List Nat) (pgdir oldsz newsz : Nat)
    (hLg : LayoutGrow L) (hF : Frames L l0) (hol : oldsz ≤ newsz) (hle : newsz < KERNBASE)
    (hun : ∀ b, b % PGSIZE = 0 → PGROUNDUP oldsz ≤ b → b < newsz →
      leafSlot k0 pgdir b ≠ 0 → entry k0 pgdir b &&& PTE_P = 0) :
    ∀ n fuel k a D T l, a % PGSIZE = 0 → PGROUNDUP oldsz ≤ a → pageCount a newsz ≤ n →
      n < fuel → RangeInv L k0 l0 pgdir (PGROUNDUP oldsz) newsz k D T [] l →
      (∀ b, b % PGSIZE = 0 → PGROUNDUP oldsz ≤ b → b < a → ∃ g, (b, g) ∈ D) →
      (∀ p ∈ D, p.1 < a) →
      ∃ k' r D' T' l', allocuvmLoop L fuel k pgdir oldsz newsz a = .ok (k', r) ∧
        RangeInv L k0 l0 pgdir (PGROUNDUP oldsz) newsz k' D' T' [] l' ∧
        ((r = (newsz : Int) ∧
            ∀ b, b % PGSIZE = 0 → PGROUNDUP oldsz ≤ b → b < newsz → ∃ g, (b, g) ∈ D') ∨
          (r = 0 ∧ D' = [] ∧
            l.length < ((pagesFrom a (pageCount a newsz)).map
              (growCost k0 pgdir (PGROUNDUP oldsz))).sum)) := by
  obtain ⟨r1, r2, r3, r4⟩ := PGROUNDUP_facts oldsz (by omega)
  have hti : toInt newsz = (newsz : Int) :=
    toInt_of_lt newsz hle
  intro n
  induction n with
  | zero =>
    intro fuel k a D T l ha ha0 hn hf hR hcov hDb
    obtain ⟨f, rfl⟩ : ∃ f, fuel = f + 1 := ⟨fuel - 1, by omega⟩
    have hge : ¬ a < newsz := by
      unfold pageCount PGSIZE at hn; unfold PGSIZE at ha; omega
    refine ⟨k, _, D, T, l, allocuvmLoop_done L f k pgdir oldsz newsz a hge, hR,
      Or.inl ⟨hti, fun b b1 b2 b3 => hcov b b1 b2 (by omega)⟩⟩
  | succ m ih =>
    intro fuel k a D T l ha ha0 hn hf hR hcov hDb
    obtain ⟨f, rfl⟩ : ∃ f, fuel = f + 1 := ⟨fuel - 1, by omega⟩
    by_cases hlt : a < newsz
    · obtain ⟨k1, ok, D1, T1, l1, hs, hR1, hcase⟩ :=
        grow_step L k0 l0 pgdir oldsz newsz k D T l a hLg hF hol hle hR hDb ha ha0 hlt hun
      have hcost := growCost_ge L k0 l0 pgdir _ newsz k D T l a hR ha ha0 (by omega) r1 hcov
      have hpc : pageCount a newsz = pageCount (a + PGSIZE) newsz + 1 := by
        unfold pageCount PGSIZE; unfold PGSIZE at ha; omega
      have hneed : ((pagesFrom a (pageCount a newsz)).map
            (growCost k0 pgdir (PGROUNDUP oldsz))).sum =
          growCost k0 pgdir (PGROUNDUP oldsz) a +
            ((pagesFrom (a + PGSIZE) (pageCount (a + PGSIZE) newsz)).map
              (growCost k0 pgdir (PGROUNDUP oldsz))).sum := by
        rw [hpc]
        simp only [pagesFrom, List.map_cons, List.sum_cons]
      rw [hneed]
      have hu : u32 (a + PGSIZE) = a + PGSIZE := by
        apply u32_of_lt; unfold KERNBASE at hle; unfold PGSIZE; omega
      rcases hcase with ⟨rfl, ⟨g, rfl⟩, hlen⟩ | ⟨rfl, rfl, hlen⟩
      · obtain ⟨k', r, D', T', l', e1, e2, e3⟩ := ih f k1 (a + PGSIZE) ((a, g) :: D) T1 l1
          (by unfold PGSIZE at *; omega) (by omega) (by omega) (by omega) hR1
          (fun b b1 b2 b3 => by
            by_cases e : b = a
            · exact ⟨g, by rw [e]; exact List.mem_cons_self _ _⟩
            · obtain ⟨g', hg'⟩ := hcov b b1 b2 (by unfold PGSIZE at *; omega)
              exact ⟨g', List.mem_cons_of_mem _ hg'⟩)
          (fun p hp => by
            rcases List.mem_cons.mp hp with e | e
            · subst e; show a < a + PGSIZE; unfold PGSIZE; omega
            · have := hDb p e; omega)
        refine ⟨k', r, D', T', l', ?_, e2, ?_⟩
        · rw [allocuvmLoop_go L f k pgdir oldsz newsz a k1 hlt hs, hu]
          exact e1
        · rcases e3 with h | ⟨h1, h2, h3⟩
          · exact Or.inl h
          · exact Or.inr ⟨h1, h2, by omega⟩
      · exact ⟨k1, 0, [], T1, l1, allocuvmLoop_stop L f k pgdir oldsz newsz a k1 hlt hs, hR1,
          Or.inr ⟨rfl, rfl, by omega⟩⟩
    · refine ⟨k, _, D, T, l, allocuvmLoop_done L f k pgdir oldsz newsz a hlt, hR,
        Or.inl ⟨hti, fun b b1 b2 b3 => hcov b b1 b2 (by omega)⟩⟩

/-! ## allocuvm: the call -/

theorem range_init (L : Layout) (k : Kernel) (l : List Nat) (pgdir a0 top : Nat)
    (hf : FreeOK L k l) (hlock : k.use_lock = true) (hD : DirOK L k l pgdir)
    (htz : ∀ j, j < 512 → pdeAt k pgdir j &&& PTE_P ≠ 0 → tableOf k pgdir j ≠ 0) :
    RangeInv L k l pgdir a0 top k [] [] [] l :=
  ⟨List.Perm.refl _, hf, hlock, by simp, hD, htz, fun _ _ _ => rfl, by simp,
    fun p hp => absurd hp (List.not_mem_nil _), List.nodup_nil,
    fun x hx => absurd hx (List.not_mem_nil _),
    fun b _ _ _ h0 => Or.inl ⟨h0, Or.inl rfl⟩, fun _ _ => rfl,
    fun p hp => absurd hp (List.not_mem_nil _)⟩

theorem range_old_slot (L : Layout) (k0 : Kernel) (l0 : List Nat) (pgdir a0 top : Nat)
    (k : Kernel) (D : List (Nat × Nat)) (T X l : List Nat)
    (hR : RangeInv L k0 l0 pgdir a0 top k D T X l) (b : Nat)
    (h0 : leafSlot k0 pgdir b ≠ 0) : leafSlot k pgdir b = leafSlot k0 pgdir b := by
  have hp := (slot_in_table k0 pgdir b h0).1
  have he := hR.olddir _ (PDX_lt b) hp
  rw [leafSlot_eq, leafSlot_eq]
  unfold tableOf
  rw [he]

/-- What a page outside the list of added pages looks like. -/
theorem range_outside (L : Layout) (k0 : Kernel) (l0 : List Nat) (pgdir a0 top : Nat)
    (k : Kernel) (D : List (Nat × Nat)) (T X l : List Nat)
    (hR : RangeInv L k0 l0 pgdir a0 top k D T X l) (b : Nat) (b1 : b % PGSIZE = 0)
    (b2 : b < KERNBASE) (hb : ∀ g, (b, g) ∉ D) :
    (leafSlot k0 pgdir b ≠ 0 → leafSlot k pgdir b = leafSlot k0 pgdir b ∧
      (entry k pgdir b = entry k0 pgdir b ∨ (a0 ≤ b ∧ b < top ∧ entry k pgdir b = 0))) ∧
    (leafSlot k0 pgdir b = 0 → leafSlot k pgdir b ≠ 0 → entry k pgdir b = 0) := by
  refine ⟨fun h0 => ?_, fun h0 h1 => ?_⟩
  · have hs := range_old_slot L k0 l0 pgdir a0 top k D T X l hR b h0
    refine ⟨hs, ?_⟩
    rcases hR.rest b b1 b2 hb (by rw [hs]; exact h0) with ⟨_, r⟩ | ⟨r, _⟩
    · exact r
    · exact absurd r h0
  · rcases hR.rest b b1 b2 hb h1 with ⟨r, _⟩ | ⟨_, r⟩
    · exact absurd h0 r
    · exact r

/-- C16: for `oldsz ≤ newsz < KERNBASE`, when no page of
`[PGROUNDUP(oldsz), newsz)` is mapped and the free list holds the frames the
range needs (`framesNeeded`: one per page, one more per missing page table),
`allocuvm` returns `newsz`; every page of the range then has a leaf entry with
the present, writable and user bits set, whose frame was on the free list
before the call, is filled with zeros and has reference count 1; different
pages of the range have different frames; and every page outside the range
keeps its leaf entry (a page with no leaf entry before has none or a zero
one).  The address space is assumed well formed (`DirOK`) with respect to a
well-formed free list. -/
theorem allocuvm_maps_range (L : Layout) (k : Kernel) (l : List Nat)
    (pgdir oldsz newsz : Nat) (hLg : LayoutGrow L) (hf : FreeOK L k l)
    (hlock : k.use_lock = true) (hD : DirOK L k l pgdir)
    (htz : ∀ j, j < 512 → pdeAt k pgdir j &&& PTE_P ≠ 0 → tableOf k pgdir j ≠ 0)
    (hol : oldsz ≤ newsz) (hle : newsz < KERNBASE)
    (hun : ∀ b, b % PGSIZE = 0 → PGROUNDUP oldsz ≤ b → b < newsz →
      leafSlot k pgdir b ≠ 0 → entry k pgdir b &&& PTE_P = 0)
    (hen : framesNeeded k pgdir oldsz newsz ≤ l.length) :
    ∃ k', allocuvm L k pgdir oldsz newsz = .ok (k', (newsz : Int)) ∧
      (∀ b, b % PGSIZE = 0 → PGROUNDUP oldsz ≤ b → b < newsz →
        leafSlot k' pgdir b ≠ 0 ∧
        entry k' pgdir b &&& PTE_P ≠ 0 ∧ entry k' pgdir b &&& PTE_W ≠ 0 ∧
        entry k' pgdir b &&& PTE_U ≠ 0 ∧
        P2V (PTE_ADDR (entry k' pgdir b)) ∈ l ∧
        (∀ x, P2V (PTE_ADDR (entry k' pgdir b)) ≤ x →
          x < P2V (PTE_ADDR (entry k' pgdir b)) + PGSIZE → k'.mem x = 0) ∧
        k'.refcount (PTE_ADDR (entry k' pgdir b) / PGSIZE) = 1) ∧
      (∀ b c, b % PGSIZE = 0 → PGROUNDUP oldsz ≤ b → b < newsz →
        c % PGSIZE = 0 → PGROUNDUP oldsz ≤ c → c < newsz → b ≠ c →
        PTE_ADDR (entry k' pgdir b) ≠ PTE_ADDR (entry k' pgdir c)) ∧
      (∀ b, b % PGSIZE = 0 → b < KERNBASE → ¬ (PGROUNDUP oldsz ≤ b ∧ b < newsz) →
        (leafSlot k pgdir b ≠ 0 →
          leafSlot k' pgdir b = leafSlot k pgdir b ∧ entry k' pgdir b = entry k pgdir b) ∧
        (leafSlot k pgdir b = 0 → leafSlot k' pgdir b ≠ 0 → entry k' pgdir b = 0)) := by
  have hF := Frames_of_FreeOK L k l hf
  obtain ⟨r1, r2, r3, r4⟩ := PGROUNDUP_facts oldsz (by omega)
  obtain ⟨k', r, D', T', l', e1, hR, hc⟩ :=
    grow_loop L k l pgdir oldsz newsz hLg hF hol hle hun (pageCount (PGROUNDUP oldsz) newsz)
      LOOP_FUEL k (PGROUNDUP oldsz) [] [] l r1 (le_refl _) (le_refl _)
      (by unfold pageCount PGSIZE LOOP_FUEL; unfold KERNBASE at hle; omega)
      (range_init L k l pgdir _ newsz hf hlock hD htz)
      (fun b _ h1 h2 => absurd h2 (by omega))
      (fun p hp => absurd hp (List.not_mem_nil _))
  rcases hc with ⟨hr, hcov⟩ | ⟨_, _, h⟩
  swap
  · exfalso
    unfold framesNeeded at hen
    omega
  subst hr
  obtain ⟨bnd, bmem, bsub⟩ := range_basic L k l pgdir _ newsz k' D' T' [] l' hF hR
  have hpage : ∀ b g, (b, g) ∈ D' →
      g ∈ l ∧ g < 4294967296 ∧ PTE_ADDR (entry k' pgdir b) = V2P g := by
    intro b g hg
    obtain ⟨d1, d2, d3, d4, d5, d6, d7⟩ := hR.data _ hg
    have hgA : g ∈ D'.map Prod.snd ++ (T' ++ ([] ++ l')) :=
      List.mem_append_left _ (List.mem_map.mpr ⟨(b, g), hg, rfl⟩)
    obtain ⟨m1, m2, m3⟩ := bmem g hgA
    obtain ⟨_, _, _, _, v5, _⟩ := leafval_bits g 0 m2.1 (by decide) (by decide)
    refine ⟨m1, m3, ?_⟩
    have : entry k' pgdir b = V2P g ||| (PTE_W ||| PTE_U) ||| PTE_P := d5
    rw [this]
    exact v5
  refine ⟨k', ?_, fun b b1 b2 b3 => ?_, fun b c b1 b2 b3 c1 c2 c3 hne he => ?_,
    fun b b1 b2 b3 => ?_⟩
  · unfold allocuvm
    rw [if_neg (by omega), if_neg (by omega)]
    exact e1
  · obtain ⟨g, hg⟩ := hcov b b1 b2 b3
    obtain ⟨d1, d2, d3, d4, d5, d6, d7⟩ := hR.data _ hg
    obtain ⟨m1, m3, m4⟩ := hpage b g hg
    have hgA : g ∈ D'.map Prod.snd ++ (T' ++ ([] ++ l')) :=
      List.mem_append_left _ (List.mem_map.mpr ⟨(b, g), hg, rfl⟩)
    obtain ⟨_, m2, _⟩ := bmem g hgA
    obtain ⟨_, v2, v3, v4, _, _⟩ := leafval_bits g 0 m2.1 (by decide) (by decide)
    have he : entry k' pgdir b = V2P g ||| (PTE_W ||| PTE_U) ||| PTE_P := d5
    rw [m4, P2V_V2P g m3]
    refine ⟨d4, by rw [he]; exact v2, by rw [he]; exact v3, by rw [he]; exact v4, m1, d7, d6⟩
  · obtain ⟨g, hg⟩ := hcov b b1 b2 b3
    obtain ⟨g', hg'⟩ := hcov c c1 c2 c3
    obtain ⟨_, m3, m4⟩ := hpage b g hg
    obtain ⟨_, n3, n4⟩ := hpage c g' hg'
    rw [m4, n4] at he
    have hgg : g = g' := by
      rw [← P2V_V2P g m3, ← P2V_V2P g' n3, he]
    have hnd : (D'.map Prod.snd).Nodup := List.Nodup.of_append_left bnd
    have := List.inj_on_of_nodup_map hnd hg hg' hgg
    exact hne (congrArg Prod.fst this)
  · have hb : ∀ g, (b, g) ∉ D' := fun g hg => by
      obtain ⟨_, d2, _⟩ := hR.data _ hg
      exact b3 ⟨d2, hR.dtop _ hg⟩
    obtain ⟨o1, o2⟩ := range_outside L k l pgdir _ newsz k' D' T' [] l' hR b b1 b2 hb
    refine ⟨fun h0 => ?_, o2⟩
    obtain ⟨s1, s2⟩ := o1 h0
    refine ⟨s1, ?_⟩
    rcases s2 with s | ⟨s, t, _⟩
    · exact s
    · exact absurd ⟨s, t⟩ b3

/-- C17, amended: when `allocuvm` returns 0 on an address space in which no page
of `[PGROUNDUP(oldsz), newsz)` was mapped, no page of the range is mapped
afterwards, every page that had a leaf entry keeps its slot and the value of
the entry (an entry of the range that was not present and not zero may have
been overwritten with zero), a page that had no leaf entry has none or a zero
one, and the free-frame count has gone down by exactly the number of page
tables the call added to the directory: those tables are kept. -/
theorem allocuvm_failure_keeps_tables (L : Layout) (k : Kernel) (l : List Nat)
    (pgdir oldsz newsz : Nat) (k' : Kernel) (hLg : LayoutGrow L) (hf : FreeOK L k l)
    (hlock : k.use_lock = true) (hD : DirOK L k l pgdir)
    (htz : ∀ j, j < 512 → pdeAt k pgdir j &&& PTE_P ≠ 0 → tableOf k pgdir j ≠ 0)
    (hun : ∀ b, b % PGSIZE = 0 → PGROUNDUP oldsz ≤ b → b < newsz → b < KERNBASE →
      leafSlot k pgdir b ≠ 0 → entry k pgdir b &&& PTE_P = 0)
    (hret : allocuvm L k pgdir oldsz newsz = .ok (k', 0)) :
    (∀ b, b % PGSIZE = 0 → PGROUNDUP oldsz ≤ b → b < newsz → b < KERNBASE →
      leafSlot k' pgdir b ≠ 0 → entry k' pgdir b &&& PTE_P = 0) ∧
    (∀ b, b % PGSIZE = 0 → b < KERNBASE → leafSlot k pgdir b ≠ 0 →
      leafSlot k' pgdir b = leafSlot k pgdir b ∧
      (entry k' pgdir b = entry k pgdir b ∨
        (PGROUNDUP oldsz ≤ b ∧ b < newsz ∧ entry k pgdir b ≠ 0 ∧
          entry k pgdir b &&& PTE_P = 0 ∧ entry k' pgdir b = 0))) ∧
    (∀ b, b % PGSIZE = 0 → b < KERNBASE → leafSlot k pgdir b = 0 →
      leafSlot k' pgdir b ≠ 0 → entry k' pgdir b = 0) ∧
    getNumFreePages k' + pdeCount k' pgdir = getNumFreePages k + pdeCount k pgdir ∧
    pdeCount k pgdir ≤ pdeCount k' pgdir := by
  unfold allocuvm at hret
  by_cases h1 : newsz ≥ KERNBASE
  · rw [if_pos h1] at hret
    simp only [Except.ok.injEq, Prod.mk.injEq] at hret
    obtain ⟨rfl, _⟩ := hret
    exact ⟨hun, fun b _ _ _ => ⟨rfl, Or.inl rfl⟩, fun b _ _ h0 h1 => absurd h0 h1, rfl,
      le_refl _⟩
  rw [if_neg h1] at hret
  by_cases h2 : newsz < oldsz
  · rw [if_pos h2] at hret
    simp only [Except.ok.injEq, Prod.mk.injEq] at hret
    obtain ⟨rfl, _⟩ := hret
    exact ⟨hun, fun b _ _ _ => ⟨rfl, Or.inl rfl⟩, fun b _ _ h0 h1 => absurd h0 h1, rfl,
      le_refl _⟩
  rw [if_neg h2] at hret
  have hle : newsz < KERNBASE := by omega
  have hol : oldsz ≤ newsz := by omega
  have hF := Frames_of_FreeOK L k l hf
  have hun' : ∀ b, b % PGSIZE = 0 → PGROUNDUP oldsz ≤ b → b < newsz →
      leafSlot k pgdir b ≠ 0 → entry k pgdir b &&& PTE_P = 0 :=
    fun b b1 b2 b3 => hun b b1 b2 b3 (by omega)
  obtain ⟨r1, r2, r3, r4⟩ := PGROUNDUP_facts oldsz (by omega)
  obtain ⟨k2, r, D', T', l', e1, hR, hc⟩ :=
    grow_loop L k l pgdir oldsz newsz hLg hF hol hle hun' (pageCount (PGROUNDUP oldsz) newsz)
      LOOP_FUEL k (PGROUNDUP oldsz) [] [] l r1 (le_refl _) (le_refl _)
      (by unfold pageCount PGSIZE LOOP_FUEL; unfold KERNBASE at hle; omega)
      (range_init L k l pgdir _ newsz hf hlock hD htz)
      (fun b _ h1 h2 => absurd h2 (by omega))
      (fun p hp => absurd hp (List.not_mem_nil _))
  rw [e1] at hret
  simp only [Except.ok.injEq, Prod.mk.injEq] at hret
  obtain ⟨hk, hr⟩ := hret
  subst hk
  have hnil : D' = [] := by
    rcases hc with ⟨hn, _⟩ | ⟨_, h, _⟩
    · cases D' with
      | nil => rfl
      | cons p ps =>
        have := hR.dtop p (List.mem_cons_self _ _)
        rw [hr] at hn
        have : newsz = 0 := by exact_mod_cast hn.symm
        omega
    · exact h
  subst hnil
  have hno : ∀ b g, (b, g) ∉ ([] : List (Nat × Nat)) := fun b g => List.not_mem_nil _
  refine ⟨fun b b1 b2 b3 b4 h0 => ?_, fun b b1 b2 h0 => ?_, fun b b1 b2 => ?_, ?_, ?_⟩
  · exact rest_absent L k l pgdir _ newsz newsz k2 [] T' [] l' hR hun' b b1 b4 b2 b3 (hno b) h0
  · obtain ⟨o1, _⟩ := range_outside L k l pgdir _ newsz k2 [] T' [] l' hR b b1 b2 (hno b)
    obtain ⟨s1, s2⟩ := o1 h0
    refine ⟨s1, ?_⟩
    rcases s2 with s | ⟨s, t, u⟩
    · exact Or.inl s
    · by_cases hz : entry k pgdir b = 0
      · exact Or.inl (by rw [u, hz])
      · exact Or.inr ⟨s, t, hz, hun b b1 s t b2 h0, u⟩
  · exact (range_outside L k l pgdir _ newsz k2 [] T' [] l' hR b b1 b2 (hno b)).2
  · unfold getNumFreePages
    rw [hR.count, ← hR.tcnt]
    simp only [List.length_nil]
    push_cast
    ring
  · rw [← hR.tcnt]
    omega

/-! ## incref -/

/-- C14: when `cowfault` returns `-1` the state after the call is the state
before it, as a whole: every word of memory (so every entry of every page
table and the contents of every frame), every reference count, the free list
and the free-frame count.  The return `-1` happens exactly for the four
reasons: no leaf entry, entry not present, entry writable, or a frame with
count 2 or more while the free list is empty. -/
theorem cowfault_failure_unchanged (L : Layout) (k : Kernel) (pgdir va : Nat) (k' : Kernel)
    (h : cowfault L k pgdir va = .ok (k', -1)) :
    k' = k ∧ (∀ d a, leafSlot k' d a = leafSlot k d a ∧ entry k' d a = entry k d a) ∧
      k'.refcount = k.refcount ∧ k'.mem = k.mem ∧ k'.freelist = k.freelist ∧
      getNumFreePages k' = getNumFreePages k ∧
      (leafSlot k pgdir (PGROUNDDOWN va) = 0 ∨
        entry k pgdir (PGROUNDDOWN va) &&& PTE_P = 0 ∨
        entry k pgdir (PGROUNDDOWN va) &&& PTE_W ≠ 0 ∨
        ∃ c, getrefcount L k (PTE_ADDR (entry k pgdir (PGROUNDDOWN va))) = .ok c ∧ 2 ≤ c ∧
          k.freelist = 0) := by
  have key : k' = k ∧ (leafSlot k pgdir (PGROUNDDOWN va) = 0 ∨
        entry k pgdir (PGROUNDDOWN va) &&& PTE_P = 0 ∨
        entry k pgdir (PGROUNDDOWN va) &&& PTE_W ≠ 0 ∨
        ∃ c, getrefcount L k (PTE_ADDR (entry k pgdir (PGROUNDDOWN va))) = .ok c ∧ 2 ≤ c ∧
          k.freelist = 0) := by
    unfold cowfault at h
    simp only [walkpgdir_zero] at h
    by_cases h0 : leafSlot k pgdir (PGROUNDDOWN va) = 0
    · rw [if_pos h0] at h
      exact ⟨(congrArg Prod.fst (Except.ok.inj h)).symm, Or.inl h0⟩
    rw [if_neg h0] at h
    by_cases hP : deref k (leafSlot k pgdir (PGROUNDDOWN va)) &&& PTE_P = 0
    · rw [if_pos hP] at h
      exact ⟨(congrArg Prod.fst (Except.ok.inj h)).symm, Or.inr (Or.inl hP)⟩
    rw [if_neg hP] at h
    by_cases hW : deref k (leafSlot k pgdir (PGROUNDDOWN va)) &&& PTE_W ≠ 0
    · rw [if_pos hW] at h
      exact ⟨(congrArg Prod.fst (Except.ok.inj h)).symm, Or.inr (Or.inr (Or.inl hW))⟩
    rw [if_neg hW] at h
    obtain ⟨res, hrc⟩ : ∃ res, getrefcount L k
        (PTE_ADDR (deref k (leafSlot k pgdir (PGROUNDDOWN va)))) = res := ⟨_, rfl⟩
    rw [hrc] at h
    cases res with
    | error e => cases h
    | ok c =>
      simp only at h
      by_cases hc : c < 2
      · rw [if_pos hc] at h
        have := congrArg Prod.snd (Except.ok.inj h)
        simp at this
      rw [if_neg hc] at h
      by_cases hfl : k.freelist = 0
      · rw [kalloc_nil L k hfl] at h
        simp only [if_true] at h
        exact ⟨(congrArg Prod.fst (Except.ok.inj h)).symm,
          Or.inr (Or.inr (Or.inr ⟨c, hrc, by omega, hfl⟩))⟩
      · obtain ⟨ka1, _⟩ := kalloc_fields L k hfl
        generalize hK : kalloc L k = K at h ka1
        obtain ⟨k1, r⟩ := K
        simp only at h ka1
        have hr : r ≠ 0 := by rw [ka1]; exact hfl
        rw [if_neg hr] at h
        generalize decref L (memmove k1 r
          (P2V (PTE_ADDR (deref k (leafSlot k pgdir (PGROUNDDOWN va)))))) _ = D at h
        cases D with
        | error e => cases h
        | ok q =>
          simp only at h
          have := congrArg Prod.snd (Except.ok.inj h)
          simp at this
  obtain ⟨e, hr⟩ := key
  subst e
  exact ⟨rfl, fun _ _ => ⟨rfl, rfl⟩, rfl, rfl, rfl, rfl, hr⟩

/-- Witness for `cowfault_failure_unchanged`: a write fault of the parent on
the page it shares with its child, when no frame is free for the copy. -/
theorem cowfault_failure_unchanged_witness :
    cowfault exLayout (kallocN exLayout 9 exFork) 0x8011e000 0 =
        .ok (kallocN exLayout 9 exFork, -1) ∧
      (leafSlot (kallocN exLayout 9 exFork) 0x8011e000 (PGROUNDDOWN 0) = 0 ∨
        entry (kallocN exLayout 9 exFork) 0x8011e000 (PGROUNDDOWN 0) &&& PTE_P = 0 ∨
        entry (kallocN exLayout 9 exFork) 0x8011e000 (PGROUNDDOWN 0) &&& PTE_W ≠ 0 ∨
        ∃ c, getrefcount exLayout (kallocN exLayout 9 exFork)
            (PTE_ADDR (entry (kallocN exLayout 9 exFork) 0x8011e000 (PGROUNDDOWN 0))) =
              .ok c ∧ 2 ≤ c ∧ (kallocN exLayout 9 exFork).freelist = 0) := by
  have h : cowfault exLayout (kallocN exLayout 9 exFork) 0x8011e000 0 =
      .ok (kallocN exLayout 9 exFork, -1) := rfl
  exact ⟨h, (cowfault_failure_unchanged exLayout (kallocN exLayout 9 exFork)
    0x8011e000 0 (kallocN exLayout 9 exFork) h).2.2.2.2.2.2⟩

/-! ## The shared page across copyuvm -/

theorem PTE_ADDR_idx (x y : Nat) (h : PTE_ADDR x / PGSIZE = PTE_ADDR y / PGSIZE) :
    PTE_ADDR x = PTE_ADDR y := by
  unfold PTE_ADDR PGSIZE at *
  omega

/-- C11: after a successful `copyuvm`, for every page `a` below `sz` whose leaf
entry in the source is present with the shared bit set: the child has a leaf
entry for `a` equal to the source's entry (the same frame, the same flags, the
writable and shared bits included), the source's entry is unchanged, and the
count of the frame is unchanged.  The source address space is assumed well
formed (`SrcOK`) with respect to a well-formed free list, and the frame of the
entry is assumed not to be free nor to be mapped by a page below `sz` without
the shared bit. -/
theorem copyuvm_shared_page (L : Layout) (k : Kernel) (l0 : List Nat) (pgdir sz : Nat)
    (k' : Kernel) (d a : Nat) (hL : LayoutOK L) (hK : ∀ m ∈ L.kmap, KmapOK m)
    (hf : FreeOK L k l0) (hlock : k.use_lock = true) (hS : SrcOK L k l0 pgdir sz)
    (hc : copyuvm L k pgdir sz = .ok (k', d)) (hd : d ≠ 0)
    (ha : a % PGSIZE = 0) (hasz : a < sz) (hs : leafSlot k pgdir a ≠ 0)
    (hP : entry k pgdir a &&& PTE_P ≠ 0) (hSh : PTE_FLAGS (entry k pgdir a) &&& L.PTE_S ≠ 0)
    (hnf : ∀ g ∈ l0, V2P g / PGSIZE ≠ PTE_ADDR (entry k pgdir a) / PGSIZE)
    (hnp : ∀ b, b % PGSIZE = 0 → b < sz → PrivateAt L k pgdir b →
      PTE_ADDR (entry k pgdir b) ≠ PTE_ADDR (entry k pgdir a)) :
    leafSlot k' d a ≠ 0 ∧ entry k' d a = entry k pgdir a ∧
      PTE_ADDR (entry k' d a) = PTE_ADDR (entry k pgdir a) ∧
      PTE_FLAGS (entry k' d a) = PTE_FLAGS (entry k pgdir a) ∧
      entry k' d a &&& PTE_W = entry k pgdir a &&& PTE_W ∧
      PTE_FLAGS (entry k' d a) &&& L.PTE_S ≠ 0 ∧
      leafSlot k' pgdir a = leafSlot k pgdir a ∧
      entry k' pgdir a = entry k pgdir a ∧
      k'.refcount (PTE_ADDR (entry k pgdir a) / PGSIZE) =
        k.refcount (PTE_ADDR (entry k pgdir a) / PGSIZE) := by
  have hF := Frames_of_FreeOK L k _ hf
  obtain ⟨i, used, l, hC, hi⟩ := copyuvm_inv L k l0 pgdir sz k' d hL hK hf hlock hS hc hd
  obtain ⟨V1, _, _⟩ := CopyInv_view L k l0 pgdir sz d i k' used l hF hS hC
  obtain ⟨b1, b2, b3, dal, d32, und⟩ := BuildInv_basic L k l0 d _ _ k' used _ hF hC.build
  obtain ⟨c1, c2⟩ := hC.childdone a ha (by omega)
  have hszk := hS.szle
  have hnot : ¬ PrivateAt L k pgdir a := fun h => hSh h.2.2
  have hce : childEntry L (entry k pgdir a) = entry k pgdir a := by
    unfold childEntry
    rw [if_pos hSh]
    exact entry_or_P (entry k pgdir a) (deref_lt _ _) hP
  have e1 : entry k' d a = entry k pgdir a := (c2.trans hce : deref k' (leafSlot k' d a) = _)
  have e2 : entry k' pgdir a = entry k pgdir a := by
    show deref k' (leafSlot k' pgdir a) = _
    rw [V1 a]
    apply deref_congr
    apply hC.build.memf
    · intro u hu
      exact (SrcOK_slot_out L k l0 pgdir sz a hF hS (by omega) hs).1 u (b1 u hu)
    · rintro ⟨b, q1, q2, q3, q4⟩
      have hb := hC.bound b q1 q2
      have hne : a ≠ b := fun e => hnot (e ▸ q3)
      exact SrcOK_slot_ne L k l0 pgdir sz a b hS (by omega) (by omega)
        (by unfold PGSIZE at *; omega) hs q3.1 q4
  have e3 : k'.refcount (PTE_ADDR (entry k pgdir a) / PGSIZE) =
      k.refcount (PTE_ADDR (entry k pgdir a) / PGSIZE) := by
    apply hC.build.rcf
    · intro u hu e
      exact hnf u (b1 u hu) e.symm
    · rintro ⟨b, q1, q2, q3, q4⟩
      exact hnp b q1 (hC.bound b q1 q2) q3 (PTE_ADDR_idx _ _ q4.symm)
  refine ⟨c1, e1, by rw [e1], by rw [e1], by rw [e1], by rw [e1]; exact hSh, V1 a, e2, e3⟩

set_option maxRecDepth 100000 in
theorem exShared_pde : ∀ j, j < 512 → pdeAt exShared 0x8011e000 j &&& PTE_P ≠ 0 → j = 0 := by
  decide

theorem exShared_dir (l : List Nat) (h1 : 0x8011e000 ∉ l) (h2 : 0x8011c000 ∉ l) :
    DirOK exLayout exShared l 0x8011e000 := by
  refine ⟨Nat.zero_le _, by decide, h1, fun j hj hp => ?_,
    fun _ _ h0 => absurd h0 (Nat.not_lt_zero _),
    fun _ _ _ _ h0 => absurd h0 (Nat.not_lt_zero _)⟩
  have := exShared_pde j hj hp
  subst this
  have ht : tableOf exShared 0x8011e000 0 = 0x8011c000 := by decide
  refine ⟨by rw [ht]; exact h2, by rw [ht]; decide, fun j' hj' hne hp' => ?_⟩
  exact absurd (exShared_pde j' hj' hp') hne

theorem exShared_tz (j : Nat) (hj : j < 512)
    (hp : pdeAt exShared 0x8011e000 j &&& PTE_P ≠ 0) : tableOf exShared 0x8011e000 j ≠ 0 := by
  have := exShared_pde j hj hp
  subst this
  decide

theorem exShared_off (v : Nat) (h1 : v ≠ 0x8011e000) (h2 : v ≠ 0x8011c000) :
    OffTables exShared 0x8011e000 v := by
  refine ⟨h1, fun j hj hp => ?_⟩
  have := exShared_pde j hj hp
  subst this
  have ht : tableOf exShared 0x8011e000 0 = 0x8011c000 := by decide
  rw [ht]
  exact Ne.symm h2

theorem exShared_pages (a : Nat) (h : a % PGSIZE = 0) (h2 : a < 0x2000) :
    a = 0 ∨ a = 0x1000 := by
  unfold PGSIZE at h; omega

/-- The example process with its shared page is well formed. -/
theorem exShared_ok :
    FreeOK exLayout exShared (exFrames.drop 5) ∧
      SrcOK exLayout exShared (exFrames.drop 5) 0x8011e000 0x2000 := by
  refine ⟨by decide, ?_⟩
  have hD := exShared_dir (exFrames.drop 5) (by decide) (by decide)
  refine ⟨by decide, hD.pal, hD.pfree, hD.tabs, fun a a1 a2 hp => ?_,
    fun a b a1 b1 a2 b2 hne pa pb => ?_⟩
  · rcases exShared_pages a a1 a2 with e | e <;> subst e
    · decide
    · exact absurd hp (by decide)
  · rcases exShared_pages a a1 a2 with e | e <;> subst e
    · rcases exShared_pages b b1 b2 with e | e <;> subst e
      · exact absurd rfl hne
      · exact absurd pb (by decide)
    · exact absurd pa (by decide)

/-- Witness for `copyuvm_shared_page`: the shared page of the example process
is mapped writable and shared in the child as well, with the count still 1. -/
theorem copyuvm_shared_page_witness :
    entry exSharedFork 0x8011a000 0x1000 = entry exShared 0x8011e000 0x1000 ∧
      entry exSharedFork 0x8011e000 0x1000 = entry exShared 0x8011e000 0x1000 ∧
      exSharedFork.refcount 0x11b = exShared.refcount 0x11b := by
  obtain ⟨hf, hS⟩ := exShared_ok
  obtain ⟨_, h2, _, _, _, _, _, h8, h9⟩ := copyuvm_shared_page exLayout exShared
    (exFrames.drop 5) 0x8011e000 0x2000 exSharedFork 0x8011a000 0x1000 (by decide) (by decide)
    hf (by decide) hS rfl (by decide) (by decide) (by decide) (by decide) (by decide)
    (by decide) (by decide) (fun b b1 b2 pb => by
      rcases exShared_pages b b1 b2 with e | e <;> subst e
      · decide
      · exact absurd pb (by decide))
  exact ⟨h2, h8, h9⟩

/-- Witness for `unmap_shared_once`: the shared page of the example process. -/
theorem unmap_shared_once_witness :
    ∃ k', unmap_shared exLayout exShared 0x8011e000 0x2000 = .ok (k', 0x1000) ∧
      entry k' 0x8011e000 0x1000 = 0 ∧
      unmap_shared exLayout k' 0x8011e000 0x2000 = .ok (k', -1) ∧
      find_shared exLayout k' 0x8011e000 0x2000 = .ok (k', -1) := by
  obtain ⟨k1, k', _, _, h3, _, h5, _, h7, h8, _⟩ := unmap_shared_once exLayout exShared []
    0x8011e000 0x2000 0x1000 (exShared_dir [] (List.not_mem_nil _) (List.not_mem_nil _))
    (by decide) (by decide) (by decide) (by decide) (by decide)
    (fun b b1 b2 _ hb => by
      rcases exShared_pages b b1 b2 with e | e <;> subst e
      · exact absurd hb (by decide)
      · rfl)
    (by decide) (by decide) (exShared_off _ (by decide) (by decide))
  exact ⟨k', h3, h5, h7, h8⟩

/-- Witness for `find_shared_lowest`: the shared page of the example process is
found at `0x1000`. -/
theorem find_shared_lowest_witness :
    find_shared exLayout exShared 0x8011e000 0x2000 = .ok (exShared, 0x1000) := by
  obtain ⟨r, h1, h2, _⟩ := find_shared_lowest exLayout exShared 0x8011e000 0x2000
  have := h2 0x1000 (by decide) (by decide) (by decide) (by decide) (fun b b1 b2 => by
    rcases exShared_pages b b1 (by omega) with e | e <;> subst e
    · decide
    · omega)
  rw [this] at h1
  exact h1

/-! ## deallocuvm: the claim -/

theorem pagesFrom_nodup (n : Nat) : ∀ a, (pagesFrom a n).Nodup := by
  induction n with
  | zero => intro a; exact List.nodup_nil
  | succ n ih =>
    intro a
    rw [pagesFrom, List.nodup_cons]
    refine ⟨fun h => ?_, ih _⟩
    obtain ⟨i, _, hi⟩ := mem_pagesFrom n _ _ h
    unfold PGSIZE at hi
    omega

theorem mem_pages_iff (a0 top b : Nat) (h0 : a0 % PGSIZE = 0) :
    b ∈ pagesFrom a0 (pageCount a0 top) ↔ b % PGSIZE = 0 ∧ a0 ≤ b ∧ b < top := by
  constructor
  · intro h
    obtain ⟨i, hi, hb⟩ := mem_pagesFrom _ _ _ h
    unfold pageCount PGSIZE at *
    omega
  · rintro ⟨b1, b2, b3⟩
    have hb : b = a0 + (b - a0) / PGSIZE * PGSIZE := by unfold PGSIZE at *; omega
    rw [hb]
    apply pagesFrom_mem
    unfold pageCount PGSIZE at *
    omega

theorem kfreeEach_append (L : Layout) (xs ys : List Nat) : ∀ (k k1 : Kernel),
    kfreeEach L k xs = .ok k1 → kfreeEach L k (xs ++ ys) = kfreeEach L k1 ys := by
  induction xs with
  | nil =>
    intro k k1 h
    have : k = k1 := Except.ok.inj h
    subst this
    rfl
  | cons x xs ih =>
    intro k k1 h
    rw [kfreeEach] at h
    rw [List.cons_append, kfreeEach]
    generalize kfree L k x = r at h ⊢
    cases r with
    | error e => cases h
    | ok k2 => exact ih k2 k1 h

/-- The allocator part of what `kfree` does is determined by the allocator
part of the state: two states with the same counts, free-list head, free
count and lock flag that agree on the memory outside a set `S` are taken by
`kfree(v)` to two such states. -/
theorem kfree_agree (L : Layout) (S : Nat → Prop) (k kf : Kernel) (v : Nat) (k1 : Kernel)
    (hr : k.refcount = kf.refcount) (hfl : k.freelist = kf.freelist)
    (hn : k.num_free_pages = kf.num_free_pages) (hl : k.use_lock = kf.use_lock)
    (hm : ∀ x, ¬ S x → k.mem x = kf.mem x) (hk : kfree L k v = .ok k1) :
    ∃ kf1, kfree L kf v = .ok kf1 ∧ k1.refcount = kf1.refcount ∧
      k1.freelist = kf1.freelist ∧ k1.num_free_pages = kf1.num_free_pages ∧
      k1.use_lock = kf1.use_lock ∧ ∀ x, ¬ S x → k1.mem x = kf1.mem x := by
  have hpush : ∀ a b : Kernel, a.refcount = b.refcount → a.freelist = b.freelist →
      a.num_free_pages = b.num_free_pages → a.use_lock = b.use_lock →
      (∀ x, ¬ S x → a.mem x = b.mem x) →
      (kfreePush a v).refcount = (kfreePush b v).refcount ∧
      (kfreePush a v).freelist = (kfreePush b v).freelist ∧
      (kfreePush a v).num_free_pages = (kfreePush b v).num_free_pages ∧
      (kfreePush a v).use_lock = (kfreePush b v).use_lock ∧
      ∀ x, ¬ S x → (kfreePush a v).mem x = (kfreePush b v).mem x := by
    intro a b h1 h2 h3 h4 h5
    refine ⟨h1, rfl, ?_, h4, fun x hx => ?_⟩
    · show a.num_free_pages + 1 = b.num_free_pages + 1
      rw [h3]
    · show (if x = v then (memset a v 1).freelist else (memset a v 1).mem x) =
        (if x = v then (memset b v 1).freelist else (memset b v 1).mem x)
      by_cases hx0 : x = v
      · rw [if_pos hx0, if_pos hx0]
        exact h2
      · rw [if_neg hx0, if_neg hx0, mem_memset, mem_memset, h5 x hx]
  unfold kfree at hk ⊢
  by_cases hbad : v % PGSIZE ≠ 0 ∨ v < L.kend ∨ V2P v ≥ L.PHYSTOP
  · simp only [hbad, if_true] at hk
    cases hk
  simp only [hbad, if_false] at hk ⊢
  by_cases hc : V2P v / PGSIZE < MAX_PAGES L ∧ k.use_lock = true
  · have hc' : V2P v / PGSIZE < MAX_PAGES L ∧ kf.use_lock = true := ⟨hc.1, hl ▸ hc.2⟩
    rw [if_pos hc] at hk
    rw [if_pos hc']
    have hidx : ¬ (V2P v / PGSIZE ≥ MAX_PAGES L) := by omega
    unfold decref at hk ⊢
    simp only [hidx, hc.2, hc'.2, if_false, Bool.not_true] at hk ⊢
    rw [if_neg Bool.false_ne_true] at hk
    rw [if_neg Bool.false_ne_true]
    by_cases hz : k.refcount (V2P v / PGSIZE) ≤ 0
    · have hz' : kf.refcount (V2P v / PGSIZE) ≤ 0 := by rw [← hr]; exact hz
      rw [if_pos hz] at hk
      rw [if_pos hz']
      simp only at hk ⊢
      rw [if_neg (by omega)] at hk
      rw [if_neg (by omega)]
      have := Except.ok.inj hk
      subst this
      exact ⟨_, rfl, hpush k kf hr hfl hn hl hm⟩
    · have hz' : ¬ kf.refcount (V2P v / PGSIZE) ≤ 0 := by rw [← hr]; exact hz
      rw [if_neg hz] at hk
      rw [if_neg hz']
      simp only at hk ⊢
      have hs : (setref k (V2P v / PGSIZE) (k.refcount (V2P v / PGSIZE) - 1)).refcount =
          (setref kf (V2P v / PGSIZE) (kf.refcount (V2P v / PGSIZE) - 1)).refcount := by
        show (fun i => if i = V2P v / PGSIZE then k.refcount (V2P v / PGSIZE) - 1
          else k.refcount i) = (fun i => if i = V2P v / PGSIZE then
            kf.refcount (V2P v / PGSIZE) - 1 else kf.refcount i)
        rw [hr]
      by_cases hp : (setref k (V2P v / PGSIZE) (k.refcount (V2P v / PGSIZE) - 1)).refcount
          (V2P v / PGSIZE) > 0
      · have hp' : (setref kf (V2P v / PGSIZE) (kf.refcount (V2P v / PGSIZE) - 1)).refcount
            (V2P v / PGSIZE) > 0 := by rw [← hs]; exact hp
        rw [if_pos hp] at hk
        rw [if_pos hp']
        have := Except.ok.inj hk
        subst this
        exact ⟨_, rfl, hs, hfl, hn, hl, hm⟩
      · have hp' : ¬ (setref kf (V2P v / PGSIZE) (kf.refcount (V2P v / PGSIZE) - 1)).refcount
            (V2P v / PGSIZE) > 0 := by rw [← hs]; exact hp
        rw [if_neg hp] at hk
        rw [if_neg hp']
        have := Except.ok.inj hk
        subst this
        exact ⟨_, rfl, hpush _ _ hs hfl hn hl hm⟩
  · have hc' : ¬ (V2P v / PGSIZE < MAX_PAGES L ∧ kf.use_lock = true) := by
      rw [← hl]; exact hc
    rw [if_neg hc] at hk
    rw [if_neg hc']
    have := Except.ok.inj hk
    subst this
    exact ⟨_, rfl, hpush k kf hr hfl hn hl hm⟩

/-- `kfree(v)` changes no count but that of the frame `v`, and keeps the lock
flag. -/
theorem kfree_other_counts (L : Layout) (k : Kernel) (v : Nat) (k1 : Kernel)
    (hk : kfree L k v = .ok k1) :
    (∀ j, j ≠ V2P v / PGSIZE → k1.refcount j = k.refcount j) ∧ k1.use_lock = k.use_lock := by
  unfold kfree at hk
  by_cases hbad : v % PGSIZE ≠ 0 ∨ v < L.kend ∨ V2P v ≥ L.PHYSTOP
  · simp only [hbad, if_true] at hk
    cases hk
  simp only [hbad, if_false] at hk
  by_cases hc : V2P v / PGSIZE < MAX_PAGES L ∧ k.use_lock = true
  · rw [if_pos hc] at hk
    have hidx : ¬ (V2P v / PGSIZE ≥ MAX_PAGES L) := by omega
    unfold decref at hk
    simp only [hidx, hc.2, if_false, Bool.not_true] at hk
    rw [if_neg Bool.false_ne_true] at hk
    by_cases hz : k.refcount (V2P v / PGSIZE) ≤ 0
    · rw [if_pos hz] at hk
      simp only at hk
      rw [if_neg (by omega)] at hk
      have := Except.ok.inj hk
      subst this
      exact ⟨fun _ _ => rfl, rfl⟩
    · rw [if_neg hz] at hk
      simp only at hk
      by_cases hp : (setref k (V2P v / PGSIZE) (k.refcount (V2P v / PGSIZE) - 1)).refcount
          (V2P v / PGSIZE) > 0
      · rw [if_pos hp] at hk
        have := Except.ok.inj hk
        subst this
        exact ⟨fun j hj => setref_other k _ j _ hj, rfl⟩
      · rw [if_neg hp] at hk
        have := Except.ok.inj hk
        subst this
        exact ⟨fun j hj => setref_other k _ j _ hj, rfl⟩
  · rw [if_neg hc] at hk
    have := Except.ok.inj hk
    subst this
    exact ⟨fun _ _ => rfl, rfl⟩

theorem kfreeEach_other_counts (L : Layout) (vs : List Nat) : ∀ (k kf : Kernel),
    kfreeEach L k vs = .ok kf →
    (∀ j, (∀ v ∈ vs, j ≠ V2P v / PGSIZE) → kf.refcount j = k.refcount j) ∧
      kf.use_lock = k.use_lock := by
  induction vs with
  | nil =>
    intro k kf h
    have : k = kf := Except.ok.inj h
    subst this
    exact ⟨fun _ _ => rfl, rfl⟩
  | cons x xs ih =>
    intro k kf h
    rw [kfreeEach] at h
    generalize hx : kfree L k x = r at h
    cases r with
    | error e => cases h
    | ok k2 =>
      obtain ⟨a1, a2⟩ := kfree_other_counts L k x k2 hx
      obtain ⟨b1, b2⟩ := ih k2 kf h
      refine ⟨fun j hj => ?_, b2.trans a2⟩
      rw [b1 j (fun v hv => hj v (List.mem_cons_of_mem _ hv)),
        a1 j (hj x (List.mem_cons_self _ _))]

theorem AgreeOff_store (S : Nat → Prop) (k kf : Kernel) (p x : Nat) (hp : S p)
    (h : AgreeOff S k kf) : AgreeOff S (store k p x) kf := by
  obtain ⟨h1, h2, h3, h4, h5⟩ := h
  refine ⟨h1, h2, h3, h4, fun y hy => ?_⟩
  rw [mem_store, if_neg (fun e : y = p => hy (by rw [e]; exact hp))]
  exact h5 y hy

theorem filterMap_more_none (C : Nat → Option Nat) (a0 n m : Nat)
    (h : ∀ b ∈ pagesFrom (a0 + n * PGSIZE) m, C b = none) :
    (pagesFrom a0 (n + m)).filterMap C = (pagesFrom a0 n).filterMap C := by
  rw [pagesFrom_append, List.filterMap_append, filterMap_none C _ h, List.append_nil]

theorem filterMap_more_one (C : Nat → Option Nat) (a0 n : Nat) :
    (pagesFrom a0 (n + 1)).filterMap C =
      (pagesFrom a0 n).filterMap C ++ (C (a0 + n * PGSIZE)).toList := by
  rw [pagesFrom_append, List.filterMap_append]
  congr 1

theorem kfreeEach_snoc (L : Layout) (xs : List Nat) (v : Nat) (k k1 k2 : Kernel)
    (h1 : kfreeEach L k xs = .ok k1) (h2 : kfree L k1 v = .ok k2) :
    kfreeEach L k (xs ++ [v]) = .ok k2 := by
  rw [kfreeEach_append L xs [v] k k1 h1, kfreeEach, h2]
  rfl

/-- The general effect of `deallocuvm`: the leaf entries, and the allocator
state as the result of the calls of `kfree` on the frames of the present
entries of the range without the shared bit, in page order. -/
theorem deallocuvm_effect (L : Layout) (k0 : Kernel) (pgdir oldsz newsz : Nat)
    (hD : DirOK L k0 [] pgdir)
    (htz : ∀ j, j < 512 → pdeAt k0 pgdir j &&& PTE_P ≠ 0 → tableOf k0 pgdir j ≠ 0)
    (hlt : newsz < oldsz) (hle : oldsz ≤ KERNBASE)
    (hfr : ∀ a, a % PGSIZE = 0 → PGROUNDUP newsz ≤ a → a < oldsz →
      leafSlot k0 pgdir a ≠ 0 → entry k0 pgdir a &&& PTE_P ≠ 0 →
      PTE_ADDR (entry k0 pgdir a) ≠ 0 ∧ (entry k0 pgdir a &&& L.PTE_S = 0 →
        ValidFrame L (P2V (PTE_ADDR (entry k0 pgdir a))) ∧
          OffTables k0 pgdir (P2V (PTE_ADDR (entry k0 pgdir a))))) :
    ∃ k', deallocuvm L k0 pgdir oldsz newsz = .ok (k', newsz) ∧
      (∀ j, j < 512 → k'.mem (pgdir + 4 * j) = k0.mem (pgdir + 4 * j)) ∧
      (∀ b, b % PGSIZE = 0 → b < KERNBASE → leafSlot k0 pgdir b ≠ 0 →
        deref k' (leafSlot k0 pgdir b) =
          if PGROUNDUP newsz ≤ b ∧ b < oldsz ∧ entry k0 pgdir b &&& PTE_P ≠ 0 then 0
          else entry k0 pgdir b) ∧
      ∃ kf, kfreeEach L k0
          ((pagesFrom (PGROUNDUP newsz) (pageCount (PGROUNDUP newsz) oldsz)).filterMap
            (releasedAt L k0 pgdir)) = .ok kf ∧
        AgreeOff (fun x => ∃ b, b % PGSIZE = 0 ∧ PGROUNDUP newsz ≤ b ∧ b < oldsz ∧
          leafSlot k0 pgdir b ≠ 0 ∧ x = leafSlot k0 pgdir b) k' kf := by
  obtain ⟨r1, r2, r3, r4⟩ := PGROUNDUP_facts newsz (by omega)
  generalize hA : PGROUNDUP newsz = a0 at *
  obtain ⟨S, hS⟩ : ∃ S : Nat → Prop, S = fun x => ∃ b, b % PGSIZE = 0 ∧ a0 ≤ b ∧ b < oldsz ∧
      leafSlot k0 pgdir b ≠ 0 ∧ x = leafSlot k0 pgdir b := ⟨_, rfl⟩
  obtain ⟨C, hC⟩ : ∃ C : Nat → Option Nat,
      C = fun b => if b < oldsz then releasedAt L k0 pgdir b else none := ⟨_, rfl⟩
  have hCin : ∀ b, b < oldsz → C b = releasedAt L k0 pgdir b := by
    intro b hb; rw [hC]; exact if_pos hb
  have hCout : ∀ b, ¬ b < oldsz → C b = none := by
    intro b hb; rw [hC]; exact if_neg hb
  rw [← hS]
  -- the invariant
  let I : Kernel → Nat → Prop := fun k a =>
    (a0 ≤ a ∧ (∀ j, j < 512 → k.mem (pgdir + 4 * j) = k0.mem (pgdir + 4 * j)) ∧
    (∀ b, b % PGSIZE = 0 → b < KERNBASE → leafSlot k0 pgdir b ≠ 0 →
      deref k (leafSlot k0 pgdir b) =
        if a0 ≤ b ∧ b < a ∧ b < oldsz ∧ entry k0 pgdir b &&& PTE_P ≠ 0 then 0
        else entry k0 pgdir b)) ∧
    ∃ n kf, a = a0 + n * PGSIZE ∧
      kfreeEach L k0 ((pagesFrom a0 n).filterMap C) = .ok kf ∧ AgreeOff S k kf
  have hI0 : I k0 a0 := ⟨⟨le_refl _, fun _ _ => rfl, fun b _ _ _ => by
    rw [if_neg (by intro h; omega)]; rfl⟩, 0, k0, by omega, rfl, rfl, rfl, rfl, rfl,
    fun _ _ => rfl⟩
  have habs : ∀ k a, a % PGSIZE = 0 → a < oldsz → I k a → leafSlot k pgdir a = 0 →
      I k ((a / 4194304 + 1) * 4194304) := by
    intro k a ha hao ⟨⟨i1, i2, i3⟩, n, kf, hn, hkf, hag⟩ h0
    obtain ⟨v1, v2, v3, v4⟩ := DirOK_view L k0 k [] pgdir hD i2
    rw [v3 a (by omega)] at h0
    have hpa := (slot_zero_iff k0 pgdir a (by omega) htz).mp h0
    have hreg : ∀ b, a ≤ b → b < (a / 4194304 + 1) * 4194304 → b < oldsz →
        leafSlot k0 pgdir b = 0 := by
      intro b b1 b2 b3
      rw [slot_zero_iff k0 pgdir b (by omega) htz, PDX_region a b (by omega) b1 b2]
      exact hpa
    refine ⟨⟨?_, i2, fun b b1 b2 b3 => ?_⟩,
      n + ((a / 4194304 + 1) * 4194304 - a) / PGSIZE, kf, ?_, ?_, hag⟩
    · have : a < (a / 4194304 + 1) * 4194304 := by omega
      omega
    · rw [i3 b b1 b2 b3]
      by_cases hc : a0 ≤ b ∧ b < a ∧ b < oldsz ∧ entry k0 pgdir b &&& PTE_P ≠ 0
      · rw [if_pos hc, if_pos ⟨hc.1, by omega, hc.2.2⟩]
      · rw [if_neg hc, if_neg]
        rintro ⟨c1, c2, c3, c4⟩
        by_cases hba : b < a
        · exact hc ⟨c1, hba, c3, c4⟩
        · exact b3 (hreg b (by omega) c2 c3)
    · unfold PGSIZE at *; omega
    · rw [filterMap_more_none C a0 n _ (fun b hb => ?_)]
      · exact hkf
      · obtain ⟨i, hi, hbi⟩ := mem_pagesFrom _ _ _ hb
        by_cases hbo : b < oldsz
        · rw [hCin b hbo]
          unfold releasedAt
          rw [if_neg (fun h => h.1 (hreg b (by unfold PGSIZE at *; omega)
            (by unfold PGSIZE at *; omega) hbo))]
        · exact hCout b hbo
  have hpres : ∀ k a, a % PGSIZE = 0 → a < oldsz → I k a → leafSlot k pgdir a ≠ 0 →
      ∃ k1, deallocuvmStep L k pgdir a = .ok (k1, a) ∧ I k1 (a + PGSIZE) := by
    intro k a ha hao ⟨⟨i1, i2, i3⟩, n, kf, hn, hkf, hag⟩ h0
    have hak : a < KERNBASE := by omega
    obtain ⟨v1, v2, v3, v4⟩ := DirOK_view L k0 k [] pgdir hD i2
    have hsl := v3 a hak
    have h00 : leafSlot k0 pgdir a ≠ 0 := by rw [← hsl]; exact h0
    have hent : deref k (leafSlot k pgdir a) = entry k0 pgdir a := by
      rw [hsl, i3 a ha hak h00, if_neg (by intro h; omega)]
    have hout := (SrcOK_slot_out L k0 [] pgdir 0 a (Frames_nil L) hD hak h00).2
    have hdirne : ∀ j, j < 512 → pgdir + 4 * j ≠ leafSlot k0 pgdir a := by
      intro j hj e
      rw [← e] at hout
      unfold Outside PGSIZE at hout
      omega
    have hSa : S (leafSlot k0 pgdir a) := by
      rw [hS]; exact ⟨a, ha, i1, hao, h00, rfl⟩
    have hn1 : a + PGSIZE = a0 + (n + 1) * PGSIZE := by unfold PGSIZE at *; omega
    have hCa : C (a0 + n * PGSIZE) = releasedAt L k0 pgdir a := by
      rw [← hn]; exact hCin a hao
    -- the entries after the entry has been cleared in a state that agrees with `k`
    have hclear : ∀ k1 : Kernel, (∀ j, j < 512 → k1.mem (pgdir + 4 * j) = k.mem (pgdir + 4 * j)) →
        (∀ b, b < KERNBASE → leafSlot k0 pgdir b ≠ 0 →
          k1.mem (leafSlot k0 pgdir b) = k.mem (leafSlot k0 pgdir b)) →
        entry k0 pgdir a &&& PTE_P ≠ 0 →
        (a0 ≤ a + PGSIZE ∧
          (∀ j, j < 512 → (store k1 (leafSlot k0 pgdir a) 0).mem (pgdir + 4 * j) =
            k0.mem (pgdir + 4 * j)) ∧
          (∀ b, b % PGSIZE = 0 → b < KERNBASE → leafSlot k0 pgdir b ≠ 0 →
            deref (store k1 (leafSlot k0 pgdir a) 0) (leafSlot k0 pgdir b) =
              if a0 ≤ b ∧ b < a + PGSIZE ∧ b < oldsz ∧ entry k0 pgdir b &&& PTE_P ≠ 0 then 0
              else entry k0 pgdir b)) := by
      intro k1 m1 m2 hP
      refine ⟨by omega, fun j hj => ?_, fun b b1 b2 b3 => ?_⟩
      · rw [mem_store, if_neg (hdirne j hj), m1 j hj, i2 j hj]
      · by_cases hb : b = a
        · subst hb
          rw [deref_store_same, if_pos ⟨i1, by unfold PGSIZE; omega, hao, hP⟩]
          rfl
        · have hne : leafSlot k0 pgdir b ≠ leafSlot k0 pgdir a :=
            SrcOK_slot_ne L k0 [] pgdir 0 b a hD b2 hak (by unfold PGSIZE at *; omega) b3 h00
          rw [deref_store_ne _ _ _ _ hne, deref_congr k k1 _ (m2 b b2 b3), i3 b b1 b2 b3]
          by_cases hc : a0 ≤ b ∧ b < a ∧ b < oldsz ∧ entry k0 pgdir b &&& PTE_P ≠ 0
          · rw [if_pos hc, if_pos ⟨hc.1, by omega, hc.2.2⟩]
          · rw [if_neg hc, if_neg]
            rintro ⟨c1, c2, c3, c4⟩
            exact hc ⟨c1, by unfold PGSIZE at *; omega, c3, c4⟩
    by_cases hP : entry k0 pgdir a &&& PTE_P ≠ 0
    · obtain ⟨f1, f2⟩ := hfr a ha i1 hao h00 hP
      have hP' : deref k (leafSlot k pgdir a) &&& PTE_P ≠ 0 := by rw [hent]; exact hP
      have hpa' : PTE_ADDR (deref k (leafSlot k pgdir a)) ≠ 0 := by rw [hent]; exact f1
      by_cases hSh : entry k0 pgdir a &&& L.PTE_S = 0
      · obtain ⟨g1, g2⟩ := f2 hSh
        have g2' : OffTables k pgdir (P2V (PTE_ADDR (entry k0 pgdir a))) :=
          ⟨g2.1, fun j hj hp => by
            rw [v2 j hj]; rw [v1 j hj] at hp; exact g2.2 j hj hp⟩
        obtain ⟨k1, q1, q2, q3, q4, q5, q6, q7⟩ := kfree_view L k [] pgdir _ v4 g1 g2'
        obtain ⟨o1, o2, o3⟩ := OffTables_out L k [] pgdir _ v4 g1.1 g2'
        have hS' : deref k (leafSlot k pgdir a) &&& L.PTE_S = 0 := by rw [hent]; exact hSh
        have hk : kfree L k (P2V (PTE_ADDR (deref k (leafSlot k pgdir a)))) = .ok k1 := by
          rw [hent]; exact q1
        obtain ⟨kf1, w1, w2⟩ := kfree_agree L S k kf _ k1 hag.1 hag.2.1 hag.2.2.1 hag.2.2.2.1
          hag.2.2.2.2 q1
        have hrel : releasedAt L k0 pgdir a = some (P2V (PTE_ADDR (entry k0 pgdir a))) := by
          unfold releasedAt
          rw [if_pos ⟨h00, hP, hSh⟩]
        refine ⟨_, deallocuvmStep_free L k pgdir a k1 h0 hP' hpa' hS' hk, ?_, n + 1, kf1, hn1,
          ?_, ?_⟩
        · rw [hsl]
          exact hclear k1 (fun j hj => q2 _ (o1 j (by omega)))
            (fun b b2 b3 => q2 _ (by
              have := o3 b b2 (by rw [v3 b b2]; exact b3)
              rw [v3 b b2] at this
              exact this)) hP
        · rw [filterMap_more_one, hCa, hrel]
          exact kfreeEach_snoc L _ _ k0 kf kf1 hkf w1
        · rw [hsl]
          exact AgreeOff_store S k1 kf1 _ 0 hSa w2
      · have hS' : ¬ (deref k (leafSlot k pgdir a) &&& L.PTE_S = 0) := by rw [hent]; exact hSh
        have hrel : releasedAt L k0 pgdir a = none := by
          unfold releasedAt
          rw [if_neg (fun h => hSh h.2.2)]
        refine ⟨_, deallocuvmStep_shared L k pgdir a h0 hP' hpa' hS', ?_, n + 1, kf, hn1,
          ?_, ?_⟩
        · rw [hsl]
          exact hclear k (fun _ _ => rfl) (fun _ _ _ => rfl) hP
        · rw [filterMap_more_one, hCa, hrel]
          show kfreeEach L k0 (_ ++ []) = _
          rw [List.append_nil]
          exact hkf
        · rw [hsl]
          exact AgreeOff_store S k kf _ 0 hSa hag
    · have hP' : ¬ (deref k (leafSlot k pgdir a) &&& PTE_P ≠ 0) := by rw [hent]; exact hP
      have hrel : releasedAt L k0 pgdir a = none := by
        unfold releasedAt
        rw [if_neg (fun h => hP h.2.1)]
      refine ⟨k, deallocuvmStep_skip L k pgdir a h0 hP', ⟨by omega, i2, fun b b1 b2 b3 => ?_⟩,
        n + 1, kf, hn1, ?_, hag⟩
      · rw [i3 b b1 b2 b3]
        by_cases hc : a0 ≤ b ∧ b < a ∧ b < oldsz ∧ entry k0 pgdir b &&& PTE_P ≠ 0
        · rw [if_pos hc, if_pos ⟨hc.1, by omega, hc.2.2⟩]
        · rw [if_neg hc, if_neg]
          rintro ⟨c1, c2, c3, c4⟩
          by_cases hb : b = a
          · subst hb; exact hP c4
          · exact hc ⟨c1, by unfold PGSIZE at *; omega, c3, c4⟩
      · rw [filterMap_more_one, hCa, hrel]
        show kfreeEach L k0 (_ ++ []) = _
        rw [List.append_nil]
        exact hkf
  obtain ⟨k', a', e1, e2, e3, e4, ⟨⟨j1, j2, j3⟩, n, kf, hn, hkf, hag⟩⟩ :=
    dealloc_rule0 L pgdir oldsz hle I habs hpres
      (pageCount a0 oldsz) LOOP_FUEL k0 a0 r1 (le_refl _)
      (by unfold pageCount PGSIZE LOOP_FUEL; unfold KERNBASE at hle; omega) hI0
  refine ⟨k', ?_, j2, fun b b1 b2 b3 => ?_, kf, ?_, hag⟩
  · unfold deallocuvm
    rw [if_neg (by omega), hA, e1]
  · rw [j3 b b1 b2 b3]
    by_cases hc : a0 ≤ b ∧ b < oldsz ∧ entry k0 pgdir b &&& PTE_P ≠ 0
    · rw [if_pos hc, if_pos ⟨hc.1, by omega, hc.2⟩]
    · rw [if_neg hc, if_neg]
      rintro ⟨c1, _, c3, c4⟩
      exact hc ⟨c1, c3, c4⟩
  · have hsplit : n = pageCount a0 oldsz + (n - pageCount a0 oldsz) := by
      unfold pageCount PGSIZE at *; omega
    have hcut : (pagesFrom a0 n).filterMap C =
        (pagesFrom a0 (pageCount a0 oldsz)).filterMap (releasedAt L k0 pgdir) := by
      rw [hsplit, filterMap_more_none C a0 _ _ (fun b hb => ?_)]
      · apply List.filterMap_congr
        intro b hb
        exact hCin b ((mem_pages_iff a0 oldsz b r1).mp hb).2.2
      · obtain ⟨i, hi, hbi⟩ := mem_pagesFrom _ _ _ hb
        apply hCout
        unfold pageCount PGSIZE at *
        omega
    rw [← hcut]
    exact hkf

/-- C12: for `newsz < oldsz ≤ KERNBASE`, `deallocuvm(pgdir, oldsz, newsz)`
returns `newsz`; every page keeps its leaf slot; a present leaf entry at a page
address in `[PGROUNDUP(newsz), oldsz)` is cleared, every other leaf entry (below
`PGROUNDUP(newsz)`, at or above `oldsz`, or not present) keeps its value.  The
calls of `kfree`: the state after `deallocuvm` has the allocator state (every
count, the head of the free list, the free-frame count, the lock flag) and,
outside the leaf entries of the range, the memory of the state `kf` reached
from the state before by calling `kfree` once for each page of the range whose
entry is present with the shared bit clear, in page order, on the frame of
that entry (`kfreeEach` makes exactly these calls), and by no other call: each
frame in the list of calls stems from such an entry, and the count of a frame
that none of them names is as before.  The address space is assumed well
formed: the directory and its page tables are distinct frames (`DirOK`),
present entries of the range name a frame other than 0, and those without the
shared bit name a valid frame that is not a page table. -/
theorem deallocuvm_releases (L : Layout) (k : Kernel) (pgdir oldsz newsz : Nat)
    (hD : DirOK L k [] pgdir)
    (htz : ∀ j, j < 512 → pdeAt k pgdir j &&& PTE_P ≠ 0 → tableOf k pgdir j ≠ 0)
    (hlt : newsz < oldsz) (hle : oldsz ≤ KERNBASE)
    (hfr : ∀ a, a % PGSIZE = 0 → PGROUNDUP newsz ≤ a → a < oldsz →
      leafSlot k pgdir a ≠ 0 → entry k pgdir a &&& PTE_P ≠ 0 →
      PTE_ADDR (entry k pgdir a) ≠ 0 ∧ (entry k pgdir a &&& L.PTE_S = 0 →
        ValidFrame L (P2V (PTE_ADDR (entry k pgdir a))) ∧
          OffTables k pgdir (P2V (PTE_ADDR (entry k pgdir a))))) :
    ∃ k', deallocuvm L k pgdir oldsz newsz = .ok (k', newsz) ∧
      (∀ b, b < KERNBASE → leafSlot k' pgdir b = leafSlot k pgdir b) ∧
      (∀ b, b % PGSIZE = 0 → PGROUNDUP newsz ≤ b → b < oldsz → leafSlot k pgdir b ≠ 0 →
        entry k pgdir b &&& PTE_P ≠ 0 → entry k' pgdir b = 0) ∧
      (∀ b, b % PGSIZE = 0 → b < KERNBASE → leafSlot k pgdir b ≠ 0 →
        (b < PGROUNDUP newsz ∨ oldsz ≤ b ∨ entry k pgdir b &&& PTE_P = 0) →
        entry k' pgdir b = entry k pgdir b) ∧
      (∃ kf, kfreeEach L k
          ((pagesFrom (PGROUNDUP newsz) (pageCount (PGROUNDUP newsz) oldsz)).filterMap
            (releasedAt L k pgdir)) = .ok kf ∧
        k'.refcount = kf.refcount ∧ k'.freelist = kf.freelist ∧
        k'.num_free_pages = kf.num_free_pages ∧ k'.use_lock = kf.use_lock ∧
        ∀ x, (∀ b, b % PGSIZE = 0 → PGROUNDUP newsz ≤ b → b < oldsz →
          leafSlot k pgdir b ≠ 0 → x ≠ leafSlot k pgdir b) → k'.mem x = kf.mem x) ∧
      (∀ j, (∀ v ∈ (pagesFrom (PGROUNDUP newsz) (pageCount (PGROUNDUP newsz) oldsz)).filterMap
          (releasedAt L k pgdir), j ≠ V2P v / PGSIZE) → k'.refcount j = k.refcount j) ∧
      (pagesFrom (PGROUNDUP newsz) (pageCount (PGROUNDUP newsz) oldsz)).Nodup ∧
      (∀ b, b ∈ pagesFrom (PGROUNDUP newsz) (pageCount (PGROUNDUP newsz) oldsz) ↔
        b % PGSIZE = 0 ∧ PGROUNDUP newsz ≤ b ∧ b < oldsz) ∧
      (∀ b, releasedAt L k pgdir b =
        if leafSlot k pgdir b ≠ 0 ∧ entry k pgdir b &&& PTE_P ≠ 0 ∧
            entry k pgdir b &&& L.PTE_S = 0
        then some (P2V (PTE_ADDR (entry k pgdir b))) else none) ∧
      (∀ v, v ∈ (pagesFrom (PGROUNDUP newsz) (pageCount (PGROUNDUP newsz) oldsz)).filterMap
          (releasedAt L k pgdir) →
        ∃ b, b % PGSIZE = 0 ∧ PGROUNDUP newsz ≤ b ∧ b < oldsz ∧ leafSlot k pgdir b ≠ 0 ∧
          entry k pgdir b &&& PTE_P ≠ 0 ∧ entry k pgdir b &&& L.PTE_S = 0 ∧
          v = P2V (PTE_ADDR (entry k pgdir b))) := by
  obtain ⟨r1, r2, r3, r4⟩ := PGROUNDUP_facts newsz (by omega)
  obtain ⟨k', h1, h2, h3, kf, h4, g1, g2, g3, g4, g5⟩ :=
    deallocuvm_effect L k pgdir oldsz newsz hD htz hlt hle hfr
  obtain ⟨v1, v2, v3, v4⟩ := DirOK_view L k k' [] pgdir hD h2
  have hent : ∀ b, b % PGSIZE = 0 → b < KERNBASE → leafSlot k pgdir b ≠ 0 →
      entry k' pgdir b =
        if PGROUNDUP newsz ≤ b ∧ b < oldsz ∧ entry k pgdir b &&& PTE_P ≠ 0 then 0
        else entry k pgdir b := by
    intro b b1 b2 b3
    show deref k' (leafSlot k' pgdir b) = _
    rw [v3 b b2]
    exact h3 b b1 b2 b3
  have hmem := mem_pages_iff (PGROUNDUP newsz) oldsz
  obtain ⟨c1, _⟩ := kfreeEach_other_counts L _ k kf h4
  refine ⟨k', h1, v3, fun b b1 b2 b3 b4 b5 => ?_, fun b b1 b2 b3 b4 => ?_,
    ⟨kf, h4, g1, g2, g3, g4, fun x hx => g5 x ?_⟩, fun j hj => ?_,
    pagesFrom_nodup _ _, fun b => hmem b r1, fun b => rfl, fun v hv => ?_⟩
  · rw [hent b b1 (by omega) b4, if_pos ⟨b2, b3, b5⟩]
  · rw [hent b b1 b2 b3, if_neg]
    rintro ⟨c1, c2, c3⟩
    rcases b4 with h | h | h
    · omega
    · omega
    · exact c3 h
  · rintro ⟨b, b1, b2, b3, b4, b5⟩
    exact hx b b1 b2 b3 b4 b5
  · rw [g1]
    exact c1 j hj
  · obtain ⟨b, hb, hr⟩ := List.mem_filterMap.mp hv
    obtain ⟨b1, b2, b3⟩ := (hmem b r1).mp hb
    unfold releasedAt at hr
    by_cases hc : leafSlot k pgdir b ≠ 0 ∧ entry k pgdir b &&& PTE_P ≠ 0 ∧
        entry k pgdir b &&& L.PTE_S = 0
    · rw [if_pos hc] at hr
      exact ⟨b, b1, b2, b3, hc.1, hc.2.1, hc.2.2, (Option.some.inj hr).symm⟩
    · rw [if_neg hc] at hr
      cases hr

theorem exShared_released :
    (pagesFrom (PGROUNDUP 0) (pageCount (PGROUNDUP 0) 0x2000)).filterMap
      (releasedAt exLayout exShared 0x8011e000) = [0x8011f000] := by
  decide

set_option maxRecDepth 100000 in
theorem exShared_kfree :
    kfreeEach exLayout exShared [0x8011f000] =
      .ok (kfreePush (setref exShared 0x11f 0) 0x8011f000) := rfl

/-- Witness for `deallocuvm_releases`: emptying the example process with its
shared page clears both entries and frees the private frame `0x8011f000`
(count 1 to 0, the frame is the new head of the free list, one more free
frame); the shared frame `0x8011b000` keeps its count and is not freed. -/
theorem deallocuvm_releases_witness :
    ∃ k', deallocuvm exLayout exShared 0x8011e000 0x2000 0 = .ok (k', 0) ∧
      entry k' 0x8011e000 0 = 0 ∧ entry k' 0x8011e000 0x1000 = 0 ∧
      exShared.refcount 0x11f = 1 ∧ k'.refcount 0x11f = 0 ∧ k'.freelist = 0x8011f000 ∧
      k'.num_free_pages = exShared.num_free_pages + 1 ∧
      exShared.refcount 0x11b = 1 ∧ k'.refcount 0x11b = 1 := by
  obtain ⟨k', h1, _, h3, _, ⟨kf, h5, a1, a2, a3, _, _⟩, h6, _⟩ :=
    deallocuvm_releases exLayout exShared 0x8011e000 0x2000 0
    (exShared_dir [] (List.not_mem_nil _) (List.not_mem_nil _)) exShared_tz (by decide)
    (by decide)
    (fun a a1 _ a3 _ _ => by
      rcases exShared_pages a a1 a3 with e | e <;> subst e
      · exact ⟨by decide, fun _ => ⟨by decide, exShared_off _ (by decide) (by decide)⟩⟩
      · exact ⟨by decide, fun h => absurd h (by decide)⟩)
  rw [exShared_released, exShared_kfree] at h5
  have hkf := Except.ok.inj h5
  subst hkf
  refine ⟨k', h1, h3 0 (by decide) (by decide) (by decide) (by decide) (by decide),
    h3 0x1000 (by decide) (by decide) (by decide) (by decide) (by decide), by decide, ?_, ?_, ?_,
    by decide, ?_⟩
  · rw [a1]; decide
  · rw [a2]; rfl
  · rw [a3]; rfl
  · rw [h6 0x11b (fun v hv => by
      rw [exShared_released] at hv
      rw [List.mem_singleton.mp hv]
      decide)]
    decide

/-! ## allocuvm: examples -/

/-- Witness for `allocuvm_maps_range`: the example process grows from `0x2000`
to `0x4000` and gets two pages with frames of their own. -/
theorem allocuvm_maps_range_witness :
    ∃ k', allocuvm exLayout exShared 0x8011e000 0x2000 0x4000 = .ok (k', 0x4000) ∧
      entry k' 0x8011e000 0x2000 &&& PTE_P ≠ 0 ∧ entry k' 0x8011e000 0x3000 &&& PTE_P ≠ 0 ∧
      PTE_ADDR (entry k' 0x8011e000 0x2000) ≠ PTE_ADDR (entry k' 0x8011e000 0x3000) ∧
      entry k' 0x8011e000 0 = entry exShared 0x8011e000 0 := by
  have hr : PGROUNDUP 0x2000 = 0x2000 := by decide
  obtain ⟨k', h1, h2, h3, h4⟩ := allocuvm_maps_range exLayout exShared (exFrames.drop 5)
    0x8011e000 0x2000 0x4000 (by decide) exShared_ok.1 (by decide)
    (exShared_dir _ (by decide) (by decide)) exShared_tz (by decide) (by decide)
    (fun b b1 b2 b3 _ => by
      rw [hr] at b2
      have : b = 0x2000 ∨ b = 0x3000 := by unfold PGSIZE at b1; omega
      rcases this with e | e <;> subst e <;> decide)
    (by decide)
  refine ⟨k', h1, (h2 0x2000 (by decide) (by decide) (by decide)).2.1,
    (h2 0x3000 (by decide) (by decide) (by decide)).2.1,
    h3 0x2000 0x3000 (by decide) (by decide) (by decide) (by decide) (by decide) (by decide)
      (by decide),
    ((h4 0 (by decide) (by decide) (by decide)).1 (by decide)).2⟩

set_option maxRecDepth 100000 in
theorem exKvmLow_pde : ∀ j, j < 512 → ¬ (pdeAt exKvmLow 0x8011e000 j &&& PTE_P ≠ 0) := by
  decide

theorem exKvmLow_dir (l : List Nat) (h1 : 0x8011e000 ∉ l) :
    DirOK exLayout exKvmLow l 0x8011e000 :=
  ⟨Nat.zero_le _, by decide, h1, fun j hj hp => absurd hp (exKvmLow_pde j hj),
    fun _ _ h0 => absurd h0 (Nat.not_lt_zero _),
    fun _ _ _ _ h0 => absurd h0 (Nat.not_lt_zero _)⟩

/-- In the fresh address space `exKvmLow`, with two free frames and nothing
mapped below `0x2000`, `allocuvm(pgdir, 0, 0x2000)` returns 0 and the count of
free frames is 1 afterwards, not 2: the page table taken for the first page
stays in the directory. -/
theorem allocuvm_failure_loses_frame :
    allocuvm exLayout exKvmLow 0x8011e000 0 0x2000 = .ok (exGrowFail, 0) ∧
      FreeOK exLayout exKvmLow [0x80111000, 0x80110000] ∧
      leafSlot exKvmLow 0x8011e000 0 = 0 ∧ leafSlot exKvmLow 0x8011e000 0x1000 = 0 ∧
      getNumFreePages exKvmLow = 2 ∧ getNumFreePages exGrowFail = 1 ∧
      pdeAt exKvmLow 0x8011e000 0 &&& PTE_P = 0 ∧
      pdeAt exGrowFail 0x8011e000 0 &&& PTE_P ≠ 0 := by
  refine ⟨rfl, by decide, by decide, by decide, by decide, by decide, by decide, by decide⟩

/-- Witness for `allocuvm_failure_keeps_tables`: the failed call on
`exKvmLow`. -/
theorem allocuvm_failure_keeps_tables_witness :
    getNumFreePages exGrowFail + pdeCount exGrowFail 0x8011e000 =
        getNumFreePages exKvmLow + pdeCount exKvmLow 0x8011e000 ∧
      (leafSlot exGrowFail 0x8011e000 0 ≠ 0 → entry exGrowFail 0x8011e000 0 = 0) := by
  obtain ⟨_, _, h3, h4, _⟩ := allocuvm_failure_keeps_tables exLayout exKvmLow
    [0x80111000, 0x80110000] 0x8011e000 0 0x2000 exGrowFail (by decide) (by decide)
    (by decide) (exKvmLow_dir _ (by decide))
    (fun j hj hp => absurd hp (exKvmLow_pde j hj))
    (fun b _ _ _ hb h0 => by
      exfalso
      apply h0
      rw [leafSlot_eq, if_neg (exKvmLow_pde _ (PDX_user b hb))])
    rfl
  exact ⟨h4, h3 0 (by decide) (by decide) (by decide)⟩

/-! ## copyuvm and sys_mapshared: where the code departs -/

theorem incref_eq (L : Layout) (k : Kernel) (pa : Nat) (c : Int) (hlock : k.use_lock = true)
    (hidx : pa / PGSIZE < MAX_PAGES L) (hc : k.refcount (pa / PGSIZE) = c) (hc1 : 1 ≤ c)
    (hc2 : c < 2147483647) :
    incref L k pa = .ok (setref k (pa / PGSIZE) (c + 1)) := by
  have hn : ¬ (pa / PGSIZE ≥ MAX_PAGES L) := by omega
  have h0 : ¬ (k.refcount (pa / PGSIZE) = 0) := by omega
  unfold incref
  simp only [hn, hlock, h0, if_false, Bool.not_true, Bool.false_eq_true]
  rw [if_neg (by omega), hc]

/-- `freevm` of a directory built from the free list that has no user page
table: every frame taken for it goes back to the free list, nothing else
changes. -/
theorem freevm_built (L : Layout) (k0 : Kernel) (l0 : List Nat) (d : Nat)
    (W R : Nat → Prop) (kA : Kernel) (used l : List Nat) (hL : LayoutOK L)
    (hF : Frames L l0) (hB : BuildInv L k0 l0 d W R kA used l)
    (hu : ∀ j, j < 512 → pdeAt kA d j &&& PTE_P = 0) (hd : d ≠ 0) :
    ∃ k2 l2, freevm L kA d = .ok k2 ∧ k2.num_free_pages = k0.num_free_pages ∧
      FreeOK L k2 l2 ∧ l2.Perm l0 ∧
      (∀ x, (∀ u ∈ used, Outside u x) → k2.mem x = kA.mem x) ∧
      (∀ j, (∀ u ∈ used, j ≠ V2P u / PGSIZE) → k2.refcount j = kA.refcount j) := by
  obtain ⟨b1, b2, b3, dal, d32, und⟩ := BuildInv_basic L k0 l0 d _ _ kA used _ hF hB
  -- the scan of the user half finds no page table
  have hscan : deallocuvm L kA d KERNBASE 0 = .ok (kA, 0) := by
    obtain ⟨k', a', e1, _, _, _, e5⟩ := dealloc_rule0 L d KERNBASE (le_refl _)
      (fun k _ => k = kA) (fun _ _ _ _ h _ => h)
      (fun k a _ ha h h0 => by
        exfalso
        apply h0
        rw [h, leafSlot_eq, if_neg]
        rw [hu _ (PDX_user a ha)]
        exact fun h => h rfl)
      (pageCount 0 KERNBASE) LOOP_FUEL kA 0 (by decide) (le_refl _) (by decide) rfl
    have e5' : k' = kA := e5
    subst e5'
    unfold deallocuvm
    rw [if_neg (by decide)]
    have : PGROUNDUP 0 = 0 := by decide
    rw [this, e1]
  have hT0 : TabInv L kA d used l 0 kA [] :=
    ⟨hB.free, hB.lock, fun _ _ => rfl, fun t ht => (by cases ht), rfl,
      fun u hu _ => hB.urc u hu, (by simp), fun _ _ => rfl, fun _ _ => rfl⟩
  obtain ⟨kB, T, hBl, hTB⟩ := free_tables_loop L k0 l0 d _ _ kA used l hL hF hB NPDENTRIES 0 kA []
    (by omega) hT0
  have hdT : d ∉ T := fun hm => (hTB.sub d hm).2.1 rfl
  have hvd := hF.2 _ (b1 _ hB.dmem)
  obtain ⟨f1, f2⟩ := kfree_last_FreeOK L kB d (T ++ l) hL hTB.lock hTB.free hvd.1 hvd.2
    (hTB.rc d hB.dmem hdT)
  have hlen : T.length = pdeCount kA d := hTB.len
  have hperm : (d :: T).Perm used := by
    have hnd : (d :: T).Nodup := by
      have := f2.2.1
      rw [← List.cons_append] at this
      exact (List.nodup_append.mp this).1
    have hsub : (d :: T) ⊆ used := by
      intro x hx
      rcases List.mem_cons.mp hx with e | e
      · exact e ▸ hB.dmem
      · exact (hTB.sub x e).1
    refine (List.subperm_of_subset hnd hsub).perm_of_length_le ?_
    rw [List.length_cons, hlen, hB.pdes]
    omega
  refine ⟨kfreePush (setref kB (V2P d / PGSIZE) 0) d, d :: (T ++ l), ?_, ?_, f2, ?_,
    fun x hx => ?_, fun j hj => ?_⟩
  · unfold freevm
    rw [if_neg hd, hscan]
    simp only
    rw [hBl]
    exact f1
  · rw [kfreePush_count]
    show kB.num_free_pages + 1 = _
    rw [hTB.cnt, hB.count, hlen]
    have := hB.pdes
    omega
  · rw [← List.cons_append, hB.split]
    exact hperm.append_right l
  · rw [kfreePush_mem _ d x (hx d hB.dmem)]
    exact hTB.memf x hx
  · rw [kfreePush_refcount, setref_other _ _ j _ (hj d hB.dmem)]
    exact hTB.rcf j hj

/-- `copyuvm` when `setupkvm` has taken the last free frame and page 0 of the
source is private: the count of the frame of page 0 is raised, the mapping
fails, and `freevm` of the child does not lower the count again. -/
theorem copyuvm_first_page_fails (L : Layout) (k : Kernel) (l0 : List Nat) (pgdir sz : Nat)
    (k1 : Kernel) (d : Nat) (c : Int) (hL : LayoutOK L) (hK : ∀ m ∈ L.kmap, KmapOK m)
    (hf : FreeOK L k l0) (hlock : k.use_lock = true) (hS : SrcOK L k l0 pgdir sz)
    (hsz : 0 < sz) (hp : PrivateAt L k pgdir 0)
    (hv : ValidFrame L (P2V (PTE_ADDR (entry k pgdir 0))))
    (hc : k.refcount (PTE_ADDR (entry k pgdir 0) / PGSIZE) = c) (hc1 : 1 ≤ c)
    (hc2 : c < 2147483647)
    (hs : setupkvm L k = .ok (k1, d)) (hd : d ≠ 0) (he : k1.freelist = 0) :
    ∃ k', copyuvm L k pgdir sz = .ok (k', 0) ∧
      k'.refcount (PTE_ADDR (entry k pgdir 0) / PGSIZE) = c + 1 ∧
      (∀ j, j ≠ PTE_ADDR (entry k pgdir 0) / PGSIZE → k'.refcount j = k.refcount j) ∧
      k'.num_free_pages = k.num_free_pages ∧
      (∃ l', FreeOK L k' l' ∧ l'.Perm l0) ∧
      (∀ y, (∀ u ∈ l0, Outside u y) → k'.mem y = k.mem y) ∧
      leafSlot k' pgdir 0 = leafSlot k pgdir 0 ∧ entry k' pgdir 0 = entry k pgdir 0 := by
  have hF := Frames_of_FreeOK L k _ hf
  obtain ⟨used, l, B, u1, u2, u3⟩ := setupkvm_build L k l0 k1 d hL hK hf hlock hs hd
  have hl : l = [] := by
    cases l with
    | nil => rfl
    | cons g gs =>
      have h1 : FreeChain k1 k1.freelist (g :: gs) := B.free.1
      rw [he] at h1
      exact absurd h1.1.symm h1.2.1
  subst hl
  obtain ⟨b1, b2, b3, dal, d32, und⟩ := BuildInv_basic L k l0 d _ _ k1 used _ hF B
  have hC0 : CopyInv L k l0 pgdir sz d 0 k1 used [] := by
    refine ⟨BuildInv_mono L k l0 d _ _ _ _ k1 used [] B (fun _ h => h.elim)
      (fun _ h => h.elim), rfl, fun a _ h => by omega, fun a _ h => by omega,
      fun a _ h => by omega, fun a _ h => by omega, fun a _ h => by omega,
      fun a a1 _ a3 a4 => ?_⟩
    rw [leafSlot_eq] at a4
    have := u1 _ (PDX_user a a3)
    rw [if_neg (by rw [this]; simp)] at a4
    exact absurd rfl a4
  obtain ⟨V1, V2, V3⟩ := CopyInv_view L k l0 pgdir sz d 0 k1 used [] hF hS hC0
  have hszk := hS.szle
  have hs0 : leafSlot k pgdir 0 ≠ 0 := hp.1
  have hent : deref k1 (leafSlot k pgdir 0) = entry k pgdir 0 :=
    V2 0 (by decide) (le_refl _) (by decide) hs0
  obtain ⟨pa, hpa⟩ : ∃ pa, pa = PTE_ADDR (entry k pgdir 0) := ⟨_, rfl⟩
  rw [← hpa] at hv hc ⊢
  have hrc1 : k1.refcount (pa / PGSIZE) = c := by
    rw [hpa, V3 0 (by decide) (le_refl _) hsz hp, ← hpa]
    exact hc
  have hpa32 : pa < 4294967296 := by rw [hpa]; unfold PTE_ADDR u32; omega
  have hidx : pa / PGSIZE < MAX_PAGES L := by
    have := idx_lt_MAX_PAGES L (P2V pa) hL.1 hv.2.2
    rwa [V2P_P2V _ hpa32] at this
  have hinc : incref L k1 pa = .ok (setref k1 (pa / PGSIZE) (c + 1)) :=
    incref_eq L k1 pa c B.lock hidx hrc1 hc1 hc2
  have hout : ∀ u ∈ l0, pa / PGSIZE ≠ V2P u / PGSIZE := by
    rw [hpa]
    exact SrcOK_idx_out L k l0 pgdir sz 0 hF hS (by decide) hsz hp
  obtain ⟨B2, m2, _, _⟩ := BuildInv_incref L k l0 d _ _ k1 used [] pa _ hF B hout hinc
  obtain ⟨k2, hk2⟩ : ∃ k2, k2 = setref k1 (pa / PGSIZE) (c + 1) := ⟨_, rfl⟩
  rw [← hk2] at hinc B2 m2
  have hpde2 : ∀ j, pdeAt k2 d j = pdeAt k1 d j := fun j =>
    pdeAt_congr k1 k2 d j (by rw [m2])
  have hfl2 : k2.freelist = 0 := by rw [hk2]; exact he
  have hwalk : walkpgdir L k2 d 0 1 = (k2, 0) := by
    apply walk_absent_nil L k2 d 0 _ hfl2
    have : PDX 0 = 0 := by decide
    rw [this, hpde2, u1 0 (by decide)]
    exact fun h => h rfl
  have hmap : ∀ perm, mappages L k2 d 0 PGSIZE pa perm = .ok (k2, -1) := by
    intro perm
    rw [mappages_page L k2 d 0 pa perm (by decide) (by decide), hwalk]
    exact if_pos rfl
  have hloop : copyuvmLoop L LOOP_FUEL k1 pgdir d 0 sz = .ok (k2, false) := by
    show copyuvmLoop L (1048576 + 1) k1 pgdir d 0 sz = _
    rw [copyuvmLoop, if_pos hsz, walkpgdir_zero]
    simp only
    rw [V1 0, if_neg hs0, hent, if_neg hp.2.1, if_neg (fun h => h hp.2.2), ← hpa, hinc]
    simp only
    rw [hmap]
    simp only
    rw [if_pos (by decide)]
  obtain ⟨k', l2, f1, f2, f3, f4, f5, f6⟩ := freevm_built L k l0 d _ _ k2 used [] hL hF B2
    (fun j hj => by rw [hpde2]; exact u1 j hj) hd
  have husd : used = l0 := by
    have := B.split
    rw [List.append_nil] at this
    exact this.symm
  subst husd
  have hmem : ∀ y, (∀ u ∈ used, Outside u y) → k'.mem y = k.mem y := by
    intro y hy
    rw [f5 y hy, m2]
    exact u2 y hy
  have hcnt : k'.refcount (pa / PGSIZE) = c + 1 := by
    rw [f6 _ hout, hk2]
    simp [setref]
  have hpdeP : ∀ j, j < NPDENTRIES → pdeAt k' pgdir j = pdeAt k pgdir j := by
    intro j hj
    apply pdeAt_congr
    apply hmem
    intro u hu
    exact Outside_in_page pgdir u _ hS.pal (hF.2 u hu).1.1
      (fun e => hS.pfree (e ▸ hu)) (by unfold NPDENTRIES at hj; unfold PGSIZE; omega)
  have hslot : leafSlot k' pgdir 0 = leafSlot k pgdir 0 := by
    rw [leafSlot_eq, leafSlot_eq, hpdeP _ (PDX_lt 0), tableOf_congr _ _ _ _ (hpdeP _ (PDX_lt 0))]
  refine ⟨k', ?_, hcnt, fun j hj => ?_, f2, ⟨l2, f3, f4⟩, hmem, hslot, ?_⟩
  · unfold copyuvm
    rw [hs]
    simp only
    rw [if_neg hd, hloop]
    simp only
    rw [f1]
  · by_cases hju : ∃ u ∈ used, j = V2P u / PGSIZE
    · obtain ⟨u, hu, e⟩ := hju
      rw [e, (f3.2.2 u (f4.mem_iff.mpr hu)).2, (hf.2.2 u hu).2]
    · have hnu : ∀ u ∈ used, j ≠ V2P u / PGSIZE := fun u hu e => hju ⟨u, hu, e⟩
      rw [f6 j hnu, hk2, setref_other _ _ j _ hj]
      exact u3 j hnu
  · show deref k' (leafSlot k' pgdir 0) = deref k (leafSlot k pgdir 0)
    rw [hslot]
    apply deref_congr
    apply hmem
    exact (SrcOK_slot_out L k used pgdir sz 0 hF hS (by decide) hs0).1

/-- The assumptions made on a layout hold for the four rows of `kmap` with the
constants of stock xv6, wherever `data` lies between `KERNLINK` and
`P2V(PHYSTOP)` and `end` above `KERNBASE`. -/
theorem stockLayout_ok (data kend : Nat) (h1 : 0x80100000 < data) (h2 : data < 0x8E000000)
    (h3 : KERNBASE < kend) :
    LayoutOK (stockLayout data kend) ∧ (∀ m ∈ (stockLayout data kend).kmap, KmapOK m) ∧
      LayoutCow (stockLayout data kend) ∧ LayoutGrow (stockLayout data kend) := by
  have hP : (0xE000000 : Nat) % PGSIZE = 0 := by decide
  have hS1 : (0x200 : Nat) < 4096 := by decide
  have hS2 : (0x200 : Nat) &&& PTE_W = 0 := by decide
  have hS3 : (0x200 : Nat) &&& (PTE_W ||| PTE_U ||| PTE_P) = 0 := by decide
  have hL : LayoutOK (stockLayout data kend) := ⟨hP, by
    show 0 < kend
    unfold KERNBASE at h3; omega⟩
  refine ⟨hL, ?_, ⟨hL, h3, hS1, hS2⟩, ⟨hL, h3, hS1, hS3⟩⟩
  intro m hm
  simp only [stockLayout, kmapRows, List.mem_cons, List.mem_singleton, List.not_mem_nil,
    or_false] at hm
  rcases hm with e | e | e | e <;> subst e
  · decide
  · unfold KmapOK PGROUNDDOWN V2P u32 KERNBASE PGSIZE
    simp only
    omega
  · unfold KmapOK PGROUNDDOWN V2P u32 KERNBASE PGSIZE
    simp only
    omega
  · decide

theorem kalloc_mem (L : Layout) (k : Kernel) : (kalloc L k).1.mem = k.mem := by
  unfold kalloc
  simp only
  split
  · rfl
  · split <;> rfl

theorem kallocN_mem (L : Layout) (n : Nat) : ∀ k, (kallocN L n k).mem = k.mem := by
  induction n with
  | zero => intro k; rfl
  | succ n ih =>
    intro k
    rw [kallocN, ih, kalloc_mem]

/-- Well-formedness of an address space depends on the memory only. -/
theorem SrcOK_mem (L : Layout) (k k' : Kernel) (l : List Nat) (pgdir sz : Nat)
    (hm : k'.mem = k.mem) (hS : SrcOK L k l pgdir sz) : SrcOK L k' l pgdir sz := by
  have hp : ∀ j, pdeAt k' pgdir j = pdeAt k pgdir j := fun j =>
    pdeAt_congr k k' pgdir j (by rw [hm])
  have ht : ∀ j, tableOf k' pgdir j = tableOf k pgdir j := fun j =>
    tableOf_congr k k' pgdir j (hp j)
  have hs : ∀ a, leafSlot k' pgdir a = leafSlot k pgdir a := fun a =>
    leafSlot_congr k k' pgdir a (by rw [hm])
  have he : ∀ a, entry k' pgdir a = entry k pgdir a := fun a => by
    show deref k' (leafSlot k' pgdir a) = deref k (leafSlot k pgdir a)
    rw [hs a]
    exact deref_congr k k' _ (by rw [hm])
  have hpr : ∀ a, PrivateAt L k' pgdir a → PrivateAt L k pgdir a := fun a h => by
    unfold PrivateAt at h ⊢
    rw [hs a, he a] at h
    exact h
  refine ⟨hS.szle, hS.pal, hS.pfree, fun j hj hpj => ?_, fun a a1 a2 a3 => ?_,
    fun a b a1 b1 a2 b2 hne pa pb => ?_⟩
  · rw [hp j] at hpj
    obtain ⟨t1, t2, t3⟩ := hS.tabs j hj hpj
    rw [ht j]
    refine ⟨t1, t2, fun j' hj' hne hp' => ?_⟩
    rw [hp j'] at hp'
    rw [ht j']
    exact t3 j' hj' hne hp'
  · rw [he a]
    exact hS.data a a1 a2 (hpr a a3)
  · rw [he a, he b]
    exact hS.inj a b a1 b1 a2 b2 hne (hpr a pa) (hpr b pb)

/-- The example process with two free frames is well formed. -/
theorem exProcLow_ok :
    FreeOK exLayout exProcLow [0x80111000, 0x80110000] ∧
      SrcOK exLayout exProcLow [0x80111000, 0x80110000] 0x8011e000 PGSIZE := by
  obtain ⟨l, hf, hS, _⟩ := exProc_ok
  have hf' : FreeOK exLayout exProc (exFrames.drop 4) := by decide
  have hl : l = exFrames.drop 4 := FreeChain_unique exProc l _ _ hf.1 hf'.1
  subst hl
  refine ⟨by decide, SrcOK_mem exLayout exProc exProcLow _ _ _ (kallocN_mem exLayout 10 exProc)
    (SrcOK_sub exLayout exProc _ _ _ _ (fun x hx => ?_) hS)⟩
  revert hx
  revert x
  decide

set_option maxRecDepth 100000 in
theorem exForkKvm_eq : setupkvm exLayout exProcLow = .ok (exForkKvm, 0x80111000) := rfl

/-- C15: where the code departs from the claim.  `copyuvm` raises the count of
a private page's frame (`incref`) before it maps the page into the child, and
on failure of that `mappages` it only destroys the child (`freevm`), which
lowers counts through the child's entries; the page at which the copy stopped
was never entered in the child.  Proved for every layout: when `setupkvm`
takes the last free frame for the child (`k1.freelist = 0` after it) and page 0
of the source is a private page whose frame has the count `c`, `copyuvm`
returns 0, the free-frame count and the free frames are as before, the memory
outside the frames that were free is as before (so the source keeps its
entries, writable bits included), every other count is as before, but the
count of the frame of page 0 is `c + 1` although no mapping was added. -/
theorem copyuvm_failure_keeps_incref (L : Layout) (k : Kernel) (l0 : List Nat)
    (pgdir sz : Nat) (k1 : Kernel) (d : Nat) (c : Int) (hL : LayoutOK L)
    (hK : ∀ m ∈ L.kmap, KmapOK m)
    (hf : FreeOK L k l0) (hlock : k.use_lock = true) (hS : SrcOK L k l0 pgdir sz)
    (hsz : 0 < sz) (hp : PrivateAt L k pgdir 0)
    (hv : ValidFrame L (P2V (PTE_ADDR (entry k pgdir 0))))
    (hc : k.refcount (PTE_ADDR (entry k pgdir 0) / PGSIZE) = c) (hc1 : 1 ≤ c)
    (hc2 : c < 2147483647)
    (hs : setupkvm L k = .ok (k1, d)) (hd : d ≠ 0) (he : k1.freelist = 0) :
    ∃ k', copyuvm L k pgdir sz = .ok (k', 0) ∧
      k'.refcount (PTE_ADDR (entry k pgdir 0) / PGSIZE) = c + 1 ∧
      (∀ j, j ≠ PTE_ADDR (entry k pgdir 0) / PGSIZE → k'.refcount j = k.refcount j) ∧
      getNumFreePages k' = getNumFreePages k ∧
      (∃ l', FreeOK L k' l' ∧ l'.Perm l0) ∧
      (∀ y, (∀ u ∈ l0, Outside u y) → k'.mem y = k.mem y) ∧
      leafSlot k' pgdir 0 = leafSlot k pgdir 0 ∧ entry k' pgdir 0 = entry k pgdir 0 :=
  copyuvm_first_page_fails L k l0 pgdir sz k1 d c hL hK hf hlock hS hsz hp hv hc hc1 hc2 hs hd he

/-- Witness for `copyuvm_failure_keeps_incref`: the example process with two
free frames.  `setupkvm` takes both, the page table for page 0 cannot be
allocated, `copyuvm` returns 0 with two frames free again, and the count of
the data frame `0x8011f000` has gone from 1 to 2. -/
theorem copyuvm_failure_keeps_incref_witness :
    ∃ k', copyuvm exLayout exProcLow 0x8011e000 PGSIZE = .ok (k', 0) ∧
      exProcLow.refcount 0x11f = 1 ∧ k'.refcount 0x11f = 2 ∧
      getNumFreePages exProcLow = 2 ∧ getNumFreePages k' = 2 ∧
      entry k' 0x8011e000 0 = entry exProcLow 0x8011e000 0 := by
  obtain ⟨k', h1, h2, _, h4, _, _, _, h8⟩ := copyuvm_failure_keeps_incref exLayout exProcLow
    [0x80111000, 0x80110000] 0x8011e000 PGSIZE exForkKvm 0x80111000 1 (by decide) (by decide)
    exProcLow_ok.1 (by decide) exProcLow_ok.2 (by decide) (by decide) (by decide) (by decide)
    (by decide) (by decide) exForkKvm_eq (by decide) (by decide)
  have hidx : PTE_ADDR (entry exProcLow 0x8011e000 0) / PGSIZE = 0x11f := by decide
  rw [hidx] at h2
  have hn : getNumFreePages exProcLow = 2 := by decide
  exact ⟨k', h1, by decide, h2, hn, by rw [h4, hn], h8⟩

/-- C19: with the size `0x800`, which is not a multiple of the page size,
`sys_mapshared` on the example process stops in `panic("remap")`: `mappages`
rounds the address down to page 0, which is mapped.  A frame is free and
`0x800 + 4096 < KERNBASE`. -/
theorem sys_mapshared_unaligned_panics :
    sys_mapshared exLayout exProc ⟨0x8011e000, 0x800⟩ = .error "remap" ∧
      0x800 + PGSIZE < KERNBASE ∧ (kalloc exLayout exProc).2 ≠ 0 ∧
      entry exProc 0x8011e000 0 &&& PTE_P ≠ 0 := by
  refine ⟨rfl, by decide, by decide, by decide⟩

/-! ## kalloc on an empty free list -/

/-- C24: when the free list is empty (`kmem.freelist` is the null pointer),
`kalloc` returns the null frame at once and hands back the state it was given:
the free list, the free-frame count and every reference count are unchanged. -/
theorem kalloc_empty (L : Layout) (k : Kernel) (h : k.freelist = 0) :
    kalloc L k = (k, 0) ∧ (kalloc L k).2 = 0 ∧
      (kalloc L k).1.freelist = k.freelist ∧ FreeList (kalloc L k).1 [] ∧
      getNumFreePages (kalloc L k).1 = getNumFreePages k ∧
      (∀ i, (kalloc L k).1.refcount i = k.refcount i) ∧
      (kalloc L k).1.mem = k.mem := by
  have e := kalloc_nil L k h
  rw [e]
  exact ⟨rfl, rfl, rfl, h, rfl, fun _ => rfl, rfl⟩

/-- Witness for `kalloc_empty`: the example address space after all thirteen
free frames were taken. -/
theorem kalloc_empty_witness :
    (kallocN exLayout 13 exKvm).freelist = 0 ∧
      kalloc exLayout (kallocN exLayout 13 exKvm) = (kallocN exLayout 13 exKvm, 0) :=
  ⟨by decide, (kalloc_empty exLayout (kallocN exLayout 13 exKvm) (by decide)).1⟩

/-! ## sys_mmap: the rejected requests -/

/-- C22: `sys_mmap` returns 0 and leaves the process (`sz`, `mmap_start`,
`mmap_end`) and the allocator state as they were, so no frame is allocated,
whenever the byte count `n` is zero or negative, is not a multiple of 4096, or
`p->sz + n >= KERNBASE` holds in the `uint` arithmetic of the code; the same
when `argint` fails.  For a size that is at most `KERNBASE` and an `int`
argument the `uint` sum does not wrap, so the test is the one on the exact
sum. -/
theorem sys_mmap_rejects (k : Kernel) (p : MmapProc) (n : Int)
    (h : n ≤ 0 ∨ n % 4096 ≠ 0 ∨ u32 (p.sz + n.toNat) ≥ KERNBASE) :
    sys_mmap k p (some n) = (k, p, 0) ∧ sys_mmap k p none = (k, p, 0) ∧
      (sys_mmap k p (some n)).2.1.sz = p.sz ∧
      (sys_mmap k p (some n)).2.1.mmap_start = p.mmap_start ∧
      (sys_mmap k p (some n)).2.1.mmap_end = p.mmap_end ∧
      getNumFreePages (sys_mmap k p (some n)).1 = getNumFreePages k ∧
      (p.sz ≤ KERNBASE → 0 < n → n < 2147483648 →
        (u32 (p.sz + n.toNat) ≥ KERNBASE ↔ (p.sz : Int) + n ≥ (KERNBASE : Int))) := by
  have e : sys_mmap k p (some n) = (k, p, 0) := by
    unfold sys_mmap
    simp only
    by_cases h1 : n ≤ 0 ∨ n % 4096 ≠ 0
    · rw [if_pos h1]
    · rw [if_neg h1, if_pos]
      rcases h with h | h | h
      · exact absurd (Or.inl h) h1
      · exact absurd (Or.inr h) h1
      · exact h
  rw [e]
  refine ⟨rfl, rfl, rfl, rfl, rfl, rfl, fun hsz hn hn2 => ?_⟩
  have hc : ((n.toNat : Nat) : Int) = n := Int.toNat_of_nonneg (by omega)
  unfold u32 KERNBASE at *
  omega

/-- Witness for `sys_mmap_rejects`: a request of 100 bytes. -/
theorem sys_mmap_rejects_witness :
    sys_mmap exProc ⟨0x1000, 0, 0⟩ (some 100) = (exProc, ⟨0x1000, 0, 0⟩, 0) :=
  (sys_mmap_rejects exProc ⟨0x1000, 0, 0⟩ 100 (by decide)).1

/-! ## cowfault on a shared page -/

/-- C21, amended: when the leaf entry of the faulting page has the shared bit
and is not present or is writable (`sys_mapshared` maps its page writable and
`copyuvm` keeps the flags of a shared entry), `cowfault` returns `-1` and hands
back the state it was given: the entry, every reference count and the free
list are unchanged. -/
theorem cowfault_shared_writable (L : Layout) (k : Kernel) (pgdir va : Nat)
    (hS : SharedAt L k pgdir (PGROUNDDOWN va))
    (hw : entry k pgdir (PGROUNDDOWN va) &&& PTE_P = 0 ∨
      entry k pgdir (PGROUNDDOWN va) &&& PTE_W ≠ 0) :
    cowfault L k pgdir va = .ok (k, -1) ∧
      ∀ k' r, cowfault L k pgdir va = .ok (k', r) →
        r = -1 ∧ entry k' pgdir (PGROUNDDOWN va) = entry k pgdir (PGROUNDDOWN va) ∧
          SharedAt L k' pgdir (PGROUNDDOWN va) ∧
          k'.refcount = k.refcount ∧ k'.freelist = k.freelist ∧ k'.mem = k.mem ∧
          getNumFreePages k' = getNumFreePages k := by
  have e : cowfault L k pgdir va = .ok (k, -1) := by
    unfold cowfault
    simp only [walkpgdir_zero]
    rw [if_neg hS.1]
    unfold entry at hw
    by_cases hP : deref k (leafSlot k pgdir (PGROUNDDOWN va)) &&& PTE_P = 0
    · rw [if_pos hP]
    · rw [if_neg hP, if_pos]
      rcases hw with h | h
      · exact absurd h hP
      · exact h
  refine ⟨e, fun k' r h => ?_⟩
  rw [e] at h
  simp only [Except.ok.injEq, Prod.mk.injEq] at h
  obtain ⟨rfl, rfl⟩ := h
  exact ⟨rfl, rfl, hS, rfl, rfl, rfl, rfl⟩

/-- Witness for `cowfault_shared_writable`: the shared page of the example
process. -/
theorem cowfault_shared_writable_witness :
    cowfault exLayout exShared 0x8011e000 0x1000 = .ok (exShared, -1) :=
  (cowfault_shared_writable exLayout exShared 0x8011e000 0x1000 (by decide)
    (Or.inr (by decide))).1

/-- The page at `0x1000` of `exSharedRo` is present with the shared bit and
without the writable bit, and its frame has count 1.  `cowfault` on it returns
0 and rewrites the entry with the writable bit set. -/
theorem cowfault_shared_readonly_made_writable :
    SharedAt exLayout exSharedRo 0x8011e000 0x1000 ∧
      entry exSharedRo 0x8011e000 0x1000 &&& PTE_P ≠ 0 ∧
      entry exSharedRo 0x8011e000 0x1000 &&& PTE_W = 0 ∧
      cowfault exLayout exSharedRo 0x8011e000 0x1000 = .ok (exSharedRoFault, 0) ∧
      entry exSharedRoFault 0x8011e000 0x1000 ≠ entry exSharedRo 0x8011e000 0x1000 ∧
      entry exSharedRoFault 0x8011e000 0x1000 &&& PTE_W ≠ 0 :=
  ⟨by decide, by decide, by decide, rfl, by decide, by decide⟩

/-! ## The free-frame count after a double free -/

theorem FreeChain_loop (k : Kernel) (g : Nat) (hg : g ≠ 0) (h : deref k g = g) :
    ∀ l, ¬ FreeChain k g l := by
  intro l
  induction l with
  | nil => exact fun hc => hg hc
  | cons x xs ih =>
    intro hc
    obtain ⟨e, _, _, hc2⟩ := hc
    rw [← e, h] at hc2
    exact ih hc2

/-- C23: the state `exFreed` is reached from the boot state by `kinit1`,
`kinit2`, one `kalloc` and the `kfree` of the frame it returned; its free list
holds sixteen frames and `getNumFreePages` returns 16.  A second `kfree` of the
same frame succeeds and `getNumFreePages` returns 17, while the free list has
become a cycle through that one frame: no finite list of frames is linked from
its head. -/
theorem double_free_count_exceeds_list :
    exAlloc = (kalloc exLayout exInit).1 ∧
      kfree exLayout exAlloc 0x8011f000 = .ok exFreed ∧
      FreeList exFreed exFrames ∧ getNumFreePages exFreed = exFrames.length ∧
      kfree exLayout exFreed 0x8011f000 = .ok exFreedTwice ∧
      getNumFreePages exFreedTwice = 17 ∧
      exFreedTwice.freelist = 0x8011f000 ∧ deref exFreedTwice 0x8011f000 = 0x8011f000 ∧
      ∀ l, ¬ FreeList exFreedTwice l := by
  refine ⟨rfl, rfl, by decide, by decide, rfl, by decide, by decide, by decide, ?_⟩
  intro l
  unfold FreeList
  have h1 : exFreedTwice.freelist = 0x8011f000 := by decide
  rw [h1]
  exact FreeChain_loop exFreedTwice 0x8011f000 (by decide) (by decide) l

/-! ## deallocuvm: the scan ends -/

theorem kfree_error (L : Layout) (k : Kernel) (v : Nat) (e : String)
    (h : kfree L k v = .error e) : e ≠ "out of fuel" := by
  unfold kfree at h
  simp only at h
  by_cases h1 : v % PGSIZE ≠ 0 ∨ v < L.kend ∨ V2P v ≥ L.PHYSTOP
  · rw [if_pos h1] at h
    cases h
    decide
  · rw [if_neg h1] at h
    by_cases h2 : V2P v / PGSIZE < MAX_PAGES L ∧ k.use_lock = true
    · rw [if_pos h2] at h
      unfold decref at h
      simp only at h
      rw [if_neg (by omega)] at h
      have hl : (!k.use_lock) = false := by rw [h2.2]; rfl
      rw [hl] at h
      simp only [Bool.false_eq_true, if_false] at h
      by_cases h3 : k.refcount (V2P v / PGSIZE) ≤ 0
      · rw [if_pos h3] at h
        simp only at h
        split at h <;> cases h
      · rw [if_neg h3] at h
        simp only at h
        split at h <;> cases h
    · rw [if_neg h2] at h
      cases h

/-- Where the body of the loop of `deallocuvm` leaves the scan address. -/
theorem deallocuvmStep_next (L : Layout) (k : Kernel) (d a : Nat) :
    (∀ e, deallocuvmStep L k d a = .error e → e ≠ "out of fuel") ∧
      ∀ k2 a1, deallocuvmStep L k d a = .ok (k2, a1) →
        (leafSlot k d a = 0 ∧ a1 = u32 (PGADDR (PDX a + 1) 0 0 + 4294967296 - PGSIZE)) ∨
        (leafSlot k d a ≠ 0 ∧ a1 = a) := by
  unfold deallocuvmStep
  rw [walkpgdir_zero]
  simp only
  by_cases h0 : leafSlot k d a = 0
  · rw [if_pos h0]
    refine ⟨fun e h => (by cases h), fun k2 a1 h => ?_⟩
    simp only [Except.ok.injEq, Prod.mk.injEq] at h
    exact Or.inl ⟨h0, h.2.symm⟩
  · rw [if_neg h0]
    by_cases hP : deref k (leafSlot k d a) &&& PTE_P ≠ 0
    · rw [if_pos hP]
      by_cases hz : PTE_ADDR (deref k (leafSlot k d a)) = 0
      · rw [if_pos hz]
        refine ⟨fun e h => ?_, fun k2 a1 h => by cases h⟩
        cases h
        decide
      · rw [if_neg hz]
        by_cases hS : deref k (leafSlot k d a) &&& L.PTE_S = 0
        · rw [if_pos hS]
          generalize hk : kfree L k (P2V (PTE_ADDR (deref k (leafSlot k d a)))) = res
          cases res with
          | error e1 =>
            refine ⟨fun e h => ?_, fun k2 a1 h => by cases h⟩
            simp only [Except.error.injEq] at h
            rw [← h]
            exact kfree_error L k _ e1 hk
          | ok k3 =>
            refine ⟨fun e h => (by cases h), fun k2 a1 h => ?_⟩
            simp only [Except.ok.injEq, Prod.mk.injEq] at h
            exact Or.inr ⟨h0, h.2.symm⟩
        · rw [if_neg hS]
          refine ⟨fun e h => (by cases h), fun k2 a1 h => ?_⟩
          simp only [Except.ok.injEq, Prod.mk.injEq] at h
          exact Or.inr ⟨h0, h.2.symm⟩
    · rw [if_neg hP]
      refine ⟨fun e h => (by cases h), fun k2 a1 h => ?_⟩
      simp only [Except.ok.injEq, Prod.mk.injEq] at h
      exact Or.inr ⟨h0, h.2.symm⟩

theorem PGADDR_next (a : Nat) (ha : a < KERNBASE) :
    PGADDR (PDX a + 1) 0 0 = (a / 4194304 + 1) * 4194304 ∧
      PGADDR (PDX a + 1) 0 0 ≤ KERNBASE ∧ a < PGADDR (PDX a + 1) 0 0 := by
  have h1 : PDX a = a / 4194304 := by unfold PDX u32; unfold KERNBASE at ha; omega
  have h2 : PGADDR (PDX a + 1) 0 0 = (a / 4194304 + 1) * 4194304 := by
    unfold PGADDR
    rw [h1]
    simp only [Nat.zero_mul, Nat.or_zero]
    have : u32 0 = 0 := rfl
    rw [this, Nat.or_zero, u32_u32]
    unfold u32; unfold KERNBASE at ha; omega
  rw [h2]
  unfold KERNBASE at *
  omega

/-- The loop of `deallocuvm` does not run out of its fuel. -/
theorem deallocuvmLoop_ends (L : Layout) (pgdir oldsz : Nat) (hle : oldsz ≤ KERNBASE) :
    ∀ n fuel k a, a % PGSIZE = 0 → pageCount a oldsz ≤ n → n < fuel →
      deallocuvmLoop L fuel k pgdir a oldsz ≠ .error "out of fuel" := by
  intro n
  induction n with
  | zero =>
    intro fuel k a ha hn hf
    obtain ⟨f, rfl⟩ : ∃ f, fuel = f + 1 := ⟨fuel - 1, by omega⟩
    have hge : ¬ a < oldsz := by
      unfold pageCount PGSIZE at hn; unfold PGSIZE at ha; omega
    rw [deallocuvmLoop_done L f k pgdir a oldsz hge]
    exact fun h => by cases h
  | succ m ih =>
    intro fuel k a ha hn hf
    obtain ⟨f, rfl⟩ : ∃ f, fuel = f + 1 := ⟨fuel - 1, by omega⟩
    by_cases hlt : a < oldsz
    · obtain ⟨s1, s2⟩ := deallocuvmStep_next L k pgdir a
      generalize hs : deallocuvmStep L k pgdir a = res at s1 s2
      cases res with
      | error e =>
        rw [deallocuvmLoop, if_pos hlt, hs]
        intro h
        simp only [Except.error.injEq] at h
        exact s1 e rfl h
      | ok q =>
        obtain ⟨k2, a1⟩ := q
        rw [deallocuvmLoop_step L f k pgdir a oldsz k2 a1 hlt hs]
        rcases s2 k2 a1 rfl with ⟨_, e⟩ | ⟨_, e⟩
        · rw [e, next_region a (by omega)]
          exact ih f k2 _ (by unfold PGSIZE; omega)
            (by unfold pageCount PGSIZE at *; omega) (by omega)
        · rw [e]
          have hu : u32 (a + PGSIZE) = a + PGSIZE := by
            apply u32_of_lt; unfold KERNBASE at hle; unfold PGSIZE; omega
          rw [hu]
          exact ih f k2 _ (by unfold PGSIZE at *; omega)
            (by unfold pageCount PGSIZE at *; omega) (by omega)
    · rw [deallocuvmLoop_done L f k pgdir a oldsz hlt]
      exact fun h => by cases h

/-- C28: for `newsz < oldsz ≤ KERNBASE` and any state and page directory, the
loop of `deallocuvm` ends: the call returns or stops in a panic of `kfree`,
never by running out of the loop bound.  In every iteration, at a page-aligned
scan address `a < oldsz`, the address the next iteration starts from is
strictly greater than `a`, is computed without wrapping around `2^32` and is at
most `KERNBASE`; when the page table is missing, it is
`PGADDR(PDX(a) + 1, 0, 0)`, the first page of the next directory entry. -/
theorem deallocuvm_terminates (L : Layout) (k : Kernel) (pgdir oldsz newsz : Nat)
    (hlt : newsz < oldsz) (hle : oldsz ≤ KERNBASE) :
    deallocuvm L k pgdir oldsz newsz ≠ .error "out of fuel" ∧
      ((∃ k', deallocuvm L k pgdir oldsz newsz = .ok (k', newsz)) ∨
        ∃ e, deallocuvm L k pgdir oldsz newsz = .error e ∧ e ≠ "out of fuel") ∧
      ∀ k1 a k2 a1, a % PGSIZE = 0 → a < oldsz →
        deallocuvmStep L k1 pgdir a = .ok (k2, a1) →
        a < a1 + PGSIZE ∧ a1 + PGSIZE ≤ KERNBASE ∧ u32 (a1 + PGSIZE) = a1 + PGSIZE ∧
          (a1 + PGSIZE) % PGSIZE = 0 ∧
          (leafSlot k1 pgdir a = 0 →
            a1 + PGSIZE = PGADDR (PDX a + 1) 0 0 ∧
              PGADDR (PDX a + 1) 0 0 = (a / 4194304 + 1) * 4194304) ∧
          (leafSlot k1 pgdir a ≠ 0 → a1 = a) := by
  obtain ⟨r1, r2, r3, r4⟩ := PGROUNDUP_facts newsz (by omega)
  have hloop := deallocuvmLoop_ends L pgdir oldsz hle (pageCount (PGROUNDUP newsz) oldsz)
    LOOP_FUEL k (PGROUNDUP newsz) r1 (le_refl _)
    (by unfold pageCount PGSIZE LOOP_FUEL; unfold KERNBASE at hle; omega)
  have hcall : deallocuvm L k pgdir oldsz newsz =
      match deallocuvmLoop L LOOP_FUEL k pgdir (PGROUNDUP newsz) oldsz with
      | .error e => .error e
      | .ok k1 => .ok (k1, newsz) := by
    unfold deallocuvm
    exact if_neg (by omega)
  rw [hcall]
  generalize deallocuvmLoop L LOOP_FUEL k pgdir (PGROUNDUP newsz) oldsz = res at hloop
  refine ⟨?_, ?_, fun k1 a k2 a1 ha hao hs => ?_⟩
  · cases res with
    | error e =>
      intro h
      simp only [Except.error.injEq] at h
      exact hloop (by rw [h])
    | ok k1 => exact fun h => by cases h
  · cases res with
    | error e => exact Or.inr ⟨e, rfl, fun h => hloop (by rw [h])⟩
    | ok k1 => exact Or.inl ⟨k1, rfl⟩
  · have hak : a < KERNBASE := by omega
    obtain ⟨g1, g2, g3⟩ := PGADDR_next a hak
    rcases (deallocuvmStep_next L k1 pgdir a).2 k2 a1 hs with ⟨h0, e⟩ | ⟨h0, e⟩
    · have hv : a1 + PGSIZE = PGADDR (PDX a + 1) 0 0 := by
        rw [e, g1]
        unfold u32 PGSIZE
        unfold KERNBASE at hak
        omega
      rw [hv]
      refine ⟨g3, g2, ?_, ?_, fun _ => ⟨rfl, g1⟩, fun h => absurd h0 h⟩
      · apply u32_of_lt; unfold KERNBASE at g2; omega
      · rw [g1]; unfold PGSIZE; omega
    · rw [e]
      refine ⟨by unfold PGSIZE; omega, by unfold PGSIZE KERNBASE at *; omega, ?_,
        by unfold PGSIZE at *; omega, fun h => absurd h h0, fun _ => rfl⟩
      apply u32_of_lt; unfold KERNBASE at hak; unfold PGSIZE; omega

/-- Witness for `deallocuvm_terminates`: emptying the example process. -/
theorem deallocuvm_terminates_witness :
    deallocuvm exLayout exShared 0x8011e000 0x2000 0 ≠ .error "out of fuel" :=
  (deallocuvm_terminates exLayout exShared 0x8011e000 0x2000 0 (by decide) (by decide)).1

/-! ## countppages -/

theorem countppagesLoop_done (L : Layout) (fuel : Nat) (k : Kernel) (pgdir sz a c : Nat)
    (h : ¬ (a < sz ∧ a < KERNBASE)) :
    countppagesLoop L (fuel + 1) k pgdir sz a c = .ok (k, c) := by
  rw [countppagesLoop, if_neg h]

theorem countppagesLoop_step (L : Layout) (fuel : Nat) (k : Kernel) (pgdir sz a c : Nat)
    (h : a < sz ∧ a < KERNBASE) :
    countppagesLoop L (fuel + 1) k pgdir sz a c =
      countppagesLoop L fuel k pgdir sz (u32 (a + PGSIZE))
        (if MappedAt k pgdir a then u32 (c + 1) else c) := by
  rw [countppagesLoop, if_pos h, walkpgdir_zero]
  simp only
  unfold MappedAt entry
  by_cases hm : leafSlot k pgdir a ≠ 0 ∧ deref k (leafSlot k pgdir a) &&& PTE_P ≠ 0
  · rw [if_pos hm, if_pos hm]
  · rw [if_neg hm, if_neg hm]

theorem pagesFrom_succ (a n : Nat) : pagesFrom a (n + 1) = a :: pagesFrom (a + PGSIZE) n := rfl

theorem length_pagesFrom (n : Nat) : ∀ a, (pagesFrom a n).length = n := by
  induction n with
  | zero => intro a; rfl
  | succ n ih => intro a; rw [pagesFrom_succ, List.length_cons, ih]

/-- The loop of `countppages` returns, leaves the state alone and adds to the
count the number of mapped pages from `a` up to the bound. -/
theorem countppagesLoop_count (L : Layout) (k : Kernel) (pgdir sz : Nat) (hsz : sz ≤ KERNBASE) :
    ∀ n fuel a c, a % PGSIZE = 0 → pageCount a sz ≤ n → n < fuel →
      c + pageCount a sz < 4294967296 →
      countppagesLoop L fuel k pgdir sz a c =
        .ok (k, c + (pagesFrom a (pageCount a sz)).countP
          (fun b => decide (MappedAt k pgdir b))) := by
  intro n
  induction n with
  | zero =>
    intro fuel a c ha hn hf hc
    obtain ⟨f, rfl⟩ : ∃ f, fuel = f + 1 := ⟨fuel - 1, by omega⟩
    have hge : ¬ a < sz := by
      unfold pageCount PGSIZE at hn; unfold PGSIZE at ha; omega
    have hz : pageCount a sz = 0 := by omega
    rw [countppagesLoop_done L f k pgdir sz a c (fun h => hge h.1), hz]
    rfl
  | succ m ih =>
    intro fuel a c ha hn hf hc
    obtain ⟨f, rfl⟩ : ∃ f, fuel = f + 1 := ⟨fuel - 1, by omega⟩
    by_cases hlt : a < sz
    · have hpc : pageCount a sz = pageCount (a + PGSIZE) sz + 1 := by
        unfold pageCount PGSIZE; unfold PGSIZE at ha; omega
      have hu : u32 (a + PGSIZE) = a + PGSIZE := by
        apply u32_of_lt; unfold KERNBASE at hsz; unfold PGSIZE; omega
      have hlist : (pagesFrom a (pageCount a sz)).countP
            (fun b => decide (MappedAt k pgdir b)) =
          (pagesFrom (a + PGSIZE) (pageCount (a + PGSIZE) sz)).countP
            (fun b => decide (MappedAt k pgdir b)) +
            (if MappedAt k pgdir a then 1 else 0) := by
        rw [hpc]
        show (a :: pagesFrom (a + PGSIZE) (pageCount (a + PGSIZE) sz)).countP _ = _
        rw [List.countP_cons]
        simp only [decide_eq_true_eq]
      rw [countppagesLoop_step L f k pgdir sz a c ⟨hlt, by omega⟩, hu, hlist]
      by_cases hm : MappedAt k pgdir a
      · rw [if_pos hm, if_pos hm, u32_of_lt _ (by omega),
          ih f (a + PGSIZE) (c + 1) (by unfold PGSIZE at *; omega) (by omega) (by omega)
            (by omega)]
        rw [Nat.add_assoc, Nat.add_comm 1]
      · rw [if_neg hm, if_neg hm,
          ih f (a + PGSIZE) c (by unfold PGSIZE at *; omega) (by omega) (by omega) (by omega)]
        rw [Nat.add_zero]
    · have hz : pageCount a sz = 0 := by
        unfold pageCount PGSIZE; unfold PGSIZE at ha; omega
      rw [countppagesLoop_done L f k pgdir sz a c (fun h => hlt h.1), hz]
      rfl

theorem countppages_eq (L : Layout) (k : Kernel) (pgdir sz : Nat) (hsz : sz ≤ KERNBASE) :
    countppages L k pgdir sz = .ok (k, mappedCount k pgdir sz) := by
  unfold countppages mappedCount
  rw [countppagesLoop_count L k pgdir sz hsz (pageCount 0 sz) LOOP_FUEL 0 0 rfl (le_refl _)
    (by unfold pageCount PGSIZE LOOP_FUEL; unfold KERNBASE at hsz; omega)
    (by unfold pageCount PGSIZE; unfold KERNBASE at hsz; omega)]
  rw [Nat.zero_add]

/-- C27: after an `allocuvm` from `oldsz` to `newsz ≥ oldsz` that returns
`newsz`, on an address space in which no page of `[PGROUNDUP(oldsz), newsz)` was
mapped, `countppages(pgdir, newsz)` returns what `countppages(pgdir, oldsz)`
returned before the call plus the number of page addresses in
`[PGROUNDUP(oldsz), newsz)`; in particular the count has not gone down.  Both
calls of `countppages` return and change nothing.  The address space is
assumed well formed (`DirOK`) with respect to a well-formed free list. -/
theorem countppages_after_allocuvm (L : Layout) (k : Kernel) (l : List Nat)
    (pgdir oldsz newsz : Nat) (k' : Kernel) (hLg : LayoutGrow L) (hf : FreeOK L k l)
    (hlock : k.use_lock = true) (hD : DirOK L k l pgdir)
    (htz : ∀ j, j < 512 → pdeAt k pgdir j &&& PTE_P ≠ 0 → tableOf k pgdir j ≠ 0)
    (hol : oldsz ≤ newsz) (hle : newsz < KERNBASE)
    (hun : ∀ b, b % PGSIZE = 0 → PGROUNDUP oldsz ≤ b → b < newsz →
      leafSlot k pgdir b ≠ 0 → entry k pgdir b &&& PTE_P = 0)
    (hret : allocuvm L k pgdir oldsz newsz = .ok (k', (newsz : Int))) :
    ∃ c0 c1, countppages L k pgdir oldsz = .ok (k, c0) ∧
      countppages L k' pgdir newsz = .ok (k', c1) ∧
      c1 = c0 + pageCount (PGROUNDUP oldsz) newsz ∧ c0 ≤ c1 ∧
      c0 = mappedCount k pgdir oldsz ∧ c1 = mappedCount k' pgdir newsz ∧
      ∀ b, b ∈ pagesFrom (PGROUNDUP oldsz) (pageCount (PGROUNDUP oldsz) newsz) ↔
        b % PGSIZE = 0 ∧ PGROUNDUP oldsz ≤ b ∧ b < newsz := by
  have hF := Frames_of_FreeOK L k l hf
  obtain ⟨r1, r2, r3, r4⟩ := PGROUNDUP_facts oldsz (by omega)
  obtain ⟨k2, r, D', T', l', e1, hR, hc⟩ :=
    grow_loop L k l pgdir oldsz newsz hLg hF hol hle hun (pageCount (PGROUNDUP oldsz) newsz)
      LOOP_FUEL k (PGROUNDUP oldsz) [] [] l r1 (le_refl _) (le_refl _)
      (by unfold pageCount PGSIZE LOOP_FUEL; unfold KERNBASE at hle; omega)
      (range_init L k l pgdir _ newsz hf hlock hD htz)
      (fun b _ h1 h2 => absurd h2 (by omega))
      (fun p hp => absurd hp (List.not_mem_nil _))
  unfold allocuvm at hret
  rw [if_neg (by omega), if_neg (by omega), e1] at hret
  simp only [Except.ok.injEq, Prod.mk.injEq] at hret
  obtain ⟨hk, hr⟩ := hret
  subst hk
  have hcov : ∀ b, b % PGSIZE = 0 → PGROUNDUP oldsz ≤ b → b < newsz → ∃ g, (b, g) ∈ D' := by
    rcases hc with ⟨_, h⟩ | ⟨h0, _, _⟩
    · exact h
    · intro b _ _ b3
      rw [h0] at hr
      have : newsz = 0 := by exact_mod_cast hr.symm
      omega
  obtain ⟨bnd, bmem, bsub⟩ := range_basic L k l pgdir _ newsz k2 D' T' [] l' hF hR
  have hmem := mem_pages_iff (PGROUNDUP oldsz) newsz
  have hsplit : pageCount 0 newsz =
      pageCount 0 oldsz + pageCount (PGROUNDUP oldsz) newsz := by
    unfold pageCount PGSIZE at *; omega
  have hstart : 0 + pageCount 0 oldsz * PGSIZE = PGROUNDUP oldsz := by
    unfold pageCount PGSIZE at *; omega
  have hlow : (pagesFrom 0 (pageCount 0 oldsz)).countP
        (fun b => decide (MappedAt k2 pgdir b)) =
      (pagesFrom 0 (pageCount 0 oldsz)).countP (fun b => decide (MappedAt k pgdir b)) := by
    apply List.countP_congr
    intro b hb
    obtain ⟨b1, _, b3⟩ := (mem_pages_iff 0 oldsz b rfl).mp hb
    have hbD : ∀ g, (b, g) ∉ D' := fun g hg => by
      have := (hR.data _ hg).2.1
      have h : b < PGROUNDUP oldsz := by unfold PGSIZE at *; omega
      exact absurd this (by simp only at *; omega)
    obtain ⟨o1, o2⟩ := range_outside L k l pgdir _ newsz k2 D' T' [] l' hR b b1 (by omega) hbD
    simp only [decide_eq_true_eq]
    unfold MappedAt
    by_cases h0 : leafSlot k pgdir b = 0
    · constructor
      · rintro ⟨m1, m2⟩
        rw [o2 h0 m1] at m2
        exact absurd rfl m2
      · rintro ⟨m1, _⟩
        exact absurd h0 m1
    · obtain ⟨s1, s2⟩ := o1 h0
      have s3 : entry k2 pgdir b = entry k pgdir b := by
        rcases s2 with s | ⟨s, _, _⟩
        · exact s
        · exfalso; unfold PGSIZE at *; omega
      rw [s1, s3]
  have hhigh : (pagesFrom (PGROUNDUP oldsz) (pageCount (PGROUNDUP oldsz) newsz)).countP
        (fun b => decide (MappedAt k2 pgdir b)) = pageCount (PGROUNDUP oldsz) newsz := by
    rw [List.countP_eq_length.mpr]
    · exact length_pagesFrom _ _
    · intro b hb
      obtain ⟨b1, b2, b3⟩ := (hmem b r1).mp hb
      obtain ⟨g, hg⟩ := hcov b b1 b2 b3
      obtain ⟨d1, d2, d3, d4, d5, d6, d7⟩ := hR.data _ hg
      have hgA : g ∈ D'.map Prod.snd ++ (T' ++ ([] ++ l')) :=
        List.mem_append_left _ (List.mem_map.mpr ⟨(b, g), hg, rfl⟩)
      obtain ⟨_, m2, _⟩ := bmem g hgA
      obtain ⟨_, v2, _⟩ := leafval_bits g 0 m2.1 (by decide) (by decide)
      simp only [decide_eq_true_eq]
      refine ⟨d4, ?_⟩
      have he : entry k2 pgdir b = V2P g ||| (PTE_W ||| PTE_U) ||| PTE_P := d5
      rw [he]
      exact v2
  have hc1 : mappedCount k2 pgdir newsz =
      mappedCount k pgdir oldsz + pageCount (PGROUNDUP oldsz) newsz := by
    unfold mappedCount
    rw [hsplit, pagesFrom_append, List.countP_append, hstart, hlow, hhigh]
  exact ⟨_, _, countppages_eq L k pgdir oldsz (by omega),
    countppages_eq L k2 pgdir newsz (by omega), hc1, by omega, rfl, rfl, fun b => hmem b r1⟩

/-! ## mappages over any range -/

theorem mappagesLoop_succ (L : Layout) (fuel : Nat) (k : Kernel) (d a last pa perm : Nat) :
    mappagesLoop L (fuel + 1) k d a last pa perm =
      (if (walkpgdir L k d a 1).2 = 0 then .ok ((walkpgdir L k d a 1).1, -1)
       else if deref (walkpgdir L k d a 1).1 (walkpgdir L k d a 1).2 &&& PTE_P ≠ 0 then
         .error "remap"
       else if a = last then
         .ok (store (walkpgdir L k d a 1).1 (walkpgdir L k d a 1).2 (pa ||| perm ||| PTE_P), 0)
       else mappagesLoop L fuel
         (store (walkpgdir L k d a 1).1 (walkpgdir L k d a 1).2 (pa ||| perm ||| PTE_P)) d
         (u32 (a + PGSIZE)) last (u32 (pa + PGSIZE)) perm) := by
  rw [mappagesLoop]

theorem tableSum_zero (k : Kernel) (d a0 : Nat) : tableSum k d a0 0 = 0 := rfl

theorem tableSum_succ (k : Kernel) (d a0 i : Nat) :
    tableSum k d a0 (i + 1) = tableSum k d a0 i + tableCost k d a0 (a0 + i * PGSIZE) := by
  unfold tableSum
  rw [pagesFrom_append i 1 a0, List.map_append, List.sum_append]
  rfl

theorem tableSum_mono (k : Kernel) (d a0 i : Nat) :
    ∀ j, i ≤ j → tableSum k d a0 i ≤ tableSum k d a0 j := by
  intro j
  induction j with
  | zero => intro h; have : i = 0 := by omega
            rw [this]
  | succ j ih =>
    intro h
    by_cases e : i = j + 1
    · rw [e]
    · have := ih (by omega)
      rw [tableSum_succ]
      omega

theorem same_page_slot (k : Kernel) (d a b : Nat) (ha : a < 4294967296) (hb : b < 4294967296)
    (h : a / PGSIZE = b / PGSIZE) : leafSlot k d a = leafSlot k d b := by
  have h1 : PDX a = PDX b := by unfold PDX u32; unfold PGSIZE at h; omega
  have h2 : PTX a = PTX b := by unfold PTX u32; unfold PGSIZE at h; omega
  rw [leafSlot_eq, leafSlot_eq, h1, h2]

theorem pdeCount_same (k k' : Kernel) (d : Nat)
    (h : ∀ j, j < NPDENTRIES → (pdeAt k' d j &&& PTE_P ≠ 0 ↔ pdeAt k d j &&& PTE_P ≠ 0)) :
    pdeCount k' d = pdeCount k d := by
  unfold pdeCount
  apply List.countP_congr
  intro j hj
  simp only [decide_eq_true_eq]
  exact h j (List.mem_range.mp hj)

theorem pdeCount_add (k k' : Kernel) (d i0 : Nat) (hi0 : i0 < NPDENTRIES)
    (hf : ¬ (pdeAt k d i0 &&& PTE_P ≠ 0)) (hg : pdeAt k' d i0 &&& PTE_P ≠ 0)
    (hrest : ∀ j, j < NPDENTRIES → j ≠ i0 → pdeAt k' d j = pdeAt k d j) :
    pdeCount k' d = pdeCount k d + 1 := by
  have hf' : (fun i => decide (pdeAt k d i &&& PTE_P ≠ 0)) i0 = false := decide_eq_false hf
  have hg' : (fun i => decide (pdeAt k' d i &&& PTE_P ≠ 0)) i0 = true := decide_eq_true hg
  have hr' : ∀ j, j < NPDENTRIES → j ≠ i0 →
      (fun i => decide (pdeAt k' d i &&& PTE_P ≠ 0)) j =
        (fun i => decide (pdeAt k d i &&& PTE_P ≠ 0)) j := by
    intro j hj hne
    show decide (pdeAt k' d j &&& PTE_P ≠ 0) = decide (pdeAt k d j &&& PTE_P ≠ 0)
    rw [hrest j hj hne]
  have h := countP_range_update _ _ i0 NPDENTRIES hf' hg' hr' NPDENTRIES (le_refl _)
  rw [if_pos hi0] at h
  exact h

/-- The invariant of the loop of `mappages` at the start of a call. -/
theorem MapInv_init (L : Layout) (k0 : Kernel) (l0 : List Nat) (d : Nat) (W R : Nat → Prop)
    (k : Kernel) (used l : List Nat) (a0 pa perm : Nat)
    (hB : BuildInv L k0 l0 d W R k used l) :
    MapInv L k0 l0 d W R k a0 pa perm 0 k :=
  ⟨⟨used, l, hB⟩, (by rw [tableSum_zero, Nat.add_zero]), fun _ _ h => h,
    fun _ _ h hn => absurd h hn,
    fun i' hi' => absurd hi' (Nat.not_lt_zero _),
    fun _ _ _ => ⟨fun _ => ⟨rfl, rfl⟩, fun h0 h1 => absurd h0 h1⟩⟩

/-- A page table that is missing when the loop reaches page `i` was missing at
the start and is charged to that page. -/
theorem MapInv_cost (L : Layout) (k0 : Kernel) (l0 : List Nat) (d : Nat) (W R : Nat → Prop)
    (ks : Kernel) (a0 pa perm i : Nat) (k : Kernel)
    (hI : MapInv L k0 l0 d W R ks a0 pa perm i k) (ha0 : a0 % PGSIZE = 0)
    (h32 : a0 + i * PGSIZE < 4294967296)
    (hp : ¬ (pdeAt k d (PDX (a0 + i * PGSIZE)) &&& PTE_P ≠ 0)) :
    tableCost ks d a0 (a0 + i * PGSIZE) = 1 := by
  unfold tableCost
  rw [if_pos]
  refine ⟨fun h => hp (hI.keep _ (PDX_lt _) h), ?_⟩
  by_contra hc
  have c1 : a0 + i * PGSIZE ≠ a0 := fun e => hc (Or.inl e)
  have c2 : PTX (a0 + i * PGSIZE) ≠ 0 := fun e => hc (Or.inr e)
  have hi : 0 < i := by
    rcases Nat.eq_zero_or_pos i with e | e
    · rw [e] at c1; simp at c1
    · exact e
  obtain ⟨d1, _, _⟩ := hI.done (i - 1) (by omega)
  have hpd := (slot_in_table k d _ d1).1
  have hprev : PDX (a0 + (i - 1) * PGSIZE) = PDX (a0 + i * PGSIZE) := by
    have e : a0 + (i - 1) * PGSIZE = a0 + i * PGSIZE - PGSIZE := by
      have : i = (i - 1) + 1 := by omega
      generalize i - 1 = m at this ⊢
      rw [this]
      unfold PGSIZE
      omega
    rw [e]
    unfold PTX u32 PGSIZE at c2
    unfold PDX u32 PGSIZE
    unfold PGSIZE at ha0 h32
    omega
  rw [hprev] at hpd
  exact hp hpd

/-- A page table that exists when the loop reaches page `i` costs nothing. -/
theorem MapInv_nocost (L : Layout) (k0 : Kernel) (l0 : List Nat) (d : Nat)
    (W R : Nat → Prop) (ks : Kernel) (a0 pa perm i : Nat) (k : Kernel)
    (hI : MapInv L k0 l0 d W R ks a0 pa perm i k) (ha0 : a0 % PGSIZE = 0)
    (h32 : a0 + i * PGSIZE < 4294967296)
    (hp : pdeAt k d (PDX (a0 + i * PGSIZE)) &&& PTE_P ≠ 0) :
    tableCost ks d a0 (a0 + i * PGSIZE) = 0 := by
  unfold tableCost
  rw [if_neg]
  rintro ⟨hs, hc⟩
  obtain ⟨i', h1, h2⟩ := hI.fresh _ (PDX_lt _) hp hs
  have hlt : a0 + i' * PGSIZE < a0 + i * PGSIZE := by unfold PGSIZE; omega
  rcases hc with e | e
  · omega
  · unfold PTX u32 PGSIZE at e
    unfold PDX u32 PGSIZE at h2
    unfold PGSIZE at ha0 h32 hlt
    omega

/-- The invariant of the loop of `mappages` after page `i` has got its entry. -/
theorem MapInv_next (L : Layout) (k0 : Kernel) (l0 : List Nat) (d : Nat) (W R : Nat → Prop)
    (ks : Kernel) (a0 pa perm i : Nat) (k k' : Kernel)
    (hI : MapInv L k0 l0 d W R ks a0 pa perm i k) (ha0 : a0 % PGSIZE = 0)
    (h32 : a0 + i * PGSIZE < 4294967296)
    (s1 : ∃ used l, BuildInv L k0 l0 d W R k' used l)
    (s2 : leafSlot k' d (a0 + i * PGSIZE) ≠ 0)
    (s3 : entry k' d (a0 + i * PGSIZE) = u32 (u32 (pa + i * PGSIZE) ||| perm ||| PTE_P))
    (s4 : ∀ b, (PDX b ≠ PDX (a0 + i * PGSIZE) ∨ PTX b ≠ PTX (a0 + i * PGSIZE)) →
      leafSlot k d b ≠ 0 →
      leafSlot k' d b = leafSlot k d b ∧ deref k' (leafSlot k d b) = deref k (leafSlot k d b))
    (s5 : ∀ b, (PDX b ≠ PDX (a0 + i * PGSIZE) ∨ PTX b ≠ PTX (a0 + i * PGSIZE)) →
      leafSlot k d b = 0 → leafSlot k' d b ≠ 0 → deref k' (leafSlot k' d b) = 0)
    (s6 : ∀ j, j < NPDENTRIES → j ≠ PDX (a0 + i * PGSIZE) → pdeAt k' d j = pdeAt k d j)
    (hnm : ¬ MappedAt ks d (a0 + i * PGSIZE))
    (hcnt : pdeCount k' d = pdeCount k d + tableCost ks d a0 (a0 + i * PGSIZE)) :
    MapInv L k0 l0 d W R ks a0 pa perm (i + 1) k' := by
  have hpage : ∀ i', i' < i → (a0 + i' * PGSIZE) / PGSIZE ≠ (a0 + i * PGSIZE) / PGSIZE := by
    intro i' hi'
    unfold PGSIZE at ha0 ⊢
    omega
  refine ⟨s1, ?_, fun j hj hp => ?_, fun j hj hp hns => ?_, fun i' hi' => ?_,
    fun b hb hnot => ?_⟩
  · rw [hcnt, hI.tabs, tableSum_succ, Nat.add_assoc]
  · by_cases e : j = PDX (a0 + i * PGSIZE)
    · rw [e]
      exact (slot_in_table k' d _ s2).1
    · rw [s6 j hj e]
      exact hI.keep j hj hp
  · by_cases e : j = PDX (a0 + i * PGSIZE)
    · exact ⟨i, Nat.lt_succ_self _, e.symm⟩
    · rw [s6 j hj e] at hp
      obtain ⟨i', h1, h2⟩ := hI.fresh j hj hp hns
      exact ⟨i', by omega, h2⟩
  · by_cases e : i' = i
    · rw [e]
      exact ⟨s2, s3, hnm⟩
    · have hlt : i' < i := by omega
      obtain ⟨d1, d2, d3⟩ := hI.done i' hlt
      have hb32 : a0 + i' * PGSIZE < 4294967296 := by unfold PGSIZE at *; omega
      have hne := PDX_PTX_ne _ _ hb32 h32 (hpage i' hlt)
      obtain ⟨t1, t2⟩ := s4 _ hne d1
      refine ⟨by rw [t1]; exact d1, ?_, d3⟩
      show deref k' (leafSlot k' d (a0 + i' * PGSIZE)) = _
      rw [t1, t2]
      exact d2
  · have hba : b / PGSIZE ≠ (a0 + i * PGSIZE) / PGSIZE := hnot i (Nat.lt_succ_self _)
    have hne := PDX_PTX_ne b _ hb h32 hba
    obtain ⟨r1, r2⟩ := hI.rest b hb (fun i' hi' => hnot i' (by omega))
    refine ⟨fun h0 => ?_, fun h0 h1 => ?_⟩
    · obtain ⟨q1, q2⟩ := r1 h0
      have hk : leafSlot k d b ≠ 0 := by rw [q1]; exact h0
      obtain ⟨t1, t2⟩ := s4 b hne hk
      refine ⟨t1.trans q1, ?_⟩
      show deref k' (leafSlot k' d b) = _
      rw [t1, t2]
      exact q2
    · by_cases hk : leafSlot k d b = 0
      · exact s5 b hne hk h1
      · obtain ⟨t1, t2⟩ := s4 b hne hk
        show deref k' (leafSlot k' d b) = 0
        rw [t1, t2]
        exact r2 h0 hk

/-- A page that is mapped when the loop reaches it was mapped at the start. -/
theorem MapInv_mapped (L : Layout) (k0 : Kernel) (l0 : List Nat) (d : Nat)
    (W R : Nat → Prop) (ks : Kernel) (a0 pa perm i : Nat) (k : Kernel)
    (hI : MapInv L k0 l0 d W R ks a0 pa perm i k) (ha0 : a0 % PGSIZE = 0)
    (h32 : a0 + i * PGSIZE < 4294967296) :
    (MappedAt k d (a0 + i * PGSIZE) ↔ MappedAt ks d (a0 + i * PGSIZE)) ∧
      (leafSlot ks d (a0 + i * PGSIZE) ≠ 0 →
        leafSlot k d (a0 + i * PGSIZE) = leafSlot ks d (a0 + i * PGSIZE) ∧
          entry k d (a0 + i * PGSIZE) = entry ks d (a0 + i * PGSIZE)) := by
  obtain ⟨r1, r2⟩ := hI.rest (a0 + i * PGSIZE) h32 (fun i' hi' => by
    unfold PGSIZE at ha0 ⊢
    omega)
  refine ⟨?_, r1⟩
  unfold MappedAt
  by_cases h0 : leafSlot ks d (a0 + i * PGSIZE) = 0
  · constructor
    · rintro ⟨m1, m2⟩
      rw [r2 h0 m1] at m2
      exact absurd rfl m2
    · rintro ⟨m1, _⟩
      exact absurd h0 m1
  · obtain ⟨q1, q2⟩ := r1 h0
    rw [q1, q2]

/-- A leaf entry that was present at the start is still in place. -/
theorem MapInv_keeps (L : Layout) (k0 : Kernel) (l0 : List Nat) (d : Nat)
    (W R : Nat → Prop) (ks : Kernel) (a0 pa perm i : Nat) (k : Kernel)
    (hI : MapInv L k0 l0 d W R ks a0 pa perm i k) (ha0 : a0 % PGSIZE = 0)
    (h32 : a0 + i * PGSIZE ≤ 4294967296) (b : Nat) (hb : b < 4294967296)
    (hm : MappedAt ks d b) :
    leafSlot k d b = leafSlot ks d b ∧ entry k d b = entry ks d b := by
  refine (hI.rest b hb (fun i' hi' e => ?_)).1 hm.1
  obtain ⟨_, _, d3⟩ := hI.done i' hi'
  apply d3
  have hs := same_page_slot ks d b (a0 + i' * PGSIZE) hb (by unfold PGSIZE at *; omega) e
  unfold MappedAt entry at hm ⊢
  rw [← hs]
  exact hm

/-- One iteration of the loop of `mappages` at page `i`: the page is mapped
already, or it needs a page table and no frame is free, or it gets its
entry. -/
theorem map_one (L : Layout) (k0 : Kernel) (l0 : List Nat) (d : Nat) (W R : Nat → Prop)
    (ks : Kernel) (a0 pa perm i : Nat) (k : Kernel) (hL : LayoutOK L) (hF : Frames L l0)
    (hI : MapInv L k0 l0 d W R ks a0 pa perm i k) (ha0 : a0 % PGSIZE = 0)
    (h32 : a0 + i * PGSIZE < 4294967296) :
    (MappedAt k d (a0 + i * PGSIZE) ∧
        walkpgdir L k d (a0 + i * PGSIZE) 1 = (k, leafSlot k d (a0 + i * PGSIZE))) ∨
      (¬ (pdeAt k d (PDX (a0 + i * PGSIZE)) &&& PTE_P ≠ 0) ∧ k.freelist = 0 ∧
        walkpgdir L k d (a0 + i * PGSIZE) 1 = (k, 0)) ∨
      ∃ k1 pte, walkpgdir L k d (a0 + i * PGSIZE) 1 = (k1, pte) ∧ pte ≠ 0 ∧
        ¬ (deref k1 pte &&& PTE_P ≠ 0) ∧
        MapInv L k0 l0 d W R ks a0 pa perm (i + 1)
          (store k1 pte (u32 (pa + i * PGSIZE) ||| perm ||| PTE_P)) := by
  obtain ⟨used, l, hB⟩ := hI.build
  obtain ⟨b1, b2, b3, dal, d32, und⟩ := BuildInv_basic L k0 l0 d W R k used _ hF hB
  obtain ⟨hmap, _⟩ := MapInv_mapped L k0 l0 d W R ks a0 pa perm i k hI ha0 h32
  obtain ⟨a, ha⟩ : ∃ a, a = a0 + i * PGSIZE := ⟨_, rfl⟩
  rw [← ha] at h32 hmap ⊢
  by_cases hp : pdeAt k d (PDX a) &&& PTE_P ≠ 0
  · have hw := walk_present L k d a 1 hp
    have hsl : leafSlot k d a = tableOf k d (PDX a) + 4 * PTX a := by
      rw [leafSlot_eq, if_pos hp]
    rw [← hsl] at hw
    have hs0 : leafSlot k d a ≠ 0 := by
      have := Frames_ne_zero L hL l0 hF _ (b1 _ (hB.tabs _ (PDX_lt a) hp).1)
      rw [hsl]
      omega
    by_cases hm : deref k (leafSlot k d a) &&& PTE_P ≠ 0
    · exact Or.inl ⟨⟨hs0, hm⟩, hw⟩
    · right; right
      obtain ⟨used', l', s1, s2, s3, s4, s5, s6, _, _⟩ :=
        BuildInv_map_step L k0 l0 d W R k used l a (u32 (pa + i * PGSIZE) ||| perm ||| PTE_P)
          k (leafSlot k d a) hL hF hB hw hs0
      refine ⟨k, _, hw, hs0, hm, ?_⟩
      subst ha
      refine MapInv_next L k0 l0 d W R ks a0 pa perm i k _ hI ha0 h32 ⟨used', l', s1⟩
        (by rw [s2]; exact hs0) ?_ s4 s5 s6 (fun h => hm (hmap.mpr h).2) ?_
      · show deref _ (leafSlot _ d (a0 + i * PGSIZE)) = _
        rw [s2, s3]
      · rw [MapInv_nocost L k0 l0 d W R ks a0 pa perm i k hI ha0 h32 hp, Nat.add_zero]
        apply pdeCount_same
        intro j hj
        by_cases e : j = PDX (a0 + i * PGSIZE)
        · rw [e]
          refine ⟨fun _ => hp, fun _ => ?_⟩
          have : leafSlot (store k (leafSlot k d (a0 + i * PGSIZE))
              (u32 (pa + i * PGSIZE) ||| perm ||| PTE_P)) d (a0 + i * PGSIZE) ≠ 0 := by
            rw [s2]; exact hs0
          exact (slot_in_table _ d _ this).1
        · rw [s6 j hj e]
  · right
    cases l with
    | nil =>
      have hfl : k.freelist = 0 := hB.free.1
      exact Or.inl ⟨hp, hfl, walk_absent_nil L k d a hp hfl⟩
    | cons g rest =>
      right
      have hg : k.freelist = g := hB.free.1.1
      have hg0 : g ≠ 0 := hB.free.1.2.1
      have hw := walk_absent_cons L k d a g hp hg hg0
      obtain ⟨A1, A2, A3, A4, A5, A6, A7⟩ :=
        BuildInv_alloc L k0 l0 d W R k used g rest a hL hF hB hp
      have hpte : g + 4 * PTX a ≠ 0 := by omega
      have hz : deref (allocTable L k d a g) (g + 4 * PTX a) = 0 := A5 _ (PTX_lt a)
      obtain ⟨used', l', s1, s2, s3, s4, s5, s6, _, _⟩ :=
        BuildInv_map_step L k0 l0 d W R k used (g :: rest) a
          (u32 (pa + i * PGSIZE) ||| perm ||| PTE_P) _ _ hL hF hB hw hpte
      refine ⟨_, _, hw, hpte, by rw [hz]; decide, ?_⟩
      have hpres : pdeAt (store (allocTable L k d a g) (g + 4 * PTX a)
          (u32 (pa + i * PGSIZE) ||| perm ||| PTE_P)) d (PDX a) &&& PTE_P ≠ 0 := by
        have : leafSlot (store (allocTable L k d a g) (g + 4 * PTX a)
            (u32 (pa + i * PGSIZE) ||| perm ||| PTE_P)) d a ≠ 0 := by
          rw [s2]; exact hpte
        exact (slot_in_table _ d _ this).1
      have hcnt := pdeCount_add k _ d (PDX a) (PDX_lt a) hp hpres s6
      subst ha
      refine MapInv_next L k0 l0 d W R ks a0 pa perm i k _ hI ha0 h32 ⟨used', l', s1⟩
        (by rw [s2]; exact hpte) ?_ s4 s5 s6 (fun h => ?_) ?_
      · show deref _ (leafSlot _ d (a0 + i * PGSIZE)) = _
        rw [s2, s3]
      · exact hp (hI.keep _ (PDX_lt _) (slot_in_table ks d _ h.1).1)
      · rw [MapInv_cost L k0 l0 d W R ks a0 pa perm i k hI ha0 h32 hp]
        exact hcnt

theorem mappagesLoop_nomem (L : Layout) (fuel : Nat) (k : Kernel) (d a last pa perm : Nat)
    (k1 : Kernel) (hw : walkpgdir L k d a 1 = (k1, 0)) :
    mappagesLoop L (fuel + 1) k d a last pa perm = .ok (k1, -1) := by
  rw [mappagesLoop_succ, hw]
  dsimp only
  rw [if_pos rfl]

theorem mappagesLoop_remap (L : Layout) (fuel : Nat) (k : Kernel) (d a last pa perm : Nat)
    (k1 : Kernel) (pte : Nat) (hw : walkpgdir L k d a 1 = (k1, pte)) (hpte : pte ≠ 0)
    (hp : deref k1 pte &&& PTE_P ≠ 0) :
    mappagesLoop L (fuel + 1) k d a last pa perm = .error "remap" := by
  rw [mappagesLoop_succ, hw]
  dsimp only
  rw [if_neg hpte, if_pos hp]

theorem mappagesLoop_last (L : Layout) (fuel : Nat) (k : Kernel) (d a last pa perm : Nat)
    (k1 : Kernel) (pte : Nat) (hw : walkpgdir L k d a 1 = (k1, pte)) (hpte : pte ≠ 0)
    (hp : ¬ (deref k1 pte &&& PTE_P ≠ 0)) (hl : a = last) :
    mappagesLoop L (fuel + 1) k d a last pa perm =
      .ok (store k1 pte (pa ||| perm ||| PTE_P), 0) := by
  rw [mappagesLoop_succ, hw]
  dsimp only
  rw [if_neg hpte, if_neg hp, if_pos hl]

theorem mappagesLoop_more (L : Layout) (fuel : Nat) (k : Kernel) (d a last pa perm : Nat)
    (k1 : Kernel) (pte : Nat) (hw : walkpgdir L k d a 1 = (k1, pte)) (hpte : pte ≠ 0)
    (hp : ¬ (deref k1 pte &&& PTE_P ≠ 0)) (hl : a ≠ last) :
    mappagesLoop L (fuel + 1) k d a last pa perm =
      mappagesLoop L fuel (store k1 pte (pa ||| perm ||| PTE_P)) d (u32 (a + PGSIZE)) last
        (u32 (pa + PGSIZE)) perm := by
  rw [mappagesLoop_succ, hw]
  dsimp only
  rw [if_neg hpte, if_neg hp, if_neg hl]

/-- The loop of `mappages` from page `i` on ends in one of three ways: every
page up to the last has got its entry and 0 is returned; or at some page `j` a
page table is missing and no frame is free, and `-1` is returned; or some page
`j` is found mapped and the loop stops in `panic("remap")`. -/
theorem map_loop (L : Layout) (k0 : Kernel) (l0 : List Nat) (d : Nat) (W R : Nat → Prop)
    (ks : Kernel) (a0 pa perm N : Nat) (hL : LayoutOK L) (hF : Frames L l0)
    (ha0 : a0 % PGSIZE = 0) (hlast : a0 + N * PGSIZE < 4294967296) :
    ∀ n fuel i k, i + n = N → n < fuel → MapInv L k0 l0 d W R ks a0 pa perm i k →
      (∃ k', mappagesLoop L fuel k d (a0 + i * PGSIZE) (a0 + N * PGSIZE)
          (u32 (pa + i * PGSIZE)) perm = .ok (k', 0) ∧
        MapInv L k0 l0 d W R ks a0 pa perm (N + 1) k') ∨
      (∃ j k', i ≤ j ∧ j ≤ N ∧
        mappagesLoop L fuel k d (a0 + i * PGSIZE) (a0 + N * PGSIZE)
          (u32 (pa + i * PGSIZE)) perm = .ok (k', -1) ∧
        MapInv L k0 l0 d W R ks a0 pa perm j k' ∧
        ¬ (pdeAt k' d (PDX (a0 + j * PGSIZE)) &&& PTE_P ≠ 0) ∧ k'.freelist = 0) ∨
      (∃ j k', i ≤ j ∧ j ≤ N ∧
        mappagesLoop L fuel k d (a0 + i * PGSIZE) (a0 + N * PGSIZE)
          (u32 (pa + i * PGSIZE)) perm = .error "remap" ∧
        MapInv L k0 l0 d W R ks a0 pa perm j k' ∧ MappedAt k' d (a0 + j * PGSIZE)) := by
  intro n
  induction n with
  | zero =>
    intro fuel i k hin hf hI
    obtain ⟨f, rfl⟩ : ∃ f, fuel = f + 1 := ⟨fuel - 1, by omega⟩
    have hiN : i = N := by omega
    subst hiN
    rcases map_one L k0 l0 d W R ks a0 pa perm i k hL hF hI ha0 hlast with
      ⟨hm, hw⟩ | ⟨hp, hfl, hw⟩ | ⟨k1, pte, hw, hpte, hnp, hI'⟩
    · exact Or.inr (Or.inr ⟨i, k, le_refl _, le_refl _,
        mappagesLoop_remap L f k d _ _ _ perm k _ hw hm.1 hm.2, hI, hm⟩)
    · exact Or.inr (Or.inl ⟨i, k, le_refl _, le_refl _,
        mappagesLoop_nomem L f k d _ _ _ perm k hw, hI, hp, hfl⟩)
    · exact Or.inl ⟨_, mappagesLoop_last L f k d _ _ _ perm k1 pte hw hpte hnp rfl, hI'⟩
  | succ m ih =>
    intro fuel i k hin hf hI
    obtain ⟨f, rfl⟩ : ∃ f, fuel = f + 1 := ⟨fuel - 1, by omega⟩
    have h32 : a0 + i * PGSIZE < 4294967296 := by unfold PGSIZE at *; omega
    have hne : a0 + i * PGSIZE ≠ a0 + N * PGSIZE := by unfold PGSIZE; omega
    rcases map_one L k0 l0 d W R ks a0 pa perm i k hL hF hI ha0 h32 with
      ⟨hm, hw⟩ | ⟨hp, hfl, hw⟩ | ⟨k1, pte, hw, hpte, hnp, hI'⟩
    · exact Or.inr (Or.inr ⟨i, k, le_refl _, by omega,
        mappagesLoop_remap L f k d _ _ _ perm k _ hw hm.1 hm.2, hI, hm⟩)
    · exact Or.inr (Or.inl ⟨i, k, le_refl _, by omega,
        mappagesLoop_nomem L f k d _ _ _ perm k hw, hI, hp, hfl⟩)
    · rw [mappagesLoop_more L f k d _ _ _ perm k1 pte hw hpte hnp hne]
      have e1 : u32 (a0 + i * PGSIZE + PGSIZE) = a0 + (i + 1) * PGSIZE := by
        unfold u32 PGSIZE at *; omega
      have e2 : u32 (u32 (pa + i * PGSIZE) + PGSIZE) = u32 (pa + (i + 1) * PGSIZE) := by
        unfold u32 PGSIZE; omega
      rw [e1, e2]
      rcases ih f (i + 1) _ (by omega) (by omega) hI' with
        ⟨k', h1, h2⟩ | ⟨j, k', h1, h2, h3⟩ | ⟨j, k', h1, h2, h3⟩
      · exact Or.inl ⟨k', h1, h2⟩
      · exact Or.inr (Or.inl ⟨j, k', by omega, h2, h3⟩)
      · exact Or.inr (Or.inr ⟨j, k', by omega, h2, h3⟩)

/-- The range of `mappages(pgdir, va, size, ..)` when `va + size - 1` does not
wrap. -/
theorem map_range (va size : Nat) (hsz : 1 ≤ size) (hwrap : va + size ≤ 4294967296) :
    PGROUNDDOWN va % PGSIZE = 0 ∧ mapLast va size = PGROUNDDOWN (va + size - 1) ∧
      mapLast va size = PGROUNDDOWN va + (mapCount va size - 1) * PGSIZE ∧
      1 ≤ mapCount va size ∧ mapCount va size < LOOP_FUEL ∧
      PGROUNDDOWN va + (mapCount va size - 1) * PGSIZE < 4294967296 := by
  unfold mapCount mapLast PGROUNDDOWN u32 PGSIZE LOOP_FUEL
  omega

/-- The call of `mappages` from a well-formed directory: the three ways it can
end. -/
theorem mappages_cases (L : Layout) (k0 : Kernel) (l0 : List Nat) (d : Nat) (W R : Nat → Prop)
    (k : Kernel) (used l : List Nat) (va size pa perm : Nat) (hL : LayoutOK L)
    (hF : Frames L l0) (hB : BuildInv L k0 l0 d W R k used l) (hsz : 1 ≤ size)
    (hwrap : va + size ≤ 4294967296) (hpa : pa < 4294967296) :
    (∃ k', mappages L k d va size pa perm = .ok (k', 0) ∧
        MapInv L k0 l0 d W R k (PGROUNDDOWN va) pa perm (mapCount va size) k') ∨
      (∃ j k', j < mapCount va size ∧ mappages L k d va size pa perm = .ok (k', -1) ∧
        MapInv L k0 l0 d W R k (PGROUNDDOWN va) pa perm j k' ∧
        ¬ (pdeAt k' d (PDX (PGROUNDDOWN va + j * PGSIZE)) &&& PTE_P ≠ 0) ∧
        k'.freelist = 0) ∨
      (∃ j k', j < mapCount va size ∧ mappages L k d va size pa perm = .error "remap" ∧
        MapInv L k0 l0 d W R k (PGROUNDDOWN va) pa perm j k' ∧
        MappedAt k' d (PGROUNDDOWN va + j * PGSIZE)) := by
  obtain ⟨r1, r2, r3, r4, r5, r6⟩ := map_range va size hsz hwrap
  have h := map_loop L k0 l0 d W R k (PGROUNDDOWN va) pa perm (mapCount va size - 1) hL hF r1
    r6 (mapCount va size - 1) LOOP_FUEL 0 k (by omega) (by omega)
    (MapInv_init L k0 l0 d W R k used l _ pa perm hB)
  have e1 : PGROUNDDOWN va + 0 * PGSIZE = PGROUNDDOWN va := by omega
  have e2 : u32 (pa + 0 * PGSIZE) = pa := by rw [Nat.zero_mul, Nat.add_zero]; exact u32_of_lt _ hpa
  have e3 : mapCount va size - 1 + 1 = mapCount va size := by omega
  rw [e1, e2, ← r3, e3] at h
  have hcall : mappages L k d va size pa perm =
      mappagesLoop L LOOP_FUEL k d (PGROUNDDOWN va) (mapLast va size) pa perm := rfl
  rw [hcall]
  rcases h with ⟨k', h1, h2⟩ | ⟨j, k', _, h1, h2⟩ | ⟨j, k', _, h1, h2⟩
  · exact Or.inl ⟨k', h1, h2⟩
  · exact Or.inr (Or.inl ⟨j, k', by omega, h2⟩)
  · exact Or.inr (Or.inr ⟨j, k', by omega, h2⟩)

/-- When the loop of `mappages` finds no frame for a page table at page `j`,
the page tables charged to the pages before `j` have used up the free list. -/
theorem MapInv_exhausted (L : Layout) (k0 : Kernel) (l0 : List Nat) (d : Nat)
    (W R : Nat → Prop) (ks : Kernel) (used l : List Nat) (a0 pa perm j : Nat) (k' : Kernel)
    (hB : BuildInv L k0 l0 d W R ks used l)
    (hI : MapInv L k0 l0 d W R ks a0 pa perm j k') (ha0 : a0 % PGSIZE = 0)
    (h32 : a0 + j * PGSIZE < 4294967296)
    (hp : ¬ (pdeAt k' d (PDX (a0 + j * PGSIZE)) &&& PTE_P ≠ 0)) (hfl : k'.freelist = 0) :
    tableSum ks d a0 (j + 1) = l.length + 1 := by
  obtain ⟨used', l', hB'⟩ := hI.build
  have hl' : l' = [] := by
    cases l' with
    | nil => rfl
    | cons g rest =>
      have h1 : k'.freelist = g := hB'.free.1.1
      have h2 : g ≠ 0 := hB'.free.1.2.1
      omega
  have e1 := congrArg List.length hB.split
  have e2 := congrArg List.length hB'.split
  rw [List.length_append] at e1 e2
  rw [hl'] at e2
  have e3 := hB.pdes
  have e4 := hB'.pdes
  have e5 := hI.tabs
  rw [tableSum_succ, MapInv_cost L k0 l0 d W R ks a0 pa perm j k' hI ha0 h32 hp]
  simp only [List.length_nil] at e2
  omega

/-! ## mappages: the claims -/

/-- C25: for `size ≥ 1` with `va + size - 1` below `2^32` and a 32-bit `pa`,
on a well-formed directory (`BuildInv`: the directory and its page tables are
distinct frames, apart from the free list), if no page of the range from
`PGROUNDDOWN(va)` to `PGROUNDDOWN(va + size - 1)` is mapped and the free list
holds the frames for the page tables the range needs (`tablesNeeded`),
`mappages` returns 0; afterwards page number `i` of the range has the leaf
entry `(pa + i * 4096) | perm | PTE_P` (in `uint` arithmetic), and every page
outside the range keeps its leaf entry (a page that had no leaf entry has none
or a zero one). -/
theorem mappages_installs (L : Layout) (k0 : Kernel) (l0 : List Nat) (d : Nat)
    (W R : Nat → Prop) (k : Kernel) (used l : List Nat) (va size pa perm : Nat)
    (hL : LayoutOK L) (hF : Frames L l0) (hB : BuildInv L k0 l0 d W R k used l)
    (hsz : 1 ≤ size) (hwrap : va + size ≤ 4294967296) (hpa : pa < 4294967296)
    (hun : ∀ i, i < mapCount va size → ¬ MappedAt k d (PGROUNDDOWN va + i * PGSIZE))
    (hen : tablesNeeded k d va size ≤ l.length) :
    ∃ k', mappages L k d va size pa perm = .ok (k', 0) ∧
      (∀ i, i < mapCount va size →
        leafSlot k' d (PGROUNDDOWN va + i * PGSIZE) ≠ 0 ∧
        entry k' d (PGROUNDDOWN va + i * PGSIZE) =
          u32 (u32 (pa + i * PGSIZE) ||| perm ||| PTE_P) ∧
        (pa + i * PGSIZE < 4294967296 → perm < 4294967296 →
          entry k' d (PGROUNDDOWN va + i * PGSIZE) = (pa + i * PGSIZE) ||| perm ||| PTE_P)) ∧
      (∀ b, b < 4294967296 →
        (b < PGROUNDDOWN va ∨ PGROUNDDOWN (va + size - 1) + PGSIZE ≤ b) →
        (leafSlot k d b ≠ 0 → leafSlot k' d b = leafSlot k d b ∧ entry k' d b = entry k d b) ∧
        (leafSlot k d b = 0 → leafSlot k' d b ≠ 0 → entry k' d b = 0)) ∧
      PGROUNDDOWN va + (mapCount va size - 1) * PGSIZE = PGROUNDDOWN (va + size - 1) := by
  obtain ⟨r1, r2, r3, r4, r5, r6⟩ := map_range va size hsz hwrap
  rcases mappages_cases L k0 l0 d W R k used l va size pa perm hL hF hB hsz hwrap hpa with
    ⟨k', h1, h2⟩ | ⟨j, k', hj, h1, h2, h3, h4⟩ | ⟨j, k', hj, h1, h2, h3⟩
  · refine ⟨k', h1, fun i hi => ?_, fun b hb hout => ?_, by rw [← r3, r2]⟩
    · obtain ⟨d1, d2, _⟩ := h2.done i hi
      refine ⟨d1, d2, fun hp1 hp2 => ?_⟩
      rw [d2, u32_of_lt _ hp1]
      exact u32_of_lt _ (or_lt_u32 _ _ (or_lt_u32 _ _ hp1 hp2) (by decide))
    · refine h2.rest b hb (fun i' hi' => ?_)
      rw [← r2, r3] at hout
      unfold PGSIZE at r1 hout ⊢
      omega
  · exfalso
    have h32 : PGROUNDDOWN va + j * PGSIZE < 4294967296 := by unfold PGSIZE at *; omega
    have e := MapInv_exhausted L k0 l0 d W R k used l _ pa perm j k' hB h2 r1 h32 h3 h4
    have hm := tableSum_mono k d (PGROUNDDOWN va) (j + 1) (mapCount va size) (by omega)
    unfold tablesNeeded at hen
    omega
  · exfalso
    have h32 : PGROUNDDOWN va + j * PGSIZE < 4294967296 := by unfold PGSIZE at *; omega
    exact hun j hj ((MapInv_mapped L k0 l0 d W R k _ pa perm j k' h2 r1 h32).1.mp h3)

/-- C26: on a well-formed directory, for a range as in C25, `mappages` ends in
one of three ways.  It stops in `panic("remap")` and in no other panic, and
then a page of the range was mapped before the call; it does so whenever the
loop reaches such a page, that is, when `j` is the first mapped page of the
range and the free list holds the page tables the pages before `j` need.  When
it returns, it returns 0 or `-1`; it returns `-1` only with the free list empty
and a page of the range whose page table is missing; and every leaf entry that
was present before the call is in its place with its value, so no present
entry is overwritten. -/
theorem mappages_remap_or_fail (L : Layout) (k0 : Kernel) (l0 : List Nat) (d : Nat)
    (W R : Nat → Prop) (k : Kernel) (used l : List Nat) (va size pa perm : Nat)
    (hL : LayoutOK L) (hF : Frames L l0) (hB : BuildInv L k0 l0 d W R k used l)
    (hsz : 1 ≤ size) (hwrap : va + size ≤ 4294967296) (hpa : pa < 4294967296) :
    (∀ e, mappages L k d va size pa perm = .error e →
        e = "remap" ∧ ∃ i, i < mapCount va size ∧ MappedAt k d (PGROUNDDOWN va + i * PGSIZE)) ∧
      (∀ k' r, mappages L k d va size pa perm = .ok (k', r) →
        (r = 0 ∨ r = -1) ∧
        (r = -1 → k'.freelist = 0 ∧ ∃ i, i < mapCount va size ∧
          ¬ (pdeAt k' d (PDX (PGROUNDDOWN va + i * PGSIZE)) &&& PTE_P ≠ 0) ∧
          tableSum k d (PGROUNDDOWN va) (i + 1) = l.length + 1) ∧
        (∀ b, b < 4294967296 → MappedAt k d b →
          leafSlot k' d b = leafSlot k d b ∧ entry k' d b = entry k d b)) ∧
      (∀ j, j < mapCount va size → MappedAt k d (PGROUNDDOWN va + j * PGSIZE) →
        (∀ i, i < j → ¬ MappedAt k d (PGROUNDDOWN va + i * PGSIZE)) →
        tableSum k d (PGROUNDDOWN va) j ≤ l.length →
        mappages L k d va size pa perm = .error "remap") ∧
      ((∀ i, i < mapCount va size → ¬ MappedAt k d (PGROUNDDOWN va + i * PGSIZE)) →
        ∀ e, mappages L k d va size pa perm ≠ .error e) := by
  obtain ⟨r1, r2, r3, r4, r5, r6⟩ := map_range va size hsz hwrap
  have hb32 : ∀ j, j < mapCount va size → PGROUNDDOWN va + j * PGSIZE < 4294967296 := by
    intro j hj; unfold PGSIZE at *; omega
  rcases mappages_cases L k0 l0 d W R k used l va size pa perm hL hF hB hsz hwrap hpa with
    ⟨k', h1, h2⟩ | ⟨j, k', hj, h1, h2, h3, h4⟩ | ⟨j, k', hj, h1, h2, h3⟩
  · rw [h1]
    refine ⟨fun e he => (by cases he), fun k2 r he => ?_, fun j' hj' hm _ _ => ?_,
      fun _ e he => (by cases he)⟩
    · simp only [Except.ok.injEq, Prod.mk.injEq] at he
      obtain ⟨rfl, rfl⟩ := he
      exact ⟨Or.inl rfl, fun h => absurd h (by decide), fun b hb hm =>
        MapInv_keeps L k0 l0 d W R k _ pa perm _ k' h2 r1 (by unfold PGSIZE at *; omega) b hb hm⟩
    · exact absurd hm (h2.done j' hj').2.2
  · rw [h1]
    have e := MapInv_exhausted L k0 l0 d W R k used l _ pa perm j k' hB h2 r1 (hb32 j hj) h3 h4
    refine ⟨fun e he => (by cases he), fun k2 r he => ?_, fun j' hj' hm _ hts => ?_,
      fun _ e he => (by cases he)⟩
    · simp only [Except.ok.injEq, Prod.mk.injEq] at he
      obtain ⟨rfl, rfl⟩ := he
      exact ⟨Or.inr rfl, fun _ => ⟨h4, j, hj, h3, e⟩, fun b hb hm =>
        MapInv_keeps L k0 l0 d W R k _ pa perm _ k' h2 r1 (by have := hb32 j hj; omega) b hb hm⟩
    · exfalso
      rcases Nat.lt_trichotomy j' j with hlt | heq | hgt
      · exact (h2.done j' hlt).2.2 hm
      · rw [← heq] at h3
        exact h3 (h2.keep _ (PDX_lt _) (slot_in_table k d _ hm.1).1)
      · have := tableSum_mono k d (PGROUNDDOWN va) (j + 1) j' (by omega)
        omega
  · rw [h1]
    have hm0 := (MapInv_mapped L k0 l0 d W R k _ pa perm j k' h2 r1 (hb32 j hj)).1.mp h3
    refine ⟨fun e he => ?_, fun k2 r he => (by cases he), fun _ _ _ _ _ => rfl,
      fun hun _ _ => hun j hj hm0⟩
    simp only [Except.error.injEq] at he
    exact ⟨he.symm, j, hj, hm0⟩

/-! ## mappages: examples -/

/-- The fresh address space `exKvm` is a well-formed directory with no user
page table and a free frame. -/
theorem exKvm_build :
    Frames exLayout exFrames.tail ∧ ∃ used l,
      BuildInv exLayout exData exFrames.tail 0x8011e000 (fun _ => False) (fun _ => False)
        exKvm used l ∧
      (∀ j, j < 512 → pdeAt exKvm 0x8011e000 j &&& PTE_P = 0) ∧ 1 ≤ l.length := by
  have hL : LayoutOK exLayout := by decide
  have hf : FreeOK exLayout exData exFrames.tail := by decide
  have hF := Frames_of_FreeOK exLayout exData _ hf
  obtain ⟨used, l, B, hu, _⟩ := setupkvm_build exLayout exData exFrames.tail exKvm 0x8011e000 hL
    (by decide) hf (by decide) rfl (by decide)
  refine ⟨hF, used, l, B, hu, ?_⟩
  cases l with
  | nil =>
    have h0 : exKvm.freelist = 0 := B.free.1
    exact absurd h0 (by decide)
  | cons g rest => simp

/-- Witness for `mappages_installs`: two pages mapped from address 0 in the
fresh address space `exKvm`. -/
theorem mappages_installs_witness :
    ∃ k', mappages exLayout exKvm 0x8011e000 0 0x2000 0x11f000 (PTE_W ||| PTE_U) = .ok (k', 0) ∧
      entry k' 0x8011e000 0 = 0x11f007 ∧ entry k' 0x8011e000 0x1000 = 0x120007 := by
  obtain ⟨hF, used, l, B, hu, hl⟩ := exKvm_build
  have hun : ∀ i, i < mapCount 0 0x2000 →
      ¬ MappedAt exKvm 0x8011e000 (PGROUNDDOWN 0 + i * PGSIZE) := by
    intro i hi hm
    have hc : mapCount 0 0x2000 = 2 := by decide
    have hr : PGROUNDDOWN 0 = 0 := by decide
    rw [hc] at hi
    rw [hr] at hm
    apply hm.1
    rw [leafSlot_eq, if_neg]
    rw [hu _ (PDX_user _ (by unfold PGSIZE KERNBASE; omega))]
    decide
  obtain ⟨k', h1, h2, _⟩ := mappages_installs exLayout exData exFrames.tail 0x8011e000 _ _ exKvm
    used l 0 0x2000 0x11f000 (PTE_W ||| PTE_U) (by decide) hF B (by decide) (by decide)
    (by decide) hun (by
      have : tablesNeeded exKvm 0x8011e000 0 0x2000 = 1 := by decide
      omega)
  exact ⟨k', h1, (h2 0 (by decide)).2.2 (by decide) (by decide),
    (h2 1 (by decide)).2.2 (by decide) (by decide)⟩

/-- The example process is a well-formed directory. -/
theorem exProc_build :
    Frames exLayout exFrames.tail ∧ ∃ used l,
      BuildInv exLayout exData exFrames.tail 0x8011e000 (fun _ => False) (fun _ => False)
        exProc used l := by
  obtain ⟨hF, used, l, B, _, _⟩ := exKvm_build
  obtain ⟨used', l', B', _⟩ :=
    BuildInv_mappages_page exLayout exData exFrames.tail 0x8011e000 _ _ exKvm used l 0
      (V2P 0x8011f000) (PTE_W ||| PTE_U) exProc 0 (by decide) hF B (by decide) (by decide) rfl
      (by decide)
  exact ⟨hF, used', l', B'⟩

/-- Witness for `mappages_remap_or_fail`: mapping page 0 of the example
process, which is mapped, ends in `panic("remap")`. -/
theorem mappages_remap_or_fail_witness :
    mappages exLayout exProc 0x8011e000 0 PGSIZE 0x120000 (PTE_W ||| PTE_U) =
      .error "remap" := by
  obtain ⟨hF, used, l, B⟩ := exProc_build
  exact (mappages_remap_or_fail exLayout exData exFrames.tail 0x8011e000 _ _ exProc used l 0
    PGSIZE 0x120000 (PTE_W ||| PTE_U) (by decide) hF B (by decide) (by decide)
    (by decide)).2.2.1 0 (by decide) (by decide) (fun i hi => absurd hi (Nat.not_lt_zero _))
    (by rw [tableSum_zero]; exact Nat.zero_le _)

/-! ## countppages: example -/

theorem exGrow_eq :
    allocuvm exLayout exShared 0x8011e000 0x2000 0x4000 = .ok (exGrow, 0x4000) := rfl

/-- Witness for `countppages_after_allocuvm`: the example process grows from
`0x2000` to `0x4000` and its count of mapped pages goes up by 2. -/
theorem countppages_after_allocuvm_witness :
    ∃ c0 c1, countppages exLayout exShared 0x8011e000 0x2000 = .ok (exShared, c0) ∧
      countppages exLayout exGrow 0x8011e000 0x4000 = .ok (exGrow, c1) ∧ c1 = c0 + 2 := by
  have hr : PGROUNDUP 0x2000 = 0x2000 := by decide
  obtain ⟨c0, c1, h1, h2, h3, _⟩ := countppages_after_allocuvm exLayout exShared
    (exFrames.drop 5) 0x8011e000 0x2000 0x4000 exGrow (by decide) exShared_ok.1 (by decide)
    (exShared_dir _ (by decide) (by decide)) exShared_tz (by decide) (by decide)
    (fun b b1 b2 b3 _ => by
      rw [hr] at b2
      have : b = 0x2000 ∨ b = 0x3000 := by unfold PGSIZE at b1; omega
      rcases this with e | e <;> subst e <;> decide)
    exGrow_eq
  have hp : pageCount (PGROUNDUP 0x2000) 0x4000 = 2 := by decide
  rw [hp] at h3
  exact ⟨c0, c1, h1, h2, h3⟩

end Xv6
